import Mathlib

/-! # unp: the io_uring event loop and its intrusive containers

A shallow embedding of `include/intrusive_queue.hpp`, `include/intrusive_stack.hpp`,
`include/atomic_intrusive_queue.hpp`, `include/intrusive_heap.hpp`, `include/monotonic_clock.hpp`,
`include/io_uring_context.hpp`, `include/inplace_stop_token.hpp`, `include/io_uring_timer.hpp`,
`include/io_uring_buffer.hpp` and `include/io_uring_read_write.hpp`.

Conventions of the embedding.

* An object is named by its address, a natural number; a pointer is an `Option Nat` and
  `none` is `nullptr`.  A pointer field of all objects is a function from addresses to values
  (`Nat → Option Nat` for `operation_base::next`), updated with `Function.update`.
* `std::uint32_t` values are natural numbers, and every `uint32_t` operation reduces modulo `2^32`;
  likewise `std::size_t` modulo `2^64`.  Signed 64-bit values (time points, file offsets) are
  integers, overflow aside.
* A call that does not return normally yields `Except.error`: a failed `assert`, `std::terminate()`,
  a thrown `std::system_error`, a store through a null pointer, a spin loop that no other thread
  ends, the reuse of the address of an object, or a loop of the embedding that ran out of its bound.
* Atomic operations are executed one at a time (a sequential interleaving); a compare-exchange loop
  succeeds on its first round.
-/

namespace unp

/-- Reasons for which a call does not return normally. -/
inductive Fault where
  | assertion
  | terminate
  | system_error
  | null_dereference
  | spins
  | lifetime
  | fuel
  deriving DecidableEq

/-- The C `assert` as a step of an `Except Fault` computation. -/
def assert (b : Bool) : Except Fault Unit :=
  if b then .ok () else .error Fault.assertion

/-! ## 32-bit unsigned arithmetic -/

/-- Number of values of a `std::uint32_t`. -/
def two32 : Nat := 4294967296

/-- Wrapping addition of `std::uint32_t`. -/
@[irreducible] def add32 (a b : Nat) : Nat := (a + b) % two32

/-- Wrapping subtraction of `std::uint32_t`: the difference modulo `2^32`. -/
@[irreducible] def sub32 (a b : Nat) : Nat :=
  if b % two32 ≤ a % two32 then a % two32 - b % two32 else a % two32 + two32 - b % two32

/-- Conversion of an `int` to `std::uint32_t`. -/
@[irreducible] def int_to_u32 (i : Int) : Nat := (i % 4294967296).toNat

/-! ## intrusive_queue.hpp -/

/-- The `NEXT` member of every item, by address. -/
abbrev next_field := Nat → Option Nat

/-- The two pointers of an `intrusive_queue`. -/
structure intrusive_queue where
  head : Option Nat := none
  tail : Option Nat := none
  deriving DecidableEq

namespace intrusive_queue

/-- The member `empty()`: `head == nullptr`. -/
def empty (q : intrusive_queue) : Bool := q.head.isNone

/-- The loop of `make_reversed`, bounded by `fuel` rounds:
`next = list->next; list->next = new_head; new_head = list; list = next`. -/
def make_reversed_loop : Nat → next_field → Option Nat → Option Nat → Except Fault (next_field × Option Nat)
  | _, next, new_head, none => .ok (next, new_head)
  | 0, _, _, some _ => .error Fault.fuel
  | fuel + 1, next, new_head, some list =>
      make_reversed_loop fuel (Function.update next list new_head) (some list) (next list)

/-- The static member `make_reversed(list)`: reverses the chain in place; the old first item becomes the tail. -/
def make_reversed (fuel : Nat) (next : next_field) (list : Option Nat) :
    Except Fault (next_field × intrusive_queue) := do
  let (next1, new_head) ← make_reversed_loop fuel next none list
  return (next1, { head := new_head, tail := list })

/-- The member `pop_front()`: `item = exchange(head, head->next)`, and the tail is cleared with the head. -/
def pop_front (next : next_field) (q : intrusive_queue) : Except Fault (Nat × intrusive_queue) :=
  match q.head with
  | none => .error Fault.assertion
  | some item =>
      let head1 := next item
      .ok (item, { head := head1, tail := if head1 = none then none else q.tail })

/-- The member `push_front(item)`. -/
def push_front (next : next_field) (q : intrusive_queue) (item : Nat) : next_field × intrusive_queue :=
  (Function.update next item q.head,
   { head := some item, tail := if q.tail = none then some item else q.tail })

/-- The member `push_back(item)`. -/
def push_back (next : next_field) (q : intrusive_queue) (item : Nat) : next_field × intrusive_queue :=
  let next1 := Function.update next item none
  match q.tail with
  | none => (next1, { head := some item, tail := some item })
  | some t => (Function.update next1 t (some item), { head := q.head, tail := some item })

/-- The member `append(other)`: `other` is taken by value and is emptied; with a null tail on a
non-empty queue the store through `tail` has no target. -/
def append (next : next_field) (q other : intrusive_queue) :
    Except Fault (next_field × intrusive_queue) :=
  match other.head with
  | none => .ok (next, q)
  | some other_head =>
      match q.head, q.tail with
      | none, _ => .ok (next, { head := some other_head, tail := other.tail })
      | some _, some t => .ok (Function.update next t (some other_head), { head := q.head, tail := other.tail })
      | some _, none => .error Fault.null_dereference

/-- Repeated `pop_front()` until `empty()`, at most `fuel` times: the items in pop order. -/
def drain : Nat → next_field → intrusive_queue → Except Fault (List Nat)
  | 0, _, q => if q.empty then .ok [] else .error Fault.fuel
  | fuel + 1, next, q =>
      if q.empty then .ok []
      else do
        let (item, q1) ← q.pop_front next
        let rest ← drain fuel next q1
        return item :: rest

end intrusive_queue

/-! ## atomic_intrusive_queue.hpp -/

/-- A value of the `void*` head of an `atomic_intrusive_queue`: `nullptr`, the inactive value
(the address of the head itself, which is the address of no item), or the address of an item. -/
inductive head_value where
  | null
  | inactive
  | item (a : Nat)
  deriving DecidableEq

/-- The cast `static_cast<T*>(value)` for a value that is not the inactive one. -/
def head_value.to_ptr : head_value → Option Nat
  | .item a => some a
  | _ => none

/-- The queue: its atomic head. -/
structure atomic_intrusive_queue where
  head : head_value := head_value.null
  deriving DecidableEq

namespace atomic_intrusive_queue

/-- The constructor `atomic_intrusive_queue(bool active)`. -/
def mk_active (active : Bool) : atomic_intrusive_queue :=
  { head := if active then head_value.null else head_value.inactive }

/-- The member `enqueue(item)`: `item->next = (old_value == inactive) ? nullptr : old_value`, the head becomes
`item`, and the result is `old_value == inactive`. -/
def enqueue (next : next_field) (q : atomic_intrusive_queue) (item : Nat) :
    next_field × atomic_intrusive_queue × Bool :=
  let old_value := q.head
  let next1 := Function.update next item (if old_value = head_value.inactive then none else old_value.to_ptr)
  (next1, { head := head_value.item item }, decide (old_value = head_value.inactive))

/-- The member `dequeue_all()`. -/
def dequeue_all (fuel : Nat) (next : next_field) (q : atomic_intrusive_queue) :
    Except Fault (next_field × atomic_intrusive_queue × intrusive_queue) :=
  match q.head with
  | .null => .ok (next, q, {})
  | .inactive => .error Fault.assertion
  | .item a => do
      let (next1, r) ← intrusive_queue.make_reversed fuel next (some a)
      return (next1, { head := head_value.null }, r)

/-- The member `mark_inactive()`: null becomes inactive; on any other value the asserts decide. -/
def mark_inactive (q : atomic_intrusive_queue) : Except Fault (atomic_intrusive_queue × Bool) :=
  match q.head with
  | .null => .ok ({ head := head_value.inactive }, true)
  | .inactive => .error Fault.assertion
  | .item _ => .ok (q, false)

/-- The member `mark_inactive_or_dequeue_all()`. -/
def mark_inactive_or_dequeue_all (fuel : Nat) (next : next_field) (q : atomic_intrusive_queue) :
    Except Fault (next_field × atomic_intrusive_queue × intrusive_queue) := do
  let (q1, marked) ← q.mark_inactive
  if marked then
    return (next, q1, {})
  else
    match q1.head with
    | .item a => do
        let (next1, r) ← intrusive_queue.make_reversed fuel next (some a)
        return (next1, { head := head_value.null }, r)
    | _ => .error Fault.assertion

/-- A run of `enqueue` calls, one per item of the list, with the result of each call. -/
def enqueue_list : next_field → atomic_intrusive_queue → List Nat → next_field × atomic_intrusive_queue × List Bool
  | next, q, [] => (next, q, [])
  | next, q, item :: items =>
      let (next1, q1, r) := enqueue next q item
      let (next2, q2, rs) := enqueue_list next1 q1 items
      (next2, q2, r :: rs)

end atomic_intrusive_queue

/-! ## monotonic_clock.hpp: time points -/

/-- The class `monotonic_clock::time_point`: seconds and nanoseconds (64-bit overflow aside). -/
structure time_point where
  seconds_ : Int := 0
  nanoseconds_ : Int := 0
  deriving DecidableEq

namespace time_point

/-- The private member `normalize()`; the division of C++ truncates towards zero. -/
def normalize (tp : time_point) : time_point :=
  let nanoseconds_per_second : Int := 1000000000
  let extra_seconds := Int.tdiv tp.nanoseconds_ nanoseconds_per_second
  let seconds1 := tp.seconds_ + extra_seconds
  let nanoseconds1 := tp.nanoseconds_ - extra_seconds * nanoseconds_per_second
  if seconds1 < 0 ∧ nanoseconds1 > 0 then
    { seconds_ := seconds1 + 1, nanoseconds_ := nanoseconds1 - nanoseconds_per_second }
  else if seconds1 > 0 ∧ nanoseconds1 < 0 then
    { seconds_ := seconds1 - 1, nanoseconds_ := nanoseconds1 + nanoseconds_per_second }
  else
    { seconds_ := seconds1, nanoseconds_ := nanoseconds1 }

/-- The static member `from_seconds_and_nanoseconds`. -/
def from_seconds_and_nanoseconds (seconds nanoseconds : Int) : time_point :=
  normalize { seconds_ := seconds, nanoseconds_ := nanoseconds }

/-- The member `seconds_part()`. -/
def seconds_part (tp : time_point) : Int := tp.seconds_

/-- The member `nanoseconds_part()`. -/
def nanoseconds_part (tp : time_point) : Int := tp.nanoseconds_

/-- The comparison `operator<`. -/
def lt (a b : time_point) : Bool :=
  if a.seconds_ = b.seconds_ then decide (a.nanoseconds_ < b.nanoseconds_)
  else decide (a.seconds_ < b.seconds_)

/-- The comparison `operator<=`: `!(b < a)`. -/
def le (a b : time_point) : Bool := !(lt b a)

/-- The operators `-=` and `-` with a `std::chrono::duration` of `count` ticks of `tick_ns`
nanoseconds each: whole seconds and the remaining nanoseconds are subtracted, then `normalize()`. -/
def sub_duration (a : time_point) (count tick_ns : Int) : time_point :=
  let whole_seconds := Int.tdiv (count * tick_ns) 1000000000
  let remainder_nanoseconds := count * tick_ns - whole_seconds * 1000000000
  normalize { seconds_ := a.seconds_ - whole_seconds, nanoseconds_ := a.nanoseconds_ - remainder_nanoseconds }

/-- The operators `+=` and `+` with a `std::chrono::duration` of `count` ticks of `tick_ns`
nanoseconds each. -/
def add_duration (a : time_point) (count tick_ns : Int) : time_point :=
  let whole_seconds := Int.tdiv (count * tick_ns) 1000000000
  let remainder_nanoseconds := count * tick_ns - whole_seconds * 1000000000
  normalize { seconds_ := a.seconds_ + whole_seconds, nanoseconds_ := a.nanoseconds_ + remainder_nanoseconds }

end time_point

/-! ## intrusive_heap.hpp: the timer list -/

/-- The members of `timer_operation` that the timer list uses, by address: the `NEXT` and `PREV`
links (distinct from `operation_base::next`) and the `KEY`, the due time. -/
structure timer_fields where
  next : Nat → Option Nat
  prev : Nat → Option Nat
  duetime : Nat → time_point

/-- The class `intrusive_heap`: its head pointer. -/
structure intrusive_heap where
  head : Option Nat := none
  deriving DecidableEq

namespace intrusive_heap

/-- The member `empty()`. -/
def empty (h : intrusive_heap) : Bool := h.head.isNone

/-- The member `top()`. -/
def top (h : intrusive_heap) : Except Fault Nat :=
  match h.head with
  | none => .error Fault.assertion
  | some item => .ok item

/-- The member `pop()`. -/
def pop (m : timer_fields) (h : intrusive_heap) : Except Fault (timer_fields × intrusive_heap × Nat) :=
  match h.head with
  | none => .error Fault.assertion
  | some item =>
      match m.next item with
      | none => .ok (m, { head := none }, item)
      | some head1 => .ok ({ m with prev := Function.update m.prev head1 none }, { head := some head1 }, item)

/-- The search loop of `insert`: advance while the next item exists and its key is `<=` the new key. -/
def insert_position : Nat → timer_fields → time_point → Nat → Except Fault Nat
  | fuel, m, key, insert_next =>
      match m.next insert_next with
      | none => .ok insert_next
      | some n =>
          if (m.duetime n).le key then
            match fuel with
            | 0 => .error Fault.fuel
            | fuel1 + 1 => insert_position fuel1 m key n
          else .ok insert_next

/-- The member `insert(item)`. -/
def insert (fuel : Nat) (m : timer_fields) (h : intrusive_heap) (item : Nat) :
    Except Fault (timer_fields × intrusive_heap) :=
  match h.head with
  | none =>
      .ok ({ m with next := Function.update m.next item none, prev := Function.update m.prev item none },
           { head := some item })
  | some head =>
      if (m.duetime item).lt (m.duetime head) then
        let next1 := Function.update m.next item (some head)
        let prev1 := Function.update m.prev item none
        let prev2 := Function.update prev1 head (some item)
        .ok ({ m with next := next1, prev := prev2 }, { head := some item })
      else do
        let insert_next ← insert_position fuel m (m.duetime item) head
        let insert_prev := m.next insert_next
        let prev1 := Function.update m.prev item (some insert_next)
        let next1 := Function.update m.next item insert_prev
        let next2 := Function.update next1 insert_next (some item)
        match insert_prev with
        | none => .ok ({ m with next := next2, prev := prev1 }, h)
        | some p => .ok ({ m with next := next2, prev := Function.update prev1 p (some item) }, h)

/-- The member `remove(item)`. -/
def remove (m : timer_fields) (h : intrusive_heap) (item : Nat) :
    Except Fault (timer_fields × intrusive_heap) := do
  let prev := m.prev item
  let next := m.next item
  let (next1, h1) ←
    match prev with
    | some p => pure (Function.update m.next p next, h)
    | none => do
        assert (decide (h.head = some item))
        pure (m.next, ({ head := next } : intrusive_heap))
  match next with
  | some n => return ({ m with next := next1, prev := Function.update m.prev n prev }, h1)
  | none => return ({ m with next := next1 }, h1)

end intrusive_heap

/-! ## io_uring_base.hpp and the kernel interface -/

/-- A 64-bit address as the ring carries it in `user_data` and `addr`: zero, the address of one of
three members of the context, the address of an operation, or the address of the member `buff` of
a read or write operation.  The kinds are pairwise distinct addresses. -/
inductive address where
  | zero
  | timers
  | current_duetime
  | time_
  | object (op : Nat)
  | buff (op : Nat)
  deriving DecidableEq

/-- The constant `remote_queue_event_user_data`. -/
def remote_queue_event_user_data : address := address.zero

/-- Constant of `linux/io_uring.h`. -/
def IORING_OP_POLL_ADD : Nat := 6
/-- Constant of `linux/io_uring.h`. -/
def IORING_OP_TIMEOUT : Nat := 11
/-- Constant of `linux/io_uring.h`. -/
def IORING_OP_TIMEOUT_REMOVE : Nat := 12
/-- Constant of `linux/io_uring.h`. -/
def IORING_TIMEOUT_ABS : Nat := 1
/-- Constant of `linux/io_uring.h`. -/
def IORING_ENTER_GETEVENTS : Nat := 1
/-- Constant of `signal.h`. -/
def POLL_IN : Nat := 1
/-- Constant of `errno.h`. -/
def ECANCELED : Int := 125

/-- The constant `timer_operation::timer_elapsed_flag`. -/
def timer_elapsed_flag : Nat := 1

/-- The constant `timer_operation::cancel_pending_flag`. -/
def cancel_pending_flag : Nat := 2

/-- The fields of `io_uring_sqe` that the loop writes. -/
structure io_uring_sqe where
  opcode : Nat := 0
  fd : Int := 0
  addr : address := address.zero
  len : Nat := 0
  off : Nat := 0
  poll_events : Nat := 0
  timeout_flags : Nat := 0
  user_data : address := address.zero
  deriving DecidableEq

/-- The fields of `io_uring_cqe` that the loop reads. -/
structure io_uring_cqe where
  user_data : address := address.zero
  res : Int := 0
  deriving DecidableEq

/-- The struct `__kernel_timespec`. -/
structure kernel_timespec where
  tv_sec : Int := 0
  tv_nsec : Int := 0
  deriving DecidableEq

/-- The functions that the source stores in `operation_base::execute_`: the static members of this
name of the class of the operation (`timer_impl` and `rw_type` each have an
`on_schedule_complete`); `callback k` stands for a function of the user of the loop. -/
inductive execute_fn where
  | on_schedule_complete
  | on_timeout
  | on_cancel
  | remove_timer
  | on_io_complete
  | callback (k : Nat)
  deriving DecidableEq

/-! ## io_uring_context.hpp -/

/-- The class `io_uring_context`, with the rings it maps and the members of the operations it
links.  The kernel owns `sq_head`, `cq_tail` and `cq_entries`. -/
structure io_uring_context where
  sq_mask : Nat
  sq_entry_count : Nat
  sq_index_array : Nat → Nat := fun _ => 0
  sq_entries : Nat → io_uring_sqe := fun _ => {}
  sq_tail : Nat := 0
  sq_head : Nat := 0
  cq_mask : Nat
  cq_entry_count : Nat
  cq_entries : Nat → io_uring_cqe := fun _ => {}
  cq_head : Nat := 0
  cq_tail : Nat := 0
  remote_queue_event_fd : Int := 0
  /-- The counter of the event descriptor: the sum of the values written and not yet read. -/
  event_fd_value : Nat := 0
  local_queue : intrusive_queue := {}
  pending_io_queue : intrusive_queue := {}
  timers : intrusive_heap := {}
  current_duetime : Option time_point := none
  sq_unflushed_count : Nat := 0
  cq_pending_count : Nat := 0
  timers_are_dirty : Bool := false
  remote_queue_read_submitted : Bool := false
  active_timer_count : Nat := 0
  time_ : kernel_timespec := {}
  remote_queue_ : atomic_intrusive_queue := {}
  /-- The member `operation_base::next` of every operation. -/
  next : next_field := fun _ => none
  /-- The member `operation_base::execute_` of every operation. -/
  execute_ : Nat → execute_fn := fun _ => execute_fn.callback 0
  /-- The member `completion_base::result` of every operation. -/
  result : Nat → Int := fun _ => 0
  /-- The list links and due time of every `timer_operation`. -/
  timer : timer_fields := { next := fun _ => none, prev := fun _ => none, duetime := fun _ => {} }
  /-- The member `timer_operation::cancelable`. -/
  cancelable : Nat → Bool := fun _ => true
  /-- The member `timer_operation::state`. -/
  state : Nat → Nat := fun _ => 0
  /-- The calls of `item->execute_(item)` made so far, oldest first. -/
  executed : List Nat := []
  /-- The calls of the receivers of timers made so far, oldest first: the timer and the value of
  the error code, `0` for success. -/
  received : List (Nat × Int) := []

namespace io_uring_context

/-- The state after the constructor, for the entry counts and masks that the kernel reports. -/
def init (sq_entry_count sq_mask cq_entry_count cq_mask : Nat) : io_uring_context :=
  { sq_entry_count := sq_entry_count, sq_mask := sq_mask,
    cq_entry_count := cq_entry_count, cq_mask := cq_mask }

/-- The member `pending_operation_count()`. -/
def pending_operation_count (c : io_uring_context) : Nat :=
  add32 c.cq_pending_count c.sq_unflushed_count

/-- The member `can_submit_io()`. -/
def can_submit_io (c : io_uring_context) : Bool :=
  decide (c.sq_unflushed_count < c.sq_entry_count) && decide (c.pending_operation_count < c.cq_entry_count)

/-- The member `schedule_local(operation_base*)`. -/
def schedule_local (c : io_uring_context) (op : Nat) : io_uring_context :=
  { c with next := (c.local_queue.push_back c.next op).1,
           local_queue := (c.local_queue.push_back c.next op).2 }

/-- The member `schedule_local(operation_queue)`. -/
def schedule_local_queue (c : io_uring_context) (ops : intrusive_queue) : Except Fault io_uring_context := do
  let (next1, q1) ← c.local_queue.append c.next ops
  return { c with next := next1, local_queue := q1 }

/-- A callable passed to `submit_io`: it receives the zeroed slot and may use the context; the
template distinguishes a callable returning `void` from one returning `bool`. -/
inductive fill_callable where
  | returns_void (f : io_uring_context → io_uring_sqe → Except Fault (io_uring_context × io_uring_sqe))
  | returns_bool (f : io_uring_context → io_uring_sqe → Except Fault (io_uring_context × io_uring_sqe × Bool))

/-- The call `fill(sqe)` under the `if constexpr` of `submit_io`: a callable returning `void` never
makes `submit_io` give up. -/
def fill_callable.call : fill_callable → io_uring_context → io_uring_sqe →
    Except Fault (io_uring_context × io_uring_sqe × Bool)
  | .returns_void f, c, sqe => do
      let (c1, sqe1) ← f c sqe
      pure (c1, sqe1, true)
  | .returns_bool f, c, sqe => f c sqe

/-- The context after `std::memset(&sqe, 0, sizeof(sqe))` on the slot at the tail. -/
def zero_slot (c : io_uring_context) : io_uring_context :=
  { c with sq_entries := Function.update c.sq_entries (c.sq_tail &&& c.sq_mask) {} }

/-- The member `submit_io(fill)`; `io_thread` is the value of `is_running_on_io_thread()` for the
calling thread. -/
def submit_io (io_thread : Bool) (fill : fill_callable) (c : io_uring_context) :
    Except Fault (io_uring_context × Bool) := do
  assert io_thread
  if c.pending_operation_count < c.cq_entry_count then
    let head := c.sq_head
    let tail := c.sq_tail
    let used_count := sub32 tail head
    assert (decide (used_count ≤ c.sq_entry_count))
    if used_count < c.sq_entry_count then
      let index := tail &&& c.sq_mask
      let (c1, sqe, filled) ← fill.call c.zero_slot {}
      let c2 := { c1 with sq_entries := Function.update c1.sq_entries index sqe }
      if !filled then
        return (c2, false)
      else
        return ({ c2 with sq_index_array := Function.update c2.sq_index_array index index,
                          sq_tail := add32 tail 1,
                          sq_unflushed_count := add32 c2.sq_unflushed_count 1 }, true)
    else
      return (c, false)
  else
    return (c, false)

/-- One round of the loop of `acquire_completion_queue_items`, for the entry at `head + i`;
`bytes_read` is what `read` on the event descriptor returns in this round. -/
def acquire_completion (bytes_read : Nat → Int) (head : Nat)
    (st : io_uring_context × intrusive_queue) (i : Nat) :
    Except Fault (io_uring_context × intrusive_queue) := do
  let (c, completion_queue) := st
  let cqe := c.cq_entries ((add32 head i) &&& c.cq_mask)
  if cqe.user_data = remote_queue_event_user_data then
    if cqe.res < 0 then
      throw Fault.terminate
    if bytes_read i < 0 then
      throw Fault.terminate
    assert (decide (bytes_read i = 8))
    return ({ c with remote_queue_read_submitted := false }, completion_queue)
  else if cqe.user_data = address.timers then
    assert (decide (c.active_timer_count > 0))
    let active_timer_count := sub32 c.active_timer_count 1
    return ({ c with active_timer_count := active_timer_count,
                     timers_are_dirty := if cqe.res ≠ ECANCELED then true else c.timers_are_dirty,
                     current_duetime := if active_timer_count = 0 then none else c.current_duetime },
            completion_queue)
  else if cqe.user_data = address.current_duetime then
    return (c, completion_queue)
  else
    match cqe.user_data with
    | .object op =>
        let (next1, q1) := completion_queue.push_back c.next op
        return ({ c with result := Function.update c.result op cqe.res, next := next1 }, q1)
    | _ => throw Fault.null_dereference

/-- The member `acquire_completion_queue_items()`. -/
def acquire_completion_queue_items (bytes_read : Nat → Int) (c : io_uring_context) :
    Except Fault io_uring_context := do
  let head := c.cq_head
  let tail := c.cq_tail
  if head ≠ tail then
    let count := sub32 tail head
    assert (decide (count ≤ c.cq_entry_count))
    let (c1, completion_queue) ← (List.range count).foldlM (acquire_completion bytes_read head) (c, {})
    let c2 ← c1.schedule_local_queue completion_queue
    return { c2 with cq_head := tail, cq_pending_count := sub32 c2.cq_pending_count count }
  else
    return c

/-- The member `acquire_remote_queued_items()`. -/
def acquire_remote_queued_items (fuel : Nat) (c : io_uring_context) : Except Fault io_uring_context := do
  assert (!c.remote_queue_read_submitted)
  let (next1, rq, items) ← c.remote_queue_.dequeue_all fuel c.next
  schedule_local_queue { c with next := next1, remote_queue_ := rq } items

/-- The callable of `register_remote_queue_notification`. -/
def remote_queue_fill (fuel : Nat) : fill_callable :=
  .returns_bool fun c sqe => do
    let (next1, rq, queued_items) ← c.remote_queue_.mark_inactive_or_dequeue_all fuel c.next
    let c1 := { c with next := next1, remote_queue_ := rq }
    if !queued_items.empty then
      let c2 ← c1.schedule_local_queue queued_items
      return (c2, sqe, false)
    else
      return (c1, { sqe with opcode := IORING_OP_POLL_ADD, fd := c1.remote_queue_event_fd,
                             poll_events := POLL_IN, user_data := remote_queue_event_user_data }, true)

/-- The member `register_remote_queue_notification()`, called by `run_impl` on the loop thread. -/
def register_remote_queue_notification (fuel : Nat) (c : io_uring_context) :
    Except Fault (io_uring_context × Bool) := do
  let (c1, submitted) ← c.submit_io true (remote_queue_fill fuel)
  if submitted then return (c1, true) else return (c1, false)

/-- The arguments of a call of `io_uring_enter`. -/
structure enter_call where
  to_submit : Nat
  min_complete : Int
  flags : Nat
  deriving DecidableEq

/-- The end of an iteration of `run_impl`, up to the call of `io_uring_enter`: the context at the
moment of the call and the arguments, or `none` when the iteration makes no call. -/
def run_impl_prepare_enter (fuel : Nat) (c : io_uring_context) :
    Except Fault (io_uring_context × Option enter_call) := do
  if c.local_queue.empty || decide (c.sq_unflushed_count > 0) then
    let is_idle := decide (c.sq_unflushed_count = 0) && c.local_queue.empty
    let c1 ←
      if is_idle && !c.remote_queue_read_submitted then do
        let (c1, r) ← c.register_remote_queue_notification fuel
        pure { c1 with remote_queue_read_submitted := r }
      else pure c
    let blocking := is_idle &&
      (c1.remote_queue_read_submitted || decide (c1.pending_operation_count = c1.cq_entry_count))
    let flags := if blocking then IORING_ENTER_GETEVENTS else 0
    let min_completion_count : Int := if blocking then 1 else 0
    return (c1, some { to_submit := c1.sq_unflushed_count, min_complete := min_completion_count, flags := flags })
  else
    return (c, none)

/-- The end of an iteration of `run_impl`, after `io_uring_enter` returned `result`. -/
def run_impl_after_enter (c : io_uring_context) (result : Int) : Except Fault io_uring_context :=
  if result < 0 then
    .error Fault.system_error
  else
    .ok { c with sq_unflushed_count := sub32 c.sq_unflushed_count (int_to_u32 result),
                 cq_pending_count := add32 c.cq_pending_count (int_to_u32 result) }

/-- The call `item->execute_(item)`, where `run` is what the functions stored in `execute_` do. -/
def invoke (run : Nat → io_uring_context → Except Fault io_uring_context) (item : Nat)
    (c : io_uring_context) : Except Fault io_uring_context :=
  run item { c with executed := c.executed ++ [item] }

/-- The loop of `execute_pending_local` over the queue `pending` that it moved the local queue into. -/
def execute_pending_loop (run : Nat → io_uring_context → Except Fault io_uring_context) :
    Nat → intrusive_queue → io_uring_context → Except Fault io_uring_context
  | 0, pending, c => if pending.empty then .ok c else .error Fault.fuel
  | fuel + 1, pending, c =>
      if pending.empty then .ok c
      else do
        let (item, pending1) ← pending.pop_front c.next
        let c1 ← invoke run item c
        execute_pending_loop run fuel pending1 c1

/-- The member `execute_pending_local()`. -/
def execute_pending_local (run : Nat → io_uring_context → Except Fault io_uring_context)
    (fuel : Nat) (c : io_uring_context) : Except Fault io_uring_context :=
  if c.local_queue.empty then .ok c
  else execute_pending_loop run fuel c.local_queue { c with local_queue := {} }

/-- The callable of `submit_timer_cancel`. -/
def timer_cancel_fill : fill_callable :=
  .returns_void fun c sqe =>
    .ok (c, { sqe with opcode := IORING_OP_TIMEOUT_REMOVE, addr := address.timers,
                       user_data := address.current_duetime })

/-- The member `submit_timer_cancel()`, called on the loop thread. -/
def submit_timer_cancel (c : io_uring_context) : Except Fault (io_uring_context × Bool) :=
  c.submit_io true timer_cancel_fill

/-- The callable of `submit_timer(duetime)`. -/
def timer_fill (duetime : time_point) : fill_callable :=
  .returns_void fun c sqe =>
    .ok ({ c with time_ := { tv_sec := duetime.seconds_part, tv_nsec := duetime.nanoseconds_part } },
         { sqe with opcode := IORING_OP_TIMEOUT, addr := address.time_, len := 1,
                    timeout_flags := IORING_TIMEOUT_ABS, user_data := address.timers })

/-- The member `submit_timer(duetime)`, called on the loop thread. -/
def submit_timer (duetime : time_point) (c : io_uring_context) : Except Fault (io_uring_context × Bool) := do
  let (c1, submitted) ← c.submit_io true (timer_fill duetime)
  if submitted then
    return ({ c1 with active_timer_count := add32 c1.active_timer_count 1 }, true)
  else
    return (c1, false)

/-- A context with 4 submission entries and 8 completion entries in which 2 entries are unflushed,
3 operations are in the kernel, and the kernel has published 2 completions: one of operation 7
with result 5 and one of the timeout with result -62 (`-ETIME`). -/
def sample_context : io_uring_context :=
  { sq_entry_count := 4, sq_mask := 3, cq_entry_count := 8, cq_mask := 7,
    sq_tail := 6, sq_head := 4, sq_unflushed_count := 2, cq_pending_count := 3,
    cq_head := 0, cq_tail := 2, active_timer_count := 1,
    cq_entries := fun i =>
      if i = 0 then { user_data := address.object 7, res := 5 }
      else if i = 1 then { user_data := address.timers, res := -62 }
      else {} }

/-- The counters and the entry count that `counters_ok` reads. -/
def counters (c : io_uring_context) : Nat × Nat × Nat :=
  (c.cq_pending_count, c.sq_unflushed_count, c.cq_entry_count)

/-- The invariant of the counters: the outstanding operations fit the completion ring. -/
def counters_ok (c : io_uring_context) : Prop :=
  c.cq_entry_count < two32 ∧ c.cq_pending_count + c.sq_unflushed_count ≤ c.cq_entry_count

instance (c : io_uring_context) : Decidable c.counters_ok := by
  unfold counters_ok; exact inferInstance

/-- A callable that leaves the ring indices and the counters alone, as every callable of the
source does. -/
def fill_callable.keeps_ring (fill : fill_callable) : Prop :=
  ∀ c sqe c1 sqe1 filled, fill.call c sqe = .ok (c1, sqe1, filled) →
    c1.sq_tail = c.sq_tail ∧ c1.sq_unflushed_count = c.sq_unflushed_count ∧
    c1.cq_pending_count = c.cq_pending_count ∧ c1.sq_index_array = c.sq_index_array ∧
    c1.cq_entry_count = c.cq_entry_count

end io_uring_context

/-! ## What the links of a queue represent -/

namespace intrusive_queue

/-- The items reached from pointer `p` by following `next` up to `nullptr`, in order. -/
def chain (next : next_field) : Option Nat → List Nat → Prop
  | p, [] => p = none
  | p, a :: l => p = some a ∧ chain next (next a) l

instance chain.decidable (next : next_field) : (p : Option Nat) → (l : List Nat) → Decidable (chain next p l)
  | p, [] => inferInstanceAs (Decidable (p = none))
  | _, a :: l => @instDecidableAnd _ _ _ (chain.decidable next (next a) l)

/-- The queue `q` holds exactly the items of `l`, each once, linked in this order and ending at
its tail pointer. -/
def holds (next : next_field) (q : intrusive_queue) (l : List Nat) : Prop :=
  chain next q.head l ∧ q.tail = l.getLast? ∧ l.Nodup

instance (next : next_field) (q : intrusive_queue) (l : List Nat) : Decidable (holds next q l) := by
  unfold holds; exact inferInstance

end intrusive_queue

namespace io_uring_context

/-- A function stored in `execute_` as far as the local queue is concerned: run for `item` after
the calls in `history` (the last of which is this one), it calls `schedule_local` on the
operations `behaviour history item`, in this order. -/
def scheduling_callback (behaviour : List Nat → Nat → List Nat) (item : Nat)
    (c : io_uring_context) : Except Fault io_uring_context :=
  .ok ((behaviour c.executed item).foldl schedule_local c)

/-- The operations scheduled while the items of `pending` run in order after `executed`. -/
def scheduled_in_batch (behaviour : List Nat → Nat → List Nat) : List Nat → List Nat → List Nat
  | _, [] => []
  | executed, a :: rest =>
      behaviour (executed ++ [a]) a ++ scheduled_in_batch behaviour (executed ++ [a]) rest

/-- Each operation of `scheduled` is linked in no queue at the moment it is scheduled: it is
neither among the items `rest` still to run nor in the local queue `loc`. -/
def unlinked_when_scheduled (rest : List Nat) : List Nat → List Nat → Bool
  | _, [] => true
  | loc, x :: xs =>
      !decide (x ∈ rest) && !decide (x ∈ loc) && unlinked_when_scheduled rest (loc ++ [x]) xs

/-- The discipline of an intrusive queue over a whole batch: no callback schedules an operation
that is still linked. -/
def batch_well_formed (behaviour : List Nat → Nat → List Nat) : List Nat → List Nat → List Nat → Bool
  | _, [], _ => true
  | executed, a :: rest, loc =>
      unlinked_when_scheduled rest loc (behaviour (executed ++ [a]) a) &&
      batch_well_formed behaviour (executed ++ [a]) rest (loc ++ behaviour (executed ++ [a]) a)

end io_uring_context

namespace io_uring_context

/-- A context whose local queue holds the operations 1, 2 and 3. -/
def batch_context : io_uring_context :=
  { sq_entry_count := 4, sq_mask := 3, cq_entry_count := 8, cq_mask := 7,
    local_queue := { head := some 1, tail := some 3 },
    next := fun a => if a = 1 then some 2 else if a = 2 then some 3 else none }

/-- Callbacks for `batch_context`: operation 1 schedules operation 4 and then itself again,
operation 2 schedules operation 5, operation 3 schedules nothing. -/
def batch_behaviour : List Nat → Nat → List Nat :=
  fun _ item => if item = 1 then [4, 1] else if item = 2 then [5] else []

end io_uring_context

namespace io_uring_context

/-- An idle context: nothing queued locally or remotely, nothing unflushed, no poll armed. -/
def idle_context : io_uring_context :=
  { sq_entry_count := 4, sq_mask := 3, cq_entry_count := 8, cq_mask := 7 }

/-- An idle context in which another thread has enqueued the operations 1 and then 2 on the
remote queue. -/
def woken_context : io_uring_context :=
  { sq_entry_count := 4, sq_mask := 3, cq_entry_count := 8, cq_mask := 7,
    remote_queue_ := { head := head_value.item 2 },
    next := fun a => if a = 2 then some 1 else none }

end io_uring_context

/-! ## inplace_stop_token.hpp -/

/-- The target of a `prev_ptr`: the member `callbacks` of the source or the member `next` of a
callback. -/
inductive link_location where
  | callbacks
  | next_of (cb : Nat)
  deriving DecidableEq

/-- What the body of a stop callback may do with the source it is registered on: construct an
`inplace_stop_callback` at an address (which registers it), destroy one (which deregisters it),
or call `request_stop`. -/
inductive stop_action where
  | construct (cb : Nat)
  | destroy (cb : Nat)
  | request_stop
  deriving DecidableEq

/-- The class `inplace_stop_source` with the members of the callbacks registered on it, by
address, and the local variable `removed_during_callback` of `request_stop`. -/
structure inplace_stop_source where
  state : Nat := 0
  callbacks : Option Nat := none
  notifying_thread_id : Option Nat := none
  /-- Whether `inplace_stop_callback_base::source` of a callback is non-null. -/
  source : Nat → Bool := fun _ => false
  next : Nat → Option Nat := fun _ => none
  prev_ptr : Nat → Option link_location := fun _ => none
  /-- Whether the member `removed_during_callback` of a callback is non-null; it then points at
  the local variable of `request_stop`. -/
  removed_during_callback : Nat → Bool := fun _ => false
  callback_completed : Nat → Bool := fun _ => false
  /-- The local variable `removed_during_callback` of the running `request_stop`. -/
  removed_local : Bool := false
  /-- The addresses at which a callback object has been constructed. -/
  constructed : Nat → Bool := fun _ => false
  /-- The addresses at which the callback object has been destroyed. -/
  destroyed : Nat → Bool := fun _ => false
  /-- The calls of `execute()` made so far, oldest first. -/
  invoked : List Nat := []

namespace inplace_stop_source

/-- The constant `locked_flag`. -/
def locked_flag : Nat := 2

/-- The constant `stop_requested_flag`. -/
def stop_requested_flag : Nat := 1

/-- The member `stop_requested()`. -/
def stop_requested (s : inplace_stop_source) : Bool := s.state &&& stop_requested_flag != 0

/-- The member `lock()`: returns the old state; while another holder keeps the lock, a
sequential run spins for ever. -/
def lock (s : inplace_stop_source) : Except Fault (inplace_stop_source × Nat) :=
  if s.state &&& locked_flag != 0 then .error Fault.spins
  else .ok ({ s with state := s.state ||| locked_flag }, s.state)

/-- The member `unlock(old_state)`. -/
def unlock (s : inplace_stop_source) (old_state : Nat) : inplace_stop_source :=
  { s with state := old_state }

/-- The member `lock_unless_stop_requested(requested)`. -/
def lock_unless_stop_requested (s : inplace_stop_source) (requested : Bool) :
    Except Fault (inplace_stop_source × Bool) :=
  if s.state &&& stop_requested_flag != 0 then .ok (s, false)
  else if s.state = 0 then
    .ok ({ s with state := if requested then locked_flag ||| stop_requested_flag else locked_flag }, true)
  else .error Fault.spins

/-- The member `add_callback(callback)`. -/
def add_callback (s : inplace_stop_source) (callback : Nat) :
    Except Fault (inplace_stop_source × Bool) := do
  let (s1, locked) ← s.lock_unless_stop_requested false
  if !locked then
    return (s1, false)
  else
    let next1 := Function.update s1.next callback s1.callbacks
    let prev1 := Function.update s1.prev_ptr callback (some link_location.callbacks)
    let prev2 :=
      match s1.callbacks with
      | some first => Function.update prev1 first (some (link_location.next_of callback))
      | none => prev1
    return (unlock { s1 with next := next1, prev_ptr := prev2, callbacks := some callback } 0, true)

/-- The store `*location = value` through a `prev_ptr`. -/
def store_link (s : inplace_stop_source) (location : link_location) (value : Option Nat) :
    inplace_stop_source :=
  match location with
  | .callbacks => { s with callbacks := value }
  | .next_of cb => { s with next := Function.update s.next cb value }

/-- The member `remove_callback(callback)` called on thread `tid`. -/
def remove_callback (tid : Nat) (s : inplace_stop_source) (callback : Nat) :
    Except Fault inplace_stop_source := do
  let (s1, old_state) ← s.lock
  match s1.prev_ptr callback with
  | some location =>
      let s2 := s1.store_link location (s1.next callback)
      let s3 :=
        match s2.next callback with
        | some n => { s2 with prev_ptr := Function.update s2.prev_ptr n (some location) }
        | none => s2
      return s3.unlock old_state
  | none =>
      let id := s1.notifying_thread_id
      let s2 := s1.unlock old_state
      if id = some tid then
        if s2.removed_during_callback callback then
          return { s2 with removed_local := true }
        else
          return s2
      else if s2.callback_completed callback then
        return s2
      else
        .error Fault.spins

/-- The first half of a round of the loop of `request_stop`: unlink the first callback, release
the lock, and point the callback at the fresh local variable. -/
def take_first (s : inplace_stop_source) (callback : Nat) : inplace_stop_source :=
  let prev1 := Function.update s.prev_ptr callback none
  let prev2 :=
    match s.next callback with
    | some n => Function.update prev1 n (some link_location.callbacks)
    | none => prev1
  { s with prev_ptr := prev2, callbacks := s.next callback, state := stop_requested_flag,
           removed_local := false,
           removed_during_callback := Function.update s.removed_during_callback callback true }

/-- The second half of a round of the loop of `request_stop`, after `callback->execute()`
returned: the stores into the callback unless it was removed, then `lock()`. -/
def after_execute (s : inplace_stop_source) (callback : Nat) :
    Except Fault inplace_stop_source := do
  let s1 :=
    if !s.removed_local then
      { s with removed_during_callback := Function.update s.removed_during_callback callback false,
               callback_completed := Function.update s.callback_completed callback true }
    else s
  let (s2, _) ← s1.lock
  return s2

/-- The members of a callback object after the constructor of `inplace_stop_callback_base`, with
a token of this source. -/
def init_callback (s : inplace_stop_source) (cb : Nat) : inplace_stop_source :=
  { s with constructed := Function.update s.constructed cb true,
           source := Function.update s.source cb true,
           next := Function.update s.next cb none,
           prev_ptr := Function.update s.prev_ptr cb none,
           removed_during_callback := Function.update s.removed_during_callback cb false,
           callback_completed := Function.update s.callback_completed cb false }

/-- The calls that a run of the stop source is made of. -/
inductive command where
  | execute (cb : Nat)
  | actions (body : List stop_action)
  | construct (cb : Nat)
  | destroy (cb : Nat)
  | request_stop
  | deliver

/-- The call that an action of a callback body makes. -/
def command.of_action : stop_action → command
  | .construct cb => .construct cb
  | .destroy cb => .destroy cb
  | .request_stop => .request_stop

/-- The run of a command on thread `tid`, where `bodies cb` is what the function of callback `cb`
does when it is called: `execute` is `callback->execute()`; `construct` is the constructor of
`inplace_stop_callback` with a token of this source, hence `register_callback()`; `destroy` is its
destructor; `deliver` is the loop of `request_stop`.  An address holds one callback object in a
run, and only a live object is destroyed.  The boolean is the result of `request_stop`. -/
def run (bodies : Nat → List stop_action) (tid : Nat) :
    Nat → command → inplace_stop_source → Except Fault (inplace_stop_source × Bool)
  | 0, _, _ => .error Fault.fuel
  | fuel + 1, .execute cb, s =>
      run bodies tid fuel (.actions (bodies cb)) { s with invoked := s.invoked ++ [cb] }
  | _ + 1, .actions [], s => .ok (s, true)
  | fuel + 1, .actions (a :: rest), s => do
      let (s1, _) ← run bodies tid fuel (command.of_action a) s
      run bodies tid fuel (.actions rest) s1
  | fuel + 1, .construct cb, s =>
      if s.constructed cb then .error Fault.lifetime
      else do
        let (s1, added) ← (s.init_callback cb).add_callback cb
        if !added then
          run bodies tid fuel (.execute cb) { s1 with source := Function.update s1.source cb false }
        else
          return (s1, true)
  | _ + 1, .destroy cb, s =>
      if !s.constructed cb || s.destroyed cb then .error Fault.lifetime
      else do
        let s1 ← if s.source cb then s.remove_callback tid cb else pure s
        return ({ s1 with destroyed := Function.update s1.destroyed cb true }, true)
  | fuel + 1, .request_stop, s => do
      let (s1, locked) ← s.lock_unless_stop_requested true
      if !locked then
        return (s1, true)
      else
        let (s2, _) ← run bodies tid fuel .deliver { s1 with notifying_thread_id := some tid }
        return ({ s2 with state := stop_requested_flag }, false)
  | fuel + 1, .deliver, s =>
      match s.callbacks with
      | none => .ok (s, true)
      | some callback => do
          let (s1, _) ← run bodies tid fuel (.execute callback) (s.take_first callback)
          let s2 ← s1.after_execute callback
          run bodies tid fuel .deliver s2

/-- The member `request_stop()` called on thread `tid`. -/
def request_stop (bodies : Nat → List stop_action) (tid fuel : Nat) (s : inplace_stop_source) :
    Except Fault (inplace_stop_source × Bool) :=
  run bodies tid fuel .request_stop s

/-- The constructor of an `inplace_stop_callback` at address `cb` with a token of this source. -/
def construct_callback (bodies : Nat → List stop_action) (tid fuel : Nat) (s : inplace_stop_source)
    (cb : Nat) : Except Fault inplace_stop_source := do
  let (s1, _) ← run bodies tid fuel (.construct cb) s
  return s1

end inplace_stop_source

namespace inplace_stop_source

/-- The `prev_ptr` of each callback of the list points at the link that leads to it, starting
with `location`. -/
def prev_links (prev_ptr : Nat → Option link_location) : link_location → List Nat → Prop
  | _, [] => True
  | location, a :: l => prev_ptr a = some location ∧ prev_links prev_ptr (link_location.next_of a) l

/-- The link that leads to the item after the prefix `l1` of a list that starts at `location`. -/
def location_after : link_location → List Nat → link_location
  | location, [] => location
  | _, a :: l1 => location_after (link_location.next_of a) l1

/-- The callback list of the source links exactly the callbacks `l`, in this order, each once. -/
def registered (s : inplace_stop_source) (l : List Nat) : Prop :=
  intrusive_queue.chain s.next s.callbacks l ∧ prev_links s.prev_ptr link_location.callbacks l ∧ l.Nodup

/-- A consistent source, seen from thread `tid`, with the callbacks `l` registered:
registered callbacks are live objects that were not called; a live object that is not registered
has a null `prev_ptr`, and if it still refers to the source then `tid` is the notifying thread; no
callback was called twice. -/
def consistent (tid : Nat) (s : inplace_stop_source) (l : List Nat) : Prop :=
  registered s l ∧
  (∀ cb ∈ l, s.constructed cb = true ∧ s.destroyed cb = false ∧ s.source cb = true ∧ cb ∉ s.invoked) ∧
  (∀ cb, cb ∉ l → s.constructed cb = true → s.destroyed cb = false →
    s.prev_ptr cb = none ∧ (s.source cb = true → s.notifying_thread_id = some tid)) ∧
  s.invoked.Nodup ∧ (∀ cb ∈ s.invoked, s.constructed cb = true) ∧
  (∀ cb, s.destroyed cb = true → s.constructed cb = true)

/-- How a run changes a consistent source: it stays consistent, the record of calls grows, objects
stay constructed and destroyed, no constructed object's `source` changes, a callback leaves the
list only by being called or destroyed, and once stop is requested no callback enters the list. -/
def related (tid : Nat) (s : inplace_stop_source) (l : List Nat) (s' : inplace_stop_source)
    (l' : List Nat) : Prop :=
  consistent tid s' l' ∧
  (∃ new, s'.invoked = s.invoked ++ new) ∧
  (∀ x, s.constructed x = true → s'.constructed x = true) ∧
  (∀ x, s.destroyed x = true → s'.destroyed x = true) ∧
  (∀ x, s.constructed x = true → s'.source x = s.source x) ∧
  (∀ x ∈ l, x ∉ l' → x ∈ s'.invoked ∨ s'.destroyed x = true) ∧
  (s.state ≠ 0 → (∀ x ∈ l', x ∈ l) ∧ s'.notifying_thread_id = s.notifying_thread_id)

end inplace_stop_source

namespace inplace_stop_source

/-- The members that `consistent` reads. -/
def view (s : inplace_stop_source) :
    Option Nat × Option Nat × (Nat → Bool) × (Nat → Option Nat) × (Nat → Option link_location) ×
      (Nat → Bool) × (Nat → Bool) × List Nat :=
  (s.callbacks, s.notifying_thread_id, s.source, s.next, s.prev_ptr, s.constructed, s.destroyed,
    s.invoked)

/-- What a command requires of a consistent source with the callbacks `l` registered. -/
def command.pre (tid : Nat) (s : inplace_stop_source) (l : List Nat) : command → Prop
  | .execute cb => s.state = 1 ∧ cb ∉ l ∧ cb ∉ s.invoked ∧ s.constructed cb = true
  | .deliver => s.state = 3 ∧ s.notifying_thread_id = some tid
  | _ => s.state = 0 ∨ s.state = 1

/-- What a command guarantees beyond `related` when it returns `r` in state `s'` with the
callbacks `l'` registered. -/
def command.post (s s' : inplace_stop_source) (r : Bool) (l' : List Nat) : command → Prop
  | .execute cb => s'.state = 1 ∧ ∃ new, s'.invoked = s.invoked ++ cb :: new
  | .deliver => s'.state = 3 ∧ l' = []
  | .request_stop =>
      (s.state = 1 → r = true ∧ s' = s) ∧ (s.state = 0 → r = false ∧ l' = [] ∧ s'.state = 1)
  | .construct cb =>
      (s'.state = 0 ∨ s'.state = 1) ∧ (s.state = 1 → s'.state = 1) ∧
      (s.state = 1 → s'.source cb = false ∧ ∃ new, s'.invoked = s.invoked ++ cb :: new)
  | _ => (s'.state = 0 ∨ s'.state = 1) ∧ (s.state = 1 → s'.state = 1)

end inplace_stop_source

namespace inplace_stop_source

/-- Soundness of the runs with bound `fuel`: a command that returns from a consistent source
leaves a related one. -/
def run_sound (bodies : Nat → List stop_action) (tid fuel : Nat) : Prop :=
  ∀ (cmd : command) (s : inplace_stop_source) (l : List Nat) (s' : inplace_stop_source) (r : Bool),
    consistent tid s l → cmd.pre tid s l → run bodies tid fuel cmd s = .ok (s', r) →
    ∃ l', related tid s l s' l' ∧ cmd.post s s' r l'

end inplace_stop_source

namespace inplace_stop_source

/-- A callback whose function either leaves the source alone or destroys the callback object
itself, which deregisters it from inside its own call. -/
def plain_or_self_removing (bodies : Nat → List stop_action) (cb : Nat) : Prop :=
  bodies cb = [] ∨ bodies cb = [stop_action.destroy cb]

end inplace_stop_source

namespace inplace_stop_source

/-- A source on which the callbacks 1, 2 and 3 were registered in this order. -/
def sample_source : inplace_stop_source :=
  { callbacks := some 3,
    source := fun a => decide (a = 1 ∨ a = 2 ∨ a = 3),
    constructed := fun a => decide (a = 1 ∨ a = 2 ∨ a = 3),
    next := fun a => if a = 3 then some 2 else if a = 2 then some 1 else none,
    prev_ptr := fun a =>
      if a = 3 then some link_location.callbacks
      else if a = 2 then some (link_location.next_of 3)
      else if a = 1 then some (link_location.next_of 2)
      else none }

/-- Callback 2 destroys itself inside its own call; every other callback leaves the source
alone. -/
def sample_bodies : Nat → List stop_action :=
  fun cb => if cb = 2 then [stop_action.destroy 2] else []

end inplace_stop_source

namespace io_uring_context

/-- The member `signal_remote_queue()`, for a `write` that succeeds. -/
def signal_remote_queue (c : io_uring_context) : io_uring_context :=
  { c with event_fd_value := c.event_fd_value + 1 }

/-- The member `schedule_remote(op)`. -/
def schedule_remote (c : io_uring_context) (op : Nat) : io_uring_context :=
  let r := c.remote_queue_.enqueue c.next op
  let c1 := { c with next := r.1, remote_queue_ := r.2.1 }
  if r.2.2 then c1.signal_remote_queue else c1

/-- The member `schedule_impl(op)`. -/
def schedule_impl (io_thread : Bool) (c : io_uring_context) (op : Nat) : io_uring_context :=
  if io_thread then c.schedule_local op else c.schedule_remote op

/-- The member `insert_timer(op)`. -/
def insert_timer (fuel : Nat) (io_thread : Bool) (c : io_uring_context) (op : Nat) :
    Except Fault io_uring_context := do
  assert io_thread
  let (fields, heap) ← c.timers.insert fuel c.timer op
  let top ← heap.top
  return { c with timer := fields, timers := heap,
                  timers_are_dirty := if top = op then true else c.timers_are_dirty }

/-- The member `remove_timer(op)`. -/
def remove_timer (c : io_uring_context) (op : Nat) : Except Fault io_uring_context := do
  assert (!c.timers.empty)
  let top ← c.timers.top
  let (fields, heap) ← c.timers.remove c.timer op
  return { c with timer := fields, timers := heap,
                  timers_are_dirty := if top = op then true else c.timers_are_dirty }

/-- The first loop of `update_timers`: pop the timers that are due at `now`; a cancelable one gets
`timer_elapsed_flag` added to its state and is dropped if `cancel_pending_flag` was set, the
others are scheduled locally. -/
def pop_due_timers (now : time_point) : Nat → io_uring_context → Except Fault io_uring_context
  | fuel, c =>
      match c.timers.head with
      | none => .ok c
      | some top =>
          if (c.timer.duetime top).le now then
            match fuel with
            | 0 => .error Fault.fuel
            | fuel1 + 1 => do
                let (fields, heap, item) ← c.timers.pop c.timer
                let c1 := { c with timer := fields, timers := heap }
                if c1.cancelable item then
                  let old_state := c1.state item
                  let new_state := add32 old_state timer_elapsed_flag
                  let c2 := { c1 with state := Function.update c1.state item new_state }
                  if old_state &&& cancel_pending_flag != 0 then
                    pop_due_timers now fuel1 c2
                  else
                    pop_due_timers now fuel1 (c2.schedule_local item)
                else
                  pop_due_timers now fuel1 (c1.schedule_local item)
          else .ok c

/-- The member `update_timers()`, where `now` is the value of `monotonic_clock::now()`. -/
def update_timers (fuel : Nat) (now : time_point) (c : io_uring_context) :
    Except Fault io_uring_context := do
  let c1 ← if !c.timers.empty then pop_due_timers now fuel c else pure c
  match c1.timers.head with
  | none =>
      if c1.current_duetime.isSome then
        let (c2, submitted) ← c1.submit_timer_cancel
        if submitted then
          return { c2 with current_duetime := none, timers_are_dirty := false }
        else return c2
      else return c1
  | some top =>
      let earliest_duetime := c1.timer.duetime top
      match c1.current_duetime with
      | some current =>
          if earliest_duetime.lt (current.sub_duration 1 1000) then
            let (c2, cancelled) ← c1.submit_timer_cancel
            if cancelled then
              let c3 := { c2 with current_duetime := none }
              let (c4, submitted) ← c3.submit_timer earliest_duetime
              if submitted then
                return { c4 with current_duetime := some earliest_duetime, timers_are_dirty := false }
              else return c4
            else return c2
          else
            return { c1 with timers_are_dirty := false }
      | none =>
          let (c2, submitted) ← c1.submit_timer earliest_duetime
          if submitted then
            return { c2 with current_duetime := some earliest_duetime, timers_are_dirty := false }
          else return c2

end io_uring_context

/-! ## io_uring_timer.hpp -/

namespace timer_impl

open io_uring_context

/-- The call `receiver(ec)` of the timer at address `t`, where `ec` has the value `code`. -/
def receive (c : io_uring_context) (t : Nat) (code : Int) : io_uring_context :=
  { c with received := c.received ++ [(t, code)] }

/-- The member `start_local()`; it runs on the loop thread. -/
def start_local (fuel : Nat) (c : io_uring_context) (t : Nat) : Except Fault io_uring_context :=
  insert_timer fuel true { c with execute_ := Function.update c.execute_ t execute_fn.on_timeout } t

/-- The member `start_remote()`. -/
def start_remote (c : io_uring_context) (t : Nat) : io_uring_context :=
  schedule_remote { c with execute_ := Function.update c.execute_ t execute_fn.on_schedule_complete } t

/-- The member `start()`. -/
def start (fuel : Nat) (io_thread : Bool) (c : io_uring_context) (t : Nat) :
    Except Fault io_uring_context :=
  if io_thread then start_local fuel c t else .ok (start_remote c t)

/-- The static member `remove_timer(op)`. -/
def remove_timer (c : io_uring_context) (t : Nat) : Except Fault io_uring_context := do
  let c1 ← if c.state t &&& timer_elapsed_flag = 0 then c.remove_timer t else pure c
  return receive c1 t ECANCELED

/-- The member `request_stop_local()`. -/
def request_stop_local (io_thread : Bool) (c : io_uring_context) (t : Nat) :
    Except Fault io_uring_context := do
  assert io_thread
  let c1 := { c with execute_ := Function.update c.execute_ t execute_fn.on_cancel }
  if c1.state t &&& timer_elapsed_flag = 0 then
    let c2 ← c1.remove_timer t
    return c2.schedule_local t
  else
    return c1

/-- The member `request_stop_remote()`; `fetch_add` adds the flag to the state. -/
def request_stop_remote (c : io_uring_context) (t : Nat) : io_uring_context :=
  let old_state := c.state t
  let c1 := { c with state := Function.update c.state t (add32 old_state cancel_pending_flag) }
  if old_state &&& timer_elapsed_flag = 0 then
    schedule_remote { c1 with execute_ := Function.update c1.execute_ t execute_fn.remove_timer } t
  else c1

/-- The member `request_stop()`. -/
def request_stop (io_thread : Bool) (c : io_uring_context) (t : Nat) :
    Except Fault io_uring_context :=
  if io_thread then request_stop_local io_thread c t else .ok (request_stop_remote c t)

/-- The call `item->execute_(item)` for the functions of `timer_impl` stored in `execute_`; a
callback of another kind of operation is left out. -/
def execute (fuel : Nat) (item : Nat) (c : io_uring_context) : Except Fault io_uring_context :=
  match c.execute_ item with
  | .on_schedule_complete => start_local fuel c item
  | .on_timeout => .ok (receive c item 0)
  | .on_cancel => .ok (receive c item ECANCELED)
  | .remove_timer => remove_timer c item
  | .on_io_complete => .ok c
  | .callback _ => .ok c

end timer_impl

/-- The class `steady_timer`: its due time and the shared pointer `p`. -/
structure steady_timer where
  duetime : time_point := {}
  p : Option Nat := none

namespace steady_timer

/-- The member `expires_at(tp)`. -/
def expires_at (timer : steady_timer) (tp : time_point) : steady_timer :=
  { timer with duetime := tp }

/-- The member `cancel()`. -/
def cancel (io_thread : Bool) (timer : steady_timer) (c : io_uring_context) :
    Except Fault io_uring_context :=
  match timer.p with
  | some t => if !c.timers.empty then timer_impl.request_stop io_thread c t else .ok c
  | none => .ok c

/-- The member `async_wait(f)`: `cancel()`, then a new `timer_impl` (cancelable, state 0, with the
due time of the timer) at the address `t` that `make_shared` returns, then its `start()`. -/
def async_wait (fuel : Nat) (io_thread : Bool) (t : Nat) (timer : steady_timer)
    (c : io_uring_context) : Except Fault (steady_timer × io_uring_context) := do
  let c1 ← timer.cancel io_thread c
  let c2 := { c1 with timer := { c1.timer with duetime := Function.update c1.timer.duetime t timer.duetime },
                      cancelable := Function.update c1.cancelable t true,
                      state := Function.update c1.state t 0 }
  let c3 ← timer_impl.start fuel io_thread c2 t
  return ({ timer with p := some t }, c3)

end steady_timer

/-! ## Scenarios of `example/timer_cancel.cpp` -/

namespace steady_timer

open io_uring_context

/-- A timer with due time 3 s. -/
def sample_timer : steady_timer := expires_at {} { seconds_ := 3 }

/-- The idle context after `async_wait` of `sample_timer` was called off the loop thread (as `main`
does before the loop runs), the `timer_impl` being at address 1: its start is queued on the remote
queue. -/
def queued_context : io_uring_context :=
  { idle_context with
    timer := { idle_context.timer with
      duetime := Function.update idle_context.timer.duetime 1 { seconds_ := 3 } },
    cancelable := Function.update idle_context.cancelable 1 true,
    state := Function.update idle_context.state 1 0,
    execute_ := Function.update idle_context.execute_ 1 execute_fn.on_schedule_complete,
    next := Function.update idle_context.next 1 none,
    remote_queue_ := { head := head_value.item 1 } }

/-- The context after the loop drained the remote queue of `queued_context`. -/
def drained_context : io_uring_context :=
  { queued_context with
    remote_queue_ := { head := head_value.null },
    next := Function.update queued_context.next 1 none,
    local_queue := { head := some 1, tail := some 1 } }

/-- The context after the loop ran the local queue of `drained_context`: the timer is in the
heap. -/
def started_context : io_uring_context :=
  { drained_context with
    executed := [1],
    local_queue := {},
    execute_ := Function.update drained_context.execute_ 1 execute_fn.on_timeout,
    timer := { drained_context.timer with
      next := Function.update drained_context.timer.next 1 none,
      prev := Function.update drained_context.timer.prev 1 none },
    timers := { head := some 1 },
    timers_are_dirty := true }

/-- The context after `update_timers` ran on `started_context` at time 4 s. -/
def elapsed_context : io_uring_context :=
  { started_context with
    timers := { head := none },
    state := Function.update started_context.state 1
      (add32 (started_context.state 1) timer_elapsed_flag),
    next := Function.update started_context.next 1 none,
    local_queue := { head := some 1, tail := some 1 } }

/-- The context after the loop ran the local queue of `elapsed_context`. -/
def delivered_context : io_uring_context :=
  { elapsed_context with
    executed := [1, 1],
    local_queue := {},
    received := [(1, 0)] }

/-- From `started_context`, at a time before 3 s: `cancel()`, then the loop drains the remote
queue and runs the local queue. -/
def cancel_in_heap (cancel_io_thread : Bool) : Except Fault io_uring_context := do
  let c1 ← cancel cancel_io_thread { sample_timer with p := some 1 } started_context
  let c2 ← c1.acquire_remote_queued_items 4
  c2.execute_pending_local (timer_impl.execute 4) 4

end steady_timer

namespace intrusive_queue

/-- A run of `push_back` calls, one per item of the list, in the order of the list. -/
def push_back_list : next_field → intrusive_queue → List Nat → next_field × intrusive_queue
  | next, q, [] => (next, q)
  | next, q, item :: items => push_back_list (q.push_back next item).1 (q.push_back next item).2 items

/-- Exactly `n` calls of `pop_front()`: the items in pop order and the queue that is left. -/
def pop_front_n : Nat → next_field → intrusive_queue → Except Fault (List Nat × intrusive_queue)
  | 0, _, q => .ok ([], q)
  | n + 1, next, q => do
      let (item, q1) ← q.pop_front next
      let (rest, q2) ← pop_front_n n next q1
      return (item :: rest, q2)

end intrusive_queue

/-! ## intrusive_stack.hpp -/

/-- The class `intrusive_stack`: its head pointer. -/
structure intrusive_stack where
  head : Option Nat := none
  deriving DecidableEq

namespace intrusive_stack

/-- The member `push_front(item)`: `item->next = head; head = item`. -/
def push_front (next : next_field) (s : intrusive_stack) (item : Nat) : next_field × intrusive_stack :=
  (Function.update next item s.head, { head := some item })

/-- The member `release()`: the head, and the stack left empty. -/
def release (s : intrusive_stack) : Option Nat × intrusive_stack :=
  (s.head, { head := none })

/-- A run of `push_front` calls, one per item of the list, in the order of the list. -/
def push_front_list : next_field → intrusive_stack → List Nat → next_field × intrusive_stack
  | next, s, [] => (next, s)
  | next, s, item :: items => push_front_list (s.push_front next item).1 (s.push_front next item).2 items

end intrusive_stack

/-! ## The timer list as a list of items -/

namespace intrusive_heap

/-- The `PREV` links along a list of items: the first item points back at `p`, every other item
at the item before it. -/
def prev_chain (prev : Nat → Option Nat) : Option Nat → List Nat → Prop
  | _, [] => True
  | p, a :: l => prev a = p ∧ prev_chain prev (some a) l

/-- The list `l` is the content of the heap `h`: the `NEXT` links lead from the head through the
items of `l` to null, the `PREV` links lead back (null on the head), no item occurs twice, and the
due times do not decrease from the head. -/
def well_formed (m : timer_fields) (h : intrusive_heap) (l : List Nat) : Prop :=
  intrusive_queue.chain m.next h.head l ∧ prev_chain m.prev none l ∧ l.Nodup ∧
    l.Pairwise (fun a b => (m.duetime a).le (m.duetime b) = true)

/-- The place of a new item in a list of items: before the first item, if the key of the new item
is less than its key, and otherwise before the first later item with a greater key. -/
def insert_sorted (key : Nat → time_point) (x : Nat) : List Nat → List Nat
  | [] => [x]
  | a :: l => if (key x).lt (key a) then x :: a :: l else a :: insert_sorted key x l

/-- A call of a member of the heap that changes it. -/
inductive heap_command where
  | insert (item : Nat)
  | pop
  | remove (item : Nat)
  deriving DecidableEq

/-- The call of one member; the item that `pop` returns is dropped. -/
def run_command (fuel : Nat) (m : timer_fields) (h : intrusive_heap) :
    heap_command → Except Fault (timer_fields × intrusive_heap)
  | .insert item => h.insert fuel m item
  | .pop => do
      let (m1, h1, _) ← h.pop m
      return (m1, h1)
  | .remove item => h.remove m item

/-- A sequence of calls, first to last. -/
def run_commands (fuel : Nat) : List heap_command → timer_fields → intrusive_heap →
    Except Fault (timer_fields × intrusive_heap)
  | [], m, h => .ok (m, h)
  | cmd :: cmds, m, h => do
      let (m1, h1) ← run_command fuel m h cmd
      run_commands fuel cmds m1 h1

/-- The content of the list after a call, from the content before it. -/
def content_after (key : Nat → time_point) : heap_command → List Nat → List Nat
  | .insert item, l => insert_sorted key item l
  | .pop, l => l.tail
  | .remove item, l => l.erase item

/-- The content of the list after a sequence of calls. -/
def content_after_all (key : Nat → time_point) : List heap_command → List Nat → List Nat
  | [], l => l
  | cmd :: cmds, l => content_after_all key cmds (content_after key cmd l)

/-- The calls of the sequence respect the contract of the members: `insert` gets an item that is
not in the list, `pop` is called on a non-empty list, `remove` gets an item of the list. -/
def admissible (key : Nat → time_point) : List heap_command → List Nat → Prop
  | [], _ => True
  | cmd :: cmds, l =>
      (match cmd with
        | .insert item => item ∉ l
        | .pop => l ≠ []
        | .remove item => item ∈ l) ∧
      admissible key cmds (content_after key cmd l)

end intrusive_heap

namespace intrusive_heap

instance admissible.decidable (key : Nat → time_point) :
    (cmds : List heap_command) → (l : List Nat) → Decidable (admissible key cmds l)
  | [], _ => isTrue trivial
  | .insert item :: cmds, l =>
      @instDecidableAnd _ _ (inferInstanceAs (Decidable (item ∉ l)))
        (admissible.decidable key cmds (content_after key (.insert item) l))
  | .pop :: cmds, l =>
      @instDecidableAnd _ _ (inferInstanceAs (Decidable (l ≠ [])))
        (admissible.decidable key cmds (content_after key .pop l))
  | .remove item :: cmds, l =>
      @instDecidableAnd _ _ (inferInstanceAs (Decidable (item ∈ l)))
        (admissible.decidable key cmds (content_after key (.remove item) l))

/-- Three timers with unset links: timer 1 is due at 5 s, timer 2 at 3 s, every other one at
4 s. -/
def sample_timers : timer_fields :=
  { next := fun _ => none, prev := fun _ => none,
    duetime := fun a => if a = 1 then { seconds_ := 5 } else if a = 2 then { seconds_ := 3 }
      else { seconds_ := 4 } }

/-- Timers 1, 2, 3 and 4 are inserted, timer 3 is removed from the middle and the head is
popped. -/
def sample_commands : List heap_command :=
  [.insert 1, .insert 2, .insert 3, .insert 4, .remove 3, .pop]

end intrusive_heap

/-! ## io_uring_buffer.hpp, io_uring_read_write.hpp -/

/-- Number of values of a `std::size_t`. -/
def two64 : Nat := 18446744073709551616

/-- Wrapping addition of `std::size_t`. -/
@[irreducible] def add64 (a b : Nat) : Nat := (a + b) % two64

/-- Wrapping subtraction of `std::size_t`: the difference modulo `2^64`. -/
@[irreducible] def sub64 (a b : Nat) : Nat :=
  if b % two64 ≤ a % two64 then a % two64 - b % two64 else a % two64 + two64 - b % two64

/-- Conversion of a signed integer to a 64-bit unsigned one (`std::size_t`, `__u64`). -/
@[irreducible] def int_to_u64 (i : Int) : Nat := (i % 18446744073709551616).toNat

/-- Conversion of a `std::size_t` to `int`: the value modulo `2^32`, read as a signed number. -/
@[irreducible] def u64_to_int (n : Nat) : Int :=
  if n % two32 < 2147483648 then ((n % two32 : Nat) : Int) else ((n % two32 : Nat) : Int) - 4294967296

/-- Constant of `linux/io_uring.h`. -/
def IORING_OP_READV : Nat := 1
/-- Constant of `linux/io_uring.h`. -/
def IORING_OP_WRITEV : Nat := 2
/-- Constant of `errno.h`: the value of `std::errc::no_message`. -/
def ENOMSG : Int := 42

/-- A `std::span` of bytes: the address of its first byte and its size. -/
structure span where
  data : Nat := 0
  size : Nat := 0
  deriving DecidableEq

/-- The function `buffer(data, size)`. -/
def buffer (data size : Nat) : span := { data := data, size := size }

/-- The function `advance(t, n)`: `buffer(t.data() + n, t.size() - n)`. -/
def advance (t : span) (n : Nat) : span := buffer (t.data + n) (sub64 t.size n)

/-- The struct `iovec`. -/
structure iovec where
  iov_base : Nat := 0
  iov_len : Nat := 0
  deriving DecidableEq

/-- The two categories of `std::error_code` that the operations use. -/
inductive error_category where
  | generic
  | system
  deriving DecidableEq

/-- A `std::error_code`; the default one has the value 0 and the system category. -/
structure error_code where
  value : Int := 0
  category : error_category := error_category.system
  deriving DecidableEq

/-- The value `std::make_error_code(std::errc::no_message)`. -/
def no_message : error_code := { value := ENOMSG, category := error_category.generic }

/-- The opcodes of the instantiations `read_type`, `read_some_type` (`IORING_OP_READV`) and
`write_type`, `write_some_type` (`IORING_OP_WRITEV`) of `rw_type`; for them `is_tcp` holds,
`is_udp` does not, and `seekable_t` is `bool`. -/
inductive rw_opcode where
  | readv
  | writev
  deriving DecidableEq

/-- The value of the template parameter `opcode`. -/
def rw_opcode.value : rw_opcode → Nat
  | .readv => IORING_OP_READV
  | .writev => IORING_OP_WRITEV

/-- The members of an `rw_type` for the opcodes READV and WRITEV, with its template parameters
`opcode` and `B` (fully-read or fully-write when true, the `some` variant when false).  The
members `next`, `execute_` and `result` of its base classes are in the context; `received` lists
the calls of `receiver` made so far, oldest first, with the error code and the `int` passed. -/
structure rw_type where
  opcode : rw_opcode
  B : Bool
  fd : Int
  offset : Int
  buffer_ : span
  seekable : Bool
  size : Nat
  bytes : Nat := 0
  buff : iovec := {}
  received : List (error_code × Int) := []

namespace io_uring_context

/-- The member `schedule_pending_io(op)`. -/
def schedule_pending_io (io_thread : Bool) (c : io_uring_context) (op : Nat) :
    Except Fault io_uring_context := do
  assert io_thread
  return { c with next := (c.pending_io_queue.push_back c.next op).1,
                  pending_io_queue := (c.pending_io_queue.push_back c.next op).2 }

end io_uring_context

namespace rw_type

open io_uring_context

/-- The member `init()` for an opcode that is not a UDP one. -/
def init (self : rw_type) : rw_type :=
  { self with buff := { iov_base := self.buffer_.data, iov_len := self.buffer_.size } }

/-- The constructor: the members from the arguments, `size` from the buffer, then `init()`. -/
def create (opcode : rw_opcode) (B : Bool) (fd : Int) (offset : Int) (buffer : span)
    (seekable : Bool) : rw_type :=
  init { opcode := opcode, B := B, fd := fd, offset := offset, buffer_ := buffer,
         seekable := seekable, size := buffer.size }

/-- The callable `fill` of `start_io` for the operation at address `a`. -/
def fill (self : rw_type) (a : Nat) : fill_callable :=
  .returns_void fun c sqe =>
    .ok ({ c with execute_ := Function.update c.execute_ a execute_fn.on_io_complete },
         { sqe with opcode := self.opcode.value, fd := self.fd, addr := address.buff a, len := 1,
                    off := int_to_u64 self.offset, user_data := address.object a })

/-- The member `start_io()`. -/
def start_io (io_thread : Bool) (self : rw_type) (a : Nat) (c : io_uring_context) :
    Except Fault io_uring_context := do
  assert io_thread
  let (c1, submitted) ← c.submit_io io_thread (self.fill a)
  if !submitted then
    schedule_pending_io io_thread
      { c1 with execute_ := Function.update c1.execute_ a execute_fn.on_schedule_complete } a
  else
    return c1

/-- The member `start()`. -/
def start (io_thread : Bool) (self : rw_type) (a : Nat) (c : io_uring_context) :
    Except Fault io_uring_context :=
  if !io_thread then
    .ok (schedule_remote
      { c with execute_ := Function.update c.execute_ a execute_fn.on_schedule_complete } a)
  else
    start_io io_thread self a c

/-- The static member `on_schedule_complete(op)`. -/
def on_schedule_complete (io_thread : Bool) (self : rw_type) (a : Nat) (c : io_uring_context) :
    Except Fault io_uring_context :=
  start_io io_thread self a c

/-- The call `receiver(ec, n)`. -/
def receive (self : rw_type) (ec : error_code) (n : Int) : rw_type :=
  { self with received := self.received ++ [(ec, n)] }

/-- The static member `on_io_complete(op)` for the operation at address `a`, whose `result` the
loop has stored in the context (64-bit overflow of `offset` aside). -/
def on_io_complete (io_thread : Bool) (self : rw_type) (a : Nat) (c : io_uring_context) :
    Except Fault (rw_type × io_uring_context) :=
  let result := c.result a
  if result ≥ 0 then
    let bytes := add64 self.bytes (int_to_u64 result)
    let offset := self.offset + (if self.seekable then 1 else 0) * result
    let self1 := { self with bytes := bytes, offset := offset }
    if (self1.B && (self1.bytes == 0 || self1.bytes == self1.size)) || !self1.B then
      if self1.bytes == 0 then
        .ok (self1.receive no_message (u64_to_int self1.bytes), c)
      else
        .ok (self1.receive {} (u64_to_int self1.bytes), c)
    else do
      let self2 := init { self1 with buffer_ := advance self1.buffer_ self1.bytes }
      let c1 ← self2.start io_thread a c
      return (self2, c1)
  else
    .ok (self.receive { value := -result, category := error_category.system } result, c)

/-- The context in which the loop calls `execute_` of the operation at `a` for a completion with
result `res`: the kernel has taken the submitted entries (`sq_head` has reached `sq_tail`, nothing
is unflushed; `cq_pending_count` went up in `io_uring_enter` and down again when the completion
was reaped), and `acquire_completion_queue_items` has stored the result. -/
def completion (res : Int) (a : Nat) (c : io_uring_context) : io_uring_context :=
  { c with sq_head := c.sq_tail, sq_unflushed_count := 0,
           result := Function.update c.result a res }

/-- The completions with the results of the list, first to last, each followed by the call of
`on_io_complete`. -/
def completions (a : Nat) : List Int → rw_type → io_uring_context →
    Except Fault (rw_type × io_uring_context)
  | [], self, c => .ok (self, c)
  | res :: rest, self, c => do
      let (self1, c1) ← on_io_complete true self a (completion res a c)
      completions a rest self1 c1

/-- At most `n` completions of a peer that transfers in chunks of `K` bytes: each completion
returns `min(K, iov_len)` for the window that was submitted; the run ends when the continuation
has been invoked. -/
def chunked_completions (K : Nat) (a : Nat) : Nat → rw_type → io_uring_context →
    Except Fault (rw_type × io_uring_context)
  | 0, self, c => .ok (self, c)
  | n + 1, self, c =>
      if self.received.isEmpty then do
        let (self1, c1) ← on_io_complete true self a (completion (min K self.buff.iov_len) a c)
        chunked_completions K a n self1 c1
      else .ok (self, c)

end rw_type

namespace rw_type

open io_uring_context

/-- A fully-read of 10 bytes at address 1000 into file descriptor 5, with the stored offset 100,
seekable. -/
def sample_read : rw_type := create rw_opcode.readv true 5 100 (buffer 1000 10) true

/-- A read of the `some` variant with the same arguments, not seekable. -/
def sample_read_some : rw_type := create rw_opcode.readv false 5 100 (buffer 1000 10) false

end rw_type

namespace rw_type

/-- The sample fully-read after a first completion of 4 of its 10 bytes. -/
def sample_read_partial : rw_type :=
  { sample_read with bytes := 4, offset := 104, buffer_ := buffer 1004 6,
                     buff := { iov_base := 1004, iov_len := 6 } }

end rw_type

/-! ## The race of an off-thread cancel with the expiry of a timer -/

namespace timer_impl

open io_uring_context

/-- The first statement of `request_stop_remote()`: the `fetch_add` of `cancel_pending_flag` on
the state word; the context after it and the value `old_state` that it returns. -/
def request_stop_remote_fetch (c : io_uring_context) (t : Nat) : io_uring_context × Nat :=
  ({ c with state := Function.update c.state t (add32 (c.state t) cancel_pending_flag) },
   c.state t)

/-- The rest of `request_stop_remote()`, with the `old_state` that the `fetch_add` returned. -/
def request_stop_remote_post (c : io_uring_context) (t : Nat) (old_state : Nat) :
    io_uring_context :=
  if old_state &&& timer_elapsed_flag = 0 then
    schedule_remote { c with execute_ := Function.update c.execute_ t execute_fn.remove_timer } t
  else c

/-- A step of one of the two threads: the cancelling thread runs `request_stop_remote()`, which is
its `fetch_add` and then the rest; the loop thread runs the members that `run_impl` calls.  The
loop thread shares the state word only through the `fetch_add` inside `update_timers()`. -/
inductive race_step where
  | cancel_fetch
  | cancel_post
  | update_timers
  | acquire_remote_queued_items
  | execute_pending_local
  deriving DecidableEq

/-- The context, and the local variable `old_state` of the cancelling thread once its `fetch_add`
has returned. -/
structure race_state where
  context : io_uring_context
  old_state : Option Nat := none

/-- One step on the timer `t`; the loop thread calls `update_timers()` when `timers_are_dirty` and
`acquire_remote_queued_items()` when no read of the event descriptor is submitted, as `run_impl`
does. -/
def race_step.run (fuel : Nat) (now : time_point) (t : Nat) :
    race_step → race_state → Except Fault race_state
  | .cancel_fetch, st =>
      .ok { context := (request_stop_remote_fetch st.context t).1,
            old_state := some (request_stop_remote_fetch st.context t).2 }
  | .cancel_post, st =>
      match st.old_state with
      | some old_state =>
          .ok { st with context := request_stop_remote_post st.context t old_state }
      | none => .error Fault.lifetime
  | .update_timers, st =>
      if st.context.timers_are_dirty then
        (st.context.update_timers fuel now).map fun c => { st with context := c }
      else .ok st
  | .acquire_remote_queued_items, st =>
      if !st.context.remote_queue_read_submitted then
        (st.context.acquire_remote_queued_items fuel).map fun c => { st with context := c }
      else .ok st
  | .execute_pending_local, st =>
      (st.context.execute_pending_local (execute fuel) fuel).map fun c => { st with context := c }

/-- A sequence of steps, first to last. -/
def race_run (fuel : Nat) (now : time_point) (t : Nat) :
    List race_step → race_state → Except Fault race_state
  | [], st => .ok st
  | s :: rest, st =>
      match s.run fuel now t st with
      | .ok st1 => race_run fuel now t rest st1
      | .error e => .error e

/-- The interleavings of `x :: xs` with a second sequence, where `with_xs` gives the interleavings
of `xs` with a sequence: `x` goes first, or the first step of the second sequence does. -/
def interleavings_from (x : race_step) (xs : List race_step)
    (with_xs : List race_step → List (List race_step)) : List race_step → List (List race_step)
  | [] => [x :: xs]
  | y :: ys =>
      (with_xs (y :: ys)).map (fun l => x :: l) ++
      (interleavings_from x xs with_xs ys).map (fun l => y :: l)

/-- All the interleavings of two sequences of steps that keep the order of each. -/
def interleavings : List race_step → List race_step → List (List race_step)
  | [], ys => [ys]
  | x :: xs, ys => interleavings_from x xs (interleavings xs) ys

/-- The steps of the cancelling thread. -/
def cancel_program : List race_step := [.cancel_fetch, .cancel_post]

/-- The steps of the loop thread during the race: it drains the remote queue and runs the local
queue, then two iterations of the loop. -/
def loop_program : List race_step :=
  [.acquire_remote_queued_items, .execute_pending_local,
   .update_timers, .acquire_remote_queued_items, .execute_pending_local,
   .update_timers, .acquire_remote_queued_items, .execute_pending_local]

/-- One more iteration of the loop, after both threads have made their steps. -/
def loop_drain : List race_step :=
  [.update_timers, .acquire_remote_queued_items, .execute_pending_local]

/-- The timer `t` is armed in the context: it is the only timer of the heap, due at `now` and
cancelable, its state word is zero and its `execute_` is `on_timeout`; nothing is queued locally
or remotely, no kernel timeout and no read of the event descriptor is submitted, and the timers
are marked dirty (the kernel timeout has fired). -/
def armed (c : io_uring_context) (t : Nat) (now : time_point) : Prop :=
  c.timers.head = some t ∧ c.timer.next t = none ∧ c.timer.prev t = none ∧
  c.state t = 0 ∧ c.execute_ t = execute_fn.on_timeout ∧
  c.local_queue = {} ∧ c.remote_queue_.head = head_value.null ∧
  c.cancelable t = true ∧ (c.timer.duetime t).le now = true ∧ c.current_duetime = none ∧
  c.remote_queue_read_submitted = false ∧ c.timers_are_dirty = true

instance (c : io_uring_context) (t : Nat) (now : time_point) : Decidable (armed c t now) := by
  unfold armed; exact inferInstance

/-- What the race can change for the timer `t`: whether it is in the heap, its state word, its
`execute_`, whether it is in the local queue and in the remote queue, the codes passed to its
receiver and the number of calls of its `execute_` since the start, and `old_state`. -/
structure race_view where
  in_heap : Bool := true
  state : Nat := 0
  execute_ : execute_fn := execute_fn.on_timeout
  in_local : Bool := false
  in_remote : Bool := false
  codes : List Int := []
  runs : Nat := 0
  old_state : Option Nat := none
  deriving DecidableEq

/-- The context of `st` looks like `v` for the timer `t`, where `c0` is the context at the
start. -/
def abstracts (c0 : io_uring_context) (t : Nat) (now : time_point) (st : race_state)
    (v : race_view) : Prop :=
  st.old_state = v.old_state ∧
  st.context.timers.head = (if v.in_heap then some t else none) ∧
  (v.in_heap = true → st.context.timer.next t = none ∧ st.context.timer.prev t = none) ∧
  st.context.state t = v.state ∧ st.context.execute_ t = v.execute_ ∧
  st.context.local_queue = (if v.in_local then { head := some t, tail := some t } else {}) ∧
  st.context.remote_queue_.head = (if v.in_remote then head_value.item t else head_value.null) ∧
  (v.in_local = true ∨ v.in_remote = true → st.context.next t = none) ∧
  st.context.received = c0.received ++ v.codes.map (fun code => (t, code)) ∧
  st.context.executed = c0.executed ++ List.replicate v.runs t ∧
  st.context.cancelable t = true ∧ (st.context.timer.duetime t).le now = true ∧
  st.context.current_duetime = none ∧ st.context.remote_queue_read_submitted = false ∧
  st.context.timers_are_dirty = true

/-- The effect of a step on the view; `none` where the step would queue the timer twice or meet
an `execute_` that the race does not store. -/
def race_view.step : race_step → race_view → Option race_view
  | .cancel_fetch, v =>
      some { v with state := add32 v.state cancel_pending_flag, old_state := some v.state }
  | .cancel_post, v =>
      match v.old_state with
      | none => none
      | some old_state =>
          if old_state &&& timer_elapsed_flag = 0 then
            if v.in_local || v.in_remote then none
            else some { v with execute_ := execute_fn.remove_timer, in_remote := true }
          else some v
  | .update_timers, v =>
      if v.in_heap then
        if v.state &&& cancel_pending_flag != 0 then
          some { v with in_heap := false, state := add32 v.state timer_elapsed_flag }
        else if v.in_local || v.in_remote then none
        else some { v with in_heap := false, state := add32 v.state timer_elapsed_flag,
                           in_local := true }
      else some v
  | .acquire_remote_queued_items, v =>
      if v.in_remote then
        if v.in_local then none else some { v with in_remote := false, in_local := true }
      else some v
  | .execute_pending_local, v =>
      if v.in_local then
        match v.execute_ with
        | .on_timeout =>
            some { v with in_local := false, runs := v.runs + 1, codes := v.codes ++ [0] }
        | .remove_timer =>
            if v.state &&& timer_elapsed_flag = 0 then
              if v.in_heap then
                some { v with in_local := false, runs := v.runs + 1, in_heap := false,
                              codes := v.codes ++ [ECANCELED] }
              else none
            else
              some { v with in_local := false, runs := v.runs + 1,
                            codes := v.codes ++ [ECANCELED] }
        | _ => none
      else some v

/-- The effect of a sequence of steps on the view. -/
def race_view.run : List race_step → race_view → Option race_view
  | [], v => some v
  | s :: rest, v =>
      match race_view.step s v with
      | some v1 => race_view.run rest v1
      | none => none

end timer_impl

namespace timer_impl

/-- After the steps `s` of the two threads and the draining iteration, the view shows one
delivery: `execute_` of the timer was called once and the timer is in no heap and no queue; if
the `fetch_add` of the cancelling thread came before the first `update_timers()`, it saw no flag,
the receiver got `ECANCELED` once and `execute_` is the posted `remove_timer`; otherwise it saw
`timer_elapsed_flag`, the receiver got success once and `execute_` is still `on_timeout`. -/
def race_view.delivered_once (s : List race_step) (v : race_view) : Bool :=
  decide (v.runs = 1 ∧ v.in_heap = false ∧ v.in_local = false ∧ v.in_remote = false ∧
    if s.indexOf race_step.cancel_fetch < s.indexOf race_step.update_timers then
      v.old_state = some 0 ∧ v.codes = [ECANCELED] ∧ v.execute_ = execute_fn.remove_timer
    else
      v.old_state = some timer_elapsed_flag ∧ v.codes = [0] ∧
        v.execute_ = execute_fn.on_timeout)

end timer_impl

namespace timer_impl

/-- An interleaving in which the loop thread runs `update_timers()` between the `fetch_add` of the
cancelling thread and the rest of `request_stop_remote()`. -/
def sample_interleaving : List race_step :=
  [.acquire_remote_queued_items, .execute_pending_local, .cancel_fetch, .update_timers,
   .acquire_remote_queued_items, .cancel_post, .execute_pending_local, .update_timers,
   .acquire_remote_queued_items, .execute_pending_local]

end timer_impl

namespace time_point

/-- The instant of a time point in nanoseconds. -/
def total_nanoseconds (tp : time_point) : Int :=
  tp.seconds_part * 1000000000 + tp.nanoseconds_part

/-- The `operator-` of two time points: a `duration` in ticks of 100 nanoseconds; the division
of C++ truncates towards zero. -/
def sub (a b : time_point) : Int :=
  (a.seconds_ - b.seconds_) * 10000000 + Int.tdiv (a.nanoseconds_ - b.nanoseconds_) 100

/-- The `operator+` with a `duration` of the clock: `d` ticks of 100 nanoseconds. -/
def add (a : time_point) (d : Int) : time_point := add_duration a d 100

end time_point

namespace io_uring_context

/-- A context whose armed timeout was removed: one timer submission is in flight, the timers are
not dirty, and the kernel has queued the completion of the removed timeout, which carries
`-ECANCELED`. -/
def canceled_timeout_context : io_uring_context :=
  { sq_entry_count := 4, sq_mask := 3, cq_entry_count := 8, cq_mask := 7,
    active_timer_count := 1, cq_tail := 1, cq_pending_count := 1,
    cq_entries := fun _ => { user_data := address.timers, res := -ECANCELED } }

/-- After the last timer fired: the heap is empty, no deadline is armed, and the completion of
the timeout has marked the timers dirty. -/
def fired_context : io_uring_context :=
  { sq_entry_count := 4, sq_mask := 3, cq_entry_count := 8, cq_mask := 7,
    timers_are_dirty := true }

end io_uring_context

namespace intrusive_heap

/-- Exactly `n` calls of `pop()`: the items in pop order, and the fields and the heap that are
left. -/
def pop_n : Nat → timer_fields → intrusive_heap →
    Except Fault (List Nat × timer_fields × intrusive_heap)
  | 0, m, h => .ok ([], m, h)
  | n + 1, m, h => do
      let (m1, h1, item) ← h.pop m
      let (items, m2, h2) ← pop_n n m1 h1
      return (item :: items, m2, h2)

end intrusive_heap

namespace intrusive_heap

/-- The timers of `sample_timers` with timer 2 (due at 3 s), timer 3 (due at 4 s) and timer 1
(due at 5 s) linked in this order. -/
def linked_timers : timer_fields :=
  { sample_timers with
    next := fun a => if a = 2 then some 3 else if a = 3 then some 1 else none,
    prev := fun a => if a = 3 then some 2 else if a = 1 then some 3 else none }

/-- The heap of `linked_timers`. -/
def linked_heap : intrusive_heap := { head := some 2 }

end intrusive_heap

namespace io_uring_context

/-- The context `c1` with the members that the first loop of `update_timers()` writes (the heap
and the links of the timers, the state words, the local queue and its links) taken from `c`. -/
def timer_frame (c1 c : io_uring_context) : io_uring_context :=
  { c1 with timer := c.timer, timers := c.timers, state := c.state, next := c.next,
            local_queue := c.local_queue }

/-- The timer `t` is due at `now`: `t->duetime <= now`. -/
def is_due (c : io_uring_context) (now : time_point) (t : Nat) : Bool :=
  (c.timer.duetime t).le now

/-- The timer `t` is cancelable and its state word has `cancel_pending_flag`: the first loop of
`update_timers()` drops such a timer after popping it. -/
def is_discarded (c : io_uring_context) (t : Nat) : Bool :=
  c.cancelable t && (c.state t &&& cancel_pending_flag != 0)

end io_uring_context

namespace io_uring_context

/-- The context `c1` has the timers, their state words, the local queue and the record of calls
of the context `c`. -/
def same_timers (c1 c : io_uring_context) : Prop :=
  c1.timer = c.timer ∧ c1.timers = c.timers ∧ c1.state = c.state ∧ c1.next = c.next ∧
  c1.local_queue = c.local_queue ∧ c1.cancelable = c.cancelable ∧ c1.received = c.received ∧
  c1.executed = c.executed

end io_uring_context

namespace io_uring_context

/-- A context whose heap holds the cancelable timers 2 (due at 3 s), 3 (due at 4 s) and 1 (due at
5 s); the state word of timer 2 has `cancel_pending_flag`; no deadline is armed and the local
queue is empty. -/
def due_context : io_uring_context :=
  { idle_context with
    timer := intrusive_heap.linked_timers,
    timers := intrusive_heap.linked_heap,
    cancelable := fun _ => true,
    state := fun a => if a = 2 then cancel_pending_flag else 0,
    timers_are_dirty := true }

end io_uring_context

namespace io_uring_context

/-- The submission ring is within its bounds, which is what `submit_io` asserts. -/
def sq_within_bounds (c : io_uring_context) : Prop :=
  sub32 c.sq_tail c.sq_head ≤ c.sq_entry_count

/-- The number of `TIMEOUT_REMOVE` entries submitted by a call that led from `c` to `c1`: the
entries that the call put on the submission ring less the `TIMEOUT` entries among them, which
`active_timer_count` counts. -/
def removals_submitted (c c1 : io_uring_context) : Nat :=
  sub32 c1.sq_tail c.sq_tail - sub32 c1.active_timer_count c.active_timer_count

/-- A step of the loop, on a context paired with the number of `TIMEOUT_REMOVE` submissions that
no reaped timer completion has followed yet: a call of `update_timers()` that returns, which
adds the removals that it submitted; a round of `acquire_completion_queue_items()` that reaps a
completion of the timer sentinel, which takes one off; or any other step, which leaves
`active_timer_count` and `current_duetime` alone and the submission ring within its bounds. -/
inductive timeout_step : io_uring_context × Nat → io_uring_context × Nat → Prop
  | update_timers (fuel : Nat) (now : time_point) (c c1 : io_uring_context) (n : Nat) :
      c.update_timers fuel now = .ok c1 → timeout_step (c, n) (c1, n + removals_submitted c c1)
  | reap (bytes_read : Nat → Int) (head i : Nat) (c c1 : io_uring_context)
      (q q1 : intrusive_queue) (n : Nat) :
      (c.cq_entries ((add32 head i) &&& c.cq_mask)).user_data = address.timers →
      acquire_completion bytes_read head (c, q) i = .ok (c1, q1) →
      timeout_step (c, n) (c1, n - 1)
  | other (c c1 : io_uring_context) (n : Nat) :
      c1.active_timer_count = c.active_timer_count → c1.current_duetime = c.current_duetime →
      sq_within_bounds c1 → timeout_step (c, n) (c1, n)

/-- The contexts that the loop reaches from `c0`, each with the number of outstanding
removals. -/
def reaches (c0 : io_uring_context) (s : io_uring_context × Nat) : Prop :=
  Relation.ReflTransGen timeout_step (c0, 0) s

/-- A context without timers in which timer 1 is due at 10 s and timer 2 at 3 s. -/
def two_timers_context : io_uring_context :=
  { idle_context with
    timer := { idle_context.timer with
      duetime := fun a => if a = 1 then { seconds_ := 10 } else { seconds_ := 3 } } }

/-- The loop starts timer 1 and arms its deadline, then starts timer 2, which is due earlier,
and arms again, all at the time 0 s. -/
def rearm_run : Except Fault io_uring_context := do
  let c1 ← two_timers_context.insert_timer 4 true 1
  let c2 ← c1.update_timers 4 {}
  let c3 ← c2.insert_timer 4 true 2
  c3.update_timers 4 {}

end io_uring_context

namespace io_uring_context

/-- What holds of every context that the loop reaches, with `n` the number of outstanding
removals: the submission ring is within its bounds, `active_timer_count` is at most `1 + n`,
and it is at most `n` while no deadline is armed. -/
def timeout_invariant (s : io_uring_context × Nat) : Prop :=
  sq_within_bounds s.1 ∧ s.1.active_timer_count ≤ 1 + s.2 ∧
  (s.1.current_duetime = none → s.1.active_timer_count ≤ s.2)

end io_uring_context

namespace io_uring_context

/-- The context after `insert_timer` of timer 1 on `two_timers_context`. -/
def rearm_started : io_uring_context :=
  { two_timers_context with
    timer := { two_timers_context.timer with
      next := Function.update two_timers_context.timer.next 1 none,
      prev := Function.update two_timers_context.timer.prev 1 none },
    timers := { head := some 1 },
    timers_are_dirty := true }

/-- The context after `update_timers` on `rearm_started` at 0 s: a `TIMEOUT` at 10 s is in slot
0. -/
def rearm_armed : io_uring_context :=
  { rearm_started with
    sq_entries := Function.update (Function.update rearm_started.sq_entries 0 {}) 0
      { opcode := IORING_OP_TIMEOUT, addr := address.time_, len := 1,
        timeout_flags := IORING_TIMEOUT_ABS, user_data := address.timers },
    sq_index_array := Function.update rearm_started.sq_index_array 0 0,
    sq_tail := 1,
    sq_unflushed_count := 1,
    time_ := { tv_sec := 10, tv_nsec := 0 },
    active_timer_count := 1,
    current_duetime := some { seconds_ := 10 },
    timers_are_dirty := false }

/-- The context after `insert_timer` of timer 2 on `rearm_armed`: timer 2 is the new head. -/
def rearm_restarted : io_uring_context :=
  { rearm_armed with
    timer := { rearm_armed.timer with
      next := Function.update rearm_armed.timer.next 2 (some 1),
      prev := Function.update (Function.update rearm_armed.timer.prev 2 none) 1 (some 2) },
    timers := { head := some 2 },
    timers_are_dirty := true }

/-- The context after `update_timers` on `rearm_restarted` at 0 s: a `TIMEOUT_REMOVE` is in slot
1 and a `TIMEOUT` at 3 s in slot 2. -/
def rearm_rearmed : io_uring_context :=
  { rearm_restarted with
    sq_entries :=
      Function.update
        (Function.update
          (Function.update (Function.update rearm_restarted.sq_entries 1 {}) 1
            { opcode := IORING_OP_TIMEOUT_REMOVE, addr := address.timers,
              user_data := address.current_duetime })
          2 {})
        2
        { opcode := IORING_OP_TIMEOUT, addr := address.time_, len := 1,
          timeout_flags := IORING_TIMEOUT_ABS, user_data := address.timers },
    sq_index_array := Function.update (Function.update rearm_restarted.sq_index_array 1 1) 2 2,
    sq_tail := 3,
    sq_unflushed_count := 3,
    time_ := { tv_sec := 3, tv_nsec := 0 },
    active_timer_count := 2,
    current_duetime := some { seconds_ := 3 },
    timers_are_dirty := false }

end io_uring_context

namespace steady_timer

/-- The context after `cancel()` was called twice off the loop thread on `started_context`,
where the timer at address 1 is in the heap. -/
def twice_cancelled_context : io_uring_context :=
  timer_impl.request_stop_remote (timer_impl.request_stop_remote started_context 1) 1

/-- From `started_context`, at a time before 3 s: `cancel()` twice off the loop thread, then the
loop drains the remote queue and runs the local queue. -/
def cancel_twice_in_heap (fuel : Nat) : Except Fault io_uring_context := do
  let c1 ← cancel false { sample_timer with p := some 1 } started_context
  let c2 ← cancel false { sample_timer with p := some 1 } c1
  let c3 ← c2.acquire_remote_queued_items fuel
  c3.execute_pending_local (timer_impl.execute fuel) fuel

end steady_timer

end unp

/-! # Theorems -/

namespace unp

theorem add32_of_lt (a b : Nat) (h : a + b < two32) : add32 a b = a + b := by
  unfold add32
  exact Nat.mod_eq_of_lt h

theorem sub32_of_le (a b : Nat) (hb : b ≤ a) (ha : a < two32) : sub32 a b = a - b := by
  unfold sub32
  have h1 : a % two32 = a := Nat.mod_eq_of_lt ha
  have h2 : b % two32 = b := Nat.mod_eq_of_lt (by omega)
  rw [h1, h2, if_pos hb]

theorem int_to_u32_of_nonneg (i : Int) (h0 : 0 ≤ i) (h1 : i < 4294967296) :
    int_to_u32 i = i.toNat := by
  unfold int_to_u32
  rw [Int.emod_eq_of_lt h0 h1]

namespace io_uring_context

theorem remote_queue_fill_keeps_ring (fuel : Nat) : (remote_queue_fill fuel).keeps_ring := by
  intro c sqe c1 sqe1 filled h
  simp only [remote_queue_fill, fill_callable.call] at h
  cases hm : c.remote_queue_.mark_inactive_or_dequeue_all fuel c.next with
  | error e => simp [hm, bind, Except.bind] at h
  | ok r =>
    obtain ⟨n1, rq, qi⟩ := r
    simp only [hm, bind, Except.bind] at h
    by_cases hq : qi.empty
    · simp [hq, pure, Except.pure] at h
      obtain ⟨rfl, -, -⟩ := h
      simp
    · simp only [hq, schedule_local_queue] at h
      cases ha : c.local_queue.append n1 qi with
      | error e => simp [ha, bind, Except.bind] at h
      | ok r2 =>
        simp [ha, bind, Except.bind, pure, Except.pure] at h
        obtain ⟨rfl, -, -⟩ := h
        simp

theorem pending_operation_count_eq (c : io_uring_context) (h : c.counters_ok) :
    c.pending_operation_count = c.cq_pending_count + c.sq_unflushed_count := by
  obtain ⟨h1, h2⟩ := h
  unfold pending_operation_count add32
  exact Nat.mod_eq_of_lt (by omega)

theorem submit_io_not_called (io_thread : Bool) (fill : fill_callable) (c : io_uring_context)
    (hthread : io_thread = true)
    (h : c.cq_entry_count ≤ c.pending_operation_count ∨
         (sub32 c.sq_tail c.sq_head = c.sq_entry_count)) :
    c.submit_io io_thread fill = .ok (c, false) := by
  subst hthread
  unfold submit_io
  rcases h with h | h
  · have : ¬ c.pending_operation_count < c.cq_entry_count := by omega
    simp [assert, bind, Except.bind, this, pure, Except.pure]
  · by_cases hp : c.pending_operation_count < c.cq_entry_count
    · simp [assert, bind, Except.bind, hp, h, pure, Except.pure]
    · simp [assert, bind, Except.bind, hp, pure, Except.pure]

theorem submit_io_called (io_thread : Bool) (fill : fill_callable) (c c1 : io_uring_context)
    (sqe : io_uring_sqe) (filled : Bool) (hthread : io_thread = true)
    (hp : c.pending_operation_count < c.cq_entry_count)
    (hu : sub32 c.sq_tail c.sq_head < c.sq_entry_count)
    (hcall : fill.call c.zero_slot {} = .ok (c1, sqe, filled)) :
    c.submit_io io_thread fill =
      .ok (if filled then
            { c1 with sq_entries := Function.update c1.sq_entries (c.sq_tail &&& c.sq_mask) sqe,
                      sq_index_array := Function.update c1.sq_index_array (c.sq_tail &&& c.sq_mask)
                        (c.sq_tail &&& c.sq_mask),
                      sq_tail := add32 c.sq_tail 1,
                      sq_unflushed_count := add32 c1.sq_unflushed_count 1 }
           else { c1 with sq_entries := Function.update c1.sq_entries (c.sq_tail &&& c.sq_mask) sqe },
           filled) := by
  subst hthread
  unfold submit_io
  have hle : sub32 c.sq_tail c.sq_head ≤ c.sq_entry_count := Nat.le_of_lt hu
  cases filled <;> simp [assert, bind, Except.bind, hp, hu, hle, hcall, pure, Except.pure]

theorem foldlM_preserves {σ : Type} (f : σ → Nat → Except Fault σ) (P : σ → Prop)
    (hf : ∀ s i s', P s → f s i = .ok s' → P s') :
    ∀ (l : List Nat) (s s' : σ), P s → l.foldlM f s = .ok s' → P s' := by
  intro l
  induction l with
  | nil =>
    intro s s' hs h
    simp [List.foldlM, pure, Except.pure] at h
    exact h ▸ hs
  | cons a l ih =>
    intro s s' hs h
    rw [List.foldlM_cons] at h
    cases hfa : f s a with
    | error e => simp [hfa, bind, Except.bind] at h
    | ok s1 =>
      simp only [hfa, bind, Except.bind] at h
      exact ih s1 s' (hf s a s1 hs hfa) h

theorem acquire_completion_counters (bytes_read : Nat → Int) (head : Nat)
    (s : io_uring_context × intrusive_queue) (i : Nat) (s' : io_uring_context × intrusive_queue)
    (h : acquire_completion bytes_read head s i = .ok s') : s'.1.counters = s.1.counters := by
  obtain ⟨c, q⟩ := s
  unfold acquire_completion at h
  simp only [bind, Except.bind, assert, pure, Except.pure, throw, throwThe, MonadExceptOf.throw] at h
  split_ifs at h
  iterate 6 (have h2 := Except.ok.inj h; subst h2; rfl)
  split at h
  · have h2 := Except.ok.inj h; subst h2; rfl
  · exact Except.noConfusion h

theorem schedule_local_queue_counters (c c' : io_uring_context) (ops : intrusive_queue)
    (h : c.schedule_local_queue ops = .ok c') : c'.counters = c.counters := by
  unfold schedule_local_queue at h
  cases ha : c.local_queue.append c.next ops with
  | error e => rw [ha] at h; exact Except.noConfusion h
  | ok r =>
    rw [ha] at h
    have h2 := Except.ok.inj h
    subst h2
    rfl

theorem acquire_completion_queue_items_counters (bytes_read : Nat → Int) (c c' : io_uring_context)
    (h : c.acquire_completion_queue_items bytes_read = .ok c') :
    c'.cq_entry_count = c.cq_entry_count ∧ c'.sq_unflushed_count = c.sq_unflushed_count ∧
    c'.cq_pending_count =
      if c.cq_head = c.cq_tail then c.cq_pending_count
      else sub32 c.cq_pending_count (sub32 c.cq_tail c.cq_head) := by
  unfold acquire_completion_queue_items at h
  by_cases hht : c.cq_head = c.cq_tail
  · simp only [hht, ne_eq, not_true_eq_false, if_false, pure, Except.pure] at h
    have h2 := Except.ok.inj h
    subst h2
    simp [hht]
  · simp only [ne_eq, hht, not_false_eq_true, if_true, bind, Except.bind, if_false] at h
    cases hassert : assert (decide (sub32 c.cq_tail c.cq_head ≤ c.cq_entry_count)) with
    | error e => rw [hassert] at h; exact Except.noConfusion h
    | ok u =>
      rw [hassert] at h
      simp only at h
      cases hfold : (List.range (sub32 c.cq_tail c.cq_head)).foldlM
          (acquire_completion bytes_read c.cq_head) (c, {}) with
      | error e => rw [hfold] at h; exact Except.noConfusion h
      | ok r =>
        rw [hfold] at h
        simp only at h
        have hr : r.1.counters = c.counters :=
          foldlM_preserves (acquire_completion bytes_read c.cq_head)
            (fun s => s.1.counters = c.counters)
            (fun s i s' hs hf => (acquire_completion_counters bytes_read c.cq_head s i s' hf).trans hs)
            _ (c, {}) r rfl hfold
        cases hs : r.1.schedule_local_queue r.2 with
        | error e => rw [hs] at h; exact Except.noConfusion h
        | ok c2 =>
          rw [hs] at h
          have hc2 := (schedule_local_queue_counters r.1 c2 r.2 hs).trans hr
          have h2 := Except.ok.inj h
          subst h2
          simp only [counters, Prod.mk.injEq] at hc2
          simp [hht, hc2.1, hc2.2.1, hc2.2.2]

theorem submit_io_counters (io_thread : Bool) (fill : fill_callable) (c c' : io_uring_context)
    (r : Bool) (hc : c.counters_ok) (hfill : fill.keeps_ring)
    (h : c.submit_io io_thread fill = .ok (c', r)) : c'.counters_ok := by
  cases io_thread with
  | false => simp [submit_io, assert, bind, Except.bind] at h
  | true =>
    have hpc := pending_operation_count_eq c hc
    by_cases hp : c.pending_operation_count < c.cq_entry_count
    · by_cases hu : sub32 c.sq_tail c.sq_head < c.sq_entry_count
      · cases hcall : fill.call c.zero_slot {} with
        | error e =>
          have hle : sub32 c.sq_tail c.sq_head ≤ c.sq_entry_count := Nat.le_of_lt hu
          simp [submit_io, assert, bind, Except.bind, hp, hu, hle, hcall] at h
        | ok res =>
          obtain ⟨c1, sqe, filled⟩ := res
          rw [submit_io_called true fill c c1 sqe filled rfl hp hu hcall] at h
          have hs := Except.ok.inj h
          obtain ⟨-, f2, f3, -, f5⟩ := hfill _ _ _ _ _ hcall
          have z2 : c.zero_slot.sq_unflushed_count = c.sq_unflushed_count := rfl
          have z3 : c.zero_slot.cq_pending_count = c.cq_pending_count := rfl
          have z5 : c.zero_slot.cq_entry_count = c.cq_entry_count := rfl
          rw [z2] at f2; rw [z3] at f3; rw [z5] at f5
          obtain ⟨hc1, hc2⟩ := hc
          cases filled with
          | false =>
            simp only [Bool.false_eq_true, if_false, Prod.mk.injEq] at hs
            rw [← hs.1]
            show c1.cq_entry_count < two32 ∧ c1.cq_pending_count + c1.sq_unflushed_count ≤ c1.cq_entry_count
            rw [f2, f3, f5]
            exact ⟨hc1, hc2⟩
          | true =>
            simp only [if_true, Prod.mk.injEq] at hs
            rw [← hs.1]
            have hlt : c.sq_unflushed_count + 1 < two32 := by omega
            show c1.cq_entry_count < two32 ∧
              c1.cq_pending_count + add32 c1.sq_unflushed_count 1 ≤ c1.cq_entry_count
            rw [f2, f3, f5, add32_of_lt _ _ hlt]
            exact ⟨hc1, by omega⟩
      · by_cases ha : sub32 c.sq_tail c.sq_head ≤ c.sq_entry_count
        · have he : sub32 c.sq_tail c.sq_head = c.sq_entry_count := by omega
          rw [submit_io_not_called true fill c rfl (Or.inr he)] at h
          have h2 := Except.ok.inj h
          simp only [Prod.mk.injEq] at h2
          exact h2.1 ▸ hc
        · simp [submit_io, assert, bind, Except.bind, hp, ha] at h
    · rw [submit_io_not_called true fill c rfl (Or.inl (by omega))] at h
      have h2 := Except.ok.inj h
      simp only [Prod.mk.injEq] at h2
      exact h2.1 ▸ hc

theorem run_impl_after_enter_counters (c : io_uring_context) (result : Int) (hc : c.counters_ok)
    (h0 : 0 ≤ result) (h1 : result ≤ c.sq_unflushed_count) :
    ∃ c', c.run_impl_after_enter result = .ok c' ∧
      c'.sq_unflushed_count = c.sq_unflushed_count - result.toNat ∧
      c'.cq_pending_count = c.cq_pending_count + result.toNat ∧ c'.counters_ok := by
  obtain ⟨hc1, hc2⟩ := hc
  have hr : result.toNat ≤ c.sq_unflushed_count := by omega
  have hlt : result < 4294967296 := by unfold two32 at hc1; omega
  have hi := int_to_u32_of_nonneg result h0 hlt
  have hs := sub32_of_le c.sq_unflushed_count result.toNat hr (by omega)
  have ha := add32_of_lt c.cq_pending_count result.toNat (by omega)
  refine ⟨_, by unfold run_impl_after_enter; rw [if_neg (by omega)], ?_, ?_, ?_, ?_⟩
  · simp only [hi, hs]
  · simp only [hi, ha]
  · exact hc1
  · simp only [hi, hs, ha]
    omega

theorem timer_cancel_fill_keeps_ring : timer_cancel_fill.keeps_ring := by
  intro c sqe c1 sqe1 filled h
  have h2 := Except.ok.inj h
  simp only [Prod.mk.injEq] at h2
  rw [← h2.1]
  exact ⟨rfl, rfl, rfl, rfl, rfl⟩

theorem timer_fill_keeps_ring (duetime : time_point) : (timer_fill duetime).keeps_ring := by
  intro c sqe c1 sqe1 filled h
  have h2 := Except.ok.inj h
  simp only [Prod.mk.injEq] at h2
  rw [← h2.1]
  exact ⟨rfl, rfl, rfl, rfl, rfl⟩

/-- C1: `pending_operation_count() = cq_pending_count + sq_unflushed_count <= cq_entry_count`
holds in the constructed context (both counters are 0), and it is kept by every `submit_io` call
whatever it returns, by the flush step of `run_impl` for every result of `io_uring_enter` between
0 and `sq_unflushed_count` (which moves `result` from `sq_unflushed_count` to
`cq_pending_count`), and by `acquire_completion_queue_items` when the number of reaped entries is
at most `cq_pending_count`. -/
theorem counters_invariant :
    (∀ sq_entry_count sq_mask cq_entry_count cq_mask, cq_entry_count < two32 →
      (init sq_entry_count sq_mask cq_entry_count cq_mask).cq_pending_count = 0 ∧
      (init sq_entry_count sq_mask cq_entry_count cq_mask).sq_unflushed_count = 0 ∧
      (init sq_entry_count sq_mask cq_entry_count cq_mask).counters_ok) ∧
    (∀ c : io_uring_context, c.counters_ok →
      c.pending_operation_count = c.cq_pending_count + c.sq_unflushed_count ∧
      c.pending_operation_count ≤ c.cq_entry_count) ∧
    (∀ (io_thread : Bool) (fill : fill_callable) (c c' : io_uring_context) (r : Bool),
      c.counters_ok → fill.keeps_ring → c.submit_io io_thread fill = .ok (c', r) → c'.counters_ok) ∧
    (∀ (c : io_uring_context) (result : Int), c.counters_ok → 0 ≤ result →
      result ≤ c.sq_unflushed_count →
      ∃ c', c.run_impl_after_enter result = .ok c' ∧
        c'.sq_unflushed_count = c.sq_unflushed_count - result.toNat ∧
        c'.cq_pending_count = c.cq_pending_count + result.toNat ∧ c'.counters_ok) ∧
    (∀ (bytes_read : Nat → Int) (c c' : io_uring_context), c.counters_ok →
      sub32 c.cq_tail c.cq_head ≤ c.cq_pending_count →
      c.acquire_completion_queue_items bytes_read = .ok c' → c'.counters_ok) := by
  refine ⟨?_, ?_, ?_, ?_, ?_⟩
  · intro a b n d hn
    exact ⟨rfl, rfl, hn, Nat.zero_le _⟩
  · intro c hc
    have h := pending_operation_count_eq c hc
    exact ⟨h, h ▸ hc.2⟩
  · intro io fill c c' r hc hfill h
    exact submit_io_counters io fill c c' r hc hfill h
  · intro c result hc h0 h1
    exact run_impl_after_enter_counters c result hc h0 h1
  · intro bytes_read c c' hc hcount h
    obtain ⟨h1, h2, h3⟩ := acquire_completion_queue_items_counters bytes_read c c' h
    obtain ⟨hc1, hc2⟩ := hc
    refine ⟨h1 ▸ hc1, ?_⟩
    rw [h1, h2, h3]
    split_ifs
    · exact hc2
    · rw [sub32_of_le _ _ hcount (by omega)]
      omega

theorem sample_context_ok : sample_context.counters_ok := by
  unfold counters_ok two32
  decide

theorem counters_invariant_witness :
    (init 4 3 8 7).counters_ok ∧
    sample_context.pending_operation_count = 5 ∧
    (∃ c', sample_context.submit_io true timer_cancel_fill = .ok (c', true) ∧
      c'.sq_unflushed_count = 3 ∧ c'.counters_ok) ∧
    (∃ c', sample_context.run_impl_after_enter 2 = .ok c' ∧ c'.sq_unflushed_count = 0 ∧
      c'.cq_pending_count = 5 ∧ c'.counters_ok) ∧
    (∃ c', sample_context.acquire_completion_queue_items (fun _ => 8) = .ok c' ∧
      c'.cq_pending_count = 1 ∧ c'.counters_ok) := by
  have hsub : ∃ c', sample_context.submit_io true timer_cancel_fill = .ok (c', true) ∧
      c'.sq_unflushed_count = 3 := ⟨_, by with_unfolding_all rfl, by with_unfolding_all rfl⟩
  have hacq : ∃ c', sample_context.acquire_completion_queue_items (fun _ => 8) = .ok c' ∧
      c'.cq_pending_count = 1 := ⟨_, by with_unfolding_all rfl, by with_unfolding_all rfl⟩
  obtain ⟨c1, h1, h1'⟩ := hsub
  obtain ⟨c2, h2, h2'⟩ := hacq
  obtain ⟨c3, h3, h3a, h3b, h3c⟩ :=
    counters_invariant.2.2.2.1 sample_context 2 sample_context_ok (by decide) (by decide)
  refine ⟨(counters_invariant.1 4 3 8 7 (by unfold two32; decide)).2.2, ?_, ?_, ?_, ?_⟩
  · exact (counters_invariant.2.1 sample_context sample_context_ok).1
  · exact ⟨c1, h1, h1', counters_invariant.2.2.1 true timer_cancel_fill sample_context c1 true
      sample_context_ok timer_cancel_fill_keeps_ring h1⟩
  · exact ⟨c3, h3, h3a, h3b, h3c⟩
  · exact ⟨c2, h2, h2', counters_invariant.2.2.2.2 (fun _ => 8) sample_context c2
      sample_context_ok (by with_unfolding_all decide) h2⟩

/-- C2: on the loop thread and in a ring that passes the assert of `submit_io`
(`used_count <= sq_entry_count`), `submit_io(fill)` returns false and leaves `sq_tail`,
`sq_unflushed_count`, `cq_pending_count` and the index array as they were when
`pending_operation_count() >= cq_entry_count`, or `sq_tail - sq_head >= sq_entry_count` (the
callable is then not called and nothing changes at all), or the callable returns false; in every
other case it returns true, the slot index `tail & sq_mask` is stored in the index array at that
index, and `sq_tail` and `sq_unflushed_count` are incremented by 1 as `std::uint32_t`. -/
theorem submit_io_contract (fill : fill_callable) (c : io_uring_context)
    (hfill : fill.keeps_ring) (hassert : sub32 c.sq_tail c.sq_head ≤ c.sq_entry_count) :
    (c.cq_entry_count ≤ c.pending_operation_count ∨ c.sq_entry_count ≤ sub32 c.sq_tail c.sq_head →
      c.submit_io true fill = .ok (c, false)) ∧
    (¬ (c.cq_entry_count ≤ c.pending_operation_count ∨ c.sq_entry_count ≤ sub32 c.sq_tail c.sq_head) →
      ∀ c1 sqe, fill.call c.zero_slot {} = .ok (c1, sqe, false) →
        ∃ c', c.submit_io true fill = .ok (c', false) ∧
          c'.sq_tail = c.sq_tail ∧ c'.sq_unflushed_count = c.sq_unflushed_count ∧
          c'.cq_pending_count = c.cq_pending_count ∧ c'.sq_index_array = c.sq_index_array) ∧
    (¬ (c.cq_entry_count ≤ c.pending_operation_count ∨ c.sq_entry_count ≤ sub32 c.sq_tail c.sq_head) →
      ∀ c1 sqe, fill.call c.zero_slot {} = .ok (c1, sqe, true) →
        ∃ c', c.submit_io true fill = .ok (c', true) ∧
          c'.sq_index_array =
            Function.update c.sq_index_array (c.sq_tail &&& c.sq_mask) (c.sq_tail &&& c.sq_mask) ∧
          c'.sq_tail = add32 c.sq_tail 1 ∧
          c'.sq_unflushed_count = add32 c.sq_unflushed_count 1 ∧
          c'.cq_pending_count = c.cq_pending_count) := by
  refine ⟨?_, ?_, ?_⟩
  · intro h
    apply submit_io_not_called true fill c rfl
    rcases h with h | h
    · exact Or.inl h
    · exact Or.inr (by omega)
  · intro h c1 sqe hcall
    have hp : c.pending_operation_count < c.cq_entry_count := by omega
    have hu : sub32 c.sq_tail c.sq_head < c.sq_entry_count := by omega
    obtain ⟨f1, f2, f3, f4, -⟩ := hfill _ _ _ _ _ hcall
    refine ⟨_, submit_io_called true fill c c1 sqe false rfl hp hu hcall, ?_, ?_, ?_, ?_⟩
    · exact f1
    · exact f2
    · exact f3
    · exact f4
  · intro h c1 sqe hcall
    have hp : c.pending_operation_count < c.cq_entry_count := by omega
    have hu : sub32 c.sq_tail c.sq_head < c.sq_entry_count := by omega
    obtain ⟨-, f2, f3, f4, -⟩ := hfill _ _ _ _ _ hcall
    refine ⟨_, submit_io_called true fill c c1 sqe true rfl hp hu hcall, ?_, rfl, ?_, ?_⟩
    · show Function.update c1.sq_index_array _ _ = _
      rw [f4]
      rfl
    · show add32 c1.sq_unflushed_count 1 = _
      rw [f2]
      rfl
    · exact f3

theorem submit_io_contract_witness :
    timer_cancel_fill.keeps_ring ∧
    sub32 sample_context.sq_tail sample_context.sq_head ≤ sample_context.sq_entry_count ∧
    ¬ (sample_context.cq_entry_count ≤ sample_context.pending_operation_count ∨
       sample_context.sq_entry_count ≤ sub32 sample_context.sq_tail sample_context.sq_head) ∧
    ∃ c', sample_context.submit_io true timer_cancel_fill = .ok (c', true) ∧
      c'.sq_index_array 2 = 2 ∧ c'.sq_tail = 7 ∧ c'.sq_unflushed_count = 3 ∧
      c'.cq_pending_count = 3 := by
  have hassert : sub32 sample_context.sq_tail sample_context.sq_head ≤
      sample_context.sq_entry_count := by with_unfolding_all decide
  have hfull : ¬ (sample_context.cq_entry_count ≤ sample_context.pending_operation_count ∨
       sample_context.sq_entry_count ≤ sub32 sample_context.sq_tail sample_context.sq_head) := by
    with_unfolding_all decide
  obtain ⟨c', h, h1, h2, h3, h4⟩ :=
    (submit_io_contract timer_cancel_fill sample_context timer_cancel_fill_keeps_ring hassert).2.2
      hfull _ _ rfl
  refine ⟨timer_cancel_fill_keeps_ring, hassert, hfull, c', h, ?_, ?_, ?_, ?_⟩
  · rw [h1]; with_unfolding_all rfl
  · rw [h2]; with_unfolding_all rfl
  · rw [h3]; with_unfolding_all rfl
  · rw [h4]; rfl

end io_uring_context

namespace intrusive_queue

theorem chain_update_of_not_mem (next : next_field) (x : Nat) (v : Option Nat) :
    ∀ (l : List Nat) (p : Option Nat), x ∉ l → chain next p l → chain (Function.update next x v) p l := by
  intro l
  induction l with
  | nil => intro p _ h; exact h
  | cons a l ih =>
    intro p hx h
    obtain ⟨h1, h2⟩ := h
    have hax : a ≠ x := fun e => hx (e ▸ List.mem_cons_self _ _)
    refine ⟨h1, ?_⟩
    rw [Function.update_noteq hax]
    exact ih _ (fun hm => hx (List.mem_cons_of_mem _ hm)) h2

theorem chain_unique (next : next_field) :
    ∀ (l l' : List Nat) (p : Option Nat), chain next p l → chain next p l' → l = l' := by
  intro l
  induction l with
  | nil =>
    intro l' p h h'
    cases l' with
    | nil => rfl
    | cons b l' => exact absurd (h ▸ h'.1) (by simp)
  | cons a l ih =>
    intro l' p h h'
    cases l' with
    | nil => exact absurd (h' ▸ h.1) (by simp)
    | cons b l' =>
      have hab : a = b := Option.some.inj (h.1.symm.trans h'.1)
      subst hab
      rw [ih l' _ h.2 h'.2]

theorem chain_push_back (next : next_field) (x t : Nat) :
    ∀ (l : List Nat) (p : Option Nat), chain next p l → l.getLast? = some t → x ∉ l → l.Nodup →
      chain (Function.update (Function.update next x none) t (some x)) p (l ++ [x]) := by
  intro l
  induction l with
  | nil => intro p _ h; simp at h
  | cons a l ih =>
    intro p hc hlast hx hnd
    obtain ⟨h1, h2⟩ := hc
    have hxa : x ≠ a := fun e => hx (e ▸ List.mem_cons_self _ _)
    cases l with
    | nil =>
      simp only [List.getLast?_singleton, Option.some.injEq] at hlast
      subst hlast
      refine ⟨h1, ?_, ?_⟩
      · rw [Function.update_same]
      · rw [Function.update_noteq hxa, Function.update_same]
        exact rfl
    | cons b l =>
      rw [List.getLast?_cons_cons] at hlast
      have htm : t ∈ b :: l := List.mem_of_getLast?_eq_some hlast
      have hat : a ≠ t := fun e => (List.nodup_cons.mp hnd).1 (e ▸ htm)
      refine ⟨h1, ?_⟩
      rw [Function.update_noteq hat, Function.update_noteq (Ne.symm hxa)]
      exact ih _ h2 hlast (fun hm => hx (List.mem_cons_of_mem _ hm)) (List.nodup_cons.mp hnd).2

theorem holds_nil_iff (next : next_field) (q : intrusive_queue) :
    holds next q [] ↔ q = {} := by
  unfold holds chain
  constructor
  · intro h
    obtain ⟨h1, h2, -⟩ := h
    cases q
    simp only [List.getLast?_nil] at h1 h2
    subst h1; subst h2
    rfl
  · intro h
    subst h
    exact ⟨rfl, rfl, List.nodup_nil⟩

theorem push_back_holds (next : next_field) (q : intrusive_queue) (l : List Nat) (x : Nat)
    (h : holds next q l) (hx : x ∉ l) :
    holds (q.push_back next x).1 (q.push_back next x).2 (l ++ [x]) := by
  obtain ⟨hc, ht, hnd⟩ := h
  have hnd' : (l ++ [x]).Nodup := by
    rw [List.nodup_append]
    exact ⟨hnd, List.nodup_singleton x, by simpa using hx⟩
  cases hl : l.getLast? with
  | none =>
    have hnil : l = [] := List.getLast?_eq_none_iff.mp hl
    subst hnil
    rw [hl] at ht
    simp only [push_back, ht]
    exact ⟨⟨rfl, by rw [Function.update_same]; exact rfl⟩, rfl, hnd'⟩
  | some t =>
    rw [hl] at ht
    simp only [push_back, ht]
    refine ⟨chain_push_back next x t l _ hc hl hx hnd, ?_, hnd'⟩
    simp

theorem drain_of_chain (next : next_field) :
    ∀ (l : List Nat) (fuel : Nat) (q : intrusive_queue), chain next q.head l → l.length ≤ fuel →
      drain fuel next q = .ok l := by
  intro l
  induction l with
  | nil =>
    intro fuel q hc _
    have he : q.empty = true := by
      unfold intrusive_queue.empty
      rw [show q.head = none from hc]
      rfl
    cases fuel <;> simp [drain, he]
  | cons a l ih =>
    intro fuel q hc hfuel
    obtain ⟨hhead, hrest⟩ := hc
    cases fuel with
    | zero => simp at hfuel
    | succ fuel =>
      have he : q.empty = false := by
        unfold intrusive_queue.empty
        rw [hhead]
        rfl
      have h := ih fuel { head := next a, tail := if next a = none then none else q.tail } hrest
        (by simpa using hfuel)
      simp only [drain, he, Bool.false_eq_true, if_false, pop_front, hhead, bind, Except.bind, h,
        pure, Except.pure]

/-- Writes of `push_back` outside a chain leave the chain as it is. -/
theorem push_back_frame (next : next_field) (q : intrusive_queue) (l r : List Nat) (x : Nat)
    (p : Option Nat) (h : holds next q l) (hx : x ∉ r) (hd : ∀ y ∈ r, y ∉ l)
    (hr : chain next p r) : chain (q.push_back next x).1 p r := by
  obtain ⟨-, ht, -⟩ := h
  cases hl : l.getLast? with
  | none =>
    rw [hl] at ht
    simp only [push_back, ht]
    exact chain_update_of_not_mem next x none r p hx hr
  | some t =>
    rw [hl] at ht
    simp only [push_back, ht]
    have htl : t ∈ l := List.mem_of_getLast?_eq_some hl
    have htr : t ∉ r := fun hm => hd t hm htl
    exact chain_update_of_not_mem _ t _ r p htr (chain_update_of_not_mem next x none r p hx hr)

end intrusive_queue

namespace io_uring_context

open intrusive_queue

theorem schedule_local_fold (rest : List Nat) (p : Option Nat) :
    ∀ (s : List Nat) (c : io_uring_context) (loc : List Nat),
      holds c.next c.local_queue loc → chain c.next p rest → (∀ y ∈ rest, y ∉ loc) →
      unlinked_when_scheduled rest loc s = true →
      holds (s.foldl schedule_local c).next (s.foldl schedule_local c).local_queue (loc ++ s) ∧
      chain (s.foldl schedule_local c).next p rest ∧ (∀ y ∈ rest, y ∉ loc ++ s) ∧
      (s.foldl schedule_local c).executed = c.executed := by
  intro s
  induction s with
  | nil =>
    intro c loc hq hr hd _
    simp only [List.foldl_nil, List.append_nil]
    exact ⟨hq, hr, hd, trivial⟩
  | cons x xs ih =>
    intro c loc hq hr hd hu
    simp only [unlinked_when_scheduled, Bool.and_eq_true, Bool.not_eq_true',
      decide_eq_false_iff_not] at hu
    obtain ⟨⟨hxr, hxl⟩, hrec⟩ := hu
    have hq1 : holds (c.schedule_local x).next (c.schedule_local x).local_queue (loc ++ [x]) :=
      push_back_holds c.next c.local_queue loc x hq hxl
    have hr1 : chain (c.schedule_local x).next p rest :=
      push_back_frame c.next c.local_queue loc rest x p hq hxr hd hr
    have hd1 : ∀ y ∈ rest, y ∉ loc ++ [x] := by
      intro y hy hm
      rcases List.mem_append.mp hm with h | h
      · exact hd y hy h
      · exact hxr (List.mem_singleton.mp h ▸ hy)
    obtain ⟨a1, a2, a3, a4⟩ := ih (c.schedule_local x) (loc ++ [x]) hq1 hr1 hd1 hrec
    simp only [List.foldl_cons]
    rw [List.append_assoc] at a1 a3
    exact ⟨a1, a2, a3, a4⟩

theorem execute_pending_loop_batch (behaviour : List Nat → Nat → List Nat) :
    ∀ (rest : List Nat) (fuel : Nat) (pending : intrusive_queue) (c : io_uring_context)
      (loc : List Nat),
      chain c.next pending.head rest → rest.Nodup → holds c.next c.local_queue loc →
      (∀ y ∈ rest, y ∉ loc) → batch_well_formed behaviour c.executed rest loc = true →
      rest.length ≤ fuel →
      ∃ c', execute_pending_loop (scheduling_callback behaviour) fuel pending c = .ok c' ∧
        c'.executed = c.executed ++ rest ∧
        holds c'.next c'.local_queue (loc ++ scheduled_in_batch behaviour c.executed rest) := by
  intro rest
  induction rest with
  | nil =>
    intro fuel pending c loc hc _ hq _ _ _
    have he : pending.empty = true := by
      unfold intrusive_queue.empty
      rw [show pending.head = none from hc]
      rfl
    refine ⟨c, ?_, by simp, by simpa [scheduled_in_batch] using hq⟩
    cases fuel <;> simp [execute_pending_loop, he]
  | cons a rest ih =>
    intro fuel pending c loc hc hnd hq hd hwf hfuel
    obtain ⟨hhead, hrest⟩ := hc
    cases fuel with
    | zero => simp at hfuel
    | succ fuel =>
      have he : pending.empty = false := by
        unfold intrusive_queue.empty
        rw [hhead]
        rfl
      simp only [batch_well_formed, Bool.and_eq_true] at hwf
      obtain ⟨hu, hwf'⟩ := hwf
      have hd' : ∀ y ∈ rest, y ∉ loc := fun y hy => hd y (List.mem_cons_of_mem _ hy)
      obtain ⟨b1, b2, b3, b4⟩ := schedule_local_fold rest (c.next a)
        (behaviour (c.executed ++ [a]) a) { c with executed := c.executed ++ [a] } loc hq hrest hd' hu
      obtain ⟨c', e1, e2, e3⟩ := ih fuel
        { head := c.next a, tail := if c.next a = none then none else pending.tail }
        ((behaviour (c.executed ++ [a]) a).foldl schedule_local { c with executed := c.executed ++ [a] })
        (loc ++ behaviour (c.executed ++ [a]) a) b2 (List.nodup_cons.mp hnd).2 b1 b3
        (by rw [b4]; exact hwf') (by simpa using hfuel)
      refine ⟨c', ?_, ?_, ?_⟩
      · simp only [execute_pending_loop, he, Bool.false_eq_true, if_false, pop_front, hhead, bind,
          Except.bind, invoke, scheduling_callback]
        exact e1
      · rw [e2, b4]
        simp
      · rw [b4] at e3
        simpa [scheduled_in_batch, List.append_assoc] using e3

/-- C3: for a well-formed local queue holding the operations `l`, `execute_pending_local` returns
after calling `execute_` on exactly the operations of `l`, each once and in queue order, and the
operations that these calls scheduled locally are then the content of the local queue, in the
order in which they were scheduled, none of them having been run by this call because of being
scheduled.  Callbacks follow the rule of an intrusive queue: they schedule no operation that is
still linked in a queue. -/
theorem execute_pending_local_batch (behaviour : List Nat → Nat → List Nat)
    (c : io_uring_context) (l : List Nat) (fuel : Nat)
    (hq : holds c.next c.local_queue l)
    (hwf : batch_well_formed behaviour c.executed l [] = true) (hfuel : l.length ≤ fuel) :
    ∃ c', c.execute_pending_local (scheduling_callback behaviour) fuel = .ok c' ∧
      c'.executed = c.executed ++ l ∧
      holds c'.next c'.local_queue (scheduled_in_batch behaviour c.executed l) ∧
      intrusive_queue.drain (scheduled_in_batch behaviour c.executed l).length c'.next c'.local_queue =
        .ok (scheduled_in_batch behaviour c.executed l) := by
  by_cases hl : l = []
  · subst hl
    have hq0 : c.local_queue = {} := (holds_nil_iff c.next c.local_queue).mp hq
    have he : c.local_queue.empty = true := by rw [hq0]; rfl
    refine ⟨c, by simp [execute_pending_local, he], by simp, by simpa [scheduled_in_batch] using hq, ?_⟩
    simp only [scheduled_in_batch, List.length_nil]
    exact drain_of_chain c.next [] 0 c.local_queue hq.1 (Nat.le_refl _)
  · have he : c.local_queue.empty = false := by
      obtain ⟨hc, -, -⟩ := hq
      cases l with
      | nil => exact absurd rfl hl
      | cons a l =>
        unfold intrusive_queue.empty
        rw [hc.1]
        rfl
    obtain ⟨c', e1, e2, e3⟩ := execute_pending_loop_batch behaviour l fuel c.local_queue
      { c with local_queue := {} } [] hq.1 hq.2.2 ((holds_nil_iff c.next {}).mpr rfl)
      (fun _ _ hm => by simp at hm) hwf hfuel
    simp only [List.nil_append] at e3
    refine ⟨c', ?_, e2, e3, drain_of_chain c'.next _ _ c'.local_queue e3.1 (Nat.le_refl _)⟩
    simp only [execute_pending_local, he, Bool.false_eq_true, if_false]
    exact e1

end io_uring_context

namespace io_uring_context

theorem execute_pending_local_batch_witness :
    intrusive_queue.holds batch_context.next batch_context.local_queue [1, 2, 3] ∧
    batch_well_formed batch_behaviour batch_context.executed [1, 2, 3] [] = true ∧
    ∃ c', batch_context.execute_pending_local (scheduling_callback batch_behaviour) 3 = .ok c' ∧
      c'.executed = [1, 2, 3] ∧
      intrusive_queue.drain 3 c'.next c'.local_queue = .ok [4, 1, 5] := by
  have hq : intrusive_queue.holds batch_context.next batch_context.local_queue [1, 2, 3] := by
    decide
  have hwf : batch_well_formed batch_behaviour batch_context.executed [1, 2, 3] [] = true := by
    decide
  obtain ⟨c', h1, h2, -, h4⟩ :=
    execute_pending_local_batch batch_behaviour batch_context [1, 2, 3] 3 hq hwf (Nat.le_refl _)
  exact ⟨hq, hwf, c', h1, h2, h4⟩

end io_uring_context

namespace io_uring_context

theorem remote_queue_fill_local_queue (fuel : Nat) (c c1 : io_uring_context) (sqe sqe1 : io_uring_sqe)
    (h : (remote_queue_fill fuel).call c sqe = .ok (c1, sqe1, true)) :
    c1.local_queue = c.local_queue := by
  simp only [remote_queue_fill, fill_callable.call] at h
  cases hm : c.remote_queue_.mark_inactive_or_dequeue_all fuel c.next with
  | error e => simp [hm, bind, Except.bind] at h
  | ok r =>
    obtain ⟨n1, rq, qi⟩ := r
    simp only [hm, bind, Except.bind] at h
    by_cases hq : qi.empty
    · simp [hq, pure, Except.pure] at h
      obtain ⟨rfl, -⟩ := h
      rfl
    · simp only [hq, schedule_local_queue] at h
      cases ha : c.local_queue.append n1 qi with
      | error e => simp [ha, bind, Except.bind] at h
      | ok r2 => simp [ha, bind, Except.bind, pure, Except.pure] at h

/-- What `register_remote_queue_notification` leaves behind, by its result: a true result keeps
the local queue, a false result leaves the counters below or at the same distance from the
completion entry count as before. -/
theorem register_remote_queue_notification_result (fuel : Nat) (c c' : io_uring_context) (r : Bool)
    (h : c.register_remote_queue_notification fuel = .ok (c', r)) :
    c'.pending_operation_count = (if r then add32 c.cq_pending_count (add32 c.sq_unflushed_count 1)
      else c.pending_operation_count) ∧
    c'.cq_entry_count = c.cq_entry_count ∧
    (r = true → c'.local_queue = c.local_queue) ∧
    (r = false → c.pending_operation_count < c.cq_entry_count → c.pending_operation_count ≠ c.cq_entry_count) ∧
    (r = false → c.cq_entry_count ≤ c.pending_operation_count → c'.local_queue = c.local_queue) := by
  unfold register_remote_queue_notification at h
  cases hs : c.submit_io true (remote_queue_fill fuel) with
  | error e => rw [hs] at h; exact Except.noConfusion h
  | ok res =>
    obtain ⟨c2, submitted⟩ := res
    rw [hs] at h
    have hcr : c' = c2 ∧ r = submitted := by
      cases submitted <;>
        (have h2 := Except.ok.inj h; simp only [Prod.mk.injEq] at h2; exact ⟨h2.1.symm, h2.2.symm⟩)
    obtain ⟨rfl, rfl⟩ := hcr
    clear h
    by_cases hp : c.pending_operation_count < c.cq_entry_count
    · by_cases hu : sub32 c.sq_tail c.sq_head < c.sq_entry_count
      · cases hcall : (remote_queue_fill fuel).call c.zero_slot {} with
        | error e =>
          have hle : sub32 c.sq_tail c.sq_head ≤ c.sq_entry_count := Nat.le_of_lt hu
          simp [submit_io, assert, bind, Except.bind, hp, hu, hle, hcall] at hs
        | ok res =>
          obtain ⟨c1, sqe, filled⟩ := res
          rw [submit_io_called true _ c c1 sqe filled rfl hp hu hcall] at hs
          have h2 := Except.ok.inj hs
          simp only [Prod.mk.injEq] at h2
          obtain ⟨h2, rfl⟩ := h2
          obtain ⟨-, f2, f3, -, f5⟩ := remote_queue_fill_keeps_ring fuel _ _ _ _ _ hcall
          have z2 : c.zero_slot.sq_unflushed_count = c.sq_unflushed_count := rfl
          have z3 : c.zero_slot.cq_pending_count = c.cq_pending_count := rfl
          have z5 : c.zero_slot.cq_entry_count = c.cq_entry_count := rfl
          rw [z2] at f2; rw [z3] at f3; rw [z5] at f5
          cases filled with
          | false =>
            simp only [Bool.false_eq_true, if_false] at h2
            rw [← h2]
            refine ⟨?_, f5, by simp, fun _ h => Nat.ne_of_lt h, fun _ h => absurd hp (by omega)⟩
            show add32 c1.cq_pending_count c1.sq_unflushed_count = _
            rw [f2, f3]
            rfl
          | true =>
            simp only [if_true] at h2
            rw [← h2]
            refine ⟨?_, f5, fun _ => ?_, by simp, by simp⟩
            · show add32 c1.cq_pending_count (add32 c1.sq_unflushed_count 1) = _
              rw [f2, f3]
              rfl
            · show c1.local_queue = _
              rw [remote_queue_fill_local_queue fuel _ _ _ _ hcall]
              rfl
      · by_cases ha : sub32 c.sq_tail c.sq_head ≤ c.sq_entry_count
        · have he : sub32 c.sq_tail c.sq_head = c.sq_entry_count := by omega
          rw [submit_io_not_called true _ c rfl (Or.inr he)] at hs
          have h2 := Except.ok.inj hs
          simp only [Prod.mk.injEq] at h2
          obtain ⟨rfl, rfl⟩ := h2
          exact ⟨by simp, rfl, by simp, fun _ h => Nat.ne_of_lt h, fun _ _ => rfl⟩
        · simp [submit_io, assert, bind, Except.bind, hp, ha] at hs
    · rw [submit_io_not_called true _ c rfl (Or.inl (by omega))] at hs
      have h2 := Except.ok.inj hs
      simp only [Prod.mk.injEq] at h2
      obtain ⟨rfl, rfl⟩ := h2
      exact ⟨by simp, rfl, by simp, fun _ h => absurd h hp, fun _ _ => rfl⟩

end io_uring_context

namespace io_uring_context

/-- C4: at the end of an iteration of `run_impl`, whatever the context, the call of
`io_uring_enter` passes either `min_complete = 1` with `IORING_ENTER_GETEVENTS` or
`min_complete = 0` with no flags, and it passes the former only if, in the context at the moment
of the call, the local queue is empty and either `remote_queue_read_submitted` is true or
`pending_operation_count()` equals `cq_entry_count`; in particular, when the wake-up callable
moved remote items into the local queue after `is_idle` was computed, the call does not block. -/
theorem run_impl_blocks_only_when_idle (fuel : Nat) (c c1 : io_uring_context) (call : enter_call)
    (h : c.run_impl_prepare_enter fuel = .ok (c1, some call)) :
    call.to_submit = c1.sq_unflushed_count ∧
    ((call.min_complete = 1 ∧ call.flags = IORING_ENTER_GETEVENTS) ∨
      (call.min_complete = 0 ∧ call.flags = 0)) ∧
    (call.min_complete = 1 →
      c1.local_queue.empty = true ∧
      (c1.remote_queue_read_submitted = true ∨ c1.pending_operation_count = c1.cq_entry_count)) ∧
    (¬ (c1.local_queue.empty = true ∧
        (c1.remote_queue_read_submitted = true ∨ c1.pending_operation_count = c1.cq_entry_count)) →
      call.min_complete = 0 ∧ call.flags = 0) := by
  have key : ∀ (c1 : io_uring_context) (is_idle : Bool),
      (is_idle = true → (c1.remote_queue_read_submitted = true ∨
          c1.pending_operation_count = c1.cq_entry_count) → c1.local_queue.empty = true) →
      ∀ call : enter_call,
      call = { to_submit := c1.sq_unflushed_count,
               min_complete := if (is_idle && (c1.remote_queue_read_submitted ||
                  decide (c1.pending_operation_count = c1.cq_entry_count))) = true then 1 else 0,
               flags := if (is_idle && (c1.remote_queue_read_submitted ||
                  decide (c1.pending_operation_count = c1.cq_entry_count))) = true
                  then IORING_ENTER_GETEVENTS else 0 } →
      call.to_submit = c1.sq_unflushed_count ∧
      ((call.min_complete = 1 ∧ call.flags = IORING_ENTER_GETEVENTS) ∨
        (call.min_complete = 0 ∧ call.flags = 0)) ∧
      (call.min_complete = 1 →
        c1.local_queue.empty = true ∧
        (c1.remote_queue_read_submitted = true ∨ c1.pending_operation_count = c1.cq_entry_count)) ∧
      (¬ (c1.local_queue.empty = true ∧
          (c1.remote_queue_read_submitted = true ∨ c1.pending_operation_count = c1.cq_entry_count)) →
        call.min_complete = 0 ∧ call.flags = 0) := by
    intro c1 is_idle hidle call hcall
    subst hcall
    by_cases hb : (is_idle && (c1.remote_queue_read_submitted ||
        decide (c1.pending_operation_count = c1.cq_entry_count))) = true
    · have hb' := hb
      simp only [Bool.and_eq_true, Bool.or_eq_true, decide_eq_true_eq] at hb'
      exact ⟨rfl, Or.inl ⟨if_pos hb, if_pos hb⟩, fun _ => ⟨hidle hb'.1 hb'.2, hb'.2⟩,
        fun hn => absurd ⟨hidle hb'.1 hb'.2, hb'.2⟩ hn⟩
    · exact ⟨rfl, Or.inr ⟨if_neg hb, if_neg hb⟩,
        fun h01 => absurd ((if_neg hb).symm.trans h01) (by decide),
        fun _ => ⟨if_neg hb, if_neg hb⟩⟩
  unfold run_impl_prepare_enter at h
  by_cases hgo : (c.local_queue.empty || decide (c.sq_unflushed_count > 0)) = true
  · simp only [hgo, if_true] at h
    by_cases hreg : (decide (c.sq_unflushed_count = 0) && c.local_queue.empty &&
        !c.remote_queue_read_submitted) = true
    · simp only [hreg, if_true, bind, Except.bind] at h
      cases hr : c.register_remote_queue_notification fuel with
      | error e => simp [hr] at h
      | ok res =>
        obtain ⟨c2, r⟩ := res
        simp only [hr, pure, Except.pure] at h
        have h2 := Except.ok.inj h
        simp only [Prod.mk.injEq, Option.some.injEq] at h2
        obtain ⟨hc1, hcall⟩ := h2
        obtain ⟨g1, g2, g3, g4, g5⟩ := register_remote_queue_notification_result fuel c c2 r hr
        simp only [Bool.and_eq_true, decide_eq_true_eq, Bool.not_eq_true'] at hreg
        obtain ⟨⟨hu0, hle⟩, -⟩ := hreg
        subst hc1
        refine key _ (decide (c.sq_unflushed_count = 0) && c.local_queue.empty) ?_ call hcall.symm
        intro _ hor
        show c2.local_queue.empty = true
        have hor' : r = true ∨ c2.pending_operation_count = c2.cq_entry_count := hor
        cases r with
        | true => rw [g3 rfl]; exact hle
        | false =>
          rcases hor' with hx | hx
          · exact absurd hx (by decide)
          · simp only [Bool.false_eq_true, if_false] at g1
            rw [g1, g2] at hx
            by_cases hp : c.pending_operation_count < c.cq_entry_count
            · exact absurd hx (g4 rfl hp)
            · rw [g5 rfl (by omega)]; exact hle
    · simp only [hreg, Bool.false_eq_true, if_false, bind, Except.bind, pure, Except.pure] at h
      have h2 := Except.ok.inj h
      simp only [Prod.mk.injEq, Option.some.injEq] at h2
      obtain ⟨hc1, hcall⟩ := h2
      subst hc1
      refine key c (decide (c.sq_unflushed_count = 0) && c.local_queue.empty) ?_ call hcall.symm
      intro hi _
      simp only [Bool.and_eq_true, decide_eq_true_eq] at hi
      exact hi.2
  · simp only [hgo, Bool.false_eq_true, if_false, pure, Except.pure] at h
    have h2 := Except.ok.inj h
    simp at h2

end io_uring_context

namespace io_uring_context

theorem run_impl_blocks_only_when_idle_witness :
    (∃ c1 call, idle_context.run_impl_prepare_enter 0 = .ok (c1, some call) ∧
      call.min_complete = 1 ∧ call.flags = IORING_ENTER_GETEVENTS ∧ call.to_submit = 1 ∧
      c1.local_queue.empty = true ∧
      (c1.remote_queue_read_submitted = true ∨ c1.pending_operation_count = c1.cq_entry_count)) ∧
    (∃ c1 call, woken_context.run_impl_prepare_enter 2 = .ok (c1, some call) ∧
      c1.local_queue.empty = false ∧ intrusive_queue.drain 2 c1.next c1.local_queue = .ok [1, 2] ∧
      call.min_complete = 0 ∧ call.flags = 0) := by
  constructor
  · obtain ⟨c1, call, h, hm, hs⟩ : ∃ c1 call,
        idle_context.run_impl_prepare_enter 0 = .ok (c1, some call) ∧ call.min_complete = 1 ∧
          c1.sq_unflushed_count = 1 :=
      ⟨_, _, by with_unfolding_all rfl, by with_unfolding_all rfl, by with_unfolding_all rfl⟩
    obtain ⟨t1, t2, t3, -⟩ := run_impl_blocks_only_when_idle 0 idle_context c1 call h
    rcases t2 with t2 | t2
    · exact ⟨c1, call, h, hm, t2.2, t1.trans hs, (t3 hm).1, (t3 hm).2⟩
    · exact absurd (hm.symm.trans t2.1) (by decide)
  · obtain ⟨c1, call, h, he, hd⟩ : ∃ c1 call,
        woken_context.run_impl_prepare_enter 2 = .ok (c1, some call) ∧
          c1.local_queue.empty = false ∧
          intrusive_queue.drain 2 c1.next c1.local_queue = .ok [1, 2] :=
      ⟨_, _, by with_unfolding_all rfl, by with_unfolding_all rfl, by with_unfolding_all rfl⟩
    obtain ⟨-, -, -, t4⟩ := run_impl_blocks_only_when_idle 2 woken_context c1 call h
    have hn := t4 (fun hx => absurd (he.symm.trans hx.1) (by decide))
    exact ⟨c1, call, h, he, hd, hn.1, hn.2⟩

end io_uring_context

namespace atomic_intrusive_queue

open intrusive_queue

theorem enqueue_head (next : next_field) (q : atomic_intrusive_queue) (item : Nat) :
    (q.enqueue next item).2.1.head = head_value.item item := rfl

theorem enqueue_list_all_false (items : List Nat) :
    ∀ (next : next_field) (q : atomic_intrusive_queue), q.head ≠ head_value.inactive →
      (q.enqueue_list next items).2.2 = List.replicate items.length false := by
  induction items with
  | nil => intro next q _; rfl
  | cons x xs ih =>
    intro next q hq
    have h := ih (q.enqueue next x).1 (q.enqueue next x).2.1
      (by rw [enqueue_head]; exact fun h => head_value.noConfusion h)
    simp only [enqueue_list, List.length_cons, List.replicate_succ, List.cons.injEq]
    refine ⟨?_, h⟩
    simp [enqueue, hq]

/-- C5: in the sequential model, `enqueue(op)` returns true exactly when the head held the inactive
value before the push; so from an inactive queue the first `enqueue` of a sequence returns true and
all later ones return false (the head is then an item, not the inactive value, until
`mark_inactive` succeeds again), and from an active queue every `enqueue` returns false. -/
theorem enqueue_returns_true_iff_inactive :
    (∀ (next : next_field) (q : atomic_intrusive_queue) (op : Nat),
      (q.enqueue next op).2.2 = true ↔ q.head = head_value.inactive) ∧
    (∀ (next : next_field) (q : atomic_intrusive_queue) (op : Nat),
      (q.enqueue next op).2.1.head ≠ head_value.inactive) ∧
    (∀ (next : next_field) (op : Nat) (ops : List Nat),
      ((mk_active false).enqueue_list next (op :: ops)).2.2 =
        true :: List.replicate ops.length false) ∧
    (∀ (next : next_field) (q : atomic_intrusive_queue) (ops : List Nat),
      q.head ≠ head_value.inactive →
      (q.enqueue_list next ops).2.2 = List.replicate ops.length false) := by
  refine ⟨?_, ?_, ?_, ?_⟩
  · intro next q op
    simp [enqueue]
  · intro next q op
    rw [enqueue_head]
    exact fun h => head_value.noConfusion h
  · intro next op ops
    have h := enqueue_list_all_false ops ((mk_active false).enqueue next op).1
      ((mk_active false).enqueue next op).2.1
      (by rw [enqueue_head]; exact fun h => head_value.noConfusion h)
    simp only [enqueue_list, List.cons.injEq]
    exact ⟨rfl, h⟩
  · intro next q ops hq
    exact enqueue_list_all_false ops next q hq

end atomic_intrusive_queue

namespace atomic_intrusive_queue

theorem enqueue_returns_true_iff_inactive_witness :
    (mk_active true).head ≠ head_value.inactive ∧
    ((mk_active true).enqueue_list (fun _ => none) [1, 2]).2.2 = [false, false] ∧
    ((mk_active false).enqueue_list (fun _ => none) [1, 2, 3]).2.2 = [true, false, false] ∧
    ((mk_active false).enqueue (fun _ => none) 4).2.2 = true := by
  have h0 : (mk_active true).head ≠ head_value.inactive := by decide
  refine ⟨h0, ?_, ?_, ?_⟩
  · exact enqueue_returns_true_iff_inactive.2.2.2 (fun _ => none) (mk_active true) [1, 2] h0
  · exact enqueue_returns_true_iff_inactive.2.2.1 (fun _ => none) 1 [2, 3]
  · exact (enqueue_returns_true_iff_inactive.1 (fun _ => none) (mk_active false) 4).mpr rfl

end atomic_intrusive_queue

namespace intrusive_queue

theorem make_reversed_loop_chain :
    ∀ (l : List Nat) (fuel : Nat) (next : next_field) (p new_head : Option Nat) (done : List Nat),
      chain next p l → chain next new_head done → (l ++ done).Nodup → l.length ≤ fuel →
      ∃ next1 head1, make_reversed_loop fuel next new_head p = .ok (next1, head1) ∧
        chain next1 head1 (l.reverse ++ done) := by
  intro l
  induction l with
  | nil =>
    intro fuel next p new_head done hp hd _ _
    have hp' : p = none := hp
    subst hp'
    refine ⟨next, new_head, ?_, by simpa using hd⟩
    cases fuel <;> rfl
  | cons a l ih =>
    intro fuel next p new_head done hp hd hnd hfuel
    obtain ⟨hhead, hrest⟩ := hp
    subst hhead
    cases fuel with
    | zero => simp at hfuel
    | succ fuel =>
      have hnd' : a ∉ l ++ done ∧ (l ++ done).Nodup := List.nodup_cons.mp hnd
      have hal : a ∉ l := fun h => hnd'.1 (List.mem_append_left _ h)
      have had : a ∉ done := fun h => hnd'.1 (List.mem_append_right _ h)
      have h1 : chain (Function.update next a new_head) (next a) l :=
        chain_update_of_not_mem next a new_head l _ hal hrest
      have h2 : chain (Function.update next a new_head) (some a) (a :: done) :=
        ⟨rfl, by rw [Function.update_same]; exact chain_update_of_not_mem next a new_head done _ had hd⟩
      have hnd2 : (l ++ a :: done).Nodup := List.nodup_middle.mpr hnd
      obtain ⟨next1, head1, e1, e2⟩ := ih fuel (Function.update next a new_head) (next a) (some a)
        (a :: done) h1 h2 hnd2 (by simpa using hfuel)
      refine ⟨next1, head1, ?_, ?_⟩
      · simp only [make_reversed_loop]
        exact e1
      · simpa [List.reverse_cons, List.append_assoc] using e2

theorem make_reversed_holds (l : List Nat) (fuel : Nat) (next : next_field) (p : Option Nat)
    (hp : chain next p l) (hnd : l.Nodup) (hfuel : l.length ≤ fuel) :
    ∃ next1 r, make_reversed fuel next p = .ok (next1, r) ∧ holds next1 r l.reverse := by
  obtain ⟨next1, head1, e1, e2⟩ := make_reversed_loop_chain l fuel next p none [] hp rfl
    (by simpa using hnd) hfuel
  refine ⟨next1, { head := head1, tail := p }, ?_, ?_, ?_, ?_⟩
  · simp only [make_reversed, e1, bind, Except.bind, pure, Except.pure]
  · simpa using e2
  · show p = l.reverse.getLast?
    rw [List.getLast?_reverse]
    cases l with
    | nil => exact hp
    | cons a l => exact hp.1
  · exact List.nodup_reverse.mpr hnd

end intrusive_queue

namespace atomic_intrusive_queue

open intrusive_queue

theorem to_ptr_eq_some (v : head_value) (a : Nat) (h : v.to_ptr = some a) : v = head_value.item a := by
  cases v with
  | null => exact absurd h (by simp [head_value.to_ptr])
  | inactive => exact absurd h (by simp [head_value.to_ptr])
  | item b =>
    simp only [head_value.to_ptr, Option.some.injEq] at h
    rw [h]

theorem enqueue_list_chain :
    ∀ (items : List Nat) (next : next_field) (q : atomic_intrusive_queue) (pre : List Nat),
      chain next q.head.to_ptr pre → (items ++ pre).Nodup →
      chain (q.enqueue_list next items).1 (q.enqueue_list next items).2.1.head.to_ptr
        (items.reverse ++ pre) := by
  intro items
  induction items with
  | nil => intro next q pre h _; simpa [enqueue_list] using h
  | cons x xs ih =>
    intro next q pre h hnd
    have hx : x ∉ xs ++ pre := (List.nodup_cons.mp hnd).1
    have hxp : x ∉ pre := fun hm => hx (List.mem_append_right _ hm)
    have hptr : (if q.head = head_value.inactive then none else q.head.to_ptr) = q.head.to_ptr := by
      split_ifs with hi
      · rw [hi]; rfl
      · rfl
    have h1 : chain (q.enqueue next x).1 (q.enqueue next x).2.1.head.to_ptr (x :: pre) := by
      refine ⟨rfl, ?_⟩
      show chain (Function.update next x _) (Function.update next x _ x) pre
      rw [Function.update_same, hptr]
      exact chain_update_of_not_mem next x _ pre _ hxp h
    have h2 := ih (q.enqueue next x).1 (q.enqueue next x).2.1 (x :: pre) h1
      (List.nodup_middle.mpr hnd)
    simpa [enqueue_list, List.reverse_cons, List.append_assoc] using h2

theorem enqueue_list_head (items : List Nat) (next : next_field) (q : atomic_intrusive_queue)
    (hne : items ≠ []) :
    ∃ a, (q.enqueue_list next items).2.1.head = head_value.item a := by
  induction items generalizing next q with
  | nil => exact absurd rfl hne
  | cons x xs ih =>
    cases xs with
    | nil => exact ⟨x, rfl⟩
    | cons y ys =>
      obtain ⟨a, ha⟩ := ih (q.enqueue next x).1 (q.enqueue next x).2.1 (by simp)
      exact ⟨a, by simpa [enqueue_list] using ha⟩

/-- The state after enqueuing distinct operations on an empty queue, active or not: the head is
an item and the links from it run through the operations in reverse order of enqueuing. -/
theorem enqueue_list_from_empty (items : List Nat) (next : next_field) (q : atomic_intrusive_queue)
    (hne : items ≠ []) (hnd : items.Nodup)
    (hq : q.head = head_value.inactive ∨ q.head = head_value.null) :
    ∃ a, (q.enqueue_list next items).2.1.head = head_value.item a ∧
      chain (q.enqueue_list next items).1 (some a) items.reverse := by
  obtain ⟨a, ha⟩ := enqueue_list_head items next q hne
  have hc := enqueue_list_chain items next q []
    (by rcases hq with h | h <;> (rw [h]; rfl)) (by simpa using hnd)
  rw [ha] at hc
  exact ⟨a, ha, by simpa [head_value.to_ptr] using hc⟩

/-- C6: after `n >= 1` distinct operations were enqueued on a queue that was inactive or empty and
active, with no dequeue in between, `dequeue_all` returns a queue that holds exactly these
operations, each once, linked in the order of enqueuing (so `pop_front` yields them in that order)
and leaves the head null; a second `dequeue_all` returns the empty queue. -/
theorem dequeue_all_returns_enqueue_order (next : next_field) (q : atomic_intrusive_queue)
    (ops : List Nat) (fuel : Nat) (hne : ops ≠ []) (hnd : ops.Nodup)
    (hq : q.head = head_value.inactive ∨ q.head = head_value.null) (hfuel : ops.length ≤ fuel) :
    ∃ next1 r,
      (q.enqueue_list next ops).2.1.dequeue_all fuel (q.enqueue_list next ops).1 =
        .ok (next1, { head := head_value.null }, r) ∧
      holds next1 r ops ∧
      drain ops.length next1 r = .ok ops ∧
      ({ head := head_value.null } : atomic_intrusive_queue).dequeue_all fuel next1 =
        .ok (next1, { head := head_value.null }, {}) := by
  obtain ⟨a, ha, hc⟩ := enqueue_list_from_empty ops next q hne hnd hq
  obtain ⟨next1, r, e1, e2⟩ := make_reversed_holds ops.reverse fuel (q.enqueue_list next ops).1
    (some a) hc (List.nodup_reverse.mpr hnd) (by simpa using hfuel)
  rw [List.reverse_reverse] at e2
  refine ⟨next1, r, ?_, e2, drain_of_chain next1 ops _ r e2.1 (Nat.le_refl _), rfl⟩
  simp only [dequeue_all, ha, e1, bind, Except.bind, pure, Except.pure]

theorem dequeue_all_returns_enqueue_order_witness :
    ∃ next1 r,
      ((mk_active false).enqueue_list (fun _ => none) [5, 3, 9]).2.1.dequeue_all 3
        ((mk_active false).enqueue_list (fun _ => none) [5, 3, 9]).1 =
        .ok (next1, { head := head_value.null }, r) ∧
      r.head = some 5 ∧ r.tail = some 9 ∧
      drain 3 next1 r = .ok [5, 3, 9] := by
  obtain ⟨next1, r, h1, h2, h3, -⟩ :=
    dequeue_all_returns_enqueue_order (fun _ => none) (mk_active false) [5, 3, 9] 3
      (by decide) (by decide) (Or.inl rfl) (Nat.le_refl _)
  exact ⟨next1, r, h1, h2.1.1, h2.2.1, h3⟩

/-- C7: on an active queue, `mark_inactive_or_dequeue_all` with a null head stores the inactive
value and returns the empty queue; with operations enqueued (distinct, on a queue that was empty)
it returns a queue holding them in the order of enqueuing and leaves the head null, not
inactive. -/
theorem mark_inactive_or_dequeue_all_contract :
    (∀ (fuel : Nat) (next : next_field),
      ({ head := head_value.null } : atomic_intrusive_queue).mark_inactive_or_dequeue_all fuel next =
        .ok (next, { head := head_value.inactive }, {})) ∧
    (∀ (next : next_field) (q : atomic_intrusive_queue) (ops : List Nat) (fuel : Nat),
      ops ≠ [] → ops.Nodup → (q.head = head_value.inactive ∨ q.head = head_value.null) →
      ops.length ≤ fuel →
      ∃ next1 r,
        (q.enqueue_list next ops).2.1.mark_inactive_or_dequeue_all fuel (q.enqueue_list next ops).1 =
          .ok (next1, { head := head_value.null }, r) ∧
        holds next1 r ops ∧ drain ops.length next1 r = .ok ops) := by
  refine ⟨fun _ _ => rfl, ?_⟩
  intro next q ops fuel hne hnd hq hfuel
  obtain ⟨a, ha, hc⟩ := enqueue_list_from_empty ops next q hne hnd hq
  obtain ⟨next1, r, e1, e2⟩ := make_reversed_holds ops.reverse fuel (q.enqueue_list next ops).1
    (some a) hc (List.nodup_reverse.mpr hnd) (by simpa using hfuel)
  rw [List.reverse_reverse] at e2
  refine ⟨next1, r, ?_, e2, drain_of_chain next1 ops _ r e2.1 (Nat.le_refl _)⟩
  simp only [mark_inactive_or_dequeue_all, mark_inactive, ha, e1, bind, Except.bind, pure,
    Except.pure, Bool.false_eq_true, if_false]

theorem mark_inactive_or_dequeue_all_contract_witness :
    ∃ next1 r,
      ((mk_active true).enqueue_list (fun _ => none) [4, 8]).2.1.mark_inactive_or_dequeue_all 2
        ((mk_active true).enqueue_list (fun _ => none) [4, 8]).1 =
        .ok (next1, { head := head_value.null }, r) ∧
      r.head = some 4 ∧ r.tail = some 8 ∧ drain 2 next1 r = .ok [4, 8] := by
  obtain ⟨next1, r, h1, h2, h3⟩ :=
    mark_inactive_or_dequeue_all_contract.2 (fun _ => none) (mk_active true) [4, 8] 2
      (by decide) (by decide) (Or.inr rfl) (Nat.le_refl _)
  exact ⟨next1, r, h1, h2.1.1, h2.2.1, h3⟩

end atomic_intrusive_queue

namespace inplace_stop_source

open intrusive_queue

theorem prev_links_update_of_not_mem (prev_ptr : Nat → Option link_location) (x : Nat)
    (v : Option link_location) :
    ∀ (l : List Nat) (location : link_location), x ∉ l → prev_links prev_ptr location l →
      prev_links (Function.update prev_ptr x v) location l := by
  intro l
  induction l with
  | nil => intro _ _ _; trivial
  | cons a l ih =>
    intro location hx h
    have hax : a ≠ x := fun e => hx (e ▸ List.mem_cons_self _ _)
    refine ⟨?_, ih _ (fun hm => hx (List.mem_cons_of_mem _ hm)) h.2⟩
    rw [Function.update_noteq hax]
    exact h.1

theorem prev_links_mem (prev_ptr : Nat → Option link_location) :
    ∀ (l : List Nat) (location : link_location) (x : Nat), prev_links prev_ptr location l → x ∈ l →
      prev_ptr x ≠ none := by
  intro l
  induction l with
  | nil => intro _ _ _ hx; simp at hx
  | cons a l ih =>
    intro location x h hx
    rcases List.mem_cons.mp hx with e | hm
    · rw [e, h.1]; simp
    · exact ih _ x h.2 hm

theorem location_after_cons (location : link_location) (a : Nat) (l1 : List Nat) :
    location_after location (a :: l1) = location_after (link_location.next_of a) l1 := rfl

theorem location_after_of_getLast (t : Nat) :
    ∀ (l1 : List Nat) (location : link_location), l1.getLast? = some t →
      location_after location l1 = link_location.next_of t := by
  intro l1
  induction l1 with
  | nil => intro _ h; simp at h
  | cons a l1 ih =>
    intro location h
    cases l1 with
    | nil =>
      simp only [List.getLast?_singleton, Option.some.injEq] at h
      rw [← h]
      rfl
    | cons b l1 =>
      rw [List.getLast?_cons_cons] at h
      exact ih (link_location.next_of a) h

theorem prev_links_unlink (prev_ptr : Nat → Option link_location) (cb : Nat) (l2 : List Nat) :
    ∀ (l1 : List Nat) (location : link_location),
      prev_links prev_ptr location (l1 ++ cb :: l2) → (l1 ++ cb :: l2).Nodup →
      prev_ptr cb = some (location_after location l1) ∧
      prev_links
        (match l2.head? with
          | some n => Function.update prev_ptr n (some (location_after location l1))
          | none => prev_ptr) location (l1 ++ l2) := by
  intro l1
  induction l1 with
  | nil =>
    intro location h hnd
    obtain ⟨h1, h2⟩ := h
    refine ⟨h1, ?_⟩
    cases l2 with
    | nil => trivial
    | cons n l2 =>
      have hn : n ∉ l2 := (List.nodup_cons.mp (List.nodup_cons.mp hnd).2).1
      refine ⟨by simp [location_after], ?_⟩
      exact prev_links_update_of_not_mem prev_ptr n _ l2 _ hn h2.2
  | cons a l1 ih =>
    intro location h hnd
    obtain ⟨h1, h2⟩ := h
    have hnd' := List.nodup_cons.mp hnd
    obtain ⟨e1, e2⟩ := ih (link_location.next_of a) h2 hnd'.2
    rw [location_after_cons]
    refine ⟨e1, ?_, e2⟩
    cases l2 with
    | nil => exact h1
    | cons n l2 =>
      have han : a ≠ n := fun e => hnd'.1 (by rw [e]; simp)
      show Function.update prev_ptr n _ a = _
      rw [Function.update_noteq han]
      exact h1

theorem chain_mid (next : next_field) (cb : Nat) (l2 : List Nat) :
    ∀ (l1 : List Nat) (p : Option Nat), chain next p (l1 ++ cb :: l2) → chain next (next cb) l2 := by
  intro l1
  induction l1 with
  | nil => intro p h; exact h.2
  | cons a l1 ih => intro p h; exact ih _ h.2

theorem chain_unlink (next : next_field) (cb : Nat) (l2 : List Nat) :
    ∀ (l1 : List Nat) (p : Option Nat) (t : Nat), chain next p (l1 ++ cb :: l2) →
      (l1 ++ cb :: l2).Nodup → l1.getLast? = some t →
      chain (Function.update next t (next cb)) p (l1 ++ l2) := by
  intro l1
  induction l1 with
  | nil => intro p t _ _ h; simp at h
  | cons a l1 ih =>
    intro p t h hnd hlast
    obtain ⟨h1, h2⟩ := h
    have hnd' := List.nodup_cons.mp hnd
    refine ⟨h1, ?_⟩
    cases l1 with
    | nil =>
      simp only [List.getLast?_singleton, Option.some.injEq] at hlast
      subst hlast
      rw [Function.update_same]
      have ha2 : a ∉ l2 := fun hm => hnd'.1 (by simp [hm])
      exact chain_update_of_not_mem next a _ l2 _ ha2 h2.2
    | cons b l1 =>
      rw [List.getLast?_cons_cons] at hlast
      have htm : t ∈ b :: l1 := List.mem_of_getLast?_eq_some hlast
      have hat : a ≠ t := fun e => hnd'.1 (by rw [e]; exact List.mem_append_left _ htm)
      rw [Function.update_noteq hat]
      exact ih _ t h2 hnd'.2 hlast

end inplace_stop_source

namespace inplace_stop_source

open intrusive_queue

theorem lock_free (s : inplace_stop_source) (h : s.state = 0 ∨ s.state = 1) :
    s.lock = .ok ({ s with state := s.state ||| locked_flag }, s.state) := by
  unfold lock
  rcases h with h | h <;> simp [h, locked_flag]

theorem chain_head_eq (next : next_field) (p : Option Nat) (l : List Nat) (h : chain next p l) :
    p = l.head? := by
  cases l with
  | nil => exact h
  | cons a l => exact h.1

theorem remove_callback_linked (tid : Nat) (s : inplace_stop_source) (l1 l2 : List Nat) (cb : Nat)
    (hreg : registered s (l1 ++ cb :: l2)) (hstate : s.state = 0 ∨ s.state = 1) :
    ∃ c n p, s.remove_callback tid cb = .ok { s with callbacks := c, next := n, prev_ptr := p } ∧
      chain n c (l1 ++ l2) ∧ prev_links p link_location.callbacks (l1 ++ l2) ∧
      (∀ x, x ∉ l1 ++ cb :: l2 → p x = s.prev_ptr x) := by
  obtain ⟨hc, hp, hnd⟩ := hreg
  obtain ⟨hprev, hpl⟩ := prev_links_unlink s.prev_ptr cb l2 l1 link_location.callbacks hp hnd
  have hnext : s.next cb = l2.head? := chain_head_eq _ _ _ (chain_mid s.next cb l2 l1 _ hc)
  have hcb1 : cb ∉ l1 := fun hm => by
    have := List.nodup_append.mp hnd
    exact this.2.2 hm (List.mem_cons_self _ _)
  unfold remove_callback
  rw [lock_free s hstate]
  simp only [bind, Except.bind, hprev, pure, Except.pure, unlock]
  cases hl1 : l1.getLast? with
  | none =>
    have hnil : l1 = [] := List.getLast?_eq_none_iff.mp hl1
    subst hnil
    simp only [location_after, store_link, hnext]
    cases l2 with
    | nil =>
      refine ⟨none, s.next, s.prev_ptr, ?_, rfl, trivial, fun _ _ => rfl⟩
      simp only [List.head?_nil]
    | cons n l2 =>
      refine ⟨some n, s.next, Function.update s.prev_ptr n (some link_location.callbacks), ?_, ?_, ?_, ?_⟩
      · simp only [List.head?_cons]
      · have := hc.2
        rw [hnext] at this
        exact this
      · simpa [location_after] using hpl
      · intro x hx
        have hxn : x ≠ n := fun e => hx (by simp [e])
        rw [Function.update_noteq hxn]
  | some t =>
    have hloc := location_after_of_getLast t l1 link_location.callbacks hl1
    rw [hloc] at hpl ⊢
    have htl : t ∈ l1 := List.mem_of_getLast?_eq_some hl1
    have htcb : cb ≠ t := fun e => hcb1 (e ▸ htl)
    have hch := chain_unlink s.next cb l2 l1 _ t hc hnd hl1
    simp only [store_link, Function.update_noteq htcb, hnext]
    cases l2 with
    | nil =>
      refine ⟨s.callbacks, Function.update s.next t none, s.prev_ptr, ?_, ?_, hpl, fun _ _ => rfl⟩
      · simp only [List.head?_nil]
      · simpa [hnext] using hch
    | cons n l2 =>
      refine ⟨s.callbacks, Function.update s.next t (some n),
        Function.update s.prev_ptr n (some (link_location.next_of t)), ?_, ?_, hpl, ?_⟩
      · simp only [List.head?_cons]
      · simpa [hnext] using hch
      · intro x hx
        have hxn : x ≠ n := fun e => hx (by simp [e])
        rw [Function.update_noteq hxn]

end inplace_stop_source

namespace inplace_stop_source

open intrusive_queue

theorem remove_callback_unlinked (tid : Nat) (s : inplace_stop_source) (cb : Nat)
    (hprev : s.prev_ptr cb = none) (hid : s.notifying_thread_id = some tid)
    (hstate : s.state = 0 ∨ s.state = 1) :
    s.remove_callback tid cb =
      .ok (if s.removed_during_callback cb then { s with removed_local := true } else s) := by
  unfold remove_callback
  rw [lock_free s hstate]
  simp only [bind, Except.bind, hprev, pure, Except.pure, unlock]
  rw [if_pos hid]
  split_ifs <;> rfl

theorem add_callback_refused (s : inplace_stop_source) (cb : Nat) (hstate : s.state = 1) :
    s.add_callback cb = .ok (s, false) := by
  unfold add_callback lock_unless_stop_requested
  simp [hstate, stop_requested_flag, bind, Except.bind, pure, Except.pure]

theorem add_callback_links (s : inplace_stop_source) (cb : Nat) (l : List Nat)
    (hreg : registered s l) (hcb : cb ∉ l) (hstate : s.state = 0) :
    ∃ n p, s.add_callback cb = .ok ({ s with callbacks := some cb, next := n, prev_ptr := p }, true) ∧
      chain n (some cb) (cb :: l) ∧ prev_links p link_location.callbacks (cb :: l) ∧
      (∀ x, x ∉ cb :: l → p x = s.prev_ptr x) := by
  obtain ⟨hc, hp, hnd⟩ := hreg
  have hhead := chain_head_eq _ _ _ hc
  unfold add_callback lock_unless_stop_requested
  simp only [hstate, stop_requested_flag, bind, Except.bind, pure, Except.pure, unlock]
  cases l with
  | nil =>
    refine ⟨Function.update s.next cb s.callbacks,
      Function.update s.prev_ptr cb (some link_location.callbacks), ?_, ?_, ?_, ?_⟩
    · simp [hhead, hstate]
    · refine ⟨rfl, ?_⟩
      rw [Function.update_same, hhead]
      rfl
    · exact ⟨by rw [Function.update_same], trivial⟩
    · intro x hx
      have hxc : x ≠ cb := fun e => hx (by simp [e])
      rw [Function.update_noteq hxc]
  | cons a l =>
    have hca : cb ≠ a := fun e => hcb (by simp [e])
    refine ⟨Function.update s.next cb s.callbacks,
      Function.update (Function.update s.prev_ptr cb (some link_location.callbacks)) a
        (some (link_location.next_of cb)), ?_, ?_, ?_, ?_⟩
    · simp [hhead, hstate]
    · refine ⟨rfl, ?_⟩
      rw [Function.update_same]
      exact chain_update_of_not_mem s.next cb _ _ _ hcb hc
    · refine ⟨?_, ?_, ?_⟩
      · rw [Function.update_noteq hca, Function.update_same]
      · rw [Function.update_same]
      · have hal : a ∉ l := (List.nodup_cons.mp hnd).1
        have hcl : cb ∉ l := fun hm => hcb (List.mem_cons_of_mem _ hm)
        exact prev_links_update_of_not_mem _ a _ l _ hal
          (prev_links_update_of_not_mem _ cb _ l _ hcl hp.2)
    · intro x hx
      have hxc : x ≠ cb := fun e => hx (by simp [e])
      have hxa : x ≠ a := fun e => hx (by simp [e])
      rw [Function.update_noteq hxa, Function.update_noteq hxc]

theorem take_first_registered (s : inplace_stop_source) (cb : Nat) (l : List Nat)
    (hreg : registered s (cb :: l)) :
    registered (s.take_first cb) l ∧ (s.take_first cb).prev_ptr cb = none ∧
    (∀ x, x ∉ cb :: l → (s.take_first cb).prev_ptr x = s.prev_ptr x) := by
  obtain ⟨hc, hp, hnd⟩ := hreg
  have hnext : s.next cb = l.head? := chain_head_eq _ _ _ hc.2
  have hcl : cb ∉ l := (List.nodup_cons.mp hnd).1
  unfold take_first
  cases l with
  | nil =>
    simp only [hnext, List.head?_nil]
    refine ⟨⟨by simpa [hnext] using hc.2, trivial, List.nodup_nil⟩, ?_, ?_⟩
    · show Function.update s.prev_ptr cb none cb = none
      rw [Function.update_same]
    · intro x hx
      have hxc : x ≠ cb := fun e => hx (by simp [e])
      show Function.update s.prev_ptr cb none x = _
      rw [Function.update_noteq hxc]
  | cons a l =>
    have hca : cb ≠ a := fun e => hcl (by simp [e])
    have hal : a ∉ l := (List.nodup_cons.mp (List.nodup_cons.mp hnd).2).1
    simp only [hnext, List.head?_cons]
    refine ⟨⟨?_, ⟨?_, ?_⟩, (List.nodup_cons.mp hnd).2⟩, ?_, ?_⟩
    · have := hc.2
      rw [hnext] at this
      exact this
    · show Function.update (Function.update s.prev_ptr cb none) a _ a = _
      rw [Function.update_same]
    · show prev_links (Function.update (Function.update s.prev_ptr cb none) a _) _ l
      exact prev_links_update_of_not_mem _ a _ l _ hal
        (prev_links_update_of_not_mem _ cb _ l _ (fun hm => hcl (List.mem_cons_of_mem _ hm)) hp.2.2)
    · show Function.update (Function.update s.prev_ptr cb none) a _ cb = none
      rw [Function.update_noteq hca, Function.update_same]
    · intro x hx
      have hxc : x ≠ cb := fun e => hx (by simp [e])
      have hxa : x ≠ a := fun e => hx (by simp [e])
      show Function.update (Function.update s.prev_ptr cb none) a _ x = _
      rw [Function.update_noteq hxa, Function.update_noteq hxc]

end inplace_stop_source

namespace inplace_stop_source

open intrusive_queue

theorem consistent_of_view (tid : Nat) (s s' : inplace_stop_source) (l : List Nat)
    (hv : s'.view = s.view) (h : consistent tid s l) : consistent tid s' l := by
  simp only [view, Prod.mk.injEq] at hv
  obtain ⟨v1, v2, v3, v4, v5, v6, v7, v8⟩ := hv
  unfold consistent registered at *
  rw [v1, v2, v3, v4, v5, v6, v7, v8]
  exact h

theorem related_refl (tid : Nat) (s : inplace_stop_source) (l : List Nat)
    (h : consistent tid s l) : related tid s l s l :=
  ⟨h, ⟨[], by simp⟩, fun _ hx => hx, fun _ hx => hx, fun _ _ => rfl,
    fun x hx hnx => absurd hx hnx, fun _ => ⟨fun _ hx => hx, rfl⟩⟩

theorem related_of_view (tid : Nat) (s s' : inplace_stop_source) (l : List Nat)
    (hv : s'.view = s.view) (h : consistent tid s l) : related tid s l s' l := by
  have hc := consistent_of_view tid s s' l hv h
  simp only [view, Prod.mk.injEq] at hv
  obtain ⟨v1, v2, v3, v4, v5, v6, v7, v8⟩ := hv
  exact ⟨hc, ⟨[], by simp [v8]⟩, fun x hx => by rw [v6]; exact hx, fun x hx => by rw [v7]; exact hx,
    fun x _ => by rw [v3], fun x hx hnx => absurd hx hnx, fun _ => ⟨fun _ hx => hx, v2⟩⟩

theorem related_trans (tid : Nat) (s s1 s2 : inplace_stop_source) (l l1 l2 : List Nat)
    (h1 : related tid s l s1 l1) (h2 : related tid s1 l1 s2 l2)
    (hstate : s.state ≠ 0 → s1.state ≠ 0) : related tid s l s2 l2 := by
  obtain ⟨-, ⟨n1, a2⟩, a3, a4, a5, a6, a7⟩ := h1
  obtain ⟨b1, ⟨n2, b2⟩, b3, b4, b5, b6, b7⟩ := h2
  refine ⟨b1, ⟨n1 ++ n2, by rw [b2, a2, List.append_assoc]⟩, fun x hx => b3 x (a3 x hx),
    fun x hx => b4 x (a4 x hx), fun x hx => (b5 x (a3 x hx)).trans (a5 x hx), ?_, ?_⟩
  · intro x hx hnx
    by_cases hx1 : x ∈ l1
    · exact b6 x hx1 hnx
    · rcases a6 x hx hx1 with h | h
      · left
        rw [b2]
        exact List.mem_append_left _ h
      · right
        exact b4 x h
  · intro hs
    obtain ⟨c1, c2⟩ := a7 hs
    obtain ⟨d1, d2⟩ := b7 (hstate hs)
    exact ⟨fun x hx => c1 x (d1 x hx), d2.trans c2⟩

end inplace_stop_source

namespace inplace_stop_source

open intrusive_queue

theorem consistent_mark_destroyed (tid : Nat) (s : inplace_stop_source) (l : List Nat) (cb : Nat)
    (h : consistent tid s l) (hcb : cb ∉ l) (hcon : s.constructed cb = true) :
    consistent tid { s with destroyed := Function.update s.destroyed cb true } l := by
  obtain ⟨h1, h2, h3, h4, h5, h6⟩ := h
  refine ⟨h1, ?_, ?_, h4, h5, ?_⟩
  · intro x hx
    have hxc : x ≠ cb := fun e => hcb (e ▸ hx)
    obtain ⟨a, b, c, d⟩ := h2 x hx
    exact ⟨a, by show Function.update s.destroyed cb true x = false; rw [Function.update_noteq hxc]; exact b, c, d⟩
  · intro x hx hxcon hxd
    have hxd' : Function.update s.destroyed cb true x = false := hxd
    have hxc : x ≠ cb := fun e => by rw [e, Function.update_same] at hxd'; exact absurd hxd' (by decide)
    rw [Function.update_noteq hxc] at hxd'
    exact h3 x hx hxcon hxd'
  · intro x hx
    have hx' : Function.update s.destroyed cb true x = true := hx
    by_cases hxc : x = cb
    · rw [hxc]; exact hcon
    · rw [Function.update_noteq hxc] at hx'
      exact h6 x hx'

theorem related_mark_destroyed (tid : Nat) (s s1 : inplace_stop_source) (l l1 : List Nat) (cb : Nat)
    (h : related tid s l s1 l1) (hcb : cb ∉ l1) (hcon : s1.constructed cb = true) :
    related tid s l { s1 with destroyed := Function.update s1.destroyed cb true } l1 := by
  obtain ⟨a1, a2, a3, a4, a5, a6, a7⟩ := h
  refine ⟨consistent_mark_destroyed tid s1 l1 cb a1 hcb hcon, a2, a3, ?_, a5, ?_, a7⟩
  · intro x hx
    show Function.update s1.destroyed cb true x = true
    by_cases hxc : x = cb
    · rw [hxc, Function.update_same]
    · rw [Function.update_noteq hxc]; exact a4 x hx
  · intro x hx hnx
    rcases a6 x hx hnx with h | h
    · exact Or.inl h
    · right
      show Function.update s1.destroyed cb true x = true
      by_cases hxc : x = cb
      · rw [hxc, Function.update_same]
      · rw [Function.update_noteq hxc]; exact h

theorem related_unlink (tid : Nat) (s : inplace_stop_source) (l1 l2 : List Nat) (cb : Nat)
    (c : Option Nat) (n : Nat → Option Nat) (p : Nat → Option link_location)
    (h : consistent tid s (l1 ++ cb :: l2))
    (hc : chain n c (l1 ++ l2)) (hp : prev_links p link_location.callbacks (l1 ++ l2))
    (hframe : ∀ x, x ∉ l1 ++ cb :: l2 → p x = s.prev_ptr x) :
    related tid s (l1 ++ cb :: l2)
      { s with callbacks := c, next := n, prev_ptr := p,
               destroyed := Function.update s.destroyed cb true } (l1 ++ l2) := by
  obtain ⟨h1, h2, h3, h4, h5, h6⟩ := h
  have hnd : (l1 ++ l2).Nodup := by
    have := h1.2.2
    exact List.Nodup.sublist (List.Sublist.append_left (List.sublist_cons_self cb l2) l1) this
  have hcb : cb ∉ l1 ++ l2 := by
    have := List.nodup_middle.mp h1.2.2
    exact (List.nodup_cons.mp this).1
  have hsub : ∀ x, x ∈ l1 ++ l2 → x ∈ l1 ++ cb :: l2 := by
    intro x hx
    rcases List.mem_append.mp hx with h | h
    · exact List.mem_append_left _ h
    · exact List.mem_append_right _ (List.mem_cons_of_mem _ h)
  have hcbl : cb ∈ l1 ++ cb :: l2 := by simp
  refine ⟨⟨⟨hc, hp, hnd⟩, ?_, ?_, h4, h5, ?_⟩, ⟨[], by simp⟩, fun _ hx => hx, ?_, fun _ _ => rfl, ?_,
    fun _ => ⟨hsub, rfl⟩⟩
  · intro x hx
    have hxc : x ≠ cb := fun e => hcb (e ▸ hx)
    obtain ⟨a, b, c', d⟩ := h2 x (hsub x hx)
    exact ⟨a, by show Function.update s.destroyed cb true x = false; rw [Function.update_noteq hxc]; exact b, c', d⟩
  · intro x hx hxcon hxd
    have hxd' : Function.update s.destroyed cb true x = false := hxd
    have hxc : x ≠ cb := fun e => by rw [e, Function.update_same] at hxd'; exact absurd hxd' (by decide)
    rw [Function.update_noteq hxc] at hxd'
    have hxl : x ∉ l1 ++ cb :: l2 := by
      intro hm
      rcases List.mem_append.mp hm with h | h
      · exact hx (List.mem_append_left _ h)
      · rcases List.mem_cons.mp h with h | h
        · exact hxc h
        · exact hx (List.mem_append_right _ h)
    show p x = none ∧ _
    rw [hframe x hxl]
    exact h3 x hxl hxcon hxd'
  · intro x hx
    have hx' : Function.update s.destroyed cb true x = true := hx
    by_cases hxc : x = cb
    · rw [hxc]; exact (h2 cb hcbl).1
    · rw [Function.update_noteq hxc] at hx'
      exact h6 x hx'
  · intro x hx
    show Function.update s.destroyed cb true x = true
    by_cases hxc : x = cb
    · rw [hxc, Function.update_same]
    · rw [Function.update_noteq hxc]; exact hx
  · intro x hx hnx
    right
    show Function.update s.destroyed cb true x = true
    have hxc : x = cb := by
      rcases List.mem_append.mp hx with h | h
      · exact absurd (List.mem_append_left _ h) hnx
      · rcases List.mem_cons.mp h with h | h
        · exact h
        · exact absurd (List.mem_append_right _ h) hnx
    rw [hxc, Function.update_same]

theorem run_destroy (bodies : Nat → List stop_action) (tid fuel : Nat) (cb : Nat)
    (s : inplace_stop_source) (l : List Nat) (s' : inplace_stop_source) (r : Bool)
    (h : consistent tid s l) (hpre : s.state = 0 ∨ s.state = 1)
    (hrun : run bodies tid (fuel + 1) (.destroy cb) s = .ok (s', r)) :
    ∃ l', related tid s l s' l' ∧ (s'.state = 0 ∨ s'.state = 1) ∧ (s.state = 1 → s'.state = 1) := by
  simp only [run] at hrun
  by_cases hlive : (!s.constructed cb || s.destroyed cb) = true
  · simp [hlive] at hrun
  · simp only [hlive, Bool.false_eq_true, if_false, bind, Except.bind] at hrun
    simp only [Bool.or_eq_true, Bool.not_eq_true', not_or, Bool.not_eq_false, Bool.not_eq_true] at hlive
    obtain ⟨hcon, hnd⟩ := hlive
    by_cases hsrc : s.source cb = true
    · simp only [hsrc, if_true] at hrun
      by_cases hmem : cb ∈ l
      · obtain ⟨l1, l2, hl⟩ := List.append_of_mem hmem
        subst hl
        obtain ⟨c, n, p, e1, e2, e3, e4⟩ := remove_callback_linked tid s l1 l2 cb h.1 hpre
        rw [e1] at hrun
        have h2 := Except.ok.inj hrun
        simp only [pure, Except.pure, Prod.mk.injEq] at h2
        rw [← h2.1]
        exact ⟨l1 ++ l2, related_unlink tid s l1 l2 cb c n p h e2 e3 e4, hpre, fun hs => hs⟩
      · obtain ⟨hprev, hid⟩ := h.2.2.1 cb hmem hcon hnd
        rw [remove_callback_unlinked tid s cb hprev (hid hsrc) hpre] at hrun
        have h2 := Except.ok.inj hrun
        simp only [pure, Except.pure, Prod.mk.injEq] at h2
        rw [← h2.1]
        refine ⟨l, ?_, ?_, ?_⟩
        · apply related_mark_destroyed tid s _ l l cb _ hmem
          · split_ifs <;> exact hcon
          · apply related_of_view tid s _ l _ h
            split_ifs <;> rfl
        · split_ifs <;> exact hpre
        · intro hs
          split_ifs <;> exact hs
    · simp only [hsrc, Bool.false_eq_true, if_false, pure, Except.pure] at hrun
      have h2 := Except.ok.inj hrun
      simp only [Prod.mk.injEq] at h2
      rw [← h2.1]
      have hmem : cb ∉ l := fun hm => hsrc (h.2.1 cb hm).2.2.1
      exact ⟨l, related_mark_destroyed tid s s l l cb (related_refl tid s l h) hmem hcon, hpre,
        fun hs => hs⟩

end inplace_stop_source

namespace inplace_stop_source

open intrusive_queue

theorem related_mark_invoked (tid : Nat) (s : inplace_stop_source) (l : List Nat) (cb : Nat)
    (h : consistent tid s l) (hcb : cb ∉ l) (hinv : cb ∉ s.invoked) (hcon : s.constructed cb = true) :
    related tid s l { s with invoked := s.invoked ++ [cb] } l := by
  obtain ⟨h1, h2, h3, h4, h5, h6⟩ := h
  refine ⟨⟨h1, ?_, h3, ?_, ?_, h6⟩, ⟨[cb], rfl⟩, fun _ hx => hx, fun _ hx => hx, fun _ _ => rfl,
    fun x hx hnx => absurd hx hnx, fun _ => ⟨fun _ hx => hx, rfl⟩⟩
  · intro x hx
    obtain ⟨a, b, c, d⟩ := h2 x hx
    refine ⟨a, b, c, ?_⟩
    intro hm
    rcases List.mem_append.mp hm with h | h
    · exact d h
    · exact hcb (List.mem_singleton.mp h ▸ hx)
  · exact List.nodup_append.mpr ⟨h4, List.nodup_singleton cb, by
      intro x hx hx'
      exact hinv (List.mem_singleton.mp hx' ▸ hx)⟩
  · intro x hx
    rcases List.mem_append.mp hx with h | h
    · exact h5 x h
    · rw [List.mem_singleton.mp h]; exact hcon

theorem run_execute (bodies : Nat → List stop_action) (tid fuel : Nat) (cb : Nat)
    (ih : run_sound bodies tid fuel)
    (s : inplace_stop_source) (l : List Nat) (s' : inplace_stop_source) (r : Bool)
    (h : consistent tid s l) (hpre : s.state = 1 ∧ cb ∉ l ∧ cb ∉ s.invoked ∧ s.constructed cb = true)
    (hrun : run bodies tid (fuel + 1) (.execute cb) s = .ok (s', r)) :
    ∃ l', related tid s l s' l' ∧ s'.state = 1 ∧ ∃ new, s'.invoked = s.invoked ++ cb :: new := by
  simp only [run] at hrun
  obtain ⟨hs, hcb, hinv, hcon⟩ := hpre
  have h0 := related_mark_invoked tid s l cb h hcb hinv hcon
  obtain ⟨l', e1, e2, e3⟩ := ih (.actions (bodies cb)) _ l s' r h0.1 (Or.inr hs) hrun
  refine ⟨l', related_trans tid s _ s' l l l' h0 e1 (fun hne => hne), e3 hs, ?_⟩
  obtain ⟨new, hnew⟩ := e1.2.1
  exact ⟨new, by rw [hnew]; simp⟩

theorem run_actions (bodies : Nat → List stop_action) (tid fuel : Nat) (body : List stop_action)
    (ih : run_sound bodies tid fuel)
    (s : inplace_stop_source) (l : List Nat) (s' : inplace_stop_source) (r : Bool)
    (h : consistent tid s l) (hpre : s.state = 0 ∨ s.state = 1)
    (hrun : run bodies tid (fuel + 1) (.actions body) s = .ok (s', r)) :
    ∃ l', related tid s l s' l' ∧ (s'.state = 0 ∨ s'.state = 1) ∧ (s.state = 1 → s'.state = 1) := by
  cases body with
  | nil =>
    simp only [run] at hrun
    have h2 := Except.ok.inj hrun
    simp only [Prod.mk.injEq] at h2
    rw [← h2.1]
    exact ⟨l, related_refl tid s l h, hpre, fun hs => hs⟩
  | cons a rest =>
    simp only [run, bind, Except.bind] at hrun
    have hcmd : ∃ cb, command.of_action a = .construct cb ∨ command.of_action a = .destroy cb ∨
        command.of_action a = .request_stop := by
      cases a with
      | construct cb => exact ⟨cb, Or.inl rfl⟩
      | destroy cb => exact ⟨cb, Or.inr (Or.inl rfl)⟩
      | request_stop => exact ⟨0, Or.inr (Or.inr rfl)⟩
    obtain ⟨cb, hcmd⟩ := hcmd
    generalize command.of_action a = cmd at hrun hcmd
    cases h1 : run bodies tid fuel cmd s with
    | error e => rw [h1] at hrun; exact Except.noConfusion hrun
    | ok res =>
      obtain ⟨s1, r1⟩ := res
      rw [h1] at hrun
      simp only at hrun
      have hpre1 : cmd.pre tid s l := by
        rcases hcmd with e | e | e <;> (rw [e]; exact hpre)
      obtain ⟨l1, e1, e2⟩ := ih cmd s l s1 r1 h hpre1 h1
      have hs1 : (s1.state = 0 ∨ s1.state = 1) ∧ (s.state = 1 → s1.state = 1) := by
        rcases hcmd with e | e | e
        · rw [e] at e2; exact ⟨e2.1, e2.2.1⟩
        · rw [e] at e2; exact e2
        · rw [e] at e2
          obtain ⟨p1, p2⟩ := e2
          rcases hpre with hs | hs
          · exact ⟨Or.inr (p2 hs).2.2, fun hs' => (p2 hs).2.2⟩
          · have := (p1 hs).2
            exact ⟨Or.inr (this ▸ hs), fun _ => this ▸ hs⟩
      obtain ⟨l2, f1, f2, f3⟩ := ih (.actions rest) s1 l1 s' r e1.1 hs1.1 hrun
      refine ⟨l2, related_trans tid s s1 s' l l1 l2 e1 f1 ?_, f2, fun hs => f3 (hs1.2 hs)⟩
      intro hne
      rcases hpre with hs | hs
      · exact absurd hs hne
      · rw [hs1.2 hs]; decide

end inplace_stop_source

namespace inplace_stop_source

open intrusive_queue

theorem fresh_facts (tid : Nat) (s : inplace_stop_source) (l : List Nat) (cb : Nat)
    (h : consistent tid s l) (hfresh : s.constructed cb = false) :
    cb ∉ l ∧ s.destroyed cb = false ∧ cb ∉ s.invoked := by
  obtain ⟨-, h2, -, -, h5, h6⟩ := h
  refine ⟨fun hm => ?_, ?_, fun hm => ?_⟩
  · have := (h2 cb hm).1
    rw [hfresh] at this
    exact absurd this (by decide)
  · cases hd : s.destroyed cb with
    | false => rfl
    | true =>
      have := h6 cb hd
      rw [hfresh] at this
      exact absurd this (by decide)
  · have := h5 cb hm
    rw [hfresh] at this
    exact absurd this (by decide)

theorem init_callback_registered (s : inplace_stop_source) (l : List Nat) (cb : Nat)
    (h : registered s l) (hcb : cb ∉ l) : registered (s.init_callback cb) l :=
  ⟨chain_update_of_not_mem s.next cb none l _ hcb h.1,
    prev_links_update_of_not_mem s.prev_ptr cb none l _ hcb h.2.1, h.2.2⟩

theorem related_construct_linked (tid : Nat) (s : inplace_stop_source) (l : List Nat) (cb : Nat)
    (n : Nat → Option Nat) (p : Nat → Option link_location)
    (h : consistent tid s l) (hfresh : s.constructed cb = false) (hstate : s.state = 0)
    (hc : chain n (some cb) (cb :: l)) (hp : prev_links p link_location.callbacks (cb :: l))
    (hframe : ∀ x, x ∉ cb :: l → p x = (s.init_callback cb).prev_ptr x) :
    related tid s l { s.init_callback cb with callbacks := some cb, next := n, prev_ptr := p }
      (cb :: l) := by
  obtain ⟨hcb, hd, hinv⟩ := fresh_facts tid s l cb h hfresh
  obtain ⟨h1, h2, h3, h4, h5, h6⟩ := h
  have hne : ∀ x, s.constructed x = true → x ≠ cb := fun x hx e => by
    rw [e, hfresh] at hx; exact absurd hx (by decide)
  refine ⟨⟨⟨hc, hp, List.nodup_cons.mpr ⟨hcb, h1.2.2⟩⟩, ?_, ?_, h4, ?_, ?_⟩, ⟨[], by simp [init_callback]⟩,
    ?_, fun _ hx => hx, ?_, fun x hx hnx => absurd (List.mem_cons_of_mem _ hx) hnx,
    fun hs => absurd hstate hs⟩
  · intro x hx
    rcases List.mem_cons.mp hx with e | hm
    · subst e
      exact ⟨by simp [init_callback], hd, by simp [init_callback], hinv⟩
    · obtain ⟨a, b, c, d⟩ := h2 x hm
      have hxc := hne x a
      exact ⟨by simp [init_callback, Function.update_noteq hxc, a], b,
        by simp [init_callback, Function.update_noteq hxc, c], d⟩
  · intro x hx hxcon hxd
    have hxc : x ≠ cb := fun e => hx (by simp [e])
    have hxl : x ∉ l := fun hm => hx (List.mem_cons_of_mem _ hm)
    have hxcon' : s.constructed x = true := by
      simpa [init_callback, Function.update_noteq hxc] using hxcon
    obtain ⟨a, b⟩ := h3 x hxl hxcon' hxd
    refine ⟨?_, ?_⟩
    · show p x = none
      rw [hframe x hx]
      simpa [init_callback, Function.update_noteq hxc] using a
    · intro hsrc
      apply b
      simpa [init_callback, Function.update_noteq hxc] using hsrc
  · intro x hx
    have := h5 x hx
    simp [init_callback, Function.update_noteq (hne x this), this]
  · intro x hx
    have := h6 x hx
    simp [init_callback, Function.update_noteq (hne x this), this]
  · intro x hx
    simp [init_callback, Function.update_noteq (hne x hx), hx]
  · intro x hx
    simp [init_callback, Function.update_noteq (hne x hx)]

theorem related_construct_refused (tid : Nat) (s : inplace_stop_source) (l : List Nat) (cb : Nat)
    (h : consistent tid s l) (hfresh : s.constructed cb = false) :
    related tid s l
      { s.init_callback cb with source := Function.update (s.init_callback cb).source cb false } l := by
  obtain ⟨hcb, hd, hinv⟩ := fresh_facts tid s l cb h hfresh
  have hreg := init_callback_registered s l cb h.1 hcb
  obtain ⟨h1, h2, h3, h4, h5, h6⟩ := h
  have hne : ∀ x, s.constructed x = true → x ≠ cb := fun x hx e => by
    rw [e, hfresh] at hx; exact absurd hx (by decide)
  refine ⟨⟨hreg, ?_, ?_, h4, ?_, ?_⟩, ⟨[], by simp [init_callback]⟩,
    ?_, fun _ hx => hx, ?_, fun x hx hnx => absurd hx hnx, fun _ => ⟨fun _ hx => hx, rfl⟩⟩
  · intro x hm
    obtain ⟨a, b, c, d⟩ := h2 x hm
    have hxc := hne x a
    exact ⟨by simp [init_callback, Function.update_noteq hxc, a], b,
      by simp [init_callback, Function.update_noteq hxc, c], d⟩
  · intro x hxl hxcon hxd
    by_cases hxc : x = cb
    · subst hxc
      exact ⟨by simp [init_callback], by simp [init_callback]⟩
    · have hxcon' : s.constructed x = true := by
        simpa [init_callback, Function.update_noteq hxc] using hxcon
      obtain ⟨a, b⟩ := h3 x hxl hxcon' hxd
      refine ⟨by simpa [init_callback, Function.update_noteq hxc] using a, ?_⟩
      intro hsrc
      apply b
      simpa [init_callback, Function.update_noteq hxc] using hsrc
  · intro x hx
    have := h5 x hx
    simp [init_callback, Function.update_noteq (hne x this), this]
  · intro x hx
    have := h6 x hx
    simp [init_callback, Function.update_noteq (hne x this), this]
  · intro x hx
    simp [init_callback, Function.update_noteq (hne x hx), hx]
  · intro x hx
    simp [init_callback, Function.update_noteq (hne x hx)]

end inplace_stop_source

namespace inplace_stop_source

open intrusive_queue

theorem run_construct (bodies : Nat → List stop_action) (tid fuel : Nat) (cb : Nat)
    (ih : run_sound bodies tid fuel)
    (s : inplace_stop_source) (l : List Nat) (s' : inplace_stop_source) (r : Bool)
    (h : consistent tid s l) (hpre : s.state = 0 ∨ s.state = 1)
    (hrun : run bodies tid (fuel + 1) (.construct cb) s = .ok (s', r)) :
    ∃ l', related tid s l s' l' ∧ (s'.state = 0 ∨ s'.state = 1) ∧ (s.state = 1 → s'.state = 1) ∧
      (s.state = 1 → s'.source cb = false ∧ ∃ new, s'.invoked = s.invoked ++ cb :: new) := by
  simp only [run] at hrun
  cases hfresh : s.constructed cb with
  | true => simp [hfresh] at hrun
  | false =>
    simp only [hfresh, Bool.false_eq_true, if_false, bind, Except.bind] at hrun
    obtain ⟨hcb, hd, hinv⟩ := fresh_facts tid s l cb h hfresh
    rcases hpre with hs | hs
    · obtain ⟨n, p, e1, e2, e3, e4⟩ := add_callback_links (s.init_callback cb) cb l
        (init_callback_registered s l cb h.1 hcb) hcb hs
      rw [e1] at hrun
      have h2 := Except.ok.inj hrun
      simp only [pure, Except.pure, Prod.mk.injEq] at h2
      rw [← h2.1]
      exact ⟨cb :: l, related_construct_linked tid s l cb n p h hfresh hs e2 e3 e4, Or.inl hs,
        fun h1 => absurd (hs.symm.trans h1) (by decide),
        fun h1 => absurd (hs.symm.trans h1) (by decide)⟩
    · rw [add_callback_refused (s.init_callback cb) cb hs] at hrun
      simp only [Bool.not_false, if_true] at hrun
      have h0 := related_construct_refused tid s l cb h hfresh
      obtain ⟨l', e1, e2, new, e3⟩ := ih (.execute cb) _ l s' r h0.1
        ⟨hs, hcb, hinv, by simp [init_callback]⟩ hrun
      refine ⟨l', related_trans tid s _ s' l l l' h0 e1 (fun hne => hne), Or.inr e2, fun _ => e2,
        fun _ => ⟨?_, new, e3⟩⟩
      have := e1.2.2.2.2.1 cb (by simp [init_callback])
      rw [this]
      simp

theorem lock_unless_stop_requested_of_stopped (s : inplace_stop_source) (requested : Bool)
    (hs : s.state = 1) : s.lock_unless_stop_requested requested = .ok (s, false) := by
  unfold lock_unless_stop_requested
  simp [hs, stop_requested_flag]

theorem lock_unless_stop_requested_of_free (s : inplace_stop_source) (hs : s.state = 0) :
    s.lock_unless_stop_requested true = .ok ({ s with state := 3 }, true) := by
  unfold lock_unless_stop_requested
  simp [hs, stop_requested_flag, locked_flag]

theorem consistent_notifying (tid : Nat) (s : inplace_stop_source) (l : List Nat) (st : Nat)
    (h : consistent tid s l) :
    consistent tid { s with state := st, notifying_thread_id := some tid } l := by
  obtain ⟨h1, h2, h3, h4, h5, h6⟩ := h
  exact ⟨h1, h2, fun x hx hc hd => ⟨(h3 x hx hc hd).1, fun _ => rfl⟩, h4, h5, h6⟩

theorem run_request_stop (bodies : Nat → List stop_action) (tid fuel : Nat)
    (ih : run_sound bodies tid fuel)
    (s : inplace_stop_source) (l : List Nat) (s' : inplace_stop_source) (r : Bool)
    (h : consistent tid s l) (hpre : s.state = 0 ∨ s.state = 1)
    (hrun : run bodies tid (fuel + 1) .request_stop s = .ok (s', r)) :
    ∃ l', related tid s l s' l' ∧
      (s.state = 1 → r = true ∧ s' = s) ∧ (s.state = 0 → r = false ∧ l' = [] ∧ s'.state = 1) := by
  simp only [run, bind, Except.bind] at hrun
  rcases hpre with hs | hs
  · rw [lock_unless_stop_requested_of_free s hs] at hrun
    simp only [Bool.not_true, Bool.false_eq_true, if_false] at hrun
    cases hd : run bodies tid fuel .deliver
        { s with state := 3, notifying_thread_id := some tid } with
    | error e => rw [hd] at hrun; exact Except.noConfusion hrun
    | ok res =>
      obtain ⟨s2, r2⟩ := res
      rw [hd] at hrun
      have h2 := Except.ok.inj hrun
      simp only [pure, Except.pure, Prod.mk.injEq] at h2
      have h0 := consistent_notifying tid s l 3 h
      obtain ⟨l', e1, e2, e3⟩ := ih .deliver _ l s2 r2 h0 ⟨rfl, rfl⟩ hd
      subst e3
      obtain ⟨a1, a2, a3, a4, a5, a6, -⟩ := e1
      refine ⟨[], ?_, fun h1 => absurd (hs.symm.trans h1) (by decide),
        fun _ => ⟨h2.2.symm, rfl, by rw [← h2.1]; rfl⟩⟩
      rw [← h2.1]
      exact ⟨consistent_of_view tid s2 _ [] rfl a1, a2, a3, a4, a5, a6, fun hne => absurd hs hne⟩
  · rw [lock_unless_stop_requested_of_stopped s true hs] at hrun
    simp only [Bool.not_false, if_true, pure, Except.pure] at hrun
    have h2 := Except.ok.inj hrun
    simp only [Prod.mk.injEq] at h2
    rw [← h2.1]
    exact ⟨l, related_refl tid s l h, fun _ => ⟨h2.2.symm, rfl⟩,
      fun h0 => absurd (hs.symm.trans h0) (by decide)⟩

end inplace_stop_source

namespace inplace_stop_source

open intrusive_queue

theorem consistent_take_first (tid : Nat) (s : inplace_stop_source) (cb : Nat) (l : List Nat)
    (h : consistent tid s (cb :: l)) (hid : s.notifying_thread_id = some tid) :
    consistent tid (s.take_first cb) l := by
  obtain ⟨h1, h2, h3, h4, h5, h6⟩ := h
  obtain ⟨t1, t2, t3⟩ := take_first_registered s cb l h1
  refine ⟨t1, fun x hx => h2 x (List.mem_cons_of_mem _ hx), ?_, h4, h5, h6⟩
  intro x hx hxcon hxd
  by_cases hxc : x = cb
  · subst hxc
    exact ⟨t2, fun _ => hid⟩
  · have hxl : x ∉ cb :: l := fun hm => by
      rcases List.mem_cons.mp hm with e | e
      · exact hxc e
      · exact hx e
    rw [t3 x hxl]
    exact h3 x hxl hxcon hxd

theorem after_execute_ok (s : inplace_stop_source) (cb : Nat) (hs : s.state = 1) :
    ∃ s2, s.after_execute cb = .ok s2 ∧ s2.view = s.view ∧ s2.state = 3 ∧
      (s.removed_local = true → s2.callback_completed = s.callback_completed ∧
        s2.removed_during_callback = s.removed_during_callback) ∧
      (s.removed_local = false →
        s2.callback_completed = Function.update s.callback_completed cb true ∧
        s2.removed_during_callback = Function.update s.removed_during_callback cb false) := by
  have hfree : ∀ t : inplace_stop_source, t.state = 1 →
      t.lock = .ok ({ t with state := 3 }, 1) := by
    intro t ht
    unfold lock
    simp [ht, locked_flag]
  unfold after_execute
  cases hr : s.removed_local with
  | true =>
    simp only [Bool.not_true, Bool.false_eq_true, if_false, bind, Except.bind]
    rw [hfree s hs]
    exact ⟨_, rfl, rfl, rfl, fun _ => ⟨rfl, rfl⟩, fun h => absurd h (by decide)⟩
  | false =>
    simp only [Bool.not_false, if_true, bind, Except.bind]
    rw [hfree]
    · exact ⟨_, rfl, rfl, rfl, fun h => absurd h (by decide), fun _ => ⟨rfl, rfl⟩⟩
    · exact hs

theorem run_deliver (bodies : Nat → List stop_action) (tid fuel : Nat)
    (ih : run_sound bodies tid fuel)
    (s : inplace_stop_source) (l : List Nat) (s' : inplace_stop_source) (r : Bool)
    (h : consistent tid s l) (hpre : s.state = 3 ∧ s.notifying_thread_id = some tid)
    (hrun : run bodies tid (fuel + 1) .deliver s = .ok (s', r)) :
    ∃ l', related tid s l s' l' ∧ s'.state = 3 ∧ l' = [] := by
  simp only [run] at hrun
  obtain ⟨hs, hid⟩ := hpre
  cases l with
  | nil =>
    have hnone : s.callbacks = none := h.1.1
    simp only [hnone] at hrun
    have h2 := Except.ok.inj hrun
    simp only [Prod.mk.injEq] at h2
    rw [← h2.1]
    exact ⟨[], related_refl tid s [] h, hs, rfl⟩
  | cons cb l0 =>
    have hsome : s.callbacks = some cb := h.1.1.1
    simp only [hsome, bind, Except.bind] at hrun
    have hcons := consistent_take_first tid s cb l0 h hid
    have hcb : cb ∉ l0 := (List.nodup_cons.mp h.1.2.2).1
    obtain ⟨hcon, -, -, hinv⟩ := h.2.1 cb (List.mem_cons_self _ _)
    cases h1 : run bodies tid fuel (.execute cb) (s.take_first cb) with
    | error e => rw [h1] at hrun; exact Except.noConfusion hrun
    | ok res =>
      obtain ⟨s1, r1⟩ := res
      rw [h1] at hrun
      simp only at hrun
      obtain ⟨l1, e1, e2, new, e3⟩ := ih (.execute cb) _ l0 s1 r1 hcons ⟨rfl, hcb, hinv, hcon⟩ h1
      obtain ⟨s2, f1, f2, f3, -, -⟩ := after_execute_ok s1 cb e2
      rw [f1] at hrun
      simp only at hrun
      have hcons2 := consistent_of_view tid s1 s2 l1 f2 e1.1
      have hrel2 := related_of_view tid s1 s2 l1 f2 e1.1
      obtain ⟨a1, a2, a3, a4, a5, a6, a7⟩ := e1
      obtain ⟨a7l, a7n⟩ := a7 (by show (1 : Nat) ≠ 0; decide)
      have hid2 : s2.notifying_thread_id = some tid := by
        have := (hrel2.2.2.2.2.2.2 (by rw [e2]; decide)).2
        rw [this, a7n]
        exact hid
      obtain ⟨l', g1, g2, g3⟩ := ih .deliver s2 l1 s' r hcons2 ⟨f3, hid2⟩ hrun
      have hrel1 : related tid s (cb :: l0) s1 l1 := by
        refine ⟨a1, ⟨cb :: new, e3⟩, a3, a4, a5, ?_, fun _ => ⟨fun x hx => List.mem_cons_of_mem _ (a7l x hx), a7n⟩⟩
        intro x hx hnx
        rcases List.mem_cons.mp hx with e | e
        · left
          rw [e, e3]
          simp [take_first]
        · exact a6 x e hnx
      refine ⟨l', ?_, g2, g3⟩
      exact related_trans tid s s1 s' _ l1 l' hrel1
        (related_trans tid s1 s2 s' l1 l1 l' hrel2 g1 (fun _ => by rw [f3]; decide))
        (fun _ => by rw [e2]; decide)

/-- Every run that returns from a consistent source leaves a related one. -/
theorem run_is_sound (bodies : Nat → List stop_action) (tid : Nat) :
    ∀ fuel, run_sound bodies tid fuel := by
  intro fuel
  induction fuel with
  | zero =>
    intro cmd s l s' r _ _ hrun
    simp [run] at hrun
  | succ fuel ih =>
    intro cmd s l s' r h hpre hrun
    cases cmd with
    | execute cb => exact run_execute bodies tid fuel cb ih s l s' r h hpre hrun
    | actions body => exact run_actions bodies tid fuel body ih s l s' r h hpre hrun
    | construct cb => exact run_construct bodies tid fuel cb ih s l s' r h hpre hrun
    | destroy cb => exact run_destroy bodies tid fuel cb s l s' r h hpre hrun
    | request_stop => exact run_request_stop bodies tid fuel ih s l s' r h hpre hrun
    | deliver => exact run_deliver bodies tid fuel ih s l s' r h hpre hrun

end inplace_stop_source

namespace inplace_stop_source

open intrusive_queue

theorem execute_plain (bodies : Nat → List stop_action) (tid fuel : Nat) (cb : Nat)
    (s : inplace_stop_source) (hb : bodies cb = []) :
    run bodies tid (fuel + 2) (.execute cb) s = .ok ({ s with invoked := s.invoked ++ [cb] }, true) := by
  simp only [run, hb]

theorem execute_self_removing (bodies : Nat → List stop_action) (tid fuel : Nat) (cb : Nat)
    (s : inplace_stop_source) (hb : bodies cb = [stop_action.destroy cb])
    (hcon : s.constructed cb = true) (hd : s.destroyed cb = false) (hsrc : s.source cb = true)
    (hprev : s.prev_ptr cb = none) (hid : s.notifying_thread_id = some tid) (hs : s.state = 1)
    (hrdc : s.removed_during_callback cb = true) :
    run bodies tid (fuel + 3) (.execute cb) s =
      .ok ({ s with invoked := s.invoked ++ [cb], removed_local := true,
                    destroyed := Function.update s.destroyed cb true }, true) := by
  have hrem := remove_callback_unlinked tid { s with invoked := s.invoked ++ [cb] } cb hprev hid
    (Or.inr hs)
  rw [if_pos (show ({ s with invoked := s.invoked ++ [cb] } : inplace_stop_source).removed_during_callback cb = true from hrdc)] at hrem
  simp only [run, hb, command.of_action, bind, Except.bind, hcon, hd, hsrc, Bool.not_true,
    Bool.or_self, Bool.false_eq_true, if_false, if_true, hrem, pure, Except.pure]

end inplace_stop_source

namespace inplace_stop_source

open intrusive_queue

/-- One round of the delivery loop for a callback that is plain or removes itself. -/
theorem deliver_round (bodies : Nat → List stop_action) (tid fuel : Nat) (cb : Nat) (l : List Nat)
    (s : inplace_stop_source) (h : consistent tid s (cb :: l)) (hid : s.notifying_thread_id = some tid)
    (hb : plain_or_self_removing bodies cb) :
    ∃ s1 s2, run bodies tid (fuel + 3) (.execute cb) (s.take_first cb) = .ok (s1, true) ∧
      s1.after_execute cb = .ok s2 ∧ s2.state = 3 ∧ consistent tid s2 l ∧
      s2.notifying_thread_id = some tid ∧ s2.invoked = s.invoked ++ [cb] ∧
      s2.callback_completed =
        (if bodies cb = [] then Function.update s.callback_completed cb true
          else s.callback_completed) ∧
      s2.destroyed =
        (if bodies cb = [] then s.destroyed else Function.update s.destroyed cb true) := by
  have hcons := consistent_take_first tid s cb l h hid
  obtain ⟨-, t2, -⟩ := take_first_registered s cb l h.1
  have hcb : cb ∉ l := (List.nodup_cons.mp h.1.2.2).1
  obtain ⟨hcon, hd, hsrc, hinv⟩ := h.2.1 cb (List.mem_cons_self _ _)
  have hrun : ∃ s1, run bodies tid (fuel + 3) (.execute cb) (s.take_first cb) = .ok (s1, true) ∧
      s1.state = 1 ∧ s1.next = (s.take_first cb).next ∧ s1.callbacks = (s.take_first cb).callbacks ∧
      s1.notifying_thread_id = some tid ∧ s1.invoked = s.invoked ++ [cb] ∧
      s1.callback_completed = s.callback_completed ∧
      s1.removed_local = (if bodies cb = [] then false else true) ∧
      s1.destroyed = (if bodies cb = [] then s.destroyed else Function.update s.destroyed cb true) := by
    rcases hb with hb | hb
    · refine ⟨_, execute_plain bodies tid (fuel + 1) cb _ hb, rfl, rfl, rfl, hid, rfl, rfl, ?_, ?_⟩
      · rw [if_pos hb]; rfl
      · rw [if_pos hb]; rfl
    · have hne : bodies cb ≠ [] := by rw [hb]; simp
      refine ⟨_, execute_self_removing bodies tid fuel cb _ hb hcon hd hsrc t2 hid rfl
        (by simp [take_first]), rfl, rfl, rfl, hid, rfl, rfl, ?_, ?_⟩
      · rw [if_neg hne]
      · rw [if_neg hne]; rfl
  obtain ⟨s1, e1, e2, e3, e4, e5, e6, e7, e8, e9⟩ := hrun
  obtain ⟨l1, r1, -⟩ := run_is_sound bodies tid (fuel + 3) (.execute cb) _ l s1 true hcons
    ⟨rfl, hcb, hinv, hcon⟩ e1
  have hl1 : l1 = l := by
    have c1 := r1.1.1.1
    have c2 := hcons.1.1
    rw [e3, e4] at c1
    exact chain_unique _ l1 l _ c1 c2
  subst hl1
  obtain ⟨s2, f1, f2, f3, f4, f5⟩ := after_execute_ok s1 cb e2
  have hv := f2
  simp only [view, Prod.mk.injEq] at hv
  obtain ⟨-, v2, -, -, -, -, v7, v8⟩ := hv
  refine ⟨s1, s2, e1, f1, f3, consistent_of_view tid s1 s2 l1 f2 r1.1, v2.trans e5, v8.trans e6, ?_,
    v7.trans e9⟩
  by_cases hbe : bodies cb = []
  · rw [if_pos hbe] at e8 ⊢
    rw [(f5 e8).1, e7]
  · rw [if_neg hbe] at e8 ⊢
    rw [(f4 e8).1, e7]

end inplace_stop_source

namespace inplace_stop_source

open intrusive_queue

theorem run_deliver_cons (bodies : Nat → List stop_action) (tid fuel : Nat) (cb : Nat)
    (s : inplace_stop_source) (h : s.callbacks = some cb) :
    run bodies tid (fuel + 1) .deliver s =
      (run bodies tid fuel (.execute cb) (s.take_first cb) >>= fun p =>
        p.1.after_execute cb >>= fun s2 => run bodies tid fuel .deliver s2) := by
  simp only [run, h]

theorem deliver_all (bodies : Nat → List stop_action) (tid : Nat) :
    ∀ (l : List Nat) (fuel : Nat) (s : inplace_stop_source), consistent tid s l → s.state = 3 →
      s.notifying_thread_id = some tid → (∀ cb ∈ l, plain_or_self_removing bodies cb) →
      l.length + 4 ≤ fuel →
      ∃ s', run bodies tid fuel .deliver s = .ok (s', true) ∧ s'.state = 3 ∧ consistent tid s' [] ∧
        s'.invoked = s.invoked ++ l ∧
        (∀ x, s'.callback_completed x =
          if x ∈ l ∧ bodies x = [] then true else s.callback_completed x) ∧
        (∀ x, s'.destroyed x =
          if x ∈ l ∧ bodies x ≠ [] then true else s.destroyed x) := by
  intro l
  induction l with
  | nil =>
    intro fuel s h hs _ _ hfuel
    obtain ⟨f, rfl⟩ : ∃ f, fuel = f + 1 := ⟨fuel - 1, by omega⟩
    have hnone : s.callbacks = none := h.1.1
    refine ⟨s, by simp only [run, hnone], hs, h, by simp, fun x => by simp, fun x => by simp⟩
  | cons cb l ih =>
    intro fuel s h hs hid hb hfuel
    obtain ⟨f, rfl⟩ : ∃ f, fuel = f + 4 := ⟨fuel - 4, by simp at hfuel; omega⟩
    have hsome : s.callbacks = some cb := h.1.1.1
    have hcb : cb ∉ l := (List.nodup_cons.mp h.1.2.2).1
    obtain ⟨s1, s2, e1, e2, e3, e4, e5, e6, e7, e8⟩ :=
      deliver_round bodies tid f cb l s h hid (hb cb (List.mem_cons_self _ _))
    obtain ⟨s', g1, g2, g3, g4, g5, g6⟩ := ih (f + 3) s2 e4 e3 e5
      (fun x hx => hb x (List.mem_cons_of_mem _ hx)) (by simp at hfuel; omega)
    refine ⟨s', ?_, g2, g3, ?_, ?_, ?_⟩
    · rw [run_deliver_cons bodies tid (f + 3) cb s hsome, e1]
      simp only [bind, Except.bind, e2]
      exact g1
    · rw [g4, e6, List.append_assoc]
      rfl
    · intro x
      rw [g5 x, e7]
      by_cases hxc : x = cb
      · subst hxc
        by_cases hbe : bodies x = []
        · simp [hbe, hcb]
        · simp [hbe]
      · by_cases hbe : bodies cb = []
        · simp [hbe, hxc, Function.update_noteq hxc]
        · simp [hbe, hxc]
    · intro x
      rw [g6 x, e8]
      by_cases hxc : x = cb
      · subst hxc
        by_cases hbe : bodies x = []
        · simp [hbe]
        · simp [hbe, hcb]
      · by_cases hbe : bodies cb = []
        · simp [hbe, hxc]
        · simp [hbe, hxc, Function.update_noteq hxc]

/-- With callbacks that are plain or remove themselves, `request_stop` on a consistent source on
which stop was not requested returns false after calling every registered callback once, in list
order; exactly the plain ones are marked completed. -/
theorem request_stop_returns (bodies : Nat → List stop_action) (tid fuel : Nat)
    (s : inplace_stop_source) (l : List Nat) (h : consistent tid s l) (hs : s.state = 0)
    (hb : ∀ cb ∈ l, plain_or_self_removing bodies cb) (hfuel : l.length + 5 ≤ fuel) :
    ∃ s', request_stop bodies tid fuel s = .ok (s', false) ∧ s'.state = 1 ∧ s'.callbacks = none ∧
      s'.invoked = s.invoked ++ l ∧
      (∀ x, s'.callback_completed x =
        if x ∈ l ∧ bodies x = [] then true else s.callback_completed x) ∧
      (∀ x, s'.destroyed x = if x ∈ l ∧ bodies x ≠ [] then true else s.destroyed x) := by
  obtain ⟨f, rfl⟩ : ∃ f, fuel = f + 1 := ⟨fuel - 1, by omega⟩
  obtain ⟨s2, g1, g2, g3, g4, g5, g6⟩ := deliver_all bodies tid l f
    { s with state := 3, notifying_thread_id := some tid } (consistent_notifying tid s l 3 h) rfl rfl
    hb (by omega)
  refine ⟨{ s2 with state := stop_requested_flag }, ?_, rfl, g3.1.1, g4, g5, g6⟩
  simp only [request_stop, run, bind, Except.bind, lock_unless_stop_requested_of_free s hs,
    Bool.not_true, Bool.false_eq_true, if_false, g1, pure, Except.pure]

end inplace_stop_source

namespace inplace_stop_source

open intrusive_queue

theorem sample_source_consistent (tid : Nat) : consistent tid sample_source [3, 2, 1] := by
  refine ⟨⟨by decide, ⟨rfl, rfl, rfl, trivial⟩, by decide⟩, by decide, ?_, by decide, by decide, ?_⟩
  · intro cb hcb hcon _
    simp only [List.mem_cons, List.mem_singleton, List.not_mem_nil, or_false, not_or] at hcb
    simp only [sample_source, decide_eq_true_eq] at hcon
    omega
  · intro cb hd
    simp [sample_source] at hd

theorem sample_bodies_plain_or_self_removing (cb : Nat) :
    plain_or_self_removing sample_bodies cb := by
  unfold plain_or_self_removing sample_bodies
  by_cases h : cb = 2
  · right; simp [h]
  · left; simp [h]

/-- C8: in a sequential run on thread `tid` of a consistent `inplace_stop_source`, whatever the
callbacks do with the source (register, deregister, request stop): a `request_stop` that finds no
stop requested returns false with an empty list, no callback is called twice, and every callback
that was registered before it is called exactly once by it unless it was destroyed before being
called; with callbacks that leave the source alone or remove themselves the call does return; a
callback registered after stop was requested is refused by `add_callback` (which returns false and
links nothing) and is called once, as the first thing its registration does; a `request_stop`
that finds stop requested returns true and changes nothing, so it calls no callback. -/
theorem stop_callbacks_called_exactly_once (bodies : Nat → List stop_action) (tid : Nat) :
    (∀ (fuel : Nat) (s : inplace_stop_source) (l : List Nat) (s' : inplace_stop_source) (r : Bool),
      consistent tid s l → s.state = 0 → request_stop bodies tid fuel s = .ok (s', r) →
      r = false ∧ s'.callbacks = none ∧ s'.invoked.Nodup ∧
      ∀ cb ∈ l, cb ∉ s.invoked ∧
        (s'.invoked.count cb = 1 ∨ (s'.invoked.count cb = 0 ∧ s'.destroyed cb = true))) ∧
    (∀ (fuel : Nat) (s : inplace_stop_source) (l : List Nat),
      consistent tid s l → s.state = 0 → (∀ cb ∈ l, plain_or_self_removing bodies cb) →
      l.length + 5 ≤ fuel →
      ∃ s', request_stop bodies tid fuel s = .ok (s', false) ∧ s'.invoked = s.invoked ++ l) ∧
    (∀ (fuel : Nat) (s : inplace_stop_source) (l : List Nat) (cb : Nat) (s' : inplace_stop_source),
      consistent tid s l → s.state = 1 → construct_callback bodies tid fuel s cb = .ok s' →
      (s.init_callback cb).add_callback cb = .ok (s.init_callback cb, false) ∧
      (∃ new, s'.invoked = s.invoked ++ cb :: new) ∧ s'.invoked.count cb = 1 ∧
      ∃ l', consistent tid s' l' ∧ cb ∉ l') ∧
    (∀ (fuel : Nat) (s : inplace_stop_source) (cb : Nat),
      s.state = 1 → s.constructed cb = false → bodies cb = [] →
      construct_callback bodies tid (fuel + 3) s cb =
        .ok { s.init_callback cb with
                source := Function.update (s.init_callback cb).source cb false,
                invoked := s.invoked ++ [cb] }) ∧
    (∀ (fuel : Nat) (s : inplace_stop_source),
      s.state = 1 → request_stop bodies tid (fuel + 1) s = .ok (s, true)) := by
  refine ⟨?_, ?_, ?_, ?_, ?_⟩
  · intro fuel s l s' r h hs hrun
    obtain ⟨l', hrel, -, hpost⟩ := run_is_sound bodies tid fuel .request_stop s l s' r h (Or.inl hs) hrun
    obtain ⟨p1, p2, -⟩ := hpost hs
    subst p2
    obtain ⟨a1, -, -, -, -, a6, -⟩ := hrel
    refine ⟨p1, a1.1.1, a1.2.2.2.1, ?_⟩
    intro cb hcb
    refine ⟨(h.2.1 cb hcb).2.2.2, ?_⟩
    by_cases hm : cb ∈ s'.invoked
    · exact Or.inl (List.count_eq_one_of_mem a1.2.2.2.1 hm)
    · rcases a6 cb hcb (List.not_mem_nil cb) with h1 | h1
      · exact absurd h1 hm
      · exact Or.inr ⟨List.count_eq_zero_of_not_mem hm, h1⟩
  · intro fuel s l h hs hb hfuel
    obtain ⟨s', e1, -, -, e4, -⟩ := request_stop_returns bodies tid fuel s l h hs hb hfuel
    exact ⟨s', e1, e4⟩
  · intro fuel s l cb s' h hs hrun
    unfold construct_callback at hrun
    cases hr : run bodies tid fuel (.construct cb) s with
    | error e => rw [hr] at hrun; exact Except.noConfusion hrun
    | ok res =>
      obtain ⟨s1, r1⟩ := res
      rw [hr] at hrun
      have h2 := Except.ok.inj hrun
      simp only at h2
      subst h2
      have hfresh : s.constructed cb = false := by
        cases fuel with
        | zero => simp [run] at hr
        | succ f =>
          cases hc : s.constructed cb with
          | false => rfl
          | true => simp [run, hc] at hr
      obtain ⟨l', hrel, -, -, hpost⟩ := run_is_sound bodies tid fuel (.construct cb) s l s1 r1 h
        (Or.inr hs) hr
      obtain ⟨-, new, hnew⟩ := hpost hs
      obtain ⟨a1, -, -, -, -, -, a7⟩ := hrel
      have hmem : cb ∈ s1.invoked := by rw [hnew]; simp
      refine ⟨add_callback_refused _ cb hs, ⟨new, hnew⟩, List.count_eq_one_of_mem a1.2.2.2.1 hmem,
        l', a1, fun hm => ?_⟩
      exact (fresh_facts tid s l cb h hfresh).1 ((a7 (by rw [hs]; decide)).1 cb hm)
  · intro fuel s cb hs hfresh hb
    unfold construct_callback
    have hstep : ∀ f, run bodies tid (f + 1) (.construct cb) s =
        run bodies tid f (.execute cb)
          { s.init_callback cb with source := Function.update (s.init_callback cb).source cb false } := by
      intro f
      simp only [run, hfresh, Bool.false_eq_true, if_false, bind, Except.bind,
        add_callback_refused (s.init_callback cb) cb hs, Bool.not_false, if_true]
    rw [hstep (fuel + 2), execute_plain bodies tid fuel cb _ hb]
    rfl
  · intro fuel s hs
    simp only [request_stop, run, bind, Except.bind, lock_unless_stop_requested_of_stopped s true hs,
      Bool.not_false, if_true, pure, Except.pure]

end inplace_stop_source

namespace inplace_stop_source

theorem stop_callbacks_called_exactly_once_witness :
    consistent 0 sample_source [3, 2, 1] ∧ sample_source.state = 0 ∧
    (∀ cb ∈ [3, 2, 1], plain_or_self_removing sample_bodies cb) ∧
    ∃ s', request_stop sample_bodies 0 8 sample_source = .ok (s', false) ∧
      s'.invoked = [3, 2, 1] ∧
      (∀ cb ∈ [3, 2, 1], s'.invoked.count cb = 1 ∨
        (s'.invoked.count cb = 0 ∧ s'.destroyed cb = true)) ∧
      request_stop sample_bodies 0 8 s' = .ok (s', true) ∧
      ∃ s'', construct_callback sample_bodies 0 8 s' 4 = .ok s'' ∧ s''.invoked = [3, 2, 1, 4] := by
  have hc := sample_source_consistent 0
  have hb : ∀ cb ∈ [3, 2, 1], plain_or_self_removing sample_bodies cb :=
    fun cb _ => sample_bodies_plain_or_self_removing cb
  obtain ⟨p1, p2, -, p4, p5⟩ := stop_callbacks_called_exactly_once sample_bodies 0
  obtain ⟨s', e1, e2⟩ := p2 8 sample_source [3, 2, 1] hc rfl hb (by decide)
  have hs' : s'.state = 1 ∧ s'.constructed 4 = false := by
    have hev : ∃ t, request_stop sample_bodies 0 8 sample_source = .ok (t, false) ∧
        t.state = 1 ∧ t.constructed 4 = false := ⟨_, rfl, rfl, rfl⟩
    obtain ⟨t, t1, t2, t3⟩ := hev
    have := Except.ok.inj (e1.symm.trans t1)
    simp only [Prod.mk.injEq, and_true] at this
    rw [this]
    exact ⟨t2, t3⟩
  obtain ⟨-, -, -, q4⟩ := p1 8 sample_source [3, 2, 1] s' false hc rfl e1
  refine ⟨hc, rfl, hb, s', e1, e2, fun cb hcb => (q4 cb hcb).2, p5 7 s' hs'.1, _,
    p4 5 s' 4 hs'.1 hs'.2 rfl, ?_⟩
  show s'.invoked ++ [4] = _
  rw [e2]
  rfl

end inplace_stop_source

namespace inplace_stop_source

open intrusive_queue

/-- C9: while `request_stop` delivers callback `cb` on thread `tid`, it has unlinked `cb` (null
`prev_ptr`), released the lock and pointed `cb` at its local flag; a `remove_callback` of `cb`
made on that thread from inside the call then returns (it takes the free lock, finds the null
`prev_ptr`, and does not spin), changing nothing but the flag, which it sets; with the flag set,
the rest of the round stores neither `callback_completed` nor `removed_during_callback`.  For
callbacks that leave the source alone or remove themselves, `request_stop` returns, having
called a self-removing callback exactly once and never having stored its
`callback_completed`. -/
theorem self_removal_during_delivery (bodies : Nat → List stop_action) (tid : Nat) :
    (∀ (s : inplace_stop_source) (cb : Nat) (l : List Nat),
      consistent tid s (cb :: l) → s.notifying_thread_id = some tid →
      (s.take_first cb).state = stop_requested_flag ∧ (s.take_first cb).prev_ptr cb = none ∧
      (s.take_first cb).removed_during_callback cb = true ∧
      (s.take_first cb).removed_local = false ∧
      (s.take_first cb).notifying_thread_id = some tid) ∧
    (∀ (t : inplace_stop_source) (cb : Nat),
      t.state = stop_requested_flag → t.prev_ptr cb = none → t.removed_during_callback cb = true →
      t.notifying_thread_id = some tid →
      t.remove_callback tid cb = .ok { t with removed_local := true }) ∧
    (∀ (t : inplace_stop_source) (cb : Nat),
      t.state = stop_requested_flag → t.removed_local = true →
      ∃ t', t.after_execute cb = .ok t' ∧ t'.callback_completed = t.callback_completed ∧
        t'.removed_during_callback = t.removed_during_callback ∧ t'.view = t.view) ∧
    (∀ (fuel : Nat) (s : inplace_stop_source) (l : List Nat) (cb : Nat),
      consistent tid s l → s.state = 0 → (∀ x ∈ l, plain_or_self_removing bodies x) →
      l.length + 5 ≤ fuel → cb ∈ l → bodies cb = [stop_action.destroy cb] →
      ∃ s', request_stop bodies tid fuel s = .ok (s', false) ∧ s'.invoked.count cb = 1 ∧
        s'.callback_completed cb = s.callback_completed cb ∧ s'.destroyed cb = true) := by
  refine ⟨?_, ?_, ?_, ?_⟩
  · intro s cb l h hid
    obtain ⟨-, t2, -⟩ := take_first_registered s cb l h.1
    exact ⟨rfl, t2, by simp [take_first], rfl, hid⟩
  · intro t cb hs hprev hrdc hid
    rw [remove_callback_unlinked tid t cb hprev hid (Or.inr hs), if_pos hrdc]
  · intro t cb hs hr
    obtain ⟨t', e1, e2, -, e4, -⟩ := after_execute_ok t cb hs
    exact ⟨t', e1, (e4 hr).1, (e4 hr).2, e2⟩
  · intro fuel s l cb h hs hb hfuel hcb hbody
    obtain ⟨s', e1, -, -, e4, e5, e6⟩ := request_stop_returns bodies tid fuel s l h hs hb hfuel
    obtain ⟨_, hrel, -⟩ :=
      run_is_sound bodies tid fuel .request_stop s l s' false h (Or.inl hs) e1
    have hnd := hrel.1.2.2.2.1
    have hne : bodies cb ≠ [] := by rw [hbody]; simp
    refine ⟨s', e1, List.count_eq_one_of_mem hnd (by rw [e4]; exact List.mem_append_right _ hcb), ?_, ?_⟩
    · rw [e5 cb]
      simp [hne]
    · rw [e6 cb]
      simp [hne, hcb]

theorem self_removal_during_delivery_witness :
    consistent 0 sample_source [3, 2, 1] ∧ sample_source.state = 0 ∧
    (∀ x ∈ [3, 2, 1], plain_or_self_removing sample_bodies x) ∧
    sample_bodies 2 = [stop_action.destroy 2] ∧
    ∃ s', request_stop sample_bodies 0 8 sample_source = .ok (s', false) ∧
      s'.invoked.count 2 = 1 ∧ s'.callback_completed 2 = false ∧ s'.destroyed 2 = true := by
  have hc := sample_source_consistent 0
  have hb : ∀ x ∈ [3, 2, 1], plain_or_self_removing sample_bodies x :=
    fun x _ => sample_bodies_plain_or_self_removing x
  obtain ⟨s', e1, e2, e3, e4⟩ := (self_removal_during_delivery sample_bodies 0).2.2.2 8
    sample_source [3, 2, 1] 2 hc rfl hb (by decide) (by decide) rfl
  exact ⟨hc, rfl, hb, rfl, s', e1, e2, e3, e4⟩

end inplace_stop_source

namespace steady_timer

open io_uring_context

/-- C10, evaluated on the code.  `async_wait` called off the loop thread queues the start of the
wait on the remote queue; a `cancel()` at that moment, on the loop thread or off it, finds the heap
empty and leaves the context as it is; the loop then starts the timer and, once the due time has
passed, calls the callback of the wait with success: `ECANCELED` is never delivered.  Once the
timer is in the heap, `cancel()` on either thread makes the loop call the callback once with
`ECANCELED`, after which the timer is in no heap and no queue. -/
theorem cancel_while_start_is_queued_is_lost :
    sample_timer.async_wait 4 false 1 idle_context =
      .ok ({ sample_timer with p := some 1 }, queued_context) ∧
    (∀ cancel_io_thread : Bool,
      cancel cancel_io_thread { sample_timer with p := some 1 } queued_context = .ok queued_context) ∧
    queued_context.acquire_remote_queued_items 4 = .ok drained_context ∧
    drained_context.execute_pending_local (timer_impl.execute 4) 4 = .ok started_context ∧
    started_context.update_timers 4 { seconds_ := 4 } = .ok elapsed_context ∧
    elapsed_context.execute_pending_local (timer_impl.execute 4) 4 = .ok delivered_context ∧
    delivered_context.received = [(1, 0)] ∧
    (∀ cancel_io_thread : Bool, ∃ c, cancel_in_heap cancel_io_thread = .ok c ∧
      c.received = [(1, ECANCELED)] ∧ c.timers.empty = true ∧ c.local_queue.empty = true ∧
      c.remote_queue_.head = head_value.null) := by
  refine ⟨by with_unfolding_all rfl, ?_, by with_unfolding_all rfl, by with_unfolding_all rfl,
    by with_unfolding_all rfl, by with_unfolding_all rfl, rfl, ?_⟩
  · intro b
    cases b <;> rfl
  · intro b
    cases b
    · exact ⟨_, by with_unfolding_all rfl, by with_unfolding_all rfl, by with_unfolding_all rfl,
        by with_unfolding_all rfl, by with_unfolding_all rfl⟩
    · exact ⟨_, by with_unfolding_all rfl, by with_unfolding_all rfl, by with_unfolding_all rfl,
        by with_unfolding_all rfl, by with_unfolding_all rfl⟩

end steady_timer

namespace time_point

/-- The remainder that `normalize()` leaves after the truncating division lies strictly between
`-10^9` and `10^9` and has the sign of the dividend. -/
theorem tdiv_remainder_bounds (n : Int) :
    -1000000000 < n - Int.tdiv n 1000000000 * 1000000000 ∧
    n - Int.tdiv n 1000000000 * 1000000000 < 1000000000 ∧
    (0 ≤ n → 0 ≤ n - Int.tdiv n 1000000000 * 1000000000) ∧
    (n ≤ 0 → n - Int.tdiv n 1000000000 * 1000000000 ≤ 0) := by
  rcases le_total 0 n with hn | hn
  · rw [Int.tdiv_eq_ediv hn (by norm_num)]
    omega
  · have h : Int.tdiv n 1000000000 = -((-n) / 1000000000) := by
      have h1 := Int.neg_tdiv (-n) 1000000000
      rw [neg_neg] at h1
      rw [h1, Int.tdiv_eq_ediv (by omega) (by norm_num)]
    rw [h]
    omega

/-- C15: for all seconds `s` and nanoseconds `n`, the time point that
`from_seconds_and_nanoseconds(s, n)` returns has a nanoseconds part of absolute value below `10^9`,
and its seconds part and nanoseconds part never have opposite signs. -/
theorem from_seconds_and_nanoseconds_normalized (s n : Int) :
    |(from_seconds_and_nanoseconds s n).nanoseconds_part| < 1000000000 ∧
    ¬ ((from_seconds_and_nanoseconds s n).seconds_part > 0 ∧
        (from_seconds_and_nanoseconds s n).nanoseconds_part < 0) ∧
    ¬ ((from_seconds_and_nanoseconds s n).seconds_part < 0 ∧
        (from_seconds_and_nanoseconds s n).nanoseconds_part > 0) := by
  obtain ⟨h1, h2, -, -⟩ := tdiv_remainder_bounds n
  simp only [from_seconds_and_nanoseconds, normalize, seconds_part, nanoseconds_part]
  split_ifs with ha hb
  · simp only [abs_lt]
    omega
  · simp only [abs_lt]
    omega
  · simp only [abs_lt]
    omega

end time_point

namespace intrusive_queue

theorem push_back_list_holds :
    ∀ (items : List Nat) (next : next_field) (q : intrusive_queue) (pre : List Nat),
      holds next q pre → (pre ++ items).Nodup →
      holds (push_back_list next q items).1 (push_back_list next q items).2 (pre ++ items) := by
  intro items
  induction items with
  | nil => intro next q pre h _; simpa [push_back_list] using h
  | cons x items ih =>
      intro next q pre h hnd
      have hx : x ∉ pre := by
        intro hmem
        have := List.nodup_append.1 hnd
        exact this.2.2 hmem (List.mem_cons_self _ _)
      have h1 := push_back_holds next q pre x h hx
      have h2 := ih (q.push_back next x).1 (q.push_back next x).2 (pre ++ [x]) h1
        (by simpa [List.append_assoc] using hnd)
      simpa [push_back_list, List.append_assoc] using h2

theorem pop_front_holds (next : next_field) (q : intrusive_queue) (a : Nat) (l : List Nat)
    (h : holds next q (a :: l)) :
    ∃ q1, q.pop_front next = .ok (a, q1) ∧ holds next q1 l := by
  obtain ⟨hc, ht, hnd⟩ := h
  obtain ⟨hhead, hrest⟩ := hc
  refine ⟨{ head := next a, tail := if next a = none then none else q.tail }, ?_, ?_⟩
  · simp [pop_front, hhead]
  · refine ⟨hrest, ?_, (List.nodup_cons.1 hnd).2⟩
    cases l with
    | nil =>
        have : next a = none := hrest
        simp [this]
    | cons b l =>
        have : next a = some b := hrest.1
        simp [this, ht, List.getLast?_cons_cons]

theorem pop_front_n_holds (next : next_field) :
    ∀ (l : List Nat) (q : intrusive_queue), holds next q l →
      pop_front_n l.length next q = .ok (l, {}) := by
  intro l
  induction l with
  | nil =>
      intro q h
      rw [(holds_nil_iff next q).1 h]
      rfl
  | cons a l ih =>
      intro q h
      obtain ⟨q1, hpop, h1⟩ := pop_front_holds next q a l h
      have h2 := ih q1 h1
      simp only [List.length_cons, pop_front_n, hpop]
      show (do
        let r ← pop_front_n l.length next q1
        pure (a :: r.1, r.2)) = _
      rw [h2]
      rfl

/-- C16: for every sequence of distinct items pushed with `push_back` onto an empty queue, as many
calls of `pop_front` as there are items return the items in insertion order, and the queue that
is left has a null head and a null tail. -/
theorem push_back_then_pop_front_is_fifo (next : next_field) (items : List Nat)
    (hdistinct : items.Nodup) :
    pop_front_n items.length (push_back_list next {} items).1 (push_back_list next {} items).2 =
      .ok (items, { head := none, tail := none }) := by
  have h := push_back_list_holds items next {} [] ((holds_nil_iff next {}).2 rfl)
    (by simpa using hdistinct)
  exact pop_front_n_holds _ items _ (by simpa using h)

/-- Three items pushed from an empty queue come back in the order 5, 2, 9. -/
theorem push_back_then_pop_front_is_fifo_witness :
    [5, 2, 9].Nodup ∧
    pop_front_n 3 (push_back_list (fun _ => none) {} [5, 2, 9]).1
        (push_back_list (fun _ => none) {} [5, 2, 9]).2 =
      .ok ([5, 2, 9], { head := none, tail := none }) :=
  ⟨by decide, push_back_then_pop_front_is_fifo (fun _ => none) [5, 2, 9] (by decide)⟩

end intrusive_queue

namespace intrusive_stack

open intrusive_queue

theorem push_front_list_chain :
    ∀ (items : List Nat) (next : next_field) (s : intrusive_stack) (pre : List Nat),
      chain next s.head pre → (items ++ pre).Nodup →
      chain (push_front_list next s items).1 (push_front_list next s items).2.head
        (items.reverse ++ pre) := by
  intro items
  induction items with
  | nil => intro next s pre h _; simpa [push_front_list] using h
  | cons x items ih =>
      intro next s pre h hnd
      have hnd1 : (x :: (items ++ pre)).Nodup := by simpa using hnd
      have hx : x ∉ pre := fun hmem => (List.nodup_cons.1 hnd1).1 (List.mem_append_right _ hmem)
      have h1 : chain (s.push_front next x).1 (s.push_front next x).2.head (x :: pre) := by
        refine ⟨rfl, ?_⟩
        simp only [push_front, Function.update_same]
        exact chain_update_of_not_mem next x s.head pre s.head hx h
      have hnd2 : (items ++ x :: pre).Nodup := by
        have := List.nodup_middle.2 hnd1
        simpa using this
      have h2 := ih (s.push_front next x).1 (s.push_front next x).2 (x :: pre) h1 hnd2
      simpa [push_front_list, List.append_assoc] using h2

/-- C17: for the chain that `push_front` of the distinct items `x1..xn` in this order builds on an
empty stack, `make_reversed` of the chain head returns (with at least `n` rounds of its loop) a
queue whose `pop_front` order is `x1..xn` and whose tail is `xn`, so that an item pushed with
`push_back` afterwards is popped after `xn`; for the null chain it returns the empty queue. -/
theorem make_reversed_of_push_front_chain (next : next_field) (items : List Nat) (fuel : Nat)
    (hdistinct : items.Nodup) (hfuel : items.length ≤ fuel) :
    (∃ next1 q,
      make_reversed fuel (push_front_list next {} items).1 (push_front_list next {} items).2.head =
        .ok (next1, q) ∧
      pop_front_n items.length next1 q = .ok (items, {}) ∧
      q.tail = items.getLast? ∧
      ∀ y, y ∉ items →
        pop_front_n (items.length + 1) (q.push_back next1 y).1 (q.push_back next1 y).2 =
          .ok (items ++ [y], {})) ∧
    make_reversed fuel next none = .ok (next, {}) := by
  constructor
  · have hc := push_front_list_chain items next {} [] rfl (by simpa using hdistinct)
    rw [List.append_nil] at hc
    obtain ⟨next1, q, hq, hholds⟩ := make_reversed_holds items.reverse fuel _ _ hc
      (List.nodup_reverse.2 hdistinct) (by simpa using hfuel)
    rw [List.reverse_reverse] at hholds
    refine ⟨next1, q, hq, pop_front_n_holds next1 items q hholds, hholds.2.1, ?_⟩
    intro y hy
    have h1 := push_back_holds next1 q items y hholds hy
    have h2 := pop_front_n_holds _ (items ++ [y]) _ h1
    simpa using h2
  · cases fuel <;> rfl

/-- The chain built by pushing 5, 2, 9 is reversed into the queue 5, 2, 9 with tail 9. -/
theorem make_reversed_of_push_front_chain_witness :
    [5, 2, 9].Nodup ∧ [5, 2, 9].length ≤ 3 ∧
    ((∃ next1 q,
      make_reversed 3 (push_front_list (fun _ => none) {} [5, 2, 9]).1
          (push_front_list (fun _ => none) {} [5, 2, 9]).2.head = .ok (next1, q) ∧
      pop_front_n [5, 2, 9].length next1 q = .ok ([5, 2, 9], {}) ∧
      q.tail = [5, 2, 9].getLast? ∧
      ∀ y, y ∉ [5, 2, 9] →
        pop_front_n ([5, 2, 9].length + 1) (q.push_back next1 y).1 (q.push_back next1 y).2 =
          .ok ([5, 2, 9] ++ [y], {})) ∧
    make_reversed 3 (fun _ => none) none = .ok ((fun _ => none), {})) :=
  ⟨by decide, by decide,
    make_reversed_of_push_front_chain (fun _ => none) [5, 2, 9] 3 (by decide) (by decide)⟩

end intrusive_stack

namespace time_point

theorem lt_iff (a b : time_point) :
    a.lt b = true ↔
      a.seconds_ < b.seconds_ ∨ (a.seconds_ = b.seconds_ ∧ a.nanoseconds_ < b.nanoseconds_) := by
  unfold lt
  split_ifs with h
  · simp only [decide_eq_true_eq]
    omega
  · simp only [decide_eq_true_eq]
    omega

theorem le_iff (a b : time_point) :
    a.le b = true ↔
      a.seconds_ < b.seconds_ ∨ (a.seconds_ = b.seconds_ ∧ a.nanoseconds_ ≤ b.nanoseconds_) := by
  have h := lt_iff b a
  unfold le
  cases hlt : b.lt a
  · have h1 : ¬ (b.seconds_ < a.seconds_ ∨ (b.seconds_ = a.seconds_ ∧ b.nanoseconds_ < a.nanoseconds_)) := by
      rw [← h, hlt]; simp
    simp only [Bool.not_false, true_iff]
    omega
  · have h1 := h.1 hlt
    simp only [Bool.not_true, Bool.false_eq_true, false_iff]
    omega

theorem le_of_lt (a b : time_point) (h : a.lt b = true) : a.le b = true := by
  rw [lt_iff] at h
  rw [le_iff]
  omega

theorem le_trans (a b c : time_point) (h1 : a.le b = true) (h2 : b.le c = true) :
    a.le c = true := by
  rw [le_iff] at *
  omega

theorem le_of_not_lt (a b : time_point) (h : ¬ a.lt b = true) : b.le a = true := by
  unfold le
  simpa using h

end time_point

namespace intrusive_heap

open intrusive_queue

theorem prev_chain_update_of_not_mem (prev : Nat → Option Nat) (x : Nat) (v : Option Nat) :
    ∀ (l : List Nat) (p : Option Nat), x ∉ l → prev_chain prev p l →
      prev_chain (Function.update prev x v) p l := by
  intro l
  induction l with
  | nil => intro p _ _; trivial
  | cons a l ih =>
      intro p hx h
      have hxa : a ≠ x := fun e => hx (e ▸ List.mem_cons_self _ _)
      refine ⟨?_, ih (some a) (fun hm => hx (List.mem_cons_of_mem _ hm)) h.2⟩
      rw [Function.update_noteq hxa]
      exact h.1

theorem prev_chain_append_left (prev : Nat → Option Nat) (l2 : List Nat) :
    ∀ (l1 : List Nat) (p : Option Nat), prev_chain prev p (l1 ++ l2) → prev_chain prev p l1 := by
  intro l1
  induction l1 with
  | nil => intro p _; trivial
  | cons a l1 ih => intro p h; exact ⟨h.1, ih (some a) h.2⟩

theorem getLast?_or_cons (a : Nat) (l : List Nat) (p : Option Nat) :
    ((a :: l).getLast?).or p = (l.getLast?).or (some a) := by
  rw [List.getLast?_cons]
  cases l.getLast? <;> rfl

theorem prev_chain_unlink (prev : Nat → Option Nat) (x : Nat) (l2 : List Nat) :
    ∀ (l1 : List Nat) (p : Option Nat),
      prev_chain prev p (l1 ++ x :: l2) → (l1 ++ x :: l2).Nodup →
      prev x = (l1.getLast?).or p ∧
      prev_chain
        (match l2.head? with
          | some n => Function.update prev n (prev x)
          | none => prev) p (l1 ++ l2) := by
  intro l1
  induction l1 with
  | nil =>
      intro p h hnd
      refine ⟨h.1, ?_⟩
      cases l2 with
      | nil => trivial
      | cons n r =>
          have hnd1 : (n :: r).Nodup := (List.nodup_cons.1 hnd).2
          refine ⟨?_, ?_⟩
          · simp only [List.head?_cons, Function.update_same]
            exact h.1
          · exact prev_chain_update_of_not_mem prev n _ r (some n) (List.nodup_cons.1 hnd1).1 h.2.2
  | cons a l1 ih =>
      intro p h hnd
      have hnd0 : (a :: (l1 ++ x :: l2)).Nodup := by simpa using hnd
      obtain ⟨h1, h2⟩ := ih (some a) h.2 (List.nodup_cons.1 hnd0).2
      refine ⟨?_, ?_, h2⟩
      · rw [getLast?_or_cons]; exact h1
      · cases l2 with
        | nil => exact h.1
        | cons n r =>
            have han : a ≠ n := by
              intro e
              exact (List.nodup_cons.1 hnd0).1 (by simp [e])
            simp only [List.head?_cons]
            rw [Function.update_noteq han]
            exact h.1

theorem prev_chain_insert_after (prev : Nat → Option Nat) (x p : Nat) (post : List Nat) :
    ∀ (pre : List Nat) (p0 : Option Nat),
      prev_chain prev p0 (pre ++ p :: post) → (pre ++ p :: post).Nodup → x ∉ pre ++ p :: post →
      prev_chain
        (match post.head? with
          | some q => Function.update (Function.update prev x (some p)) q (some x)
          | none => Function.update prev x (some p)) p0 (pre ++ p :: x :: post) := by
  intro pre
  induction pre with
  | nil =>
      intro p0 h hnd hx
      have hxp : p ≠ x := fun e => hx (by simp [e])
      have hxpost : x ∉ post := fun hm => hx (by simp [hm])
      have hppost : p ∉ post := (List.nodup_cons.1 hnd).1
      cases post with
      | nil =>
          refine ⟨?_, ?_, trivial⟩
          · simp only [List.head?_nil]
            rw [Function.update_noteq hxp]; exact h.1
          · simp only [List.head?_nil, Function.update_same]
      | cons q r =>
          have hqx : x ≠ q := fun e => hxpost (by simp [e])
          have hqp : p ≠ q := fun e => hppost (by simp [e])
          have hnd1 : (q :: r).Nodup := (List.nodup_cons.1 hnd).2
          simp only [List.head?_cons, List.nil_append]
          refine ⟨?_, ?_, ?_, ?_⟩
          · rw [Function.update_noteq hqp, Function.update_noteq hxp]; exact h.1
          · rw [Function.update_noteq hqx, Function.update_same]
          · rw [Function.update_same]
          · apply prev_chain_update_of_not_mem _ q _ r (some q) (List.nodup_cons.1 hnd1).1
            apply prev_chain_update_of_not_mem _ x _ r (some q)
              (fun hm => hxpost (List.mem_cons_of_mem _ hm))
            exact h.2.2
  | cons a pre ih =>
      intro p0 h hnd hx
      have hnd0 : (a :: (pre ++ p :: post)).Nodup := by simpa using hnd
      have hx0 : x ∉ a :: (pre ++ p :: post) := by simpa using hx
      have hax : a ≠ x := fun e => hx0 (by simp [e])
      have h2 := ih (some a) h.2 (List.nodup_cons.1 hnd0).2
        (fun hm => hx0 (List.mem_cons_of_mem _ hm))
      refine ⟨?_, h2⟩
      cases post with
      | nil =>
          simp only [List.head?_nil]
          rw [Function.update_noteq hax]; exact h.1
      | cons q r =>
          have haq : a ≠ q := by
            intro e
            exact (List.nodup_cons.1 hnd0).1 (by simp [e])
          simp only [List.head?_cons]
          rw [Function.update_noteq haq, Function.update_noteq hax]; exact h.1

theorem chain_insert_after (next : next_field) (x p : Nat) (post : List Nat) :
    ∀ (pre : List Nat) (head : Option Nat),
      chain next head (pre ++ p :: post) → (pre ++ p :: post).Nodup → x ∉ pre ++ p :: post →
      chain (Function.update (Function.update next x (next p)) p (some x)) head
        (pre ++ p :: x :: post) := by
  intro pre
  induction pre with
  | nil =>
      intro head h hnd hx
      have hxp : x ≠ p := fun e => hx (by simp [e])
      have hxpost : x ∉ post := fun hm => hx (by simp [hm])
      have hppost : p ∉ post := (List.nodup_cons.1 hnd).1
      refine ⟨h.1, ?_, ?_⟩
      · rw [Function.update_same]
      · rw [Function.update_noteq hxp, Function.update_same]
        apply chain_update_of_not_mem _ p _ post _ hppost
        exact chain_update_of_not_mem next x _ post _ hxpost h.2
  | cons a pre ih =>
      intro head h hnd hx
      have hnd0 : (a :: (pre ++ p :: post)).Nodup := by simpa using hnd
      have hx0 : x ∉ a :: (pre ++ p :: post) := by simpa using hx
      have hax : a ≠ x := fun e => hx0 (by simp [e])
      have hap : a ≠ p := by
        intro e
        exact (List.nodup_cons.1 hnd0).1 (by simp [e])
      refine ⟨h.1, ?_⟩
      rw [Function.update_noteq hap, Function.update_noteq hax]
      exact ih (next a) h.2 (List.nodup_cons.1 hnd0).2 (fun hm => hx0 (List.mem_cons_of_mem _ hm))

end intrusive_heap

namespace intrusive_heap

open intrusive_queue

theorem mem_insert_sorted (key : Nat → time_point) (x y : Nat) :
    ∀ l : List Nat, y ∈ insert_sorted key x l ↔ y = x ∨ y ∈ l := by
  intro l
  induction l with
  | nil => simp [insert_sorted]
  | cons a l ih =>
      unfold insert_sorted
      split_ifs with h
      · simp
      · simp only [List.mem_cons, ih]
        tauto

theorem insert_sorted_nodup (key : Nat → time_point) (x : Nat) :
    ∀ l : List Nat, x ∉ l → l.Nodup → (insert_sorted key x l).Nodup := by
  intro l
  induction l with
  | nil => intro _ _; simp [insert_sorted]
  | cons a l ih =>
      intro hx hnd
      unfold insert_sorted
      split_ifs with h
      · exact List.nodup_cons.2 ⟨hx, hnd⟩
      · have hax : a ≠ x := fun e => hx (by simp [e])
        refine List.nodup_cons.2 ⟨?_, ih (fun hm => hx (List.mem_cons_of_mem _ hm))
          (List.nodup_cons.1 hnd).2⟩
        rw [mem_insert_sorted]
        rintro (e | hm)
        · exact hax e
        · exact (List.nodup_cons.1 hnd).1 hm

theorem insert_sorted_pairwise (key : Nat → time_point) (x : Nat) :
    ∀ l : List Nat, l.Pairwise (fun a b => (key a).le (key b) = true) →
      (insert_sorted key x l).Pairwise (fun a b => (key a).le (key b) = true) := by
  intro l
  induction l with
  | nil => intro _; simp [insert_sorted]
  | cons a l ih =>
      intro hs
      have hs1 := List.pairwise_cons.1 hs
      unfold insert_sorted
      split_ifs with h
      · refine List.pairwise_cons.2 ⟨?_, hs⟩
        intro b hb
        rcases List.mem_cons.1 hb with e | hm
        · rw [e]; exact time_point.le_of_lt _ _ h
        · exact time_point.le_trans _ _ _ (time_point.le_of_lt _ _ h) (hs1.1 b hm)
      · refine List.pairwise_cons.2 ⟨?_, ih hs1.2⟩
        intro b hb
        rcases (mem_insert_sorted key x b l).1 hb with e | hm
        · rw [e]; exact time_point.le_of_not_lt _ _ h
        · exact hs1.1 b hm

theorem insert_sorted_length (key : Nat → time_point) (x : Nat) :
    ∀ l : List Nat, (insert_sorted key x l).length = l.length + 1 := by
  intro l
  induction l with
  | nil => rfl
  | cons a l ih =>
      unfold insert_sorted
      split_ifs with h
      · rfl
      · simp [ih]

theorem pop_well_formed (m : timer_fields) (h : intrusive_heap) (a : Nat) (l : List Nat)
    (hw : well_formed m h (a :: l)) :
    ∃ m1 h1, h.pop m = .ok (m1, h1, a) ∧ well_formed m1 h1 l ∧ m1.duetime = m.duetime := by
  obtain ⟨hc, hp, hnd, hs⟩ := hw
  have hhead : h.head = some a := hc.1
  cases l with
  | nil =>
      have hn : m.next a = none := hc.2
      refine ⟨m, { head := none }, ?_, ⟨rfl, trivial, List.nodup_nil, List.Pairwise.nil⟩, rfl⟩
      simp only [pop, hhead, hn]
  | cons b r =>
      have hn : m.next a = some b := hc.2.1
      have hnd1 : (b :: r).Nodup := (List.nodup_cons.1 hnd).2
      refine ⟨{ m with prev := Function.update m.prev b none }, { head := some b }, ?_,
        ⟨⟨rfl, hc.2.2⟩, ⟨?_, ?_⟩, hnd1, (List.pairwise_cons.1 hs).2⟩, rfl⟩
      · simp only [pop, hhead, hn]
      · simp only [Function.update_same]
      · exact prev_chain_update_of_not_mem m.prev b none r (some b) (List.nodup_cons.1 hnd1).1 hp.2.2

theorem remove_well_formed (m : timer_fields) (h : intrusive_heap) (l1 : List Nat) (x : Nat)
    (l2 : List Nat) (hw : well_formed m h (l1 ++ x :: l2)) :
    ∃ m1 h1, h.remove m x = .ok (m1, h1) ∧ well_formed m1 h1 (l1 ++ l2) ∧
      m1.duetime = m.duetime := by
  obtain ⟨hc, hp, hnd, hs⟩ := hw
  obtain ⟨hprev, hp1⟩ := prev_chain_unlink m.prev x l2 l1 none hp hnd
  have hnext : m.next x = l2.head? := inplace_stop_source.chain_head_eq m.next _ l2 (inplace_stop_source.chain_mid m.next x l2 l1 h.head hc)
  have hnd1 : (l1 ++ l2).Nodup := by
    have := List.nodup_middle.1 hnd
    exact (List.nodup_cons.1 this).2
  have hs1 : (l1 ++ l2).Pairwise (fun a b => (m.duetime a).le (m.duetime b) = true) := by
    have hsub : (l1 ++ l2).Sublist (l1 ++ x :: l2) :=
      List.Sublist.append (List.Sublist.refl l1) (List.sublist_cons_self x l2)
    exact List.Pairwise.sublist hsub hs
  rcases List.eq_nil_or_concat l1 with hl1 | ⟨l0, t, hl1⟩
  · subst hl1
    have hpx : m.prev x = none := by simpa using hprev
    have hhead : h.head = some x := hc.1
    have hc2 : chain m.next (m.next x) l2 := hc.2
    cases l2 with
    | nil =>
        have hn : m.next x = none := by simpa using hnext
        refine ⟨m, { head := none }, ?_, ⟨rfl, trivial, List.nodup_nil, List.Pairwise.nil⟩, rfl⟩
        simp only [remove, hpx, hn, hhead, assert]
        rfl
    | cons n r =>
        have hn : m.next x = some n := by simpa using hnext
        refine ⟨{ m with prev := Function.update m.prev n none }, { head := some n }, ?_,
          ⟨?_, ?_, hnd1, hs1⟩, rfl⟩
        · simp only [remove, hpx, hn, hhead, assert]
          rfl
        · rw [hn] at hc2; exact hc2
        · have := hp1
          simp only [List.head?_cons, hpx, List.nil_append] at this
          exact this
  · rw [List.concat_eq_append] at hl1
    subst hl1
    have hlast : (l0 ++ [t]).getLast? = some t := by simp
    have hpx : m.prev x = some t := by rw [hprev, hlast]; rfl
    have hc1 := inplace_stop_source.chain_unlink m.next x l2 (l0 ++ [t]) h.head t hc hnd hlast
    cases l2 with
    | nil =>
        have hn : m.next x = none := by simpa using hnext
        refine ⟨{ m with next := Function.update m.next t none }, h, ?_,
          ⟨?_, ?_, hnd1, hs1⟩, rfl⟩
        · simp only [remove, hpx, hn]
          rfl
        · rw [hn] at hc1; exact hc1
        · have := hp1
          simp only [List.head?_nil] at this
          exact this
    | cons n r =>
        have hn : m.next x = some n := by simpa using hnext
        refine ⟨{ m with next := Function.update m.next t (some n),
                         prev := Function.update m.prev n (some t) }, h, ?_,
          ⟨?_, ?_, hnd1, hs1⟩, rfl⟩
        · simp only [remove, hpx, hn]
          rfl
        · rw [hn] at hc1; exact hc1
        · have := hp1
          simp only [List.head?_cons, hpx] at this
          exact this

end intrusive_heap

namespace intrusive_heap

open intrusive_queue

theorem insert_position_spec (m : timer_fields) (x : Nat) :
    ∀ (rest : List Nat) (cur : Nat) (fuel : Nat),
      chain m.next (some cur) (cur :: rest) → rest.length ≤ fuel →
      ∃ p pre post, insert_position fuel m (m.duetime x) cur = .ok p ∧
        cur :: rest = pre ++ p :: post ∧
        cur :: insert_sorted m.duetime x rest = pre ++ p :: x :: post := by
  intro rest
  induction rest with
  | nil =>
      intro cur fuel hc _
      have hn : m.next cur = none := hc.2
      refine ⟨cur, [], [], ?_, rfl, rfl⟩
      unfold insert_position
      simp only [hn]
  | cons n rest ih =>
      intro cur fuel hc hfuel
      have hn : m.next cur = some n := hc.2.1
      by_cases hle : (m.duetime n).le (m.duetime x) = true
      · cases fuel with
        | zero => simp at hfuel
        | succ fuel1 =>
            have hc1 : chain m.next (some n) (n :: rest) := ⟨rfl, hc.2.2⟩
            obtain ⟨p, pre, post, hpos, hsplit, hins⟩ := ih n fuel1 hc1 (by simpa using hfuel)
            have hnlt : ¬ (m.duetime x).lt (m.duetime n) = true := by
              intro hlt
              unfold time_point.le at hle
              rw [hlt] at hle
              simp at hle
            refine ⟨p, cur :: pre, post, ?_, ?_, ?_⟩
            · unfold insert_position
              simp only [hn, hle, if_true]
              exact hpos
            · rw [hsplit]; rfl
            · have : insert_sorted m.duetime x (n :: rest) = n :: insert_sorted m.duetime x rest := by
                rw [insert_sorted]; exact if_neg hnlt
              rw [this, hins]; rfl
      · have hlt : (m.duetime x).lt (m.duetime n) = true := by
          unfold time_point.le at hle
          cases h : (m.duetime x).lt (m.duetime n)
          · rw [h] at hle; simp at hle
          · rfl
        refine ⟨cur, [], n :: rest, ?_, rfl, ?_⟩
        · unfold insert_position
          simp only [hn, hle]
          rfl
        · have : insert_sorted m.duetime x (n :: rest) = x :: n :: rest := by
            rw [insert_sorted]; exact if_pos hlt
          rw [this]; rfl

theorem insert_well_formed (m : timer_fields) (h : intrusive_heap) (l : List Nat) (x fuel : Nat)
    (hw : well_formed m h l) (hx : x ∉ l) (hfuel : l.length ≤ fuel) :
    ∃ m1 h1, h.insert fuel m x = .ok (m1, h1) ∧
      well_formed m1 h1 (insert_sorted m.duetime x l) ∧ m1.duetime = m.duetime := by
  obtain ⟨hc, hp, hnd, hs⟩ := hw
  have hnd1 := insert_sorted_nodup m.duetime x l hx hnd
  have hs1 := insert_sorted_pairwise m.duetime x l hs
  cases l with
  | nil =>
      have hhead : h.head = none := hc
      refine ⟨{ m with next := Function.update m.next x none,
                       prev := Function.update m.prev x none }, { head := some x }, ?_,
        ⟨⟨rfl, ?_⟩, ⟨?_, trivial⟩, hnd1, hs1⟩, rfl⟩
      · simp only [insert, hhead]
      · show Function.update m.next x none x = none
        rw [Function.update_same]
      · show Function.update m.prev x none x = none
        rw [Function.update_same]
  | cons a r =>
      have hhead : h.head = some a := hc.1
      have hxa : a ≠ x := fun e => hx (by simp [e])
      have hxr : x ∉ r := fun hm => hx (List.mem_cons_of_mem _ hm)
      have har : a ∉ r := (List.nodup_cons.1 hnd).1
      by_cases hlt : (m.duetime x).lt (m.duetime a) = true
      · have hins : insert_sorted m.duetime x (a :: r) = x :: a :: r := by
          rw [insert_sorted]; exact if_pos hlt
        rw [hins] at hnd1 hs1 ⊢
        refine ⟨{ m with next := Function.update m.next x (some a),
                         prev := Function.update (Function.update m.prev x none) a (some x) },
          { head := some x }, ?_, ⟨⟨rfl, ?_, ?_⟩, ⟨?_, ?_, ?_⟩, hnd1, hs1⟩, rfl⟩
        · simp only [insert, hhead, hlt, if_true]
        · show Function.update m.next x (some a) x = some a
          rw [Function.update_same]
        · show chain (Function.update m.next x (some a)) (Function.update m.next x (some a) a) r
          rw [Function.update_noteq hxa]
          exact chain_update_of_not_mem m.next x _ r _ hxr hc.2
        · show Function.update (Function.update m.prev x none) a (some x) x = none
          rw [Function.update_noteq (Ne.symm hxa), Function.update_same]
        · show Function.update (Function.update m.prev x none) a (some x) a = some x
          rw [Function.update_same]
        · apply prev_chain_update_of_not_mem _ a _ r (some a) har
          exact prev_chain_update_of_not_mem m.prev x _ r (some a) hxr hp.2
      · obtain ⟨p, pre, post, hpos, hsplit, hins0⟩ :=
          insert_position_spec m x r a fuel ⟨rfl, hc.2⟩ (by simp at hfuel; omega)
        have hins : insert_sorted m.duetime x (a :: r) = pre ++ p :: x :: post := by
          rw [insert_sorted, if_neg hlt]; exact hins0
        rw [hins] at hnd1 hs1 ⊢
        rw [hsplit] at hc hp hnd hx
        have hnext : m.next p = post.head? :=
          inplace_stop_source.chain_head_eq m.next _ post
            (inplace_stop_source.chain_mid m.next p post pre h.head hc)
        have hc1 := chain_insert_after m.next x p post pre h.head hc hnd hx
        have hp1 := prev_chain_insert_after m.prev x p post pre none hp hnd hx
        have hstart : h.insert fuel m x =
            (match m.next p with
              | none =>
                  .ok ({ m with
                          next := Function.update (Function.update m.next x (m.next p)) p (some x),
                          prev := Function.update m.prev x (some p) }, h)
              | some q =>
                  .ok ({ m with
                          next := Function.update (Function.update m.next x (m.next p)) p (some x),
                          prev := Function.update (Function.update m.prev x (some p)) q (some x) },
                       h)) := by
          simp only [insert, hhead, hlt]
          rw [if_neg (by simp)]
          show (do
            let insert_next ← insert_position fuel m (m.duetime x) a
            _) = _
          rw [hpos]
          rfl
        cases post with
        | nil =>
            have hn : m.next p = none := by simpa using hnext
            refine ⟨{ m with
                next := Function.update (Function.update m.next x (m.next p)) p (some x),
                prev := Function.update m.prev x (some p) }, h, ?_, ⟨hc1, ?_, hnd1, hs1⟩, rfl⟩
            · rw [hstart, hn]
            · simpa using hp1
        | cons q post1 =>
            have hn : m.next p = some q := by simpa using hnext
            refine ⟨{ m with
                next := Function.update (Function.update m.next x (m.next p)) p (some x),
                prev := Function.update (Function.update m.prev x (some p)) q (some x) }, h, ?_,
              ⟨hc1, ?_, hnd1, hs1⟩, rfl⟩
            · rw [hstart, hn]
            · simpa using hp1

end intrusive_heap

namespace time_point

theorem le_refl (a : time_point) : a.le a = true := by
  rw [le_iff]
  omega

end time_point

namespace intrusive_heap

open intrusive_queue

theorem run_commands_well_formed :
    ∀ (cmds : List heap_command) (m : timer_fields) (h : intrusive_heap) (l : List Nat) (fuel : Nat),
      well_formed m h l → admissible m.duetime cmds l → l.length + cmds.length ≤ fuel →
      ∃ m1 h1, run_commands fuel cmds m h = .ok (m1, h1) ∧
        well_formed m1 h1 (content_after_all m.duetime cmds l) ∧ m1.duetime = m.duetime := by
  intro cmds
  induction cmds with
  | nil =>
      intro m h l fuel hw _ _
      exact ⟨m, h, rfl, hw, rfl⟩
  | cons cmd cmds ih =>
      intro m h l fuel hw hadm hfuel
      obtain ⟨hcmd, hrest⟩ := hadm
      simp only [List.length_cons] at hfuel
      have hstep : ∃ m1 h1, run_command fuel m h cmd = .ok (m1, h1) ∧
          well_formed m1 h1 (content_after m.duetime cmd l) ∧ m1.duetime = m.duetime ∧
          (content_after m.duetime cmd l).length ≤ l.length + 1 := by
        cases cmd with
        | insert x =>
            obtain ⟨m1, h1, hrun, hw1, hkey⟩ :=
              insert_well_formed m h l x fuel hw hcmd (by omega)
            exact ⟨m1, h1, hrun, hw1, hkey, by simp [content_after, insert_sorted_length]⟩
        | pop =>
            cases l with
            | nil => exact absurd rfl hcmd
            | cons a r =>
                obtain ⟨m1, h1, hrun, hw1, hkey⟩ := pop_well_formed m h a r hw
                refine ⟨m1, h1, ?_, hw1, hkey, by simp only [content_after, List.tail_cons, List.length_cons]; omega⟩
                simp only [run_command, hrun]
                rfl
        | remove x =>
            obtain ⟨l1, l2, hl⟩ := List.append_of_mem hcmd
            subst hl
            have hx1 : x ∉ l1 := by
              intro hm
              have hnd := hw.2.2.1
              have := (List.nodup_append.1 hnd).2.2 hm
              exact this (List.mem_cons_self _ _)
            have herase : (l1 ++ x :: l2).erase x = l1 ++ l2 := by
              rw [List.erase_append_right _ hx1, List.erase_cons_head]
            obtain ⟨m1, h1, hrun, hw1, hkey⟩ := remove_well_formed m h l1 x l2 hw
            refine ⟨m1, h1, hrun, ?_, hkey, ?_⟩
            · simp only [content_after, herase]; exact hw1
            · simp only [content_after, herase, List.length_append, List.length_cons]; omega
      obtain ⟨m1, h1, hrun, hw1, hkey, hlen⟩ := hstep
      have hrest1 : admissible m1.duetime cmds (content_after m.duetime cmd l) := by
        rw [hkey]; exact hrest
      obtain ⟨m2, h2, hrun2, hw2, hkey2⟩ := ih m1 h1 _ fuel hw1 hrest1 (by omega)
      refine ⟨m2, h2, ?_, ?_, hkey2.trans hkey⟩
      · simp only [run_commands, hrun]
        exact hrun2
      · rw [hkey] at hw2
        exact hw2

/-- C18: after every sequence of `insert`, `pop` and `remove` calls on an empty heap (each `insert`
with an item that is not in the list, each `pop` on a non-empty list, each `remove` with an item
of the list), every call returns and the list is well formed: the `NEXT` links lead from the head
through the items in non-decreasing order of due time, the `PREV` links lead back and the head
has a null `PREV`; and on a non-empty list `top()` and `pop()` return the head, whose due time is
`<=` the due time of every item of the list. -/
theorem sorted_after_every_sequence (m : timer_fields) (cmds : List heap_command) (fuel : Nat)
    (hadm : admissible m.duetime cmds []) (hfuel : cmds.length ≤ fuel) :
    ∃ m1 h1, run_commands fuel cmds m {} = .ok (m1, h1) ∧
      well_formed m1 h1 (content_after_all m.duetime cmds []) ∧
      ∀ a rest, content_after_all m.duetime cmds [] = a :: rest →
        h1.top = .ok a ∧ (∃ m2 h2, h1.pop m1 = .ok (m2, h2, a) ∧ well_formed m2 h2 rest) ∧
        ∀ y ∈ a :: rest, (m1.duetime a).le (m1.duetime y) = true := by
  obtain ⟨m1, h1, hrun, hw, hkey⟩ := run_commands_well_formed cmds m {} [] fuel
    ⟨rfl, trivial, List.nodup_nil, List.Pairwise.nil⟩ hadm (by simpa using hfuel)
  refine ⟨m1, h1, hrun, hw, ?_⟩
  intro a rest hl
  rw [hl] at hw
  obtain ⟨m2, h2, hpop, hw2, -⟩ := pop_well_formed m1 h1 a rest hw
  refine ⟨?_, ⟨m2, h2, hpop, hw2⟩, ?_⟩
  · have hhead : h1.head = some a := hw.1.1
    simp only [top, hhead]
  · intro y hy
    rcases List.mem_cons.1 hy with e | hm
    · rw [e]; exact time_point.le_refl _
    · have := (List.pairwise_cons.1 hw.2.2.2).1 y hm
      rw [hkey]
      rw [hkey] at this
      exact this

end intrusive_heap

namespace intrusive_heap

/-- The sample sequence leaves timer 4 (due at 4 s) before timer 1 (due at 5 s). -/
theorem sorted_after_every_sequence_witness :
    admissible sample_timers.duetime sample_commands [] ∧ sample_commands.length ≤ 6 ∧
    content_after_all sample_timers.duetime sample_commands [] = [4, 1] ∧
    ∃ m1 h1, run_commands 6 sample_commands sample_timers {} = .ok (m1, h1) ∧
      well_formed m1 h1 (content_after_all sample_timers.duetime sample_commands []) ∧
      ∀ a rest, content_after_all sample_timers.duetime sample_commands [] = a :: rest →
        h1.top = .ok a ∧ (∃ m2 h2, h1.pop m1 = .ok (m2, h2, a) ∧ well_formed m2 h2 rest) ∧
        ∀ y ∈ a :: rest, (m1.duetime a).le (m1.duetime y) = true :=
  ⟨by decide, by decide, by decide,
    sorted_after_every_sequence sample_timers sample_commands 6 (by decide) (by decide)⟩

end intrusive_heap

theorem add64_zero_of_lt (a : Nat) (h : a < two64) : add64 a 0 = a := by
  unfold add64
  exact Nat.mod_eq_of_lt h

theorem add64_of_lt (a b : Nat) (h : a + b < two64) : add64 a b = a + b := by
  unfold add64
  exact Nat.mod_eq_of_lt h

theorem sub64_of_le (a b : Nat) (hb : b ≤ a) (ha : a < two64) : sub64 a b = a - b := by
  unfold sub64
  have h1 : a % two64 = a := Nat.mod_eq_of_lt ha
  have h2 : b % two64 = b := Nat.mod_eq_of_lt (by omega)
  rw [h1, h2, if_pos hb]

theorem int_to_u64_of_nonneg (i : Int) (h0 : 0 ≤ i) (h1 : i < 18446744073709551616) :
    int_to_u64 i = i.toNat := by
  unfold int_to_u64
  rw [Int.emod_eq_of_lt h0 h1]

theorem int_to_u64_zero : int_to_u64 0 = 0 := by
  rw [int_to_u64_of_nonneg 0 (le_refl 0) (by norm_num)]
  rfl

theorem u64_to_int_of_lt (n : Nat) (h : n < 2147483648) : u64_to_int n = n := by
  unfold u64_to_int
  have h1 : n % two32 = n := Nat.mod_eq_of_lt (by unfold two32; omega)
  rw [h1, if_pos h]

theorem sub32_self (a : Nat) : sub32 a a = 0 := by
  unfold sub32
  rw [if_pos (le_refl _)]
  exact Nat.sub_self _

namespace rw_type

open io_uring_context

theorem fill_call (self : rw_type) (a : Nat) (c : io_uring_context) (sqe : io_uring_sqe) :
    (self.fill a).call c sqe =
      .ok ({ c with execute_ := Function.update c.execute_ a execute_fn.on_io_complete },
           { sqe with opcode := self.opcode.value, fd := self.fd, addr := address.buff a, len := 1,
                      off := int_to_u64 self.offset, user_data := address.object a }, true) := rfl

/-- With room in both rings, `start_io()` on the loop thread fills the entry at the tail and leaves
`execute_` at `on_io_complete`. -/
theorem start_io_submits (self : rw_type) (a : Nat) (c : io_uring_context)
    (hp : c.pending_operation_count < c.cq_entry_count)
    (hu : sub32 c.sq_tail c.sq_head < c.sq_entry_count) :
    ∃ c1, start_io true self a c = .ok c1 ∧
      c1.sq_tail = add32 c.sq_tail 1 ∧
      c1.sq_entries (c.sq_tail &&& c.sq_mask) =
        { opcode := self.opcode.value, fd := self.fd, addr := address.buff a, len := 1,
          off := int_to_u64 self.offset, user_data := address.object a } ∧
      c1.execute_ a = execute_fn.on_io_complete ∧
      c1.sq_unflushed_count = add32 c.sq_unflushed_count 1 ∧
      c1.sq_head = c.sq_head ∧ c1.sq_entry_count = c.sq_entry_count ∧ c1.sq_mask = c.sq_mask ∧
      c1.cq_entry_count = c.cq_entry_count ∧ c1.cq_pending_count = c.cq_pending_count ∧
      c1.pending_io_queue = c.pending_io_queue ∧ c1.local_queue = c.local_queue ∧
      c1.next = c.next := by
  have h := submit_io_called true (self.fill a) c _ _ true rfl hp hu (fill_call self a c.zero_slot {})
  refine ⟨{ c with
      execute_ := Function.update c.execute_ a execute_fn.on_io_complete,
      sq_entries := Function.update c.zero_slot.sq_entries (c.sq_tail &&& c.sq_mask)
        { opcode := self.opcode.value, fd := self.fd, addr := address.buff a, len := 1,
          off := int_to_u64 self.offset, user_data := address.object a },
      sq_index_array := Function.update c.sq_index_array (c.sq_tail &&& c.sq_mask)
        (c.sq_tail &&& c.sq_mask),
      sq_tail := add32 c.sq_tail 1,
      sq_unflushed_count := add32 c.sq_unflushed_count 1 }, ?_, ?_⟩
  · unfold start_io
    rw [h]
    rfl
  · refine ⟨rfl, ?_, ?_, rfl, rfl, rfl, rfl, rfl, rfl, rfl, rfl, rfl⟩
    · show Function.update c.zero_slot.sq_entries (c.sq_tail &&& c.sq_mask) _ _ = _
      rw [Function.update_same]
    · show Function.update c.execute_ a execute_fn.on_io_complete a = _
      rw [Function.update_same]

/-- Without room, `start_io()` on the loop thread submits nothing and queues the operation on the
pending queue with `execute_` at `on_schedule_complete`. -/
theorem start_io_defers (self : rw_type) (a : Nat) (c : io_uring_context)
    (h : c.cq_entry_count ≤ c.pending_operation_count ∨
         sub32 c.sq_tail c.sq_head = c.sq_entry_count) :
    start_io true self a c =
      .ok { c with execute_ := Function.update c.execute_ a execute_fn.on_schedule_complete,
                   next := (c.pending_io_queue.push_back c.next a).1,
                   pending_io_queue := (c.pending_io_queue.push_back c.next a).2 } := by
  unfold start_io
  rw [submit_io_not_called true (self.fill a) c rfl h]
  rfl

end rw_type

namespace rw_type

open io_uring_context

/-- A negative result is passed to the continuation and changes no member. -/
theorem on_io_complete_error (io_thread : Bool) (self : rw_type) (a : Nat) (c : io_uring_context)
    (hres : c.result a < 0) :
    on_io_complete io_thread self a c =
      .ok (self.receive { value := -c.result a, category := error_category.system } (c.result a),
           c) := by
  unfold on_io_complete
  have : ¬ c.result a ≥ 0 := by omega
  simp only [this, if_false]

/-- A fully-read or fully-write whose total after a non-negative result is neither zero nor the
size of the buffer advances the window by the total, calls `init()` and `start()`. -/
theorem on_io_complete_partial (io_thread : Bool) (self : rw_type) (a : Nat) (c : io_uring_context)
    (hres : 0 ≤ c.result a) (hB : self.B = true)
    (h0 : add64 self.bytes (int_to_u64 (c.result a)) ≠ 0)
    (h1 : add64 self.bytes (int_to_u64 (c.result a)) ≠ self.size) :
    on_io_complete io_thread self a c =
      (start io_thread
          (init { self with
            bytes := add64 self.bytes (int_to_u64 (c.result a)),
            offset := self.offset + (if self.seekable then 1 else 0) * c.result a,
            buffer_ := advance self.buffer_ (add64 self.bytes (int_to_u64 (c.result a))) }) a c).map
        (fun c1 => (init { self with
            bytes := add64 self.bytes (int_to_u64 (c.result a)),
            offset := self.offset + (if self.seekable then 1 else 0) * c.result a,
            buffer_ := advance self.buffer_ (add64 self.bytes (int_to_u64 (c.result a))) }, c1)) := by
  unfold on_io_complete
  have hge : c.result a ≥ 0 := hres
  have hcond : ((self.B && (add64 self.bytes (int_to_u64 (c.result a)) == 0 ||
      add64 self.bytes (int_to_u64 (c.result a)) == self.size)) || !self.B) = false := by
    simp [hB, h0, h1]
  simp only [hge, if_true, hcond, Bool.false_eq_true, if_false]
  cases start io_thread _ a c <;> rfl

/-- A non-negative result that ends the operation (the `some` variant, or a total of zero or of
the size of the buffer) is followed by one call of the continuation and nothing else. -/
theorem on_io_complete_final (io_thread : Bool) (self : rw_type) (a : Nat) (c : io_uring_context)
    (hres : 0 ≤ c.result a)
    (hfinal : self.B = false ∨ add64 self.bytes (int_to_u64 (c.result a)) = 0 ∨
      add64 self.bytes (int_to_u64 (c.result a)) = self.size) :
    on_io_complete io_thread self a c =
      .ok (receive { self with
              bytes := add64 self.bytes (int_to_u64 (c.result a)),
              offset := self.offset + (if self.seekable then 1 else 0) * c.result a }
            (if add64 self.bytes (int_to_u64 (c.result a)) = 0 then no_message else {})
            (u64_to_int (add64 self.bytes (int_to_u64 (c.result a)))), c) := by
  unfold on_io_complete
  have hge : c.result a ≥ 0 := hres
  have hcond : ((self.B && (add64 self.bytes (int_to_u64 (c.result a)) == 0 ||
      add64 self.bytes (int_to_u64 (c.result a)) == self.size)) || !self.B) = true := by
    rcases hfinal with h | h | h
    · simp [h]
    · simp [h]
    · simp [h]
  simp only [hge, if_true, hcond]
  by_cases hz : add64 self.bytes (int_to_u64 (c.result a)) = 0
  · simp only [hz, beq_self_eq_true, if_true]
  · simp only [hz, beq_iff_eq, if_false]

end rw_type

namespace rw_type

open io_uring_context

/-- C13: for a read or write operation of either variant (`B` true or false) and either opcode,
a first completion (no bytes so far) with result 0 invokes the continuation once, with the error
`std::errc::no_message` and a byte count of 0, changes no other member and leaves the context as
it is: nothing is resubmitted or queued. -/
theorem first_completion_zero_is_no_message (io_thread : Bool) (self : rw_type) (a : Nat)
    (c : io_uring_context) (hresult : c.result a = 0) (hfirst : self.bytes = 0) :
    on_io_complete io_thread self a c =
      .ok ({ self with received := self.received ++ [(no_message, 0)] }, c) := by
  have e : add64 self.bytes (int_to_u64 (c.result a)) = 0 := by
    rw [hresult, hfirst, int_to_u64_zero]
    exact add64_zero_of_lt 0 (by unfold two64; omega)
  rw [on_io_complete_final io_thread self a c (by omega) (Or.inr (Or.inl e)), e, hresult]
  simp only [if_true, mul_zero, add_zero, receive, u64_to_int_of_lt 0 (by omega)]
  cases self
  simp only at hfirst
  subst hfirst
  rfl

/-- The sample fully-read reports `no_message` on a first completion of 0 bytes. -/
theorem first_completion_zero_is_no_message_witness :
    (completion 0 1 idle_context).result 1 = 0 ∧ sample_read.bytes = 0 ∧
    on_io_complete true sample_read 1 (completion 0 1 idle_context) =
      .ok ({ sample_read with received := sample_read.received ++ [(no_message, 0)] },
           completion 0 1 idle_context) :=
  ⟨rfl, rfl,
    first_completion_zero_is_no_message true sample_read 1 (completion 0 1 idle_context) rfl rfl⟩

end rw_type

namespace rw_type

open io_uring_context

theorem received_append_ne (l : List (error_code × Int)) (x : error_code × Int) :
    l ++ [x] ≠ l := by
  intro h
  have := congrArg List.length h
  simp at this

/-- C14: for a READV or WRITEV operation on the loop thread with a ring that passes the assert of
`submit_io`: the constructor stores the offset of the caller; every entry that the callable of
`start_io` fills carries the stored offset; `on_io_complete` returns, and afterwards the stored
offset is the old one plus the result when `seekable` is set and the result is not negative, and
the old one otherwise (not seekable, or a negative result); and when the call resubmits (the
continuation is not invoked and the rings have room) the new entry carries the new offset. -/
theorem offset_advances_by_result (self : rw_type) (a : Nat) (c : io_uring_context)
    (hring : sub32 c.sq_tail c.sq_head ≤ c.sq_entry_count) :
    (∀ opcode B fd offset buffer seekable,
      (create opcode B fd offset buffer seekable).offset = offset) ∧
    (∀ c0 sqe, ∃ c1 sqe1, (self.fill a).call c0 sqe = .ok (c1, sqe1, true) ∧
      sqe1.off = int_to_u64 self.offset) ∧
    ∃ self1 c1, on_io_complete true self a c = .ok (self1, c1) ∧
      self1.offset =
        (if 0 ≤ c.result a ∧ self.seekable = true then self.offset + c.result a
         else self.offset) ∧
      self1.seekable = self.seekable ∧
      (self1.received = self.received → c.pending_operation_count < c.cq_entry_count →
        sub32 c.sq_tail c.sq_head < c.sq_entry_count →
        (c1.sq_entries (c.sq_tail &&& c.sq_mask)).off = int_to_u64 self1.offset) := by
  refine ⟨fun _ _ _ _ _ _ => rfl, fun c0 sqe => ⟨_, _, fill_call self a c0 sqe, rfl⟩, ?_⟩
  have hoff : ∀ r : Int, 0 ≤ r →
      self.offset + (if self.seekable then 1 else 0) * r =
        (if 0 ≤ r ∧ self.seekable = true then self.offset + r else self.offset) := by
    intro r hr
    cases self.seekable <;> simp [hr]
  by_cases hres : 0 ≤ c.result a
  · by_cases hfinal : self.B = false ∨ add64 self.bytes (int_to_u64 (c.result a)) = 0 ∨
        add64 self.bytes (int_to_u64 (c.result a)) = self.size
    · refine ⟨_, _, on_io_complete_final true self a c hres hfinal, hoff _ hres, rfl, ?_⟩
      intro h
      exact absurd h (received_append_ne _ _)
    · have hB : self.B = true := by
        cases hb : self.B
        · exact absurd (Or.inl hb) hfinal
        · rfl
      have h0 : add64 self.bytes (int_to_u64 (c.result a)) ≠ 0 :=
        fun h => hfinal (Or.inr (Or.inl h))
      have h1 : add64 self.bytes (int_to_u64 (c.result a)) ≠ self.size :=
        fun h => hfinal (Or.inr (Or.inr h))
      have hpartial := on_io_complete_partial true self a c hres hB h0 h1
      by_cases hroom : c.pending_operation_count < c.cq_entry_count ∧
          sub32 c.sq_tail c.sq_head < c.sq_entry_count
      · obtain ⟨c1, hstart, -, hslot, -⟩ := start_io_submits
          (init { self with
            bytes := add64 self.bytes (int_to_u64 (c.result a)),
            offset := self.offset + (if self.seekable then 1 else 0) * c.result a,
            buffer_ := advance self.buffer_ (add64 self.bytes (int_to_u64 (c.result a))) })
          a c hroom.1 hroom.2
        have hstart1 : start true
          (init { self with
            bytes := add64 self.bytes (int_to_u64 (c.result a)),
            offset := self.offset + (if self.seekable then 1 else 0) * c.result a,
            buffer_ := advance self.buffer_ (add64 self.bytes (int_to_u64 (c.result a))) })
          a c = .ok c1 := hstart
        rw [hstart1] at hpartial
        refine ⟨_, c1, hpartial, hoff _ hres, rfl, ?_⟩
        intro _ _ _
        rw [hslot]
      · have hfull : c.cq_entry_count ≤ c.pending_operation_count ∨
            sub32 c.sq_tail c.sq_head = c.sq_entry_count := by
          by_cases hp : c.pending_operation_count < c.cq_entry_count
          · right
            have : ¬ sub32 c.sq_tail c.sq_head < c.sq_entry_count := fun h => hroom ⟨hp, h⟩
            omega
          · left; omega
        have hstart1 : start true
          (init { self with
            bytes := add64 self.bytes (int_to_u64 (c.result a)),
            offset := self.offset + (if self.seekable then 1 else 0) * c.result a,
            buffer_ := advance self.buffer_ (add64 self.bytes (int_to_u64 (c.result a))) })
          a c = _ := start_io_defers _ a c hfull
        rw [hstart1] at hpartial
        refine ⟨_, _, hpartial, hoff _ hres, rfl, ?_⟩
        intro _ hp hu
        exact absurd ⟨hp, hu⟩ hroom
  · have hneg : c.result a < 0 := by omega
    refine ⟨_, _, on_io_complete_error true self a c hneg, ?_, rfl, ?_⟩
    · show self.offset = _
      rw [if_neg (fun h => hres h.1)]
    · intro h
      exact absurd h (received_append_ne _ _)

/-- The sample fully-read, seekable with the stored offset 100, after a completion of 4 of its 10
bytes. -/
theorem offset_advances_by_result_witness :
    sub32 (completion 4 1 idle_context).sq_tail (completion 4 1 idle_context).sq_head ≤
      (completion 4 1 idle_context).sq_entry_count ∧
    ∃ self1 c1, on_io_complete true sample_read 1 (completion 4 1 idle_context) = .ok (self1, c1) ∧
      self1.offset =
        (if 0 ≤ (completion 4 1 idle_context).result 1 ∧ sample_read.seekable = true
          then sample_read.offset + (completion 4 1 idle_context).result 1
         else sample_read.offset) ∧
      self1.seekable = sample_read.seekable ∧
      (self1.received = sample_read.received →
        (completion 4 1 idle_context).pending_operation_count <
          (completion 4 1 idle_context).cq_entry_count →
        sub32 (completion 4 1 idle_context).sq_tail (completion 4 1 idle_context).sq_head <
          (completion 4 1 idle_context).sq_entry_count →
        (c1.sq_entries ((completion 4 1 idle_context).sq_tail &&&
          (completion 4 1 idle_context).sq_mask)).off = int_to_u64 self1.offset) :=
  ⟨by with_unfolding_all decide,
    (offset_advances_by_result sample_read 1 (completion 4 1 idle_context)
      (by with_unfolding_all decide)).2.2⟩

end rw_type

theorem add32_add32_one (t k : Nat) : add32 (add32 t k) 1 = add32 t (k + 1) := by
  unfold add32 two32
  omega

theorem add32_zero_of_lt (a : Nat) (h : a < two32) : add32 a 0 = a := by
  unfold add32
  exact Nat.mod_eq_of_lt h

namespace rw_type

open io_uring_context

/-- One completion with a non-negative result that leaves a fully-read or fully-write with a
total that is neither zero nor the size: on the loop thread, with the submitted entries taken by
the kernel, the operation advances its window by the total and fills the entry at the tail. -/
theorem partial_completion_step (self : rw_type) (a : Nat) (c : io_uring_context) (res : Int)
    (hres : 0 ≤ res) (hB : self.B = true)
    (h0 : add64 self.bytes (int_to_u64 res) ≠ 0)
    (h1 : add64 self.bytes (int_to_u64 res) ≠ self.size)
    (hsq : 0 < c.sq_entry_count) (hcq : c.cq_pending_count < c.cq_entry_count)
    (hcq32 : c.cq_pending_count < two32) :
    ∃ c1, on_io_complete true self a (completion res a c) =
        .ok (init { self with
              bytes := add64 self.bytes (int_to_u64 res),
              offset := self.offset + (if self.seekable then 1 else 0) * res,
              buffer_ := advance self.buffer_ (add64 self.bytes (int_to_u64 res)) }, c1) ∧
      c1.sq_tail = add32 c.sq_tail 1 ∧
      c1.sq_entries (c.sq_tail &&& c.sq_mask) =
        { opcode := self.opcode.value, fd := self.fd, addr := address.buff a, len := 1,
          off := int_to_u64 (self.offset + (if self.seekable then 1 else 0) * res),
          user_data := address.object a } ∧
      c1.execute_ a = execute_fn.on_io_complete ∧
      c1.sq_entry_count = c.sq_entry_count ∧ c1.cq_entry_count = c.cq_entry_count ∧
      c1.cq_pending_count = c.cq_pending_count ∧ c1.pending_io_queue = c.pending_io_queue ∧
      c1.local_queue = c.local_queue := by
  have hr : (completion res a c).result a = res := by
    show Function.update c.result a res a = res
    rw [Function.update_same]
  have hp : (completion res a c).pending_operation_count < (completion res a c).cq_entry_count := by
    show add32 c.cq_pending_count 0 < c.cq_entry_count
    rw [add32_zero_of_lt _ hcq32]
    exact hcq
  have hu : sub32 (completion res a c).sq_tail (completion res a c).sq_head <
      (completion res a c).sq_entry_count := by
    show sub32 c.sq_tail c.sq_tail < c.sq_entry_count
    rw [sub32_self]
    exact hsq
  have hpartial := on_io_complete_partial true self a (completion res a c)
    (by rw [hr]; exact hres) hB (by rw [hr]; exact h0) (by rw [hr]; exact h1)
  rw [hr] at hpartial
  obtain ⟨c1, hstart, h2, h3, h4, -, -, h7, -, h9, h10, h11, h12, -⟩ := start_io_submits
    (init { self with
      bytes := add64 self.bytes (int_to_u64 res),
      offset := self.offset + (if self.seekable then 1 else 0) * res,
      buffer_ := advance self.buffer_ (add64 self.bytes (int_to_u64 res)) })
    a (completion res a c) hp hu
  have hstart1 : start true
    (init { self with
      bytes := add64 self.bytes (int_to_u64 res),
      offset := self.offset + (if self.seekable then 1 else 0) * res,
      buffer_ := advance self.buffer_ (add64 self.bytes (int_to_u64 res)) })
    a (completion res a c) = .ok c1 := hstart
  rw [hstart1] at hpartial
  exact ⟨c1, hpartial, h2, h3, h4, h7, h9, h10, h11, h12⟩

theorem zero_completions_resubmit (a : Nat) :
    ∀ (n : Nat) (self : rw_type) (c : io_uring_context),
      self.B = true → 0 < self.bytes → self.bytes < self.size → self.size < two64 →
      0 < c.sq_entry_count → c.cq_pending_count < c.cq_entry_count → c.cq_pending_count < two32 →
      c.sq_tail < two32 →
      ∃ self1 c1, completions a (List.replicate n 0) self c = .ok (self1, c1) ∧
        self1.received = self.received ∧ self1.bytes = self.bytes ∧
        c1.sq_tail = add32 c.sq_tail n ∧ c1.pending_io_queue = c.pending_io_queue ∧
        c1.local_queue = c.local_queue ∧ (0 < n → c1.execute_ a = execute_fn.on_io_complete) := by
  intro n
  induction n with
  | zero =>
      intro self c _ _ _ _ _ _ _ ht
      exact ⟨self, c, rfl, rfl, rfl, (add32_zero_of_lt _ ht).symm, rfl, rfl,
        fun h => absurd h (lt_irrefl 0)⟩
  | succ n ih =>
      intro self c hB ht0 ht1 hsize hsq hcq hcq32 ht
      have hb : add64 self.bytes (int_to_u64 0) = self.bytes := by
        rw [int_to_u64_zero]
        exact add64_zero_of_lt _ (by omega)
      obtain ⟨c1, hstep, htail, -, hexec, hsqe, hcqe, hpend, hpq, hlq⟩ :=
        partial_completion_step self a c 0 (le_refl 0) hB (by rw [hb]; omega) (by rw [hb]; omega)
          hsq hcq hcq32
      have htail32 : c1.sq_tail < two32 := by
        rw [htail]
        unfold add32
        exact Nat.mod_lt _ (by unfold two32; omega)
      obtain ⟨self2, c2, hrun, hrec, hbytes, htail2, hpq2, hlq2, hexec2⟩ :=
        ih (init { self with
              bytes := add64 self.bytes (int_to_u64 0),
              offset := self.offset + (if self.seekable then 1 else 0) * 0,
              buffer_ := advance self.buffer_ (add64 self.bytes (int_to_u64 0)) }) c1
          hB (by show 0 < add64 self.bytes (int_to_u64 0); rw [hb]; exact ht0)
          (by show add64 self.bytes (int_to_u64 0) < self.size; rw [hb]; exact ht1)
          hsize (by rw [hsqe]; exact hsq) (by rw [hcqe, hpend]; exact hcq)
          (by rw [hpend]; exact hcq32) htail32
      refine ⟨self2, c2, ?_, hrec, ?_, ?_, hpq2.trans hpq, hlq2.trans hlq, ?_⟩
      · show (do
          let r ← on_io_complete true self a (completion 0 a c)
          completions a (List.replicate n 0) r.1 r.2) = _
        rw [hstep]
        exact hrun
      · rw [hbytes]
        exact hb
      · rw [htail2, htail]
        unfold add32 two32
        omega
      · intro _
        rcases Nat.eq_zero_or_pos n with hn | hn
        · subst hn
          have : c2 = c1 := by
            have := hrun
            simp only [List.replicate, completions] at this
            exact ((Prod.mk.inj (Except.ok.inj this)).2).symm
          rw [this]
          exact hexec
        · exact hexec2 hn

end rw_type

namespace rw_type

open io_uring_context

/-- C20: in a fully-read or fully-write with a total `t` so far, `0 < t < N`, on the loop thread
of a context whose rings have entries, a completion with result 0 returns without invoking the
continuation and fills a new entry for the operation at the tail of the submission ring; and for
every `n`, `n` such completions in a row return with the continuation still not invoked, `n`
entries submitted, and the operation in neither the local nor the pending queue, waiting for a
further completion. -/
theorem zero_after_partial_never_completes (self : rw_type) (a : Nat) (c : io_uring_context)
    (n : Nat) (hB : self.B = true) (ht0 : 0 < self.bytes) (ht1 : self.bytes < self.size)
    (hsize : self.size < two64) (hsq : 0 < c.sq_entry_count)
    (hcq : c.cq_pending_count < c.cq_entry_count) (hcq32 : c.cq_pending_count < two32)
    (htail : c.sq_tail < two32) :
    (∃ self1 c1, on_io_complete true self a (completion 0 a c) = .ok (self1, c1) ∧
      self1.received = self.received ∧ self1.bytes = self.bytes ∧
      c1.sq_tail = add32 c.sq_tail 1 ∧
      (c1.sq_entries (c.sq_tail &&& c.sq_mask)).user_data = address.object a ∧
      (c1.sq_entries (c.sq_tail &&& c.sq_mask)).opcode = self.opcode.value ∧
      c1.execute_ a = execute_fn.on_io_complete) ∧
    (∃ self1 c1, completions a (List.replicate n 0) self c = .ok (self1, c1) ∧
      self1.received = self.received ∧ self1.bytes = self.bytes ∧
      c1.sq_tail = add32 c.sq_tail n ∧ c1.pending_io_queue = c.pending_io_queue ∧
      c1.local_queue = c.local_queue ∧ (0 < n → c1.execute_ a = execute_fn.on_io_complete)) := by
  have hb : add64 self.bytes (int_to_u64 0) = self.bytes := by
    rw [int_to_u64_zero]
    exact add64_zero_of_lt _ (by omega)
  constructor
  · obtain ⟨c1, hstep, htail1, hslot, hexec, -⟩ :=
      partial_completion_step self a c 0 (le_refl 0) hB (by rw [hb]; omega) (by rw [hb]; omega)
        hsq hcq hcq32
    refine ⟨_, c1, hstep, rfl, hb, htail1, ?_, ?_, hexec⟩
    · rw [hslot]
    · rw [hslot]
  · exact zero_completions_resubmit a n self c hB ht0 ht1 hsize hsq hcq hcq32 htail

/-- The sample fully-read with 4 of 10 bytes read: three completions of 0 bytes. -/
theorem zero_after_partial_never_completes_witness :
    sample_read_partial.B = true ∧ 0 < sample_read_partial.bytes ∧
    sample_read_partial.bytes < sample_read_partial.size ∧ sample_read_partial.size < two64 ∧
    0 < idle_context.sq_entry_count ∧ idle_context.cq_pending_count < idle_context.cq_entry_count ∧
    idle_context.cq_pending_count < two32 ∧ idle_context.sq_tail < two32 ∧
    ∃ self1 c1, completions 1 (List.replicate 3 0) sample_read_partial idle_context =
        .ok (self1, c1) ∧
      self1.received = sample_read_partial.received ∧ self1.bytes = sample_read_partial.bytes ∧
      c1.sq_tail = add32 idle_context.sq_tail 3 ∧
      c1.pending_io_queue = idle_context.pending_io_queue ∧
      c1.local_queue = idle_context.local_queue ∧
      (0 < 3 → c1.execute_ 1 = execute_fn.on_io_complete) :=
  ⟨rfl, by decide, by decide, by decide, by decide, by decide, by decide, by decide,
    (zero_after_partial_never_completes sample_read_partial 1 idle_context 3 rfl (by decide)
      (by decide) (by decide) (by decide) (by decide) (by decide) (by decide)).2⟩

end rw_type

namespace rw_type

open io_uring_context

/-- C19, evaluated on the code: the sample fully-read of 10 bytes at address 1000 is started on
the loop thread and gets two partial completions of 2 bytes each.  After the first (total 2) the
submitted window is the one the claim states, 8 bytes at 1002.  After the second (total 4) the
window was advanced by the total instead of the last result: `buff` has 4 bytes at 1006, where the
claim states 6 bytes at 1004 (offset 4 of the buffer, length 10 - 4), and the entry that was
submitted points at this `buff`. -/
theorem second_partial_window_skips_bytes :
    ∃ c0 s1 c1 s2 c2,
      sample_read.start true 1 idle_context = .ok c0 ∧
      completions 1 [2] sample_read c0 = .ok (s1, c1) ∧
      s1.bytes = 2 ∧ s1.buff = { iov_base := 1002, iov_len := 8 } ∧
      completions 1 [2, 2] sample_read c0 = .ok (s2, c2) ∧
      s2.bytes = 4 ∧ s2.received = [] ∧
      s2.buff = { iov_base := 1006, iov_len := 4 } ∧
      s2.buff ≠ { iov_base := 1000 + 4, iov_len := 10 - 4 } ∧
      c2.sq_tail = 3 ∧ (c2.sq_entries 2).addr = address.buff 1 ∧
      (c2.sq_entries 2).user_data = address.object 1 :=
  ⟨_, _, _, _, _, by with_unfolding_all rfl, by with_unfolding_all rfl, by with_unfolding_all rfl,
    by with_unfolding_all rfl, by with_unfolding_all rfl, by with_unfolding_all rfl,
    by with_unfolding_all rfl, by with_unfolding_all rfl, by with_unfolding_all decide,
    by with_unfolding_all rfl, by with_unfolding_all rfl, by with_unfolding_all rfl⟩

end rw_type

namespace timer_impl

open io_uring_context

theorem request_stop_remote_eq (c : io_uring_context) (t : Nat) :
    request_stop_remote c t =
      request_stop_remote_post (request_stop_remote_fetch c t).1 t
        (request_stop_remote_fetch c t).2 := rfl

theorem abstracts_cancel_fetch (c0 : io_uring_context) (t : Nat) (now : time_point)
    (st : race_state) (v : race_view) (h : abstracts c0 t now st v) :
    abstracts c0 t now
      { context := (request_stop_remote_fetch st.context t).1,
        old_state := some (request_stop_remote_fetch st.context t).2 }
      { v with state := add32 v.state cancel_pending_flag, old_state := some v.state } := by
  obtain ⟨h1, h2, h3, h4, h5, h6, h7, h8, h9, h10, h11, h12, h13, h14, h15⟩ := h
  refine ⟨?_, h2, h3, ?_, h5, h6, h7, h8, h9, h10, h11, h12, h13, h14, h15⟩
  · show some (st.context.state t) = some v.state
    rw [h4]
  · show Function.update st.context.state t _ t = _
    rw [Function.update_same, h4]

end timer_impl

namespace timer_impl

open io_uring_context

theorem abstracts_cancel_post (c0 : io_uring_context) (t : Nat) (now : time_point) (fuel : Nat)
    (st : race_state) (v v1 : race_view) (h : abstracts c0 t now st v)
    (hstep : race_view.step .cancel_post v = some v1) :
    ∃ st1, race_step.cancel_post.run fuel now t st = .ok st1 ∧ abstracts c0 t now st1 v1 := by
  obtain ⟨vh, vs, ve, vl, vr, vc, vn, vo⟩ := v
  obtain ⟨h1, h2, h3, h4, h5, h6, h7, h8, h9, h10, h11, h12, h13, h14, h15⟩ := h
  dsimp only at h1 h2 h3 h4 h5 h6 h7 h8 h9 h10
  cases vo with
  | none => simp [race_view.step] at hstep
  | some old =>
      by_cases hbit : old &&& timer_elapsed_flag = 0
      · cases vl with
        | true => simp [race_view.step, hbit] at hstep
        | false =>
            cases vr with
            | true => simp [race_view.step, hbit] at hstep
            | false =>
                have hv1 : v1 =
                    race_view.mk vh vs execute_fn.remove_timer false true vc vn (some old) := by
                  simp [race_view.step, hbit] at hstep
                  exact hstep.symm
                subst hv1
                simp only [Bool.false_eq_true, if_false] at h7
                refine ⟨{ st with context := request_stop_remote_post st.context t old }, ?_, ?_⟩
                · simp only [race_step.run, h1]
                · have hpost : request_stop_remote_post st.context t old =
                      { st.context with
                          execute_ := Function.update st.context.execute_ t execute_fn.remove_timer,
                          next := Function.update st.context.next t none,
                          remote_queue_ := { head := head_value.item t } } := by
                    simp only [request_stop_remote_post, hbit, if_true, schedule_remote,
                      atomic_intrusive_queue.enqueue, h7]
                    rfl
                  show abstracts c0 t now
                    { context := request_stop_remote_post st.context t old,
                      old_state := st.old_state } _
                  rw [hpost]
                  refine ⟨h1, h2, h3, h4, ?_, h6, ?_, ?_, h9, h10, h11, h12, h13, h14, h15⟩
                  · show Function.update st.context.execute_ t execute_fn.remove_timer t = _
                    rw [Function.update_same]
                  · rfl
                  · intro _
                    show Function.update st.context.next t none t = none
                    rw [Function.update_same]
      · have hv1 : v1 = race_view.mk vh vs ve vl vr vc vn (some old) := by
          simp [race_view.step, hbit] at hstep
          exact hstep.symm
        subst hv1
        refine ⟨{ st with context := request_stop_remote_post st.context t old }, ?_, ?_⟩
        · simp only [race_step.run, h1]
        · have hpost : request_stop_remote_post st.context t old = st.context := by
            simp only [request_stop_remote_post, hbit, if_false]
          show abstracts c0 t now
            { context := request_stop_remote_post st.context t old, old_state := st.old_state } _
          rw [hpost]
          exact ⟨h1, h2, h3, h4, h5, h6, h7, h8, h9, h10, h11, h12, h13, h14, h15⟩

end timer_impl

namespace timer_impl

open io_uring_context

theorem update_timers_of_empty (fuel : Nat) (now : time_point) (c : io_uring_context)
    (hhead : c.timers.head = none) (hcur : c.current_duetime = none) :
    c.update_timers fuel now = .ok c := by
  have hempty : c.timers.empty = true := by
    simp [intrusive_heap.empty, hhead]
  simp only [update_timers, hempty, Bool.not_true, Bool.false_eq_true, if_false]
  show (match c.timers.head with
    | none => _
    | some top => _) = _
  simp only [hhead, hcur, Option.isSome_none, Bool.false_eq_true, if_false]
  rfl

end timer_impl

namespace timer_impl

open io_uring_context

theorem pop_due_timers_of_empty (now : time_point) (fuel : Nat) (c : io_uring_context)
    (hhead : c.timers.head = none) : pop_due_timers now fuel c = .ok c := by
  cases fuel with
  | zero =>
      rw [pop_due_timers]
      simp only [hhead]
  | succ fuel =>
      rw [pop_due_timers]
      simp only [hhead]

/-- One round of the first loop of `update_timers()` on a heap that holds only the due, cancelable
timer `t`: the timer is popped and its state word gets `timer_elapsed_flag`; it is scheduled
locally unless `cancel_pending_flag` was set. -/
theorem update_timers_of_single (fuel : Nat) (now : time_point) (c : io_uring_context) (t : Nat)
    (hhead : c.timers.head = some t) (hnext : c.timer.next t = none)
    (hcanc : c.cancelable t = true) (hdue : (c.timer.duetime t).le now = true)
    (hcur : c.current_duetime = none) :
    c.update_timers (fuel + 1) now =
      .ok (if c.state t &&& cancel_pending_flag != 0 then
            { c with timers := { head := none },
                     state := Function.update c.state t (add32 (c.state t) timer_elapsed_flag) }
          else
            schedule_local
              { c with timers := { head := none },
                       state := Function.update c.state t
                         (add32 (c.state t) timer_elapsed_flag) } t) := by
  have hempty : c.timers.empty = false := by
    simp [intrusive_heap.empty, hhead]
  have hpop : c.timers.pop c.timer = .ok (c.timer, { head := none }, t) := by
    simp only [intrusive_heap.pop, hhead, hnext]
  have hround : pop_due_timers now (fuel + 1) c =
      .ok (if c.state t &&& cancel_pending_flag != 0 then
            { c with timers := { head := none },
                     state := Function.update c.state t (add32 (c.state t) timer_elapsed_flag) }
          else
            schedule_local
              { c with timers := { head := none },
                       state := Function.update c.state t
                         (add32 (c.state t) timer_elapsed_flag) } t) := by
    rw [pop_due_timers]
    simp only [hhead, hdue, if_true, hpop]
    show (if c.cancelable t = true then _ else _) = _
    rw [if_pos hcanc]
    by_cases hb : (c.state t &&& cancel_pending_flag != 0) = true
    · simp only [hb, if_true]
      exact pop_due_timers_of_empty now fuel _ rfl
    · simp only [hb, if_false]
      exact pop_due_timers_of_empty now fuel _ rfl
  simp only [update_timers, hempty, Bool.not_false, if_true, hround]
  by_cases hb : (c.state t &&& cancel_pending_flag != 0) = true
  · simp only [hb, if_true, bind, Except.bind, hcur, Option.isSome_none, Bool.false_eq_true,
      if_false, pure, Except.pure]
  · simp only [hb, if_false, bind, Except.bind, schedule_local, hcur, Option.isSome_none,
      Bool.false_eq_true, if_false, pure, Except.pure]

end timer_impl

namespace timer_impl

open io_uring_context

theorem schedule_local_of_empty (c : io_uring_context) (t : Nat) (h : c.local_queue = {}) :
    c.schedule_local t =
      { c with next := Function.update c.next t none,
               local_queue := { head := some t, tail := some t } } := by
  simp only [schedule_local, h, intrusive_queue.push_back]

theorem abstracts_update_timers (c0 : io_uring_context) (t : Nat) (now : time_point) (fuel : Nat)
    (st : race_state) (v v1 : race_view) (h : abstracts c0 t now st v)
    (hstep : race_view.step .update_timers v = some v1) :
    ∃ st1, race_step.update_timers.run (fuel + 1) now t st = .ok st1 ∧
      abstracts c0 t now st1 v1 := by
  obtain ⟨vh, vs, ve, vl, vr, vc, vn, vo⟩ := v
  obtain ⟨h1, h2, h3, h4, h5, h6, h7, h8, h9, h10, h11, h12, h13, h14, h15⟩ := h
  dsimp only at h1 h2 h3 h4 h5 h6 h7 h8 h9 h10
  cases vh with
  | false =>
      simp only [Bool.false_eq_true, if_false] at h2
      have hv1 : v1 = race_view.mk false vs ve vl vr vc vn vo := by
        simp [race_view.step] at hstep
        exact hstep.symm
      subst hv1
      refine ⟨st, ?_, ?_⟩
      · simp only [race_step.run, h15, if_true, update_timers_of_empty (fuel + 1) now _ h2 h13]
        rfl
      · exact ⟨h1, by simpa using h2, h3, h4, h5, h6, h7, h8, h9, h10, h11, h12, h13, h14, h15⟩
  | true =>
      simp only [if_true] at h2
      have hn := (h3 rfl).1
      have hupd := update_timers_of_single fuel now st.context t h2 hn h11 h12 h13
      rw [h4] at hupd
      by_cases hb : (vs &&& cancel_pending_flag != 0) = true
      · have hv1 : v1 = race_view.mk false (add32 vs timer_elapsed_flag) ve vl vr vc vn vo := by
          simp only [race_view.step, if_true, hb] at hstep
          exact (Option.some.inj hstep).symm
        subst hv1
        rw [if_pos hb] at hupd
        refine ⟨{ st with context :=
            { st.context with
                timers := { head := none },
                state := Function.update st.context.state t (add32 vs timer_elapsed_flag) } },
          ?_, ?_⟩
        · simp only [race_step.run, h15, if_true, hupd]
          rfl
        · refine ⟨h1, rfl, ?_, ?_, h5, h6, h7, h8, h9, h10, h11, h12, h13, h14, h15⟩
          · intro hf
            exact absurd hf Bool.false_ne_true
          · show Function.update st.context.state t _ t = _
            rw [Function.update_same]
      · cases vl with
        | true => simp [race_view.step, hb] at hstep
        | false =>
            cases vr with
            | true => simp [race_view.step, hb] at hstep
            | false =>
                have hv1 : v1 =
                    race_view.mk false (add32 vs timer_elapsed_flag) ve true false vc vn vo := by
                  simp only [race_view.step, if_true, hb, Bool.or_self, Bool.false_eq_true,
                    if_false] at hstep
                  exact (Option.some.inj hstep).symm
                subst hv1
                simp only [Bool.false_eq_true, if_false] at h6 h7
                rw [if_neg hb, schedule_local_of_empty
                  { st.context with
                      timers := { head := none },
                      state := Function.update st.context.state t
                        (add32 vs timer_elapsed_flag) } t h6] at hupd
                refine ⟨{ st with context :=
                    { st.context with
                        timers := { head := none },
                        state := Function.update st.context.state t
                          (add32 vs timer_elapsed_flag),
                        next := Function.update st.context.next t none,
                        local_queue := { head := some t, tail := some t } } }, ?_, ?_⟩
                · simp only [race_step.run, h15, if_true, hupd]
                  rfl
                · refine ⟨h1, rfl, ?_, ?_, h5, rfl, h7, ?_, h9, h10, h11, h12, h13, h14, h15⟩
                  · intro hf
                    exact absurd hf Bool.false_ne_true
                  · show Function.update st.context.state t _ t = _
                    rw [Function.update_same]
                  · intro _
                    show Function.update st.context.next t none t = none
                    rw [Function.update_same]

end timer_impl

namespace timer_impl

open io_uring_context

theorem acquire_remote_queued_items_of_null (fuel : Nat) (c : io_uring_context)
    (hread : c.remote_queue_read_submitted = false) (hq : c.remote_queue_.head = head_value.null) :
    c.acquire_remote_queued_items fuel = .ok c := by
  have ha : assert (!c.remote_queue_read_submitted) = .ok () := by
    rw [hread]
    rfl
  simp only [acquire_remote_queued_items, ha, atomic_intrusive_queue.dequeue_all, hq, bind,
    Except.bind, schedule_local_queue, intrusive_queue.append, pure, Except.pure]

theorem acquire_remote_queued_items_of_item (fuel : Nat) (c : io_uring_context) (t : Nat)
    (hread : c.remote_queue_read_submitted = false)
    (hq : c.remote_queue_.head = head_value.item t) (hnext : c.next t = none)
    (hlocal : c.local_queue = {}) :
    c.acquire_remote_queued_items (fuel + 1) =
      .ok { c with next := Function.update c.next t none,
                   remote_queue_ := { head := head_value.null },
                   local_queue := { head := some t, tail := some t } } := by
  have hrev : intrusive_queue.make_reversed (fuel + 1) c.next (some t) =
      .ok (Function.update c.next t none, { head := some t, tail := some t }) := by
    simp only [intrusive_queue.make_reversed, intrusive_queue.make_reversed_loop, hnext, bind,
      Except.bind, pure, Except.pure]
  have ha : assert (!c.remote_queue_read_submitted) = .ok () := by
    rw [hread]
    rfl
  simp only [acquire_remote_queued_items, ha, atomic_intrusive_queue.dequeue_all, hq, hrev, bind,
    Except.bind, schedule_local_queue, intrusive_queue.append, hlocal, pure, Except.pure]

theorem abstracts_acquire_remote_queued_items (c0 : io_uring_context) (t : Nat)
    (now : time_point) (fuel : Nat) (st : race_state) (v v1 : race_view)
    (h : abstracts c0 t now st v)
    (hstep : race_view.step .acquire_remote_queued_items v = some v1) :
    ∃ st1, race_step.acquire_remote_queued_items.run (fuel + 1) now t st = .ok st1 ∧
      abstracts c0 t now st1 v1 := by
  obtain ⟨vh, vs, ve, vl, vr, vc, vn, vo⟩ := v
  obtain ⟨h1, h2, h3, h4, h5, h6, h7, h8, h9, h10, h11, h12, h13, h14, h15⟩ := h
  dsimp only at h1 h2 h3 h4 h5 h6 h7 h8 h9 h10
  cases vr with
  | false =>
      simp only [Bool.false_eq_true, if_false] at h7
      have hv1 : v1 = race_view.mk vh vs ve vl false vc vn vo := by
        simp [race_view.step] at hstep
        exact hstep.symm
      subst hv1
      refine ⟨st, ?_, ?_⟩
      · simp only [race_step.run, h14, Bool.not_false, if_true,
          acquire_remote_queued_items_of_null (fuel + 1) _ h14 h7]
        rfl
      · exact ⟨h1, h2, h3, h4, h5, h6, by simpa using h7, h8, h9, h10, h11, h12, h13, h14, h15⟩
  | true =>
      cases vl with
      | true => simp [race_view.step] at hstep
      | false =>
          have hv1 : v1 = race_view.mk vh vs ve true false vc vn vo := by
            simp [race_view.step] at hstep
            exact hstep.symm
          subst hv1
          simp only [Bool.false_eq_true, if_false, if_true] at h6 h7
          have hn := h8 (Or.inr rfl)
          have hacq := acquire_remote_queued_items_of_item fuel st.context t h14 h7 hn h6
          refine ⟨{ st with context :=
              { st.context with
                  next := Function.update st.context.next t none,
                  remote_queue_ := { head := head_value.null },
                  local_queue := { head := some t, tail := some t } } }, ?_, ?_⟩
          · simp only [race_step.run, h14, Bool.not_false, if_true, hacq]
            rfl
          · refine ⟨h1, h2, h3, h4, h5, rfl, rfl, ?_, h9, h10, h11, h12, h13, h14, h15⟩
            intro _
            show Function.update st.context.next t none t = none
            rw [Function.update_same]

end timer_impl

namespace timer_impl

open io_uring_context

theorem execute_pending_loop_of_empty (run : Nat → io_uring_context → Except Fault io_uring_context)
    (fuel : Nat) (c : io_uring_context) :
    execute_pending_loop run fuel {} c = .ok c := by
  cases fuel <;> rfl

theorem execute_pending_local_of_single
    (run : Nat → io_uring_context → Except Fault io_uring_context) (fuel : Nat)
    (c : io_uring_context) (t : Nat)
    (hlocal : c.local_queue = { head := some t, tail := some t }) (hnext : c.next t = none) :
    c.execute_pending_local run (fuel + 1) =
      run t { c with local_queue := {}, executed := c.executed ++ [t] } := by
  simp only [execute_pending_local, hlocal, intrusive_queue.empty, Option.isNone_some,
    Bool.false_eq_true, if_false, execute_pending_loop, intrusive_queue.pop_front, hnext, invoke,
    bind, Except.bind, if_true]
  cases run t _ with
  | error e => rfl
  | ok c1 => exact execute_pending_loop_of_empty run fuel c1

theorem remove_timer_of_single (c : io_uring_context) (t : Nat)
    (hhead : c.timers.head = some t) (hnext : c.timer.next t = none)
    (hprev : c.timer.prev t = none) :
    io_uring_context.remove_timer c t =
      .ok { c with timers := { head := none }, timers_are_dirty := true } := by
  have hempty : c.timers.empty = false := by
    simp [intrusive_heap.empty, hhead]
  simp only [io_uring_context.remove_timer, hempty, Bool.not_false, assert, if_true,
    intrusive_heap.top, hhead, intrusive_heap.remove, hprev, hnext, decide_True, bind,
    Except.bind, pure, Except.pure]

end timer_impl

namespace timer_impl

open io_uring_context

theorem abstracts_execute_pending_local (c0 : io_uring_context) (t : Nat)
    (now : time_point) (fuel : Nat) (st : race_state) (v v1 : race_view)
    (h : abstracts c0 t now st v)
    (hstep : race_view.step .execute_pending_local v = some v1) :
    ∃ st1, race_step.execute_pending_local.run (fuel + 1) now t st = .ok st1 ∧
      abstracts c0 t now st1 v1 := by
  obtain ⟨vh, vs, ve, vl, vr, vc, vn, vo⟩ := v
  obtain ⟨h1, h2, h3, h4, h5, h6, h7, h8, h9, h10, h11, h12, h13, h14, h15⟩ := h
  dsimp only at h1 h2 h3 h4 h5 h6 h7 h8 h9 h10
  have hrec : ∀ code : Int,
      st.context.received ++ [(t, code)] =
        c0.received ++ List.map (fun code => (t, code)) (vc ++ [code]) := by
    intro code
    rw [h9, List.map_append, List.append_assoc]
    rfl
  have hexe : st.context.executed ++ [t] = c0.executed ++ List.replicate (vn + 1) t := by
    rw [h10, List.replicate_succ', List.append_assoc]
  cases vl with
  | false =>
      simp only [Bool.false_eq_true, if_false] at h6
      have hv1 : v1 = race_view.mk vh vs ve false vr vc vn vo := by
        simp [race_view.step] at hstep
        exact hstep.symm
      subst hv1
      refine ⟨st, ?_, ?_⟩
      · simp only [race_step.run, execute_pending_local, h6, intrusive_queue.empty,
          Option.isNone_none, if_true]
        rfl
      · exact ⟨h1, h2, h3, h4, h5, by simpa using h6, h7, h8, h9, h10, h11, h12, h13, h14, h15⟩
  | true =>
      simp only [if_true] at h6
      have hn := h8 (Or.inl rfl)
      have hrun := execute_pending_local_of_single (execute (fuel + 1)) fuel st.context t h6 hn
      cases ve with
      | on_timeout =>
          have hv1 : v1 = race_view.mk vh vs execute_fn.on_timeout false vr (vc ++ [0])
              (vn + 1) vo := by
            simp [race_view.step] at hstep
            exact hstep.symm
          subst hv1
          have hexec : execute (fuel + 1) t
              { st.context with local_queue := {}, executed := st.context.executed ++ [t] } =
              .ok { st.context with
                      local_queue := {},
                      executed := st.context.executed ++ [t],
                      received := st.context.received ++ [(t, 0)] } := by
            simp only [execute, h5, receive]
          rw [hexec] at hrun
          refine ⟨{ st with context :=
              { st.context with
                  local_queue := {},
                  executed := st.context.executed ++ [t],
                  received := st.context.received ++ [(t, 0)] } }, ?_, ?_⟩
          · simp only [race_step.run, hrun]
            rfl
          · exact ⟨h1, h2, h3, h4, h5, rfl, h7, fun hq => h8 (Or.inr (hq.resolve_left
              Bool.false_ne_true)), hrec 0, hexe, h11, h12, h13, h14, h15⟩
      | remove_timer =>
          by_cases hbit : vs &&& timer_elapsed_flag = 0
          · cases vh with
            | false => simp [race_view.step, hbit] at hstep
            | true =>
                have hv1 : v1 = race_view.mk false vs execute_fn.remove_timer false vr
                    (vc ++ [ECANCELED]) (vn + 1) vo := by
                  simp [race_view.step, hbit] at hstep
                  exact hstep.symm
                subst hv1
                simp only [if_true] at h2
                have hrem := remove_timer_of_single
                  { st.context with local_queue := {}, executed := st.context.executed ++ [t] } t
                  h2 (h3 rfl).1 (h3 rfl).2
                have hexec : execute (fuel + 1) t
                    { st.context with local_queue := {}, executed := st.context.executed ++ [t] } =
                    .ok { st.context with
                            local_queue := {},
                            executed := st.context.executed ++ [t],
                            timers := { head := none },
                            timers_are_dirty := true,
                            received := st.context.received ++ [(t, ECANCELED)] } := by
                  have hs : st.context.state t &&& timer_elapsed_flag = 0 := by rw [h4]; exact hbit
                  simp only [execute, h5, timer_impl.remove_timer, hs, if_true, hrem, bind,
                    Except.bind, receive, pure, Except.pure]
                rw [hexec] at hrun
                refine ⟨{ st with context :=
                    { st.context with
                        local_queue := {},
                        executed := st.context.executed ++ [t],
                        timers := { head := none },
                        timers_are_dirty := true,
                        received := st.context.received ++ [(t, ECANCELED)] } }, ?_, ?_⟩
                · simp only [race_step.run, hrun]
                  rfl
                · exact ⟨h1, rfl, fun hf => absurd hf Bool.false_ne_true, h4, h5, rfl, h7,
                    fun hq => h8 (Or.inr (hq.resolve_left Bool.false_ne_true)), hrec ECANCELED,
                    hexe, h11, h12, h13, h14, rfl⟩
          · have hv1 : v1 = race_view.mk vh vs execute_fn.remove_timer false vr
                (vc ++ [ECANCELED]) (vn + 1) vo := by
              simp [race_view.step, hbit] at hstep
              exact hstep.symm
            subst hv1
            have hexec : execute (fuel + 1) t
                { st.context with local_queue := {}, executed := st.context.executed ++ [t] } =
                .ok { st.context with
                        local_queue := {},
                        executed := st.context.executed ++ [t],
                        received := st.context.received ++ [(t, ECANCELED)] } := by
              have hs : ¬ st.context.state t &&& timer_elapsed_flag = 0 := by rw [h4]; exact hbit
              simp only [execute, h5, timer_impl.remove_timer, hs, if_false, bind,
                Except.bind, receive, pure, Except.pure]
            rw [hexec] at hrun
            refine ⟨{ st with context :=
                { st.context with
                    local_queue := {},
                    executed := st.context.executed ++ [t],
                    received := st.context.received ++ [(t, ECANCELED)] } }, ?_, ?_⟩
            · simp only [race_step.run, hrun]
              rfl
            · exact ⟨h1, h2, h3, h4, h5, rfl, h7,
                fun hq => h8 (Or.inr (hq.resolve_left Bool.false_ne_true)), hrec ECANCELED,
                hexe, h11, h12, h13, h14, h15⟩
      | on_schedule_complete => simp [race_view.step] at hstep
      | on_cancel => simp [race_view.step] at hstep
      | on_io_complete => simp [race_view.step] at hstep
      | callback k => simp [race_view.step] at hstep

end timer_impl

namespace timer_impl

open io_uring_context

theorem abstracts_step (c0 : io_uring_context) (t : Nat) (now : time_point) (fuel : Nat)
    (s : race_step) (st : race_state) (v v1 : race_view) (h : abstracts c0 t now st v)
    (hstep : race_view.step s v = some v1) :
    ∃ st1, s.run (fuel + 1) now t st = .ok st1 ∧ abstracts c0 t now st1 v1 := by
  cases s with
  | cancel_fetch =>
      have hv1 : v1 = { v with state := add32 v.state cancel_pending_flag,
                               old_state := some v.state } :=
        (Option.some.inj hstep).symm
      subst hv1
      exact ⟨_, rfl, abstracts_cancel_fetch c0 t now st v h⟩
  | cancel_post => exact abstracts_cancel_post c0 t now (fuel + 1) st v v1 h hstep
  | update_timers => exact abstracts_update_timers c0 t now fuel st v v1 h hstep
  | acquire_remote_queued_items =>
      exact abstracts_acquire_remote_queued_items c0 t now fuel st v v1 h hstep
  | execute_pending_local => exact abstracts_execute_pending_local c0 t now fuel st v v1 h hstep

theorem abstracts_run (c0 : io_uring_context) (t : Nat) (now : time_point) (fuel : Nat) :
    ∀ (steps : List race_step) (st : race_state) (v v1 : race_view),
      abstracts c0 t now st v → race_view.run steps v = some v1 →
      ∃ st1, race_run (fuel + 1) now t steps st = .ok st1 ∧ abstracts c0 t now st1 v1 := by
  intro steps
  induction steps with
  | nil =>
      intro st v v1 h hrun
      have : v1 = v := (Option.some.inj hrun).symm
      subst this
      exact ⟨st, rfl, h⟩
  | cons s rest ih =>
      intro st v v1 h hrun
      cases hs : race_view.step s v with
      | none => simp [race_view.run, hs] at hrun
      | some v2 =>
          simp only [race_view.run, hs] at hrun
          obtain ⟨st2, hstep, h2⟩ := abstracts_step c0 t now fuel s st v v2 h hs
          obtain ⟨st1, hrest, h1⟩ := ih st2 v2 v1 h2 hrun
          refine ⟨st1, ?_, h1⟩
          simp only [race_run, hstep]
          exact hrest

theorem abstracts_of_armed (c : io_uring_context) (t : Nat) (now : time_point)
    (h : armed c t now) : abstracts c t now { context := c } {} := by
  obtain ⟨h1, h2, h3, h4, h5, h6, h7, h8, h9, h10, h11, h12⟩ := h
  refine ⟨rfl, h1, fun _ => ⟨h2, h3⟩, h4, h5, h6, h7, ?_, ?_, ?_, h8, h9, h10, h11, h12⟩
  · intro hq
    rcases hq with hq | hq <;> exact absurd hq Bool.false_ne_true
  · simp
  · simp

theorem race_view_delivers_once :
    ∀ s ∈ interleavings cancel_program loop_program,
      (race_view.run (s ++ loop_drain) {}).map (race_view.delivered_once s) = some true := by
  with_unfolding_all decide

end timer_impl

namespace timer_impl

open io_uring_context

/-- C11: for a cancelable timer `t` that is armed in the heap and due, one `request_stop_remote()`
off the loop thread, made of its `fetch_add` and the rest, and the steps of the loop thread
(`update_timers()` with its `fetch_add`, draining of the remote queue, running of the local
queue): in every interleaving, followed by one more iteration of the loop, every step returns,
`execute_` of the timer has been called exactly once and the timer is left in no heap and no
queue.  If the `fetch_add` of the cancel came before `update_timers()`, it saw no flag, the
timeout was not delivered and the posted `remove_timer` passed `ECANCELED` to the receiver, once;
otherwise it saw `timer_elapsed_flag`, nothing was posted (`execute_` is still `on_timeout`) and
the receiver got success, once. -/
theorem cancel_racing_with_expiry_delivers_once (c : io_uring_context) (t : Nat)
    (now : time_point) (fuel : Nat) (s : List race_step)
    (harmed : armed c t now) (hfuel : 1 ≤ fuel)
    (hs : s ∈ interleavings cancel_program loop_program) :
    ∃ st, race_run fuel now t (s ++ loop_drain) { context := c } = .ok st ∧
      st.context.executed = c.executed ++ [t] ∧
      st.context.timers.head = none ∧ st.context.local_queue = {} ∧
      st.context.remote_queue_.head = head_value.null ∧
      (if s.indexOf race_step.cancel_fetch < s.indexOf race_step.update_timers then
        st.old_state = some 0 ∧ st.context.received = c.received ++ [(t, ECANCELED)] ∧
          st.context.execute_ t = execute_fn.remove_timer
      else
        st.old_state = some timer_elapsed_flag ∧ st.context.received = c.received ++ [(t, 0)] ∧
          st.context.execute_ t = execute_fn.on_timeout) := by
  obtain ⟨fuel1, rfl⟩ : ∃ fuel1, fuel = fuel1 + 1 := ⟨fuel - 1, by omega⟩
  have hview := race_view_delivers_once s hs
  cases hrun : race_view.run (s ++ loop_drain) {} with
  | none => simp [hrun] at hview
  | some v =>
      rw [hrun] at hview
      have hd : race_view.delivered_once s v = true := by simpa using hview
      obtain ⟨st, hst, habs⟩ := abstracts_run c t now fuel1 (s ++ loop_drain) { context := c } {} v
        (abstracts_of_armed c t now harmed) hrun
      obtain ⟨h1, h2, -, -, h5, h6, h7, -, h9, h10, -⟩ := habs
      simp only [race_view.delivered_once, decide_eq_true_eq] at hd
      obtain ⟨d1, d2, d3, d4, d5⟩ := hd
      rw [d1] at h10
      rw [d2] at h2
      rw [d3] at h6
      rw [d4] at h7
      refine ⟨st, hst, h10, by simpa using h2, by simpa using h6, by simpa using h7, ?_⟩
      by_cases hord : s.indexOf race_step.cancel_fetch < s.indexOf race_step.update_timers
      · rw [if_pos hord] at d5 ⊢
        obtain ⟨e1, e2, e3⟩ := d5
        rw [e1] at h1
        rw [e2] at h9
        rw [e3] at h5
        exact ⟨h1, h9, h5⟩
      · rw [if_neg hord] at d5 ⊢
        obtain ⟨e1, e2, e3⟩ := d5
        rw [e1] at h1
        rw [e2] at h9
        rw [e3] at h5
        exact ⟨h1, h9, h5⟩

/-- The timer 1 of `started_context`, due at 3 s, with the loop at 4 s: in the sample interleaving
the cancel fetches first and the receiver gets `ECANCELED` once. -/
theorem cancel_racing_with_expiry_delivers_once_witness :
    armed steady_timer.started_context 1 { seconds_ := 4 } ∧ 1 ≤ 1 ∧
    sample_interleaving ∈ interleavings cancel_program loop_program ∧
    ∃ st, race_run 1 { seconds_ := 4 } 1 (sample_interleaving ++ loop_drain)
        { context := steady_timer.started_context } = .ok st ∧
      st.context.executed = steady_timer.started_context.executed ++ [1] ∧
      st.context.timers.head = none ∧ st.context.local_queue = {} ∧
      st.context.remote_queue_.head = head_value.null ∧
      (if sample_interleaving.indexOf race_step.cancel_fetch <
          sample_interleaving.indexOf race_step.update_timers then
        st.old_state = some 0 ∧
          st.context.received = steady_timer.started_context.received ++ [(1, ECANCELED)] ∧
          st.context.execute_ 1 = execute_fn.remove_timer
      else
        st.old_state = some timer_elapsed_flag ∧
          st.context.received = steady_timer.started_context.received ++ [(1, 0)] ∧
          st.context.execute_ 1 = execute_fn.on_timeout) :=
  ⟨by with_unfolding_all decide, by decide, by decide,
    cancel_racing_with_expiry_delivers_once steady_timer.started_context 1 { seconds_ := 4 } 1
      sample_interleaving (by with_unfolding_all decide) (by decide) (by decide)⟩

end timer_impl

theorem sub64_sub64 (a t d : Nat) (ha : a < two64) (ht : t + d < two64) :
    sub64 (sub64 a t) d = sub64 a (t + d) := by
  unfold sub64 two64 at *
  split_ifs <;> omega

theorem sub64_ten_ge (j : Nat) (hj : j < 2147483648) : 4 ≤ sub64 10 (2 * j * (j + 1)) := by
  have hT : 2 * j * (j + 1) ≤ 2 * 2147483648 * 2147483648 := by
    have h1 : j * (j + 1) ≤ 2147483648 * 2147483648 := Nat.mul_le_mul (by omega) (by omega)
    calc 2 * j * (j + 1) = 2 * (j * (j + 1)) := by ring
      _ ≤ 2 * (2147483648 * 2147483648) := by omega
      _ = 2 * 2147483648 * 2147483648 := by ring
  rcases Nat.lt_or_ge j 2 with h2 | h2
  · interval_cases j <;> (unfold sub64 two64; decide)
  · have hlow : 12 ≤ 2 * j * (j + 1) := by
      have h1 : 2 * 3 ≤ j * (j + 1) := Nat.mul_le_mul h2 (by omega)
      calc 12 = 2 * (2 * 3) := by norm_num
        _ ≤ 2 * (j * (j + 1)) := by omega
        _ = 2 * j * (j + 1) := by ring
    generalize 2 * j * (j + 1) = T at hT hlow
    unfold sub64 two64
    split_ifs <;> omega

namespace rw_type

open io_uring_context

theorem chunked_completions_never_complete (a : Nat) :
    ∀ (n j : Nat) (self : rw_type) (c : io_uring_context),
      self.B = true → self.size = 10 → self.bytes = 4 * j → self.received = [] →
      self.buff.iov_len = sub64 10 (2 * j * (j + 1)) →
      self.buffer_.size = sub64 10 (2 * j * (j + 1)) →
      0 < c.sq_entry_count → c.cq_pending_count < c.cq_entry_count → c.cq_pending_count < two32 →
      j + n < 2147483648 →
      ∃ self1 c1, chunked_completions 4 a n self c = .ok (self1, c1) ∧
        self1.received = [] ∧ self1.bytes = 4 * (j + n) := by
  intro n
  induction n with
  | zero =>
      intro j self c _ _ hb hr _ _ _ _ _ _
      exact ⟨self, c, rfl, hr, by simpa using hb⟩
  | succ n ih =>
      intro j self c hB hsize hb hr hlen hbuf hsq hcq hcq32 hjn
      have hj : j < 2147483648 := by omega
      have hwin := sub64_ten_ge j hj
      have hres : min ((4 : Nat) : Int) (self.buff.iov_len : Int) = 4 := by
        rw [hlen, min_eq_left (by exact_mod_cast hwin)]
        rfl
      have h4 : int_to_u64 4 = 4 := by
        rw [int_to_u64_of_nonneg 4 (by norm_num) (by norm_num)]
        rfl
      have hbytes : add64 self.bytes (int_to_u64 4) = 4 * (j + 1) := by
        rw [h4, hb, add64_of_lt _ _ (by unfold two64; omega)]
        ring
      obtain ⟨c1, hstep, -, -, -, hsqe, hcqe, hpend, -, -⟩ :=
        partial_completion_step self a c 4 (by norm_num) hB
          (by rw [hbytes]; omega) (by rw [hbytes, hsize]; omega) hsq hcq hcq32
      have hT : 2 * j * (j + 1) + 4 * (j + 1) = 2 * (j + 1) * (j + 1 + 1) := by ring
      have hTlt : 2 * j * (j + 1) + 4 * (j + 1) < two64 := by
        have h1 : j * (j + 1) ≤ 2147483648 * 2147483648 := Nat.mul_le_mul (by omega) (by omega)
        have h2 : 2 * j * (j + 1) = 2 * (j * (j + 1)) := by ring
        unfold two64
        omega
      have hwindow : sub64 (sub64 10 (2 * j * (j + 1))) (add64 self.bytes (int_to_u64 4)) =
          sub64 10 (2 * (j + 1) * (j + 1 + 1)) := by
        rw [hbytes, sub64_sub64 10 _ _ (by unfold two64; omega) hTlt, hT]
      obtain ⟨self2, c2, hrun, hrec2, hbytes2⟩ :=
        ih (j + 1)
          (init { self with
            bytes := add64 self.bytes (int_to_u64 4),
            offset := self.offset + (if self.seekable then 1 else 0) * 4,
            buffer_ := advance self.buffer_ (add64 self.bytes (int_to_u64 4)) }) c1
          hB hsize hbytes hr
          (by show sub64 self.buffer_.size (add64 self.bytes (int_to_u64 4)) = _
              rw [hbuf, hwindow])
          (by show sub64 self.buffer_.size (add64 self.bytes (int_to_u64 4)) = _
              rw [hbuf, hwindow])
          (by rw [hsqe]; exact hsq) (by rw [hcqe, hpend]; exact hcq) (by rw [hpend]; exact hcq32)
          (by omega)
      refine ⟨self2, c2, ?_, hrec2, ?_⟩
      · rw [chunked_completions]
        simp only [hr, List.isEmpty_nil, if_true]
        rw [hres, hstep]
        exact hrun
      · rw [hbytes2]
        ring

end rw_type

namespace rw_type

open io_uring_context

/-- C12, evaluated on the code: the sample fully-read of `N = 10` bytes at address 1000 against a
peer that transfers in chunks of `K = 4` bytes.  The first completion returns 4 and the window
becomes 6 bytes at 1004; the second returns `min(4, 6) = 4`, the total is 8, and the window is
advanced by the total: `2^64 - 2` bytes at 1012, outside the buffer; the third returns 4, the
total is 12, more than `N`, and the continuation has not been invoked.  For every `n` below
`2^31`, after `n` completions the total is `4 n` and the continuation has not been invoked.
With `K = 5` the second completion ends the operation and the continuation is invoked once with
no error and 10. -/
theorem chunked_read_misses_the_size (n : Nat) (hn : n < 2147483648) :
    ∃ c0 s1 c1 s2 c2 s3 c3 s c,
      sample_read.start true 1 idle_context = .ok c0 ∧
      chunked_completions 4 1 1 sample_read c0 = .ok (s1, c1) ∧
      s1.bytes = 4 ∧ s1.buff = { iov_base := 1004, iov_len := 6 } ∧
      chunked_completions 4 1 2 sample_read c0 = .ok (s2, c2) ∧
      s2.bytes = 8 ∧ s2.buff = { iov_base := 1012, iov_len := 18446744073709551614 } ∧
      chunked_completions 4 1 3 sample_read c0 = .ok (s3, c3) ∧
      s3.bytes = 12 ∧ s3.received = [] ∧
      s3.buff = { iov_base := 1024, iov_len := 18446744073709551602 } ∧
      chunked_completions 5 1 2 sample_read c0 = .ok (s, c) ∧
      s.received = [({ value := 0, category := error_category.system }, 10)] ∧
      ∃ sn cn, chunked_completions 4 1 n sample_read c0 = .ok (sn, cn) ∧
        sn.received = [] ∧ sn.bytes = 4 * n := by
  have hconc : ∃ c0 s1 c1 s2 c2 s3 c3 s c,
      sample_read.start true 1 idle_context = .ok c0 ∧
      chunked_completions 4 1 1 sample_read c0 = .ok (s1, c1) ∧
      s1.bytes = 4 ∧ s1.buff = { iov_base := 1004, iov_len := 6 } ∧
      chunked_completions 4 1 2 sample_read c0 = .ok (s2, c2) ∧
      s2.bytes = 8 ∧ s2.buff = { iov_base := 1012, iov_len := 18446744073709551614 } ∧
      chunked_completions 4 1 3 sample_read c0 = .ok (s3, c3) ∧
      s3.bytes = 12 ∧ s3.received = [] ∧
      s3.buff = { iov_base := 1024, iov_len := 18446744073709551602 } ∧
      chunked_completions 5 1 2 sample_read c0 = .ok (s, c) ∧
      s.received = [({ value := 0, category := error_category.system }, 10)] ∧
      0 < c0.sq_entry_count ∧ c0.cq_pending_count < c0.cq_entry_count ∧
      c0.cq_pending_count < two32 := by
    exact ⟨_, _, _, _, _, _, _, _, _, by with_unfolding_all rfl, by with_unfolding_all rfl,
      by with_unfolding_all rfl, by with_unfolding_all rfl, by with_unfolding_all rfl,
      by with_unfolding_all rfl, by with_unfolding_all rfl, by with_unfolding_all rfl,
      by with_unfolding_all rfl, by with_unfolding_all rfl, by with_unfolding_all rfl,
      by with_unfolding_all rfl, by with_unfolding_all rfl,
      by with_unfolding_all exact Nat.zero_lt_succ _,
      by with_unfolding_all exact Nat.zero_lt_succ _,
      by with_unfolding_all exact Nat.zero_lt_succ _⟩
  obtain ⟨c0, s1, c1, s2, c2, s3, c3, s, c, h1, h2, h3, h4, h5, h6, h7, h8, h9, h10, h11, h12,
    h13, hsq, hcq, hcq32⟩ := hconc
  obtain ⟨sn, cn, hrun, hrec, hbytes⟩ := chunked_completions_never_complete 1 n 0 sample_read c0
    rfl rfl rfl rfl (by with_unfolding_all rfl) (by with_unfolding_all rfl) hsq hcq hcq32
    (by omega)
  exact ⟨c0, s1, c1, s2, c2, s3, c3, s, c, h1, h2, h3, h4, h5, h6, h7, h8, h9, h10, h11, h12,
    h13, sn, cn, hrun, hrec, by rw [hbytes]; ring_nf⟩

/-- The run of three completions of 4 bytes. -/
theorem chunked_read_misses_the_size_witness :
    3 < 2147483648 ∧
    ∃ c0 s1 c1 s2 c2 s3 c3 s c,
      sample_read.start true 1 idle_context = .ok c0 ∧
      chunked_completions 4 1 1 sample_read c0 = .ok (s1, c1) ∧
      s1.bytes = 4 ∧ s1.buff = { iov_base := 1004, iov_len := 6 } ∧
      chunked_completions 4 1 2 sample_read c0 = .ok (s2, c2) ∧
      s2.bytes = 8 ∧ s2.buff = { iov_base := 1012, iov_len := 18446744073709551614 } ∧
      chunked_completions 4 1 3 sample_read c0 = .ok (s3, c3) ∧
      s3.bytes = 12 ∧ s3.received = [] ∧
      s3.buff = { iov_base := 1024, iov_len := 18446744073709551602 } ∧
      chunked_completions 5 1 2 sample_read c0 = .ok (s, c) ∧
      s.received = [({ value := 0, category := error_category.system }, 10)] ∧
      ∃ sn cn, chunked_completions 4 1 3 sample_read c0 = .ok (sn, cn) ∧
        sn.received = [] ∧ sn.bytes = 4 * 3 :=
  ⟨by decide, chunked_read_misses_the_size 3 (by decide)⟩

end rw_type

namespace time_point

theorem normalize_total (tp : time_point) :
    tp.normalize.seconds_ * 1000000000 + tp.normalize.nanoseconds_ =
      tp.seconds_ * 1000000000 + tp.nanoseconds_ := by
  simp only [normalize]
  split_ifs <;> simp only [] <;> ring

/-- C26: for all seconds `s` and nanoseconds `n`, `from_seconds_and_nanoseconds(s, n)` is the
same instant as its input: `seconds_part() * 10^9 + nanoseconds_part() = s * 10^9 + n`. -/
theorem from_seconds_and_nanoseconds_same_instant (s n : Int) :
    (from_seconds_and_nanoseconds s n).seconds_part * 1000000000 +
        (from_seconds_and_nanoseconds s n).nanoseconds_part = s * 1000000000 + n := by
  exact normalize_total { seconds_ := s, nanoseconds_ := n }

end time_point
namespace time_point

/-- What `normalize()` establishes: a nanoseconds field strictly between `-10^9` and `10^9` whose
sign is not opposite to the sign of the seconds field. -/
theorem normalize_bounds (tp : time_point) :
    -1000000000 < tp.normalize.nanoseconds_ ∧ tp.normalize.nanoseconds_ < 1000000000 ∧
    ¬ (tp.normalize.seconds_ > 0 ∧ tp.normalize.nanoseconds_ < 0) ∧
    ¬ (tp.normalize.seconds_ < 0 ∧ tp.normalize.nanoseconds_ > 0) := by
  obtain ⟨h1, h2, -, -⟩ := tdiv_remainder_bounds tp.nanoseconds_
  simp only [normalize]
  split_ifs with ha hb
  · simp only []
    omega
  · simp only []
    omega
  · simp only []
    omega

/-- On normalized time points `operator<` is the order of the instants. -/
theorem lt_iff_total_of_bounds (a b : time_point)
    (ha1 : -1000000000 < a.nanoseconds_) (ha2 : a.nanoseconds_ < 1000000000)
    (ha3 : ¬ (a.seconds_ > 0 ∧ a.nanoseconds_ < 0)) (ha4 : ¬ (a.seconds_ < 0 ∧ a.nanoseconds_ > 0))
    (hb1 : -1000000000 < b.nanoseconds_) (hb2 : b.nanoseconds_ < 1000000000)
    (hb3 : ¬ (b.seconds_ > 0 ∧ b.nanoseconds_ < 0)) (hb4 : ¬ (b.seconds_ < 0 ∧ b.nanoseconds_ > 0)) :
    a.lt b = true ↔ a.total_nanoseconds < b.total_nanoseconds := by
  rw [lt_iff]
  simp only [total_nanoseconds, seconds_part, nanoseconds_part]
  omega

/-- C27: for two time points produced by `from_seconds_and_nanoseconds`, `operator<` agrees with
the order of the instants: `a < b` exactly when
`a.seconds_part() * 10^9 + a.nanoseconds_part() < b.seconds_part() * 10^9 + b.nanoseconds_part()`,
which is the order of the inputs `s1 * 10^9 + n1 < s2 * 10^9 + n2`. -/
theorem lt_agrees_with_total_nanoseconds (s1 n1 s2 n2 : Int) :
    ((from_seconds_and_nanoseconds s1 n1).lt (from_seconds_and_nanoseconds s2 n2) = true ↔
      (from_seconds_and_nanoseconds s1 n1).total_nanoseconds <
        (from_seconds_and_nanoseconds s2 n2).total_nanoseconds) ∧
    ((from_seconds_and_nanoseconds s1 n1).lt (from_seconds_and_nanoseconds s2 n2) = true ↔
      s1 * 1000000000 + n1 < s2 * 1000000000 + n2) := by
  obtain ⟨ha1, ha2, ha3, ha4⟩ := normalize_bounds { seconds_ := s1, nanoseconds_ := n1 }
  obtain ⟨hb1, hb2, hb3, hb4⟩ := normalize_bounds { seconds_ := s2, nanoseconds_ := n2 }
  have h := lt_iff_total_of_bounds (from_seconds_and_nanoseconds s1 n1)
    (from_seconds_and_nanoseconds s2 n2) ha1 ha2 ha3 ha4 hb1 hb2 hb3 hb4
  refine ⟨h, ?_⟩
  rw [h]
  have e1 := normalize_total { seconds_ := s1, nanoseconds_ := n1 }
  have e2 := normalize_total { seconds_ := s2, nanoseconds_ := n2 }
  simp only [total_nanoseconds, seconds_part, nanoseconds_part, from_seconds_and_nanoseconds]
  simp only [] at e1 e2
  rw [e1, e2]

theorem add_total (a : time_point) (d : Int) :
    (a.add d).seconds_ * 1000000000 + (a.add d).nanoseconds_ =
      a.seconds_ * 1000000000 + a.nanoseconds_ + d * 100 := by
  unfold add add_duration
  simp only []
  rw [normalize_total]
  simp only []
  ring

/-- C28: for every time point `a` (normalized or not) and every duration of `d` ticks of 100
nanoseconds, `(a + d) - a == d`, in unbounded integers. -/
theorem add_then_sub_is_the_duration (a : time_point) (d : Int) :
    (a.add d).sub a = d := by
  have h := add_total a d
  unfold sub
  have e : (a.add d).nanoseconds_ - a.nanoseconds_ =
      (d - ((a.add d).seconds_ - a.seconds_) * 10000000) * 100 := by
    linarith
  rw [e, Int.mul_tdiv_cancel _ (by norm_num : (100 : Int) ≠ 0)]
  ring

end time_point

namespace inplace_stop_source

/-- Once stop is requested, `request_stop` returns true and stores nothing, whoever holds the
lock. -/
theorem request_stop_of_stop_requested (bodies : Nat → List stop_action) (tid fuel : Nat)
    (s : inplace_stop_source) (hs : s.stop_requested = true) :
    request_stop bodies tid (fuel + 1) s = .ok (s, true) := by
  have h1 : s.lock_unless_stop_requested true = .ok (s, false) := by
    unfold lock_unless_stop_requested
    unfold stop_requested at hs
    rw [if_pos hs]
  simp only [request_stop, run, bind, Except.bind, h1, Bool.not_false, if_true, pure, Except.pure]

/-- Whatever the callbacks do, a `request_stop` that returns reports whether stop had been
requested before the call. -/
theorem request_stop_result (bodies : Nat → List stop_action) (tid fuel : Nat)
    (s s' : inplace_stop_source) (r : Bool)
    (hrun : request_stop bodies tid fuel s = .ok (s', r)) :
    (r = true ↔ s.stop_requested = true) := by
  cases fuel with
  | zero => simp [request_stop, run] at hrun
  | succ fuel =>
    cases hs : s.stop_requested with
    | true =>
      rw [request_stop_of_stop_requested bodies tid fuel s hs] at hrun
      have := Except.ok.inj hrun
      simp only [Prod.mk.injEq] at this
      simp [← this.2]
    | false =>
      have hbit : ¬ ((s.state &&& stop_requested_flag != 0) = true) := by
        unfold stop_requested at hs
        rw [hs]
        exact Bool.false_ne_true
      simp only [request_stop, run, lock_unless_stop_requested, if_neg hbit] at hrun
      by_cases h0 : s.state = 0
      · simp only [if_pos h0, bind, Except.bind, Bool.not_true, Bool.false_eq_true, if_false,
          if_true] at hrun
        cases hd : run bodies tid fuel .deliver
            { s with state := locked_flag ||| stop_requested_flag,
                     notifying_thread_id := some tid } with
        | error e => simp [hd] at hrun
        | ok p =>
          simp only [hd, pure, Except.pure] at hrun
          have := Except.ok.inj hrun
          simp only [Prod.mk.injEq] at this
          simp [← this.2]
      · simp [if_neg h0, bind, Except.bind] at hrun

/-- C30: `request_stop` returns true exactly when stop had already been requested before the call.
On a consistent source whose callbacks are plain or remove themselves, with the lock not held
by another thread, the call returns; its result is true exactly when stop had been requested; a
call that finds stop requested stores nothing; the first call (state 0) returns false and
leaves stop requested; and every later call returns true.  The first part holds for every
callback body and every state: whenever the call returns, its result is true exactly when stop
had been requested. -/
theorem request_stop_true_iff_stop_was_requested (bodies : Nat → List stop_action)
    (tid fuel : Nat) (s : inplace_stop_source) (l : List Nat)
    (h : consistent tid s l) (hfree : s.state = 0 ∨ s.stop_requested = true)
    (hb : ∀ cb ∈ l, plain_or_self_removing bodies cb) (hfuel : l.length + 5 ≤ fuel) :
    (∀ bodies2 fuel2 s2 r2, request_stop bodies2 tid fuel2 s = .ok (s2, r2) →
      (r2 = true ↔ s.stop_requested = true)) ∧
    ∃ s' r, request_stop bodies tid fuel s = .ok (s', r) ∧
      (r = true ↔ s.stop_requested = true) ∧
      (s.state = 0 → r = false) ∧
      (s.stop_requested = true → s' = s) ∧
      s'.stop_requested = true ∧
      ∀ fuel2, request_stop bodies tid (fuel2 + 1) s' = .ok (s', true) := by
  refine ⟨fun bodies2 fuel2 s2 r2 hrun => request_stop_result bodies2 tid fuel2 s s2 r2 hrun, ?_⟩
  by_cases hs : s.stop_requested = true
  · obtain ⟨f, rfl⟩ : ∃ f, fuel = f + 1 := ⟨fuel - 1, by omega⟩
    refine ⟨s, true, request_stop_of_stop_requested bodies tid f s hs, by simp [hs], ?_,
      fun _ => rfl, hs, fun fuel2 => request_stop_of_stop_requested bodies tid fuel2 s hs⟩
    intro h0
    exfalso
    unfold stop_requested at hs
    rw [h0] at hs
    exact absurd hs (by decide)
  · have h0 : s.state = 0 := hfree.resolve_right hs
    obtain ⟨s', e1, e2, -⟩ := request_stop_returns bodies tid fuel s l h h0 hb hfuel
    have hs' : s'.stop_requested = true := by
      unfold stop_requested
      rw [e2]
      decide
    refine ⟨s', false, e1, ?_, fun _ => rfl, fun hh => absurd hh hs, hs',
      fun fuel2 => request_stop_of_stop_requested bodies tid fuel2 s' hs'⟩
    simp only [Bool.false_eq_true, false_iff]
    exact hs

theorem request_stop_true_iff_stop_was_requested_witness :
    consistent 0 sample_source [3, 2, 1] ∧
    (∃ s', request_stop sample_bodies 0 8 sample_source = .ok (s', false) ∧
      request_stop sample_bodies 0 8 s' = .ok (s', true)) ∧
    ((∀ bodies2 fuel2 s2 r2, request_stop bodies2 0 fuel2 sample_source = .ok (s2, r2) →
      (r2 = true ↔ sample_source.stop_requested = true)) ∧
    ∃ s' r, request_stop sample_bodies 0 8 sample_source = .ok (s', r) ∧
      (r = true ↔ sample_source.stop_requested = true) ∧
      (sample_source.state = 0 → r = false) ∧
      (sample_source.stop_requested = true → s' = sample_source) ∧
      s'.stop_requested = true ∧
      ∀ fuel2, request_stop sample_bodies 0 (fuel2 + 1) s' = .ok (s', true)) :=
  ⟨sample_source_consistent 0, ⟨_, rfl, rfl⟩,
    request_stop_true_iff_stop_was_requested sample_bodies 0 8 sample_source [3, 2, 1]
      (sample_source_consistent 0) (Or.inl rfl)
      (fun cb _ => sample_bodies_plain_or_self_removing cb) (by decide)⟩

end inplace_stop_source

namespace io_uring_context

/-- C24 (the code departs from the claim): the round of `acquire_completion_queue_items` for a
completion of the timer sentinel compares `cqe.res` with the positive `ECANCELED`.  A completion
with the result `-ECANCELED`, which is what the kernel reports for a removed timeout, sets
`timers_are_dirty`; so does every result other than `+ECANCELED`, and only `+ECANCELED` leaves
the flag unchanged. -/
theorem canceled_timer_completion_sets_dirty (bytes_read : Nat → Int) (head i : Nat)
    (c : io_uring_context) (q : intrusive_queue)
    (hu : (c.cq_entries ((add32 head i) &&& c.cq_mask)).user_data = address.timers)
    (hc : c.active_timer_count > 0) :
    ∃ c', acquire_completion bytes_read head (c, q) i = .ok (c', q) ∧
      ((c.cq_entries ((add32 head i) &&& c.cq_mask)).res = -ECANCELED →
        c'.timers_are_dirty = true) ∧
      ((c.cq_entries ((add32 head i) &&& c.cq_mask)).res ≠ ECANCELED →
        c'.timers_are_dirty = true) ∧
      ((c.cq_entries ((add32 head i) &&& c.cq_mask)).res = ECANCELED →
        c'.timers_are_dirty = c.timers_are_dirty) := by
  have h1 : ¬ ((c.cq_entries ((add32 head i) &&& c.cq_mask)).user_data =
      remote_queue_event_user_data) := by
    rw [hu]
    decide
  have ha : assert (decide (c.active_timer_count > 0)) = .ok () := by
    simp only [assert, hc, decide_True, if_true]
  refine ⟨{ c with
      active_timer_count := sub32 c.active_timer_count 1,
      timers_are_dirty :=
        if (c.cq_entries ((add32 head i) &&& c.cq_mask)).res ≠ ECANCELED then true
        else c.timers_are_dirty,
      current_duetime :=
        if sub32 c.active_timer_count 1 = 0 then none else c.current_duetime }, ?_, ?_, ?_, ?_⟩
  · simp only [acquire_completion, if_neg h1, if_pos hu, ha, bind, Except.bind, pure,
      Except.pure]
  · intro hr
    have hne : (c.cq_entries ((add32 head i) &&& c.cq_mask)).res ≠ ECANCELED := by
      rw [hr]
      decide
    simp only [if_pos hne]
  · intro hne
    simp only [if_pos hne]
  · intro hr
    simp only [hr, ne_eq, not_true_eq_false, if_false]

theorem canceled_timer_completion_sets_dirty_witness :
    canceled_timeout_context.timers_are_dirty = false ∧
    (∃ c', acquire_completion_queue_items (fun _ => 8) canceled_timeout_context = .ok c' ∧
      c'.timers_are_dirty = true ∧ c'.active_timer_count = 0) ∧
    ∃ c', acquire_completion (fun _ => 8) 0 (canceled_timeout_context, {}) 0 = .ok (c', {}) ∧
      ((canceled_timeout_context.cq_entries
          ((add32 0 0) &&& canceled_timeout_context.cq_mask)).res = -ECANCELED →
        c'.timers_are_dirty = true) ∧
      ((canceled_timeout_context.cq_entries
          ((add32 0 0) &&& canceled_timeout_context.cq_mask)).res ≠ ECANCELED →
        c'.timers_are_dirty = true) ∧
      ((canceled_timeout_context.cq_entries
          ((add32 0 0) &&& canceled_timeout_context.cq_mask)).res = ECANCELED →
        c'.timers_are_dirty = canceled_timeout_context.timers_are_dirty) :=
  ⟨rfl, ⟨_, by with_unfolding_all rfl, by with_unfolding_all rfl, by with_unfolding_all rfl⟩,
    canceled_timer_completion_sets_dirty (fun _ => 8) 0 0 canceled_timeout_context {} rfl
      (by decide)⟩

end io_uring_context

/-- Adding 2 to a word whose bit 1 is clear sets that bit and changes no other bit. -/
theorem add_two_of_bit_clear (x : Nat) (h : x &&& 2 = 0) :
    (x + 2) &&& 2 ≠ 0 ∧ (x / 2) % 2 = 0 ∧ ∀ i, i ≠ 1 → (x + 2).testBit i = x.testBit i := by
  have hb : x.testBit 1 = false := by
    have h1 := congrArg (fun y => Nat.testBit y 1) h
    simp only [Nat.testBit_and, Nat.zero_testBit] at h1
    have h2 : Nat.testBit 2 1 = true := by decide
    rw [h2, Bool.and_true] at h1
    exact h1
  have hm : (x / 2) % 2 = 0 := by
    rw [Nat.testBit_to_div_mod] at hb
    simp only [pow_one, decide_eq_false_iff_not] at hb
    omega
  refine ⟨?_, hm, ?_⟩
  · intro h0
    have h1 := congrArg (fun y => Nat.testBit y 1) h0
    simp only [Nat.testBit_and, Nat.zero_testBit] at h1
    have h2 : Nat.testBit 2 1 = true := by decide
    rw [h2, Bool.and_true, Nat.testBit_to_div_mod] at h1
    simp only [pow_one, decide_eq_false_iff_not] at h1
    omega
  · intro i hi
    rw [Nat.testBit_to_div_mod, Nat.testBit_to_div_mod]
    rcases i with _ | _ | j
    · simp only [pow_zero, Nat.div_one]
      congr 1
      apply propext
      omega
    · exact absurd rfl hi
    · have e : ∀ y : Nat, y / 2 ^ (j + 1 + 1) = y / 4 / 2 ^ j := by
        intro y
        rw [Nat.div_div_eq_div_mul]
        congr 1
        ring
      have e4 : (x + 2) / 4 = x / 4 := by omega
      rw [e, e, e4]

namespace timer_impl

open io_uring_context

theorem schedule_remote_state (c : io_uring_context) (op : Nat) :
    (c.schedule_remote op).state = c.state := by
  unfold schedule_remote
  simp only []
  split_ifs <;> rfl

theorem request_stop_remote_state (c : io_uring_context) (t : Nat) :
    (request_stop_remote c t).state =
      Function.update c.state t (add32 (c.state t) cancel_pending_flag) := by
  unfold request_stop_remote
  simp only []
  split_ifs
  · rw [schedule_remote_state]
  · rfl

/-- What the `fetch_add` of `request_stop_remote()` does on a state word in which the
`CANCEL_PENDING` bit is clear: afterwards that bit is set and every other bit is unchanged, so
the value is the bitwise OR of the prior value with `CANCEL_PENDING`; the state of every other
timer is left alone. -/
theorem request_stop_remote_adds_cancel_pending (c : io_uring_context) (t : Nat)
    (h32 : c.state t < two32) (hclear : c.state t &&& cancel_pending_flag = 0) :
    (request_stop_remote c t).state t = add32 (c.state t) cancel_pending_flag ∧
    (∀ u, u ≠ t → (request_stop_remote c t).state u = c.state u) ∧
    (request_stop_remote c t).state t &&& cancel_pending_flag ≠ 0 ∧
    (∀ i, i ≠ 1 → ((request_stop_remote c t).state t).testBit i = (c.state t).testBit i) ∧
    (request_stop_remote c t).state t = c.state t ||| cancel_pending_flag := by
  obtain ⟨b1, b2, b3⟩ := add_two_of_bit_clear (c.state t) hclear
  have e : (request_stop_remote c t).state t = c.state t + 2 := by
    rw [request_stop_remote_state, Function.update_same]
    unfold add32 cancel_pending_flag
    unfold two32 at h32 ⊢
    omega
  refine ⟨by rw [request_stop_remote_state, Function.update_same], ?_, ?_, ?_, ?_⟩
  · intro u hu
    rw [request_stop_remote_state, Function.update_noteq hu]
  · rw [e]
    exact b1
  · intro i hi
    rw [e]
    exact b3 i hi
  · rw [e]
    apply Nat.eq_of_testBit_eq
    intro i
    rw [Nat.testBit_or]
    by_cases hi : i = 1
    · subst hi
      have h1 : (c.state t + 2).testBit 1 = true := by
        rw [Nat.testBit_to_div_mod]
        simp only [pow_one, decide_eq_true_eq]
        omega
      have h2 : Nat.testBit cancel_pending_flag 1 = true := by decide
      rw [h1, h2, Bool.or_true]
    · rw [b3 i hi]
      have h2 : Nat.testBit cancel_pending_flag i = false := by
        show Nat.testBit 2 i = false
        rw [Nat.testBit_to_div_mod]
        rcases i with _ | _ | j
        · decide
        · exact absurd rfl hi
        · have : 2 / 2 ^ (j + 1 + 1) = 0 := by
            apply Nat.div_eq_of_lt
            have : 2 ^ (j + 1 + 1) = 4 * 2 ^ j := by ring
            have hp : 0 < 2 ^ j := Nat.two_pow_pos j
            omega
          rw [this]
          decide
      rw [h2, Bool.or_false]

end timer_impl

namespace time_point

theorem lt_of_lt_of_le (a b c : time_point) (h1 : a.lt b = true) (h2 : b.le c = true) :
    a.lt c = true := by
  rw [lt_iff] at *
  rw [le_iff] at h2
  omega

theorem le_eq_not_lt (a b : time_point) : a.le b = !(b.lt a) := rfl

end time_point

namespace intrusive_heap

open intrusive_queue

/-- In a list sorted by key, the items with a key `<=` the new key come first and the items with
a greater key after them; the place of the new item is between the two. -/
theorem insert_sorted_eq_filter (key : Nat → time_point) (x : Nat) :
    ∀ l : List Nat, l.Pairwise (fun a b => (key a).le (key b) = true) →
      insert_sorted key x l =
        l.filter (fun a => (key a).le (key x)) ++ x :: l.filter (fun a => (key x).lt (key a)) ∧
      l.filter (fun a => (key a).le (key x)) ++ l.filter (fun a => (key x).lt (key a)) = l := by
  intro l
  induction l with
  | nil => intro _; simp [insert_sorted]
  | cons a l ih =>
      intro hs
      have hs1 := List.pairwise_cons.1 hs
      by_cases hlt : (key x).lt (key a) = true
      · have hall : ∀ b ∈ a :: l, (key x).lt (key b) = true := by
          intro b hb
          rcases List.mem_cons.1 hb with rfl | hb
          · exact hlt
          · exact time_point.lt_of_lt_of_le _ _ _ hlt (hs1.1 b hb)
        have e1 : (a :: l).filter (fun a => (key a).le (key x)) = [] := by
          rw [List.filter_eq_nil_iff]
          intro b hb
          rw [time_point.le_eq_not_lt, hall b hb]
          decide
        have e2 : (a :: l).filter (fun a => (key x).lt (key a)) = a :: l := by
          rw [List.filter_eq_self]
          exact hall
        rw [e1, e2]
        refine ⟨?_, rfl⟩
        unfold insert_sorted
        rw [if_pos hlt]
        rfl
      · have hle : (key a).le (key x) = true := time_point.le_of_not_lt _ _ hlt
        have hlt2 : (key x).lt (key a) = false := by simpa using hlt
        obtain ⟨i1, i2⟩ := ih hs1.2
        have e1 : (a :: l).filter (fun a => (key a).le (key x)) =
            a :: l.filter (fun a => (key a).le (key x)) := by
          rw [List.filter_cons]
          simp only [hle, if_true]
        have e2 : (a :: l).filter (fun a => (key x).lt (key a)) =
            l.filter (fun a => (key x).lt (key a)) := by
          rw [List.filter_cons]
          simp only [hlt2, Bool.false_eq_true, if_false]
        rw [e1, e2]
        refine ⟨?_, ?_⟩
        · unfold insert_sorted
          rw [if_neg hlt, i1]
          rfl
        · rw [List.cons_append, i2]

theorem pop_n_well_formed :
    ∀ (l1 l2 : List Nat) (m : timer_fields) (h : intrusive_heap), well_formed m h (l1 ++ l2) →
      ∃ m1 h1, pop_n l1.length m h = .ok (l1, m1, h1) ∧ well_formed m1 h1 l2 ∧
        m1.duetime = m.duetime := by
  intro l1
  induction l1 with
  | nil => intro l2 m h hw; exact ⟨m, h, rfl, hw, rfl⟩
  | cons a l1 ih =>
      intro l2 m h hw
      obtain ⟨m1, h1, e1, w1, d1⟩ := pop_well_formed m h a (l1 ++ l2) hw
      obtain ⟨m2, h2, e2, w2, d2⟩ := ih l2 m1 h1 w1
      refine ⟨m2, h2, ?_, w2, d2.trans d1⟩
      show (do
        let (m1, h1, item) ← h.pop m
        let (items, m2, h2) ← pop_n l1.length m1 h1
        pure (item :: items, m2, h2)) = _
      rw [e1]
      show (do
        let (items, m2, h2) ← pop_n l1.length m1 h1
        pure (a :: items, m2, h2)) = _
      rw [e2]
      rfl

/-- C29: on a heap whose list `l` is well formed, `insert` of an item `x` that is not in it
returns (its search loop within as many rounds as there are items) and leaves the list
`before ++ x :: after`, where `before` are the items of `l` whose deadline is `<=` that of `x` and
`after` the items with a greater deadline, both in their previous order (`before ++ after = l`);
in particular every item with a deadline equal to that of `x` is before `x`.  The calls of `pop`
that follow return the items in list order, so timers with equal deadlines are popped in the
order in which they were inserted. -/
theorem insert_after_not_greater_before_greater (m : timer_fields) (h : intrusive_heap)
    (l : List Nat) (x fuel : Nat) (hw : well_formed m h l) (hx : x ∉ l)
    (hfuel : l.length ≤ fuel) :
    ∃ m1 h1, h.insert fuel m x = .ok (m1, h1) ∧ m1.duetime = m.duetime ∧
      well_formed m1 h1
        (l.filter (fun a => (m.duetime a).le (m.duetime x)) ++
          x :: l.filter (fun a => (m.duetime x).lt (m.duetime a))) ∧
      l.filter (fun a => (m.duetime a).le (m.duetime x)) ++
        l.filter (fun a => (m.duetime x).lt (m.duetime a)) = l ∧
      (∀ a ∈ l, m.duetime a = m.duetime x →
        a ∈ l.filter (fun a => (m.duetime a).le (m.duetime x))) ∧
      ∃ m2 h2, pop_n (l.length + 1) m1 h1 =
        .ok (l.filter (fun a => (m.duetime a).le (m.duetime x)) ++
          x :: l.filter (fun a => (m.duetime x).lt (m.duetime a)), m2, h2) ∧
        h2.head = none := by
  obtain ⟨m1, h1, e1, w1, d1⟩ := insert_well_formed m h l x fuel hw hx hfuel
  obtain ⟨i1, i2⟩ := insert_sorted_eq_filter m.duetime x l hw.2.2.2
  rw [i1] at w1
  refine ⟨m1, h1, e1, d1, w1, i2, ?_, ?_⟩
  · intro a ha hd
    rw [List.mem_filter]
    refine ⟨ha, ?_⟩
    rw [hd]
    exact time_point.le_refl _
  · have hw2 : well_formed m1 h1
        ((l.filter (fun a => (m.duetime a).le (m.duetime x)) ++
          x :: l.filter (fun a => (m.duetime x).lt (m.duetime a))) ++ []) := by
      rw [List.append_nil]
      exact w1
    obtain ⟨m2, h2, e2, w2, -⟩ := pop_n_well_formed _ [] m1 h1 hw2
    have hlen : (l.filter (fun a => (m.duetime a).le (m.duetime x)) ++
          x :: l.filter (fun a => (m.duetime x).lt (m.duetime a))).length = l.length + 1 := by
      rw [← i1]
      exact insert_sorted_length m.duetime x l
    rw [hlen] at e2
    exact ⟨m2, h2, e2, w2.1⟩

end intrusive_heap
namespace intrusive_heap

theorem linked_heap_well_formed : well_formed linked_timers linked_heap [2, 3, 1] :=
  ⟨by decide, ⟨rfl, rfl, rfl, trivial⟩, by decide, by decide⟩

/-- Timer 4 (due at 4 s) goes after timer 3, which has the same deadline and was there before,
and before timer 1 (due at 5 s); the pops return 2, 3, 4, 1. -/
theorem insert_after_not_greater_before_greater_witness :
    well_formed linked_timers linked_heap [2, 3, 1] ∧
    [2, 3, 1].filter (fun a => (linked_timers.duetime a).le (linked_timers.duetime 4)) = [2, 3] ∧
    [2, 3, 1].filter (fun a => (linked_timers.duetime 4).lt (linked_timers.duetime a)) = [1] ∧
    ∃ m1 h1, linked_heap.insert 3 linked_timers 4 = .ok (m1, h1) ∧
      m1.duetime = linked_timers.duetime ∧
      well_formed m1 h1
        ([2, 3, 1].filter (fun a => (linked_timers.duetime a).le (linked_timers.duetime 4)) ++
          4 :: [2, 3, 1].filter (fun a => (linked_timers.duetime 4).lt (linked_timers.duetime a))) ∧
      [2, 3, 1].filter (fun a => (linked_timers.duetime a).le (linked_timers.duetime 4)) ++
        [2, 3, 1].filter (fun a => (linked_timers.duetime 4).lt (linked_timers.duetime a)) =
          [2, 3, 1] ∧
      (∀ a ∈ [2, 3, 1], linked_timers.duetime a = linked_timers.duetime 4 →
        a ∈ [2, 3, 1].filter
          (fun a => (linked_timers.duetime a).le (linked_timers.duetime 4))) ∧
      ∃ m2 h2, pop_n ([2, 3, 1].length + 1) m1 h1 =
        .ok ([2, 3, 1].filter (fun a => (linked_timers.duetime a).le (linked_timers.duetime 4)) ++
          4 :: [2, 3, 1].filter
            (fun a => (linked_timers.duetime 4).lt (linked_timers.duetime a)), m2, h2) ∧
        h2.head = none :=
  ⟨linked_heap_well_formed, by decide, by decide,
    insert_after_not_greater_before_greater linked_timers linked_heap [2, 3, 1] 4 3
      linked_heap_well_formed (by decide) (by decide)⟩

end intrusive_heap

namespace io_uring_context

open intrusive_queue intrusive_heap

theorem pop_due_timers_not_due (now : time_point) (fuel : Nat) (c : io_uring_context) (a : Nat)
    (hhead : c.timers.head = some a) (hdue : (c.timer.duetime a).le now = false) :
    pop_due_timers now fuel c = .ok c := by
  cases fuel with
  | zero =>
      rw [pop_due_timers]
      simp only [hhead, hdue, Bool.false_eq_true, if_false]
  | succ fuel =>
      rw [pop_due_timers]
      simp only [hhead, hdue, Bool.false_eq_true, if_false]

/-- One round of the first loop of `update_timers()`. -/
theorem pop_due_timers_round (now : time_point) (fuel : Nat) (c : io_uring_context) (a : Nat)
    (m1 : timer_fields) (h1 : intrusive_heap)
    (hhead : c.timers.head = some a) (hdue : (c.timer.duetime a).le now = true)
    (hpop : c.timers.pop c.timer = .ok (m1, h1, a)) :
    pop_due_timers now (fuel + 1) c = pop_due_timers now fuel
      (if c.cancelable a = true then
        if (c.state a &&& cancel_pending_flag != 0) = true then
          { c with timer := m1, timers := h1,
                   state := Function.update c.state a (add32 (c.state a) timer_elapsed_flag) }
        else
          schedule_local
            { c with timer := m1, timers := h1,
                     state := Function.update c.state a (add32 (c.state a) timer_elapsed_flag) } a
      else schedule_local { c with timer := m1, timers := h1 } a) := by
  rw [pop_due_timers]
  simp only [hhead, hdue, if_true, hpop]
  show (if c.cancelable a = true then _ else _) = _
  by_cases hc : c.cancelable a = true
  · rw [if_pos hc, if_pos hc]
    by_cases hb : (c.state a &&& cancel_pending_flag != 0) = true
    · rw [if_pos hb, if_pos hb]
    · rw [if_neg hb, if_neg hb]
  · rw [if_neg hc, if_neg hc]

end io_uring_context
namespace io_uring_context

open intrusive_queue intrusive_heap

theorem is_due_congr (c2 c : io_uring_context) (now : time_point)
    (h : c2.timer.duetime = c.timer.duetime) : c2.is_due now = c.is_due now := by
  funext t
  simp only [is_due, h]

theorem timer_frame_trans (c1 c2 c : io_uring_context) (h1 : timer_frame c1 c2 = c2)
    (h2 : timer_frame c2 c = c) : timer_frame c1 c = c := by
  have e : timer_frame c1 c = timer_frame (timer_frame c1 c2) c := rfl
  rw [e, h1, h2]

/-- The first loop of `update_timers()` on a well-formed heap: it returns within as many rounds
as there are due timers; the timers that are not due stay in the heap, the due ones are appended
to the local queue in heap order except the discarded ones, every due cancelable timer gets
`timer_elapsed_flag` added to its state word, and nothing else changes. -/
theorem pop_due_timers_spec (now : time_point) :
    ∀ (l : List Nat) (c : io_uring_context) (q : List Nat) (fuel : Nat),
      well_formed c.timer c.timers l → holds c.next c.local_queue q → (∀ t ∈ l, t ∉ q) →
      (l.filter (c.is_due now)).length ≤ fuel →
      ∃ c1, pop_due_timers now fuel c = .ok c1 ∧
        well_formed c1.timer c1.timers (l.filter (fun t => !c.is_due now t)) ∧
        c1.timer.duetime = c.timer.duetime ∧ c1.cancelable = c.cancelable ∧
        holds c1.next c1.local_queue
          (q ++ (l.filter (c.is_due now)).filter (fun t => !c.is_discarded t)) ∧
        (∀ t, c1.state t =
          if t ∈ l ∧ c.is_due now t = true ∧ c.cancelable t = true then
            add32 (c.state t) timer_elapsed_flag
          else c.state t) ∧
        timer_frame c1 c = c := by
  intro l
  induction l with
  | nil =>
      intro c q fuel hw hq _ _
      have hhead : c.timers.head = none := hw.1
      refine ⟨c, timer_impl.pop_due_timers_of_empty now fuel c hhead, hw, rfl, rfl, ?_, ?_, rfl⟩
      · simpa using hq
      · intro t
        simp
  | cons a r ih =>
      intro c q fuel hw hq hdisj hfuel
      have hhead : c.timers.head = some a := hw.1.1
      have hnd : a ∉ r := (List.nodup_cons.1 hw.2.2.1).1
      have hsorted := List.pairwise_cons.1 hw.2.2.2
      by_cases hdue : c.is_due now a = true
      · obtain ⟨m1, h1, hpop, w1, d1⟩ := pop_well_formed c.timer c.timers a r hw
        have hfd : (a :: r).filter (c.is_due now) = a :: r.filter (c.is_due now) := by
          rw [List.filter_cons]
          simp only [hdue, if_true]
        rw [hfd] at hfuel ⊢
        obtain ⟨f, rfl⟩ : ∃ f, fuel = f + 1 := ⟨fuel - 1, by
          simp only [List.length_cons] at hfuel
          omega⟩
        rw [pop_due_timers_round now f c a m1 h1 hhead hdue hpop]
        obtain ⟨c2, hc2⟩ : ∃ c2, c2 =
            (if c.cancelable a = true then
              if (c.state a &&& cancel_pending_flag != 0) = true then
                { c with timer := m1, timers := h1,
                         state := Function.update c.state a
                           (add32 (c.state a) timer_elapsed_flag) }
              else
                schedule_local
                  { c with timer := m1, timers := h1,
                           state := Function.update c.state a
                             (add32 (c.state a) timer_elapsed_flag) } a
            else schedule_local { c with timer := m1, timers := h1 } a) := ⟨_, rfl⟩
        rw [← hc2]
        have F1 : c2.timer = m1 := by
          rw [hc2]
          split_ifs <;> rfl
        have F2 : c2.timers = h1 := by
          rw [hc2]
          split_ifs <;> rfl
        have F3 : c2.cancelable = c.cancelable := by
          rw [hc2]
          split_ifs <;> rfl
        have F4 : c2.state = if c.cancelable a = true then
            Function.update c.state a (add32 (c.state a) timer_elapsed_flag) else c.state := by
          rw [hc2]
          split_ifs <;> rfl
        have F5 : holds c2.next c2.local_queue (if c.is_discarded a = true then q else q ++ [a]) := by
          have hpush := push_back_holds c.next c.local_queue q a hq
            (hdisj a (List.mem_cons_self a r))
          rw [hc2]
          unfold is_discarded
          by_cases hc : c.cancelable a = true
          · by_cases hb : (c.state a &&& cancel_pending_flag != 0) = true
            · rw [if_pos hc, if_pos hb, hc, hb]
              exact hq
            · rw [if_pos hc, if_neg hb, hc]
              simp only [Bool.not_eq_true] at hb
              rw [hb]
              exact hpush
          · rw [if_neg hc]
            simp only [Bool.not_eq_true] at hc
            rw [hc]
            exact hpush
        have F6 : timer_frame c2 c = c := by
          rw [hc2]
          split_ifs <;> rfl
        have hd2 : c2.timer.duetime = c.timer.duetime := by
          rw [F1]
          exact d1
        have hdue2 : c2.is_due now = c.is_due now := is_due_congr c2 c now hd2
        have hw2 : well_formed c2.timer c2.timers r := by
          rw [F1, F2]
          exact w1
        have hdisj2 : ∀ t ∈ r, t ∉ (if c.is_discarded a = true then q else q ++ [a]) := by
          intro t ht
          have h1 := hdisj t (List.mem_cons_of_mem a ht)
          have h2 : t ≠ a := fun e => hnd (e ▸ ht)
          split_ifs
          · exact h1
          · simp only [List.mem_append, List.mem_singleton, not_or]
            exact ⟨h1, h2⟩
        have hfuel2 : (r.filter (c2.is_due now)).length ≤ f := by
          rw [hdue2]
          simp only [List.length_cons] at hfuel
          omega
        obtain ⟨c1, e, w, d, k, hq1, hs, hf⟩ := ih c2 _ f hw2 F5 hdisj2 hfuel2
        rw [hdue2] at w hq1 hs
        have hstate : ∀ t ∈ r, c2.state t = c.state t := by
          intro t ht
          have h2 : t ≠ a := fun e => hnd (e ▸ ht)
          rw [F4]
          split_ifs
          · exact Function.update_noteq h2 _ _
          · rfl
        have hdisc : ∀ t ∈ r.filter (c.is_due now),
            (!c2.is_discarded t) = (!c.is_discarded t) := by
          intro t ht
          have ht1 : t ∈ r := (List.mem_filter.1 ht).1
          unfold is_discarded
          rw [F3, hstate t ht1]
        rw [List.filter_congr hdisc] at hq1
        refine ⟨c1, e, ?_, d.trans hd2, k.trans F3, ?_, ?_, timer_frame_trans c1 c2 c hf F6⟩
        · have e1 : (a :: r).filter (fun t => !c.is_due now t) =
              r.filter (fun t => !c.is_due now t) := by
            rw [List.filter_cons]
            simp only [hdue, Bool.not_true, Bool.false_eq_true, if_false]
          rw [e1]
          exact w
        · by_cases hdis : c.is_discarded a = true
          · rw [if_pos hdis] at hq1
            have e1 : (a :: r.filter (c.is_due now)).filter (fun t => !c.is_discarded t) =
                (r.filter (c.is_due now)).filter (fun t => !c.is_discarded t) := by
              rw [List.filter_cons]
              simp only [hdis, Bool.not_true, Bool.false_eq_true, if_false]
            rw [e1]
            exact hq1
          · rw [if_neg hdis] at hq1
            have e1 : (a :: r.filter (c.is_due now)).filter (fun t => !c.is_discarded t) =
                a :: (r.filter (c.is_due now)).filter (fun t => !c.is_discarded t) := by
              rw [List.filter_cons]
              simp only [Bool.not_eq_true] at hdis
              simp only [hdis, Bool.not_false, if_true]
            rw [e1]
            rw [List.append_assoc] at hq1
            exact hq1
        · intro t
          rw [hs t]
          by_cases hta : t = a
          · subst hta
            have hn : ¬ (t ∈ r ∧ c.is_due now t = true ∧ c2.cancelable t = true) :=
              fun h => hnd h.1
            rw [if_neg hn, F4]
            by_cases hc : c.cancelable t = true
            · rw [if_pos hc, Function.update_same]
              rw [if_pos ⟨List.mem_cons_self t r, hdue, hc⟩]
            · rw [if_neg hc]
              rw [if_neg (fun h => hc h.2.2)]
          · have hm : t ∈ a :: r ↔ t ∈ r := by
              simp only [List.mem_cons, hta, false_or]
            rw [F3]
            by_cases hcond : t ∈ r ∧ c.is_due now t = true ∧ c.cancelable t = true
            · rw [if_pos hcond, if_pos ⟨hm.2 hcond.1, hcond.2⟩, hstate t hcond.1]
            · rw [if_neg hcond, if_neg (fun h => hcond ⟨hm.1 h.1, h.2⟩)]
              rw [F4]
              split_ifs
              · exact Function.update_noteq hta _ _
              · rfl
      · have hdue0 : (c.timer.duetime a).le now = false := by
          simpa [is_due] using hdue
        have hall : ∀ b ∈ a :: r, c.is_due now b = false := by
          intro b hb
          rcases List.mem_cons.1 hb with rfl | hb
          · simpa using hdue
          · cases hbd : c.is_due now b with
            | false => rfl
            | true =>
                exfalso
                apply hdue
                exact time_point.le_trans _ _ _ (hsorted.1 b hb) hbd
        have e1 : (a :: r).filter (c.is_due now) = [] := by
          rw [List.filter_eq_nil_iff]
          intro b hb
          rw [hall b hb]
          exact Bool.false_ne_true
        have e2 : (a :: r).filter (fun t => !c.is_due now t) = a :: r := by
          rw [List.filter_eq_self]
          intro b hb
          rw [hall b hb]
          rfl
        rw [e1, e2]
        refine ⟨c, pop_due_timers_not_due now fuel c a hhead hdue0, hw, rfl, rfl, ?_, ?_, rfl⟩
        · simpa using hq
        · intro t
          by_cases hm : t ∈ a :: r
          · rw [if_neg]
            intro h
            rw [hall t hm] at h
            exact Bool.false_ne_true h.2.1
          · rw [if_neg (fun h => hm h.1)]

end io_uring_context

namespace io_uring_context

theorem sub32_add32_one_le (t h n : Nat) (hu : sub32 t h < n) : sub32 (add32 t 1) h ≤ n := by
  unfold sub32 add32 two32 at *
  split_ifs at * <;> omega

theorem same_timers_refl (c : io_uring_context) : same_timers c c :=
  ⟨rfl, rfl, rfl, rfl, rfl, rfl, rfl, rfl⟩

theorem same_timers_trans (c2 c1 c : io_uring_context) (h2 : same_timers c2 c1)
    (h1 : same_timers c1 c) : same_timers c2 c := by
  obtain ⟨a1, a2, a3, a4, a5, a6, a7, a8⟩ := h2
  obtain ⟨b1, b2, b3, b4, b5, b6, b7, b8⟩ := h1
  exact ⟨a1.trans b1, a2.trans b2, a3.trans b3, a4.trans b4, a5.trans b5, a6.trans b6,
    a7.trans b7, a8.trans b8⟩

/-- The member `submit_timer_cancel()` returns when the submission ring is within its bounds: it
either gives up and changes nothing, or fills the slot at the tail with a `TIMEOUT_REMOVE` of
the timer sentinel and advances the tail. -/
theorem submit_timer_cancel_spec (c : io_uring_context)
    (hring : sub32 c.sq_tail c.sq_head ≤ c.sq_entry_count) :
    ∃ c2 b, c.submit_timer_cancel = .ok (c2, b) ∧ same_timers c2 c ∧
      c2.current_duetime = c.current_duetime ∧ c2.timers_are_dirty = c.timers_are_dirty ∧
      c2.active_timer_count = c.active_timer_count ∧
      sub32 c2.sq_tail c2.sq_head ≤ c2.sq_entry_count ∧
      (b = false → c2 = c) ∧
      (b = true → c2.sq_tail = add32 c.sq_tail 1 ∧
        c2.sq_entries (c.sq_tail &&& c.sq_mask) =
          { opcode := IORING_OP_TIMEOUT_REMOVE, addr := address.timers,
            user_data := address.current_duetime }) := by
  by_cases hp : c.pending_operation_count < c.cq_entry_count
  · by_cases hu : sub32 c.sq_tail c.sq_head < c.sq_entry_count
    · have hcall : timer_cancel_fill.call c.zero_slot {} =
          .ok (c.zero_slot,
               { opcode := IORING_OP_TIMEOUT_REMOVE, addr := address.timers,
                 user_data := address.current_duetime },
               true) := rfl
      have h := submit_io_called true timer_cancel_fill c _ _ _ rfl hp hu hcall
      simp only [if_true] at h
      refine ⟨_, true, h, same_timers_refl c, rfl, rfl, rfl, ?_, ?_, ?_⟩
      · exact sub32_add32_one_le _ _ _ hu
      · intro hb
        exact absurd hb (by decide)
      · intro _
        refine ⟨rfl, ?_⟩
        show Function.update _ _ _ _ = _
        rw [Function.update_same]
    · have h := submit_io_not_called true timer_cancel_fill c rfl (Or.inr (by omega))
      exact ⟨c, false, h, same_timers_refl c, rfl, rfl, rfl, hring, fun _ => rfl,
        fun hb => absurd hb (by decide)⟩
  · have h := submit_io_not_called true timer_cancel_fill c rfl (Or.inl (by omega))
    exact ⟨c, false, h, same_timers_refl c, rfl, rfl, rfl, hring, fun _ => rfl,
      fun hb => absurd hb (by decide)⟩

/-- The member `submit_timer(duetime)` returns when the submission ring is within its bounds:
it either gives up and changes nothing, or fills the slot at the tail with an absolute `TIMEOUT`
at `duetime` that carries the timer sentinel, advances the tail and counts the submission
in `active_timer_count`. -/
theorem submit_timer_spec (duetime : time_point) (c : io_uring_context)
    (hring : sub32 c.sq_tail c.sq_head ≤ c.sq_entry_count) :
    ∃ c2 b, c.submit_timer duetime = .ok (c2, b) ∧ same_timers c2 c ∧
      c2.current_duetime = c.current_duetime ∧ c2.timers_are_dirty = c.timers_are_dirty ∧
      sub32 c2.sq_tail c2.sq_head ≤ c2.sq_entry_count ∧
      (b = false → c2 = c) ∧
      (b = true → c2.active_timer_count = add32 c.active_timer_count 1 ∧
        c2.sq_tail = add32 c.sq_tail 1 ∧
        c2.sq_entries (c.sq_tail &&& c.sq_mask) =
          { opcode := IORING_OP_TIMEOUT, addr := address.time_, len := 1,
            timeout_flags := IORING_TIMEOUT_ABS, user_data := address.timers } ∧
        c2.time_ = { tv_sec := duetime.seconds_part, tv_nsec := duetime.nanoseconds_part }) := by
  by_cases hp : c.pending_operation_count < c.cq_entry_count
  · by_cases hu : sub32 c.sq_tail c.sq_head < c.sq_entry_count
    · have hcall : (timer_fill duetime).call c.zero_slot {} =
          .ok ({ c.zero_slot with
                 time_ := { tv_sec := duetime.seconds_part, tv_nsec := duetime.nanoseconds_part } },
               { opcode := IORING_OP_TIMEOUT, addr := address.time_, len := 1,
                 timeout_flags := IORING_TIMEOUT_ABS, user_data := address.timers },
               true) := rfl
      have h := submit_io_called true (timer_fill duetime) c _ _ _ rfl hp hu hcall
      simp only [if_true] at h
      have hs : ∃ c1, c.submit_io true (timer_fill duetime) = .ok (c1, true) ∧ same_timers c1 c ∧
          c1.current_duetime = c.current_duetime ∧ c1.timers_are_dirty = c.timers_are_dirty ∧
          c1.active_timer_count = c.active_timer_count ∧ c1.sq_tail = add32 c.sq_tail 1 ∧
          c1.sq_head = c.sq_head ∧ c1.sq_entry_count = c.sq_entry_count ∧
          c1.sq_entries (c.sq_tail &&& c.sq_mask) =
            { opcode := IORING_OP_TIMEOUT, addr := address.time_, len := 1,
              timeout_flags := IORING_TIMEOUT_ABS, user_data := address.timers } ∧
          c1.time_ = { tv_sec := duetime.seconds_part, tv_nsec := duetime.nanoseconds_part } := by
        refine ⟨_, h, same_timers_refl c, rfl, rfl, rfl, rfl, rfl, rfl, ?_, rfl⟩
        show Function.update _ _ _ _ = _
        rw [Function.update_same]
      obtain ⟨c1, e, s1, s2, s3, s4, s5, s6, s7, s8, s9⟩ := hs
      refine ⟨{ c1 with active_timer_count := add32 c1.active_timer_count 1 }, true, ?_, s1, s2,
        s3, ?_, ?_, ?_⟩
      · simp only [submit_timer, e, bind, Except.bind, if_true, pure, Except.pure]
      · show sub32 c1.sq_tail c1.sq_head ≤ c1.sq_entry_count
        rw [s5, s6, s7]
        exact sub32_add32_one_le _ _ _ hu
      · intro hb
        exact absurd hb (by decide)
      · intro _
        refine ⟨?_, s5, s8, s9⟩
        show add32 c1.active_timer_count 1 = _
        rw [s4]
    · have h := submit_io_not_called true (timer_fill duetime) c rfl (Or.inr (by omega))
      refine ⟨c, false, ?_, same_timers_refl c, rfl, rfl, hring, fun _ => rfl,
        fun hb => absurd hb (by decide)⟩
      simp only [submit_timer, h, bind, Except.bind, Bool.false_eq_true, if_false, pure,
        Except.pure]
  · have h := submit_io_not_called true (timer_fill duetime) c rfl (Or.inl (by omega))
    refine ⟨c, false, ?_, same_timers_refl c, rfl, rfl, hring, fun _ => rfl,
      fun hb => absurd hb (by decide)⟩
    simp only [submit_timer, h, bind, Except.bind, Bool.false_eq_true, if_false, pure,
      Except.pure]

end io_uring_context

namespace io_uring_context

open intrusive_queue intrusive_heap

/-- The second half of `update_timers()` when the heap is empty and a deadline is armed. -/
theorem update_timers_disarm (fuel : Nat) (now : time_point) (c c2 : io_uring_context)
    (b : Bool) (cur : time_point)
    (hhead : c.timers.head = none) (hcur : c.current_duetime = some cur)
    (e : c.submit_timer_cancel = .ok (c2, b)) :
    c.update_timers fuel now =
      .ok (if b = true then { c2 with current_duetime := none, timers_are_dirty := false }
           else c2) := by
  have hempty : c.timers.empty = true := by
    simp [intrusive_heap.empty, hhead]
  simp only [update_timers, hempty, Bool.not_true, Bool.false_eq_true, if_false]
  show (match c.timers.head with
    | none => _
    | some top => _) = _
  simp only [hhead, hcur, Option.isSome_some, if_true, e, bind, Except.bind]
  cases b
  · rfl
  · rfl

/-- The second half of `update_timers()` when the heap is not empty and no deadline is armed. -/
theorem update_timers_arm (fuel : Nat) (now : time_point) (c c2 : io_uring_context)
    (b : Bool) (top : Nat)
    (hhead : c.timers.head = some top) (hdue : (c.timer.duetime top).le now = false)
    (hcur : c.current_duetime = none)
    (e : c.submit_timer (c.timer.duetime top) = .ok (c2, b)) :
    c.update_timers fuel now =
      .ok (if b = true then
            { c2 with current_duetime := some (c.timer.duetime top), timers_are_dirty := false }
           else c2) := by
  have hempty : c.timers.empty = false := by
    simp [intrusive_heap.empty, hhead]
  simp only [update_timers, hempty, Bool.not_false, if_true,
    pop_due_timers_not_due now fuel c top hhead hdue]
  show (match c.timers.head with
    | none => _
    | some top => _) = _
  simp only [hhead, hcur, e, bind, Except.bind]
  cases b
  · rfl
  · rfl

/-- The second half of `update_timers()` when the armed deadline is early enough. -/
theorem update_timers_keep (fuel : Nat) (now : time_point) (c : io_uring_context)
    (top : Nat) (cur : time_point)
    (hhead : c.timers.head = some top) (hdue : (c.timer.duetime top).le now = false)
    (hcur : c.current_duetime = some cur)
    (hlt : (c.timer.duetime top).lt (cur.sub_duration 1 1000) = false) :
    c.update_timers fuel now = .ok { c with timers_are_dirty := false } := by
  have hempty : c.timers.empty = false := by
    simp [intrusive_heap.empty, hhead]
  simp only [update_timers, hempty, Bool.not_false, if_true,
    pop_due_timers_not_due now fuel c top hhead hdue]
  show (match c.timers.head with
    | none => _
    | some top => _) = _
  simp only [hhead, hcur, hlt, Bool.false_eq_true, if_false]
  rfl

/-- The second half of `update_timers()` when the earliest timer is due before the armed
deadline: the armed timeout is removed and a new one is submitted. -/
theorem update_timers_rearm (fuel : Nat) (now : time_point) (c c2 c4 : io_uring_context)
    (b s : Bool) (top : Nat) (cur : time_point)
    (hhead : c.timers.head = some top) (hdue : (c.timer.duetime top).le now = false)
    (hcur : c.current_duetime = some cur)
    (hlt : (c.timer.duetime top).lt (cur.sub_duration 1 1000) = true)
    (e : c.submit_timer_cancel = .ok (c2, b))
    (e2 : submit_timer (c.timer.duetime top) { c2 with current_duetime := none } = .ok (c4, s)) :
    c.update_timers fuel now =
      .ok (if b = true then
            if s = true then
              { c4 with current_duetime := some (c.timer.duetime top), timers_are_dirty := false }
            else c4
           else c2) := by
  have hempty : c.timers.empty = false := by
    simp [intrusive_heap.empty, hhead]
  simp only [update_timers, hempty, Bool.not_false, if_true,
    pop_due_timers_not_due now fuel c top hhead hdue]
  show (match c.timers.head with
    | none => _
    | some top => _) = _
  simp only [hhead, hcur, hlt, if_true, e, bind, Except.bind]
  cases b
  · rfl
  · simp only [if_true, e2]
    cases s
    · rfl
    · rfl

end io_uring_context
namespace io_uring_context

open intrusive_queue intrusive_heap

/-- The second half of `update_timers()`, on a context whose heap holds no due timer and whose
submission ring is within its bounds: the call returns; the timers, their state words and the
local queue are as before; `active_timer_count` is unchanged, or it is raised by one by the one
`TIMEOUT` that the call submits for the earliest timer, and this only when no deadline was armed
or after the `TIMEOUT_REMOVE` for the armed deadline was submitted. -/
theorem update_timers_settled (fuel : Nat) (now : time_point) (c : io_uring_context)
    (hsettled : ∀ a, c.timers.head = some a → (c.timer.duetime a).le now = false)
    (hring : sub32 c.sq_tail c.sq_head ≤ c.sq_entry_count) :
    ∃ c1, c.update_timers fuel now = .ok c1 ∧ same_timers c1 c ∧
      sub32 c1.sq_tail c1.sq_head ≤ c1.sq_entry_count ∧
      ((c1.active_timer_count = c.active_timer_count ∧
          ((c1.current_duetime = c.current_duetime ∧ c1.sq_tail = c.sq_tail) ∨
            (c1.current_duetime = none ∧ c.current_duetime ≠ none ∧
              c1.sq_tail = add32 c.sq_tail 1))) ∨
        (c1.active_timer_count = add32 c.active_timer_count 1 ∧ c1.timers_are_dirty = false ∧
          ∃ top, c.timers.head = some top ∧ c1.current_duetime = some (c.timer.duetime top) ∧
            ((c.current_duetime = none ∧ c1.sq_tail = add32 c.sq_tail 1) ∨
              (∃ cur, c.current_duetime = some cur ∧
                (c.timer.duetime top).lt (cur.sub_duration 1 1000) = true ∧
                c1.sq_tail = add32 (add32 c.sq_tail 1) 1)))) := by
  cases hhead : c.timers.head with
  | none =>
      cases hcur : c.current_duetime with
      | none =>
          refine ⟨c, timer_impl.update_timers_of_empty fuel now c hhead hcur, same_timers_refl c,
            hring, Or.inl ⟨rfl, Or.inl ⟨hcur, rfl⟩⟩⟩
      | some cur =>
          obtain ⟨c2, b, e, s1, s2, s3, s4, s5, s6, s7⟩ := submit_timer_cancel_spec c hring
          have hrun := update_timers_disarm fuel now c c2 b cur hhead hcur e
          cases b with
          | false =>
              rw [if_neg Bool.false_ne_true] at hrun
              have hc2 : c2 = c := s6 rfl
              subst hc2
              exact ⟨c2, hrun, same_timers_refl c2, hring, Or.inl ⟨rfl, Or.inl ⟨hcur, rfl⟩⟩⟩
          | true =>
              rw [if_pos rfl] at hrun
              refine ⟨_, hrun, s1, s5, Or.inl ⟨s4, Or.inr ⟨rfl, ?_, (s7 rfl).1⟩⟩⟩
              exact Option.some_ne_none cur
  | some top =>
      have hdue := hsettled top hhead
      cases hcur : c.current_duetime with
      | none =>
          obtain ⟨c2, b, e, s1, s2, s3, s5, s6, s7⟩ :=
            submit_timer_spec (c.timer.duetime top) c hring
          have hrun := update_timers_arm fuel now c c2 b top hhead hdue hcur e
          cases b with
          | false =>
              rw [if_neg Bool.false_ne_true] at hrun
              have hc2 : c2 = c := s6 rfl
              subst hc2
              exact ⟨c2, hrun, same_timers_refl c2, hring, Or.inl ⟨rfl, Or.inl ⟨hcur, rfl⟩⟩⟩
          | true =>
              rw [if_pos rfl] at hrun
              obtain ⟨t1, t2, -, -⟩ := s7 rfl
              exact ⟨_, hrun, s1, s5, Or.inr ⟨t1, rfl, top, rfl, rfl, Or.inl ⟨rfl, t2⟩⟩⟩
      | some cur =>
          cases hlt : (c.timer.duetime top).lt (cur.sub_duration 1 1000) with
          | false =>
              exact ⟨_, update_timers_keep fuel now c top cur hhead hdue hcur hlt,
                same_timers_refl c, hring, Or.inl ⟨rfl, Or.inl ⟨hcur, rfl⟩⟩⟩
          | true =>
              obtain ⟨c2, b, e, s1, s2, s3, s4, s5, s6, s7⟩ := submit_timer_cancel_spec c hring
              have hring3 : sub32 ({ c2 with current_duetime := none } : io_uring_context).sq_tail
                  ({ c2 with current_duetime := none } : io_uring_context).sq_head ≤
                  ({ c2 with current_duetime := none } : io_uring_context).sq_entry_count := s5
              obtain ⟨c4, s, e2, u1, u2, u3, u5, u6, u7⟩ :=
                submit_timer_spec (c.timer.duetime top) { c2 with current_duetime := none } hring3
              have hrun := update_timers_rearm fuel now c c2 c4 b s top cur hhead hdue hcur hlt e e2
              cases b with
              | false =>
                  rw [if_neg Bool.false_ne_true] at hrun
                  have hc2 : c2 = c := s6 rfl
                  subst hc2
                  exact ⟨c2, hrun, same_timers_refl c2, hring, Or.inl ⟨rfl, Or.inl ⟨hcur, rfl⟩⟩⟩
              | true =>
                  rw [if_pos rfl] at hrun
                  have u1c : same_timers c4 c := same_timers_trans c4 _ c u1 s1
                  cases s with
                  | false =>
                      rw [if_neg Bool.false_ne_true] at hrun
                      have hc4 : c4 = { c2 with current_duetime := none } := u6 rfl
                      refine ⟨c4, hrun, u1c, u5, Or.inl ⟨?_, Or.inr ⟨?_, ?_, ?_⟩⟩⟩
                      · rw [hc4]
                        exact s4
                      · rw [hc4]
                      · exact Option.some_ne_none cur
                      · rw [hc4]
                        exact (s7 rfl).1
                  | true =>
                      rw [if_pos rfl] at hrun
                      obtain ⟨t1, t2, -, -⟩ := u7 rfl
                      refine ⟨_, hrun, u1c, u5, Or.inr ⟨?_, rfl, top, rfl, rfl,
                        Or.inr ⟨cur, rfl, hlt, ?_⟩⟩⟩
                      · show c4.active_timer_count = _
                        rw [t1]
                        show add32 c2.active_timer_count 1 = _
                        rw [s4]
                      · show c4.sq_tail = _
                        rw [t2]
                        show add32 c2.sq_tail 1 = _
                        rw [(s7 rfl).1]

end io_uring_context
namespace io_uring_context

open intrusive_queue intrusive_heap

/-- After its first loop `update_timers()` goes on as a call on the context that the loop left,
in which no timer is due. -/
theorem update_timers_split (fuel : Nat) (now : time_point) (c c1 : io_uring_context)
    (hpop : pop_due_timers now fuel c = .ok c1)
    (hsettled : ∀ a, c1.timers.head = some a → (c1.timer.duetime a).le now = false) :
    c.update_timers fuel now = c1.update_timers 0 now := by
  have hR : ∀ f, c1.update_timers f now = c1.update_timers 0 now := by
    intro f
    cases hhead1 : c1.timers.head with
    | none =>
        have hempty1 : c1.timers.empty = true := by
          simp [intrusive_heap.empty, hhead1]
        simp only [update_timers, hempty1, Bool.not_true, Bool.false_eq_true, if_false]
    | some b =>
        have hempty1 : c1.timers.empty = false := by
          simp [intrusive_heap.empty, hhead1]
        simp only [update_timers, hempty1, Bool.not_false, if_true,
          pop_due_timers_not_due now f c1 b hhead1 (hsettled b hhead1),
          pop_due_timers_not_due now 0 c1 b hhead1 (hsettled b hhead1)]
  cases hhead : c.timers.head with
  | none =>
      have h1 := timer_impl.pop_due_timers_of_empty now fuel c hhead
      rw [hpop] at h1
      have hc : c1 = c := Except.ok.inj h1
      subst hc
      exact hR fuel
  | some a =>
      have hempty : c.timers.empty = false := by
        simp [intrusive_heap.empty, hhead]
      have hL : c.update_timers fuel now = c1.update_timers 0 now := by
        cases hhead1 : c1.timers.head with
        | none =>
            have hempty1 : c1.timers.empty = true := by
              simp [intrusive_heap.empty, hhead1]
            simp only [update_timers, hempty, hempty1, Bool.not_false, if_true, hpop,
              Bool.not_true, Bool.false_eq_true, if_false]
            rfl
        | some b =>
            have hempty1 : c1.timers.empty = false := by
              simp [intrusive_heap.empty, hhead1]
            simp only [update_timers, hempty, hempty1, Bool.not_false, if_true, hpop,
              pop_due_timers_not_due now 0 c1 b hhead1 (hsettled b hhead1)]
      exact hL

end io_uring_context

namespace io_uring_context

open intrusive_queue intrusive_heap

theorem timer_frame_ring (c1 c : io_uring_context) (h : timer_frame c1 c = c) :
    c1.sq_tail = c.sq_tail ∧ c1.sq_head = c.sq_head ∧ c1.sq_entry_count = c.sq_entry_count ∧
    c1.current_duetime = c.current_duetime ∧ c1.active_timer_count = c.active_timer_count ∧
    c1.timers_are_dirty = c.timers_are_dirty ∧ c1.received = c.received ∧
    c1.executed = c.executed := by
  have h1 := congrArg io_uring_context.sq_tail h
  have h2 := congrArg io_uring_context.sq_head h
  have h3 := congrArg io_uring_context.sq_entry_count h
  have h4 := congrArg io_uring_context.current_duetime h
  have h5 := congrArg io_uring_context.active_timer_count h
  have h6 := congrArg io_uring_context.timers_are_dirty h
  have h7 := congrArg io_uring_context.received h
  have h8 := congrArg io_uring_context.executed h
  exact ⟨h1, h2, h3, h4, h5, h6, h7, h8⟩

theorem head_of_well_formed (m : timer_fields) (h : intrusive_heap) (l : List Nat) (a : Nat)
    (hw : well_formed m h l) (hhead : h.head = some a) : l.head? = some a := by
  cases l with
  | nil =>
      have : h.head = none := hw.1
      rw [this] at hhead
      exact absurd hhead (by simp)
  | cons b r =>
      have : h.head = some b := hw.1.1
      rw [this] at hhead
      exact hhead

/-- The whole of `update_timers()` on a well-formed heap and local queue with the submission
ring within its bounds: the first loop as `pop_due_timers_spec` describes it, and then the second
half on the context that the loop left. -/
theorem update_timers_spec (fuel : Nat) (now : time_point) (c : io_uring_context)
    (l q : List Nat) (hw : well_formed c.timer c.timers l) (hq : holds c.next c.local_queue q)
    (hdisj : ∀ t ∈ l, t ∉ q) (hfuel : (l.filter (c.is_due now)).length ≤ fuel)
    (hring : sub32 c.sq_tail c.sq_head ≤ c.sq_entry_count) :
    ∃ c0 c1, pop_due_timers now fuel c = .ok c0 ∧ c.update_timers fuel now = .ok c1 ∧
      c0.update_timers 0 now = .ok c1 ∧ same_timers c1 c0 ∧ timer_frame c0 c = c ∧
      well_formed c0.timer c0.timers (l.filter (fun t => !c.is_due now t)) ∧
      c0.timer.duetime = c.timer.duetime ∧ c0.cancelable = c.cancelable ∧
      holds c0.next c0.local_queue
        (q ++ (l.filter (c.is_due now)).filter (fun t => !c.is_discarded t)) ∧
      (∀ t, c0.state t =
        if t ∈ l ∧ c.is_due now t = true ∧ c.cancelable t = true then
          add32 (c.state t) timer_elapsed_flag
        else c.state t) ∧
      (∀ a, c0.timers.head = some a → (c0.timer.duetime a).le now = false) ∧
      sub32 c0.sq_tail c0.sq_head ≤ c0.sq_entry_count := by
  obtain ⟨c0, e, w, d, k, hq0, hs, hf⟩ := pop_due_timers_spec now l c q fuel hw hq hdisj hfuel
  obtain ⟨r1, r2, r3, -⟩ := timer_frame_ring c0 c hf
  have hsettled : ∀ a, c0.timers.head = some a → (c0.timer.duetime a).le now = false := by
    intro a ha
    have hmem : a ∈ l.filter (fun t => !c.is_due now t) :=
      List.mem_of_mem_head? (head_of_well_formed _ _ _ a w ha)
    have h2 := (List.mem_filter.1 hmem).2
    rw [d]
    simpa [is_due] using h2
  have hring0 : sub32 c0.sq_tail c0.sq_head ≤ c0.sq_entry_count := by
    rw [r1, r2, r3]
    exact hring
  obtain ⟨c1, e1, st, -⟩ := update_timers_settled 0 now c0 hsettled hring0
  have hsplit := update_timers_split fuel now c c0 e hsettled
  exact ⟨c0, c1, e, hsplit.trans e1, e1, st, hf, w, d, k, hq0, hs, hsettled, hring0⟩

end io_uring_context

namespace io_uring_context

open intrusive_queue intrusive_heap

/-- C21: `update_timers()` at the time `now`, on a heap with the well-formed list `l`, a local
queue that holds `q`, and the submission ring within its bounds, returns (the first loop within
as many rounds as there are due timers).  Afterwards the heap holds exactly the timers of `l`
whose deadline is not `<= now`, in their order; the local queue holds `q` followed by the timers
of `l` with deadline `<= now`, in heap order, which is the order of their deadlines, except the
cancelable ones whose prior state had `cancel_pending_flag`, which are in no queue; every due
cancelable timer has `timer_elapsed_flag` added to its state word and no other state word
changes; so every timer that the call queues for delivery has a deadline `<= now`, and the call
itself delivers nothing. -/
theorem update_timers_pops_exactly_the_due_timers (fuel : Nat) (now : time_point)
    (c : io_uring_context) (l q : List Nat)
    (hw : well_formed c.timer c.timers l) (hq : holds c.next c.local_queue q)
    (hdisj : ∀ t ∈ l, t ∉ q) (hfuel : (l.filter (c.is_due now)).length ≤ fuel)
    (hring : sub32 c.sq_tail c.sq_head ≤ c.sq_entry_count) :
    ∃ c1, c.update_timers fuel now = .ok c1 ∧
      well_formed c1.timer c1.timers (l.filter (fun t => !c.is_due now t)) ∧
      (∀ t ∈ l, t ∈ l.filter (fun t => !c.is_due now t) ↔
        (c.timer.duetime t).le now = false) ∧
      c1.timer.duetime = c.timer.duetime ∧
      holds c1.next c1.local_queue
        (q ++ (l.filter (c.is_due now)).filter (fun t => !c.is_discarded t)) ∧
      (∀ t ∈ l, t ∈ (l.filter (c.is_due now)).filter (fun t => !c.is_discarded t) ↔
        ((c.timer.duetime t).le now = true ∧
          ¬ (c.cancelable t = true ∧ c.state t &&& cancel_pending_flag ≠ 0))) ∧
      ((l.filter (c.is_due now)).filter (fun t => !c.is_discarded t)).Pairwise
        (fun a b => (c.timer.duetime a).le (c.timer.duetime b) = true) ∧
      (∀ t, c1.state t =
        if t ∈ l ∧ c.is_due now t = true ∧ c.cancelable t = true then
          add32 (c.state t) timer_elapsed_flag
        else c.state t) ∧
      c1.received = c.received ∧ c1.executed = c.executed := by
  obtain ⟨c0, c1, -, e1, -, st, hf, w, d, -, hq0, hs, -, -⟩ :=
    update_timers_spec fuel now c l q hw hq hdisj hfuel hring
  obtain ⟨t1, t2, t3, t4, t5, -, t7, t8⟩ := st
  obtain ⟨-, -, -, -, -, -, r7, r8⟩ := timer_frame_ring c0 c hf
  refine ⟨c1, e1, ?_, ?_, ?_, ?_, ?_, ?_, ?_, t7.trans r7, t8.trans r8⟩
  · rw [t1, t2]
    exact w
  · intro t ht
    rw [List.mem_filter]
    simp only [is_due, Bool.not_eq_true', ht, true_and]
  · rw [t1]
    exact d
  · rw [t4, t5]
    exact hq0
  · intro t ht
    rw [List.mem_filter, List.mem_filter]
    simp only [is_due, is_discarded, ht, true_and, Bool.not_eq_true', Bool.and_eq_false_iff,
      bne_iff_ne, ne_eq, not_and, Bool.not_eq_true, bne_eq_false_iff_eq, not_not]
    constructor
    · rintro ⟨h1, h2⟩
      refine ⟨h1, ?_⟩
      intro hc
      rcases h2 with h2 | h2
      · rw [hc] at h2
        exact absurd h2 (by decide)
      · exact h2
    · rintro ⟨h1, h2⟩
      refine ⟨h1, ?_⟩
      cases hc : c.cancelable t with
      | false => exact Or.inl rfl
      | true => exact Or.inr (h2 hc)
  · exact List.Pairwise.sublist (List.filter_sublist _)
      (List.Pairwise.sublist (List.filter_sublist _) hw.2.2.2)
  · intro t
    rw [t3]
    exact hs t

end io_uring_context
namespace io_uring_context

open intrusive_queue intrusive_heap

/-- At 4 s on `due_context`: timers 2 and 3 are popped and timer 1 stays in the heap; timer 3 is
queued for delivery and timer 2, whose cancellation was pending, is not; both state words get
`timer_elapsed_flag`. -/
theorem update_timers_pops_exactly_the_due_timers_witness :
    well_formed due_context.timer due_context.timers [2, 3, 1] ∧
    holds due_context.next due_context.local_queue [] ∧
    sub32 due_context.sq_tail due_context.sq_head ≤ due_context.sq_entry_count ∧
    ∃ c1, due_context.update_timers 2 { seconds_ := 4 } = .ok c1 ∧
      well_formed c1.timer c1.timers [1] ∧ holds c1.next c1.local_queue [3] ∧
      c1.state 2 = 3 ∧ c1.state 3 = 1 ∧ c1.state 1 = 0 ∧ c1.received = [] := by
  have hw : well_formed due_context.timer due_context.timers [2, 3, 1] := linked_heap_well_formed
  have hq : holds due_context.next due_context.local_queue [] := ⟨rfl, rfl, List.nodup_nil⟩
  have hring : sub32 due_context.sq_tail due_context.sq_head ≤ due_context.sq_entry_count := by
    with_unfolding_all decide
  have e1 : [2, 3, 1].filter (fun t => !due_context.is_due { seconds_ := 4 } t) = [1] := by
    decide
  have e2 : ([2, 3, 1].filter (due_context.is_due { seconds_ := 4 })).filter
      (fun t => !due_context.is_discarded t) = [3] := by decide
  obtain ⟨c1, e, w, -, -, hq1, -, -, hs, hr, -⟩ :=
    update_timers_pops_exactly_the_due_timers 2 { seconds_ := 4 } due_context [2, 3, 1] [] hw hq
      (fun t _ h => absurd h (List.not_mem_nil t)) (by decide) hring
  rw [e1] at w
  rw [e2] at hq1
  refine ⟨hw, hq, hring, c1, e, w, hq1, ?_, ?_, ?_, hr⟩
  · rw [hs 2, if_pos (by decide)]
    with_unfolding_all rfl
  · rw [hs 3, if_pos (by decide)]
    with_unfolding_all rfl
  · rw [hs 1, if_neg (by decide)]
    rfl

end io_uring_context

namespace io_uring_context

open intrusive_queue intrusive_heap

/-- C22 (the code departs from the claim): when every timer of the heap is due at `now` (or the
heap is empty) and no deadline is armed, `update_timers` pops the timers, needs no submission and
attempts none (the tail of the submission ring and `active_timer_count` are as before), and
returns with an empty heap; a `timers_are_dirty` that was true, as the completion of the fired
timeout or `insert_timer` leaves it, is still true on return. -/
theorem update_timers_leaves_dirty_when_idle (fuel : Nat) (now : time_point)
    (c : io_uring_context) (l q : List Nat)
    (hw : well_formed c.timer c.timers l) (hq : holds c.next c.local_queue q)
    (hdisj : ∀ t ∈ l, t ∉ q) (hfuel : l.length ≤ fuel)
    (hring : sub32 c.sq_tail c.sq_head ≤ c.sq_entry_count)
    (hall : ∀ t ∈ l, c.is_due now t = true) (hcur : c.current_duetime = none)
    (hd : c.timers_are_dirty = true) :
    ∃ c1, c.update_timers fuel now = .ok c1 ∧ c1.timers_are_dirty = true ∧
      c1.timers.head = none ∧ c1.current_duetime = none ∧
      c1.sq_tail = c.sq_tail ∧ c1.sq_unflushed_count = c.sq_unflushed_count ∧
      c1.active_timer_count = c.active_timer_count := by
  have hf1 : l.filter (c.is_due now) = l := List.filter_eq_self.2 hall
  have hf2 : l.filter (fun t => !c.is_due now t) = [] := by
    rw [List.filter_eq_nil_iff]
    intro t ht
    rw [hall t ht]
    decide
  obtain ⟨c0, c1, -, e1, e0, -, hf, w, -⟩ :=
    update_timers_spec fuel now c l q hw hq hdisj (by rw [hf1]; exact hfuel) hring
  rw [hf2] at w
  have hhead0 : c0.timers.head = none := w.1
  obtain ⟨r1, -, -, r4, r5, r6, -, -⟩ := timer_frame_ring c0 c hf
  have hu0 := congrArg io_uring_context.sq_unflushed_count hf
  have hu : c0.sq_unflushed_count = c.sq_unflushed_count := hu0
  have hcur0 : c0.current_duetime = none := r4.trans hcur
  rw [timer_impl.update_timers_of_empty 0 now c0 hhead0 hcur0] at e0
  have hc : c0 = c1 := Except.ok.inj e0
  subst hc
  exact ⟨c0, e1, r6.trans hd, hhead0, hcur0, r1, hu, r5⟩

theorem update_timers_leaves_dirty_when_idle_witness :
    fired_context.update_timers 0 { seconds_ := 7 } = .ok fired_context ∧
    fired_context.timers_are_dirty = true ∧
    steady_timer.started_context.update_timers 4 { seconds_ := 4 } =
        .ok steady_timer.elapsed_context ∧
    steady_timer.elapsed_context.timers_are_dirty = true ∧
    ∃ c1, steady_timer.started_context.update_timers 4 { seconds_ := 4 } = .ok c1 ∧
      c1.timers_are_dirty = true ∧ c1.timers.head = none ∧ c1.current_duetime = none ∧
      c1.sq_tail = steady_timer.started_context.sq_tail ∧
      c1.sq_unflushed_count = steady_timer.started_context.sq_unflushed_count ∧
      c1.active_timer_count = steady_timer.started_context.active_timer_count :=
  ⟨rfl, rfl, by with_unfolding_all rfl, rfl,
    update_timers_leaves_dirty_when_idle 4 { seconds_ := 4 } steady_timer.started_context [1] []
      ⟨⟨rfl, rfl⟩, ⟨rfl, trivial⟩, by decide, by decide⟩ ⟨rfl, rfl, List.nodup_nil⟩
      (fun t _ h => absurd h (List.not_mem_nil t)) (by decide) (by with_unfolding_all decide)
      (by decide) rfl rfl⟩

end io_uring_context

namespace io_uring_context

open intrusive_queue intrusive_heap

theorem pop_of_head (m : timer_fields) (h : intrusive_heap) (a : Nat) (hhead : h.head = some a) :
    ∃ m1 h1, h.pop m = .ok (m1, h1, a) := by
  cases hn : m.next a with
  | none => exact ⟨m, { head := none }, by simp only [intrusive_heap.pop, hhead, hn]⟩
  | some n =>
      exact ⟨{ m with prev := Function.update m.prev n none }, { head := some n },
        by simp only [intrusive_heap.pop, hhead, hn]⟩

/-- Whatever the heap looks like, a first loop of `update_timers()` that returns has written
only the timers, the state words and the local queue, and leaves no due timer at the head. -/
theorem pop_due_timers_frame (now : time_point) :
    ∀ (fuel : Nat) (c c0 : io_uring_context), pop_due_timers now fuel c = .ok c0 →
      timer_frame c0 c = c ∧
      ∀ a, c0.timers.head = some a → (c0.timer.duetime a).le now = false := by
  have hbase : ∀ (fuel : Nat) (c c0 : io_uring_context),
      (c.timers.head = none ∨ ∃ a, c.timers.head = some a ∧ (c.timer.duetime a).le now = false) →
      pop_due_timers now fuel c = .ok c0 →
      timer_frame c0 c = c ∧
      ∀ a, c0.timers.head = some a → (c0.timer.duetime a).le now = false := by
    intro fuel c c0 hc h
    rcases hc with hhead | ⟨a, hhead, hdue⟩
    · rw [timer_impl.pop_due_timers_of_empty now fuel c hhead] at h
      have e : c = c0 := Except.ok.inj h
      subst e
      refine ⟨rfl, ?_⟩
      intro a ha
      rw [hhead] at ha
      exact absurd ha (by simp)
    · rw [pop_due_timers_not_due now fuel c a hhead hdue] at h
      have e : c = c0 := Except.ok.inj h
      subst e
      refine ⟨rfl, ?_⟩
      intro b hb
      rw [hhead] at hb
      rw [← Option.some.inj hb]
      exact hdue
  intro fuel
  induction fuel with
  | zero =>
      intro c c0 h
      cases hhead : c.timers.head with
      | none => exact hbase 0 c c0 (Or.inl hhead) h
      | some a =>
          cases hdue : (c.timer.duetime a).le now with
          | false => exact hbase 0 c c0 (Or.inr ⟨a, hhead, hdue⟩) h
          | true =>
              rw [pop_due_timers] at h
              simp only [hhead, hdue, if_true] at h
              exact absurd h (by simp)
  | succ f ih =>
      intro c c0 h
      cases hhead : c.timers.head with
      | none => exact hbase (f + 1) c c0 (Or.inl hhead) h
      | some a =>
          cases hdue : (c.timer.duetime a).le now with
          | false => exact hbase (f + 1) c c0 (Or.inr ⟨a, hhead, hdue⟩) h
          | true =>
              obtain ⟨m1, h1, hpop⟩ := pop_of_head c.timer c.timers a hhead
              rw [pop_due_timers_round now f c a m1 h1 hhead hdue hpop] at h
              obtain ⟨g1, g2⟩ := ih _ c0 h
              refine ⟨timer_frame_trans c0 _ c g1 ?_, g2⟩
              split_ifs <;> rfl

theorem update_timers_pop_error (fuel : Nat) (now : time_point) (c : io_uring_context)
    (x : Fault) (hpop : pop_due_timers now fuel c = .error x) :
    c.update_timers fuel now = .error x := by
  cases hhead : c.timers.head with
  | none =>
      rw [timer_impl.pop_due_timers_of_empty now fuel c hhead] at hpop
      exact absurd hpop (by simp)
  | some a =>
      have hempty : c.timers.empty = false := by
        simp [intrusive_heap.empty, hhead]
      simp only [update_timers, hempty, Bool.not_false, if_true, hpop]
      rfl

end io_uring_context

namespace io_uring_context

open intrusive_queue intrusive_heap

theorem sub32_add32_one_self (t : Nat) : sub32 (add32 t 1) t = 1 := by
  unfold sub32 add32 two32
  split_ifs <;> omega

theorem sub32_add32_two_self (t : Nat) : sub32 (add32 (add32 t 1) 1) t = 2 := by
  unfold sub32 add32 two32
  split_ifs <;> omega

theorem add32_one_le (k : Nat) : add32 k 1 ≤ k + 1 := by
  unfold add32 two32
  omega

theorem sub32_one_le (k : Nat) (hk : 0 < k) : sub32 k 1 ≤ k - 1 := by
  unfold sub32 two32
  split_ifs <;> omega

/-- A call of `update_timers()` that returns on a context whose submission ring is within its
bounds: the ring stays within its bounds; `active_timer_count` is unchanged, with the armed
deadline kept and no removal submitted or with the deadline disarmed by one removal; or it is
raised by the one `TIMEOUT` submitted, with a deadline armed afterwards, and this without a
removal when no deadline was armed before and with one removal otherwise. -/
theorem update_timers_classify (fuel : Nat) (now : time_point) (c c1 : io_uring_context)
    (hring : sq_within_bounds c) (e : c.update_timers fuel now = .ok c1) :
    sq_within_bounds c1 ∧
    ((c1.active_timer_count = c.active_timer_count ∧
        ((c1.current_duetime = c.current_duetime ∧ removals_submitted c c1 = 0) ∨
          (c1.current_duetime = none ∧ c.current_duetime ≠ none ∧
            removals_submitted c c1 = 1))) ∨
      (c1.active_timer_count = add32 c.active_timer_count 1 ∧ c1.current_duetime ≠ none ∧
        ((c.current_duetime = none ∧ removals_submitted c c1 = 0) ∨
          (c.current_duetime ≠ none ∧ removals_submitted c c1 = 1)))) := by
  cases hpop : pop_due_timers now fuel c with
  | error x =>
      rw [update_timers_pop_error fuel now c x hpop] at e
      exact absurd e (by simp)
  | ok c0 =>
      obtain ⟨hf, hsettled⟩ := pop_due_timers_frame now fuel c c0 hpop
      obtain ⟨r1, r2, r3, r4, r5, -⟩ := timer_frame_ring c0 c hf
      have hring0 : sub32 c0.sq_tail c0.sq_head ≤ c0.sq_entry_count := by
        rw [r1, r2, r3]
        exact hring
      obtain ⟨c2, e1, -, hr1, hcls⟩ := update_timers_settled 0 now c0 hsettled hring0
      have e2 := (update_timers_split fuel now c c0 hpop hsettled).trans e1
      rw [e] at e2
      have hc : c1 = c2 := Except.ok.inj e2
      subst hc
      refine ⟨hr1, ?_⟩
      rw [r4, r5, r1] at hcls
      unfold removals_submitted
      rcases hcls with ⟨k1, ⟨k2, k3⟩ | ⟨k2, k3, k4⟩⟩ | ⟨k1, -, top, -, k4, ⟨k5, k6⟩ | ⟨cur, k5, -, k6⟩⟩
      · refine Or.inl ⟨k1, Or.inl ⟨k2, ?_⟩⟩
        rw [k1, k3, sub32_self, sub32_self]
      · refine Or.inl ⟨k1, Or.inr ⟨k2, k3, ?_⟩⟩
        rw [k1, k4, sub32_self, sub32_add32_one_self]
      · refine Or.inr ⟨k1, ?_, Or.inl ⟨k5, ?_⟩⟩
        · rw [k4]
          exact Option.some_ne_none _
        · rw [k1, k6, sub32_add32_one_self, sub32_add32_one_self]
      · refine Or.inr ⟨k1, ?_, Or.inr ⟨?_, ?_⟩⟩
        · rw [k4]
          exact Option.some_ne_none _
        · rw [k5]
          exact Option.some_ne_none _
        · rw [k1, k6, sub32_add32_one_self, sub32_add32_two_self]

/-- A round of `acquire_completion_queue_items()` that reaps a completion of the timer sentinel
and returns: `active_timer_count` was positive and is one less, the armed deadline is reset
when the count reaches zero, and the submission ring is as before. -/
theorem acquire_completion_of_timer (bytes_read : Nat → Int) (head i : Nat)
    (c c1 : io_uring_context) (q q1 : intrusive_queue)
    (hu : (c.cq_entries ((add32 head i) &&& c.cq_mask)).user_data = address.timers)
    (e : acquire_completion bytes_read head (c, q) i = .ok (c1, q1)) :
    0 < c.active_timer_count ∧ c1.active_timer_count = sub32 c.active_timer_count 1 ∧
    c1.current_duetime =
      (if sub32 c.active_timer_count 1 = 0 then none else c.current_duetime) ∧
    c1.sq_tail = c.sq_tail ∧ c1.sq_head = c.sq_head ∧ c1.sq_entry_count = c.sq_entry_count := by
  have h1 : ¬ ((c.cq_entries ((add32 head i) &&& c.cq_mask)).user_data =
      remote_queue_event_user_data) := by
    rw [hu]
    decide
  by_cases hc : c.active_timer_count > 0
  · have ha : assert (decide (c.active_timer_count > 0)) = .ok () := by
      simp only [assert, hc, decide_True, if_true]
    simp only [acquire_completion, if_neg h1, if_pos hu, ha, bind, Except.bind, pure,
      Except.pure] at e
    have e1 := (Prod.mk.inj (Except.ok.inj e)).1
    rw [← e1]
    exact ⟨hc, rfl, rfl, rfl, rfl, rfl⟩
  · have ha : assert (decide (c.active_timer_count > 0)) = .error Fault.assertion := by
      simp only [assert, hc, decide_False, Bool.false_eq_true, if_false]
    simp only [acquire_completion, if_neg h1, if_pos hu, ha, bind, Except.bind] at e
    exact absurd e (by simp)

theorem timeout_invariant_step (s s1 : io_uring_context × Nat) (hstep : timeout_step s s1)
    (h : timeout_invariant s) : timeout_invariant s1 := by
  cases hstep with
  | update_timers fuel now c c1 n e =>
      obtain ⟨hb, hA, hB⟩ := h
      simp only at hb hA hB
      obtain ⟨hb1, hcls⟩ := update_timers_classify fuel now c c1 hb e
      refine ⟨hb1, ?_, ?_⟩
      · show c1.active_timer_count ≤ 1 + (n + removals_submitted c c1)
        rcases hcls with ⟨k1, ⟨-, k3⟩ | ⟨-, -, k3⟩⟩ | ⟨k1, -, ⟨k5, k6⟩ | ⟨-, k6⟩⟩
        · rw [k1, k3]
          omega
        · rw [k1, k3]
          omega
        · have := add32_one_le c.active_timer_count
          have := hB k5
          rw [k1, k6]
          omega
        · have := add32_one_le c.active_timer_count
          rw [k1, k6]
          omega
      · show c1.current_duetime = none → c1.active_timer_count ≤ n + removals_submitted c c1
        intro hnone
        rcases hcls with ⟨k1, ⟨k2, k3⟩ | ⟨-, -, k3⟩⟩ | ⟨-, k2, -⟩
        · have := hB (k2 ▸ hnone)
          rw [k1, k3]
          omega
        · rw [k1, k3]
          omega
        · exact absurd hnone k2
  | reap bytes_read head i c c1 q q1 n hu e =>
      obtain ⟨hb, hA, hB⟩ := h
      simp only at hb hA hB
      obtain ⟨g0, g1, g2, g3, g4, g5⟩ := acquire_completion_of_timer bytes_read head i c c1 q q1 hu e
      have hle := sub32_one_le c.active_timer_count g0
      refine ⟨?_, ?_, ?_⟩
      · show sub32 c1.sq_tail c1.sq_head ≤ c1.sq_entry_count
        rw [g3, g4, g5]
        exact hb
      · show c1.active_timer_count ≤ 1 + (n - 1)
        rw [g1]
        omega
      · show c1.current_duetime = none → c1.active_timer_count ≤ n - 1
        intro hnone
        rw [g1]
        by_cases hz : sub32 c.active_timer_count 1 = 0
        · rw [hz]
          exact Nat.zero_le _
        · rw [g2, if_neg hz] at hnone
          have := hB hnone
          omega
  | other c c1 n h1 h2 h3 =>
      obtain ⟨-, hA, hB⟩ := h
      simp only at hA hB
      refine ⟨h3, ?_, ?_⟩
      · show c1.active_timer_count ≤ 1 + n
        rw [h1]
        exact hA
      · show c1.current_duetime = none → c1.active_timer_count ≤ n
        rw [h1, h2]
        exact hB

theorem timeout_invariant_of_reaches (s0 s : io_uring_context × Nat)
    (hreach : Relation.ReflTransGen timeout_step s0 s) (h : timeout_invariant s0) :
    timeout_invariant s := by
  induction hreach with
  | refl => exact h
  | tail _ hstep ih => exact timeout_invariant_step _ _ hstep ih

end io_uring_context

namespace io_uring_context

theorem rearm_step1 : two_timers_context.insert_timer 4 true 1 = .ok rearm_started := by
  with_unfolding_all rfl

theorem rearm_step2 : rearm_started.update_timers 4 {} = .ok rearm_armed := by
  with_unfolding_all rfl

theorem rearm_step3 : rearm_armed.insert_timer 4 true 2 = .ok rearm_restarted := by
  with_unfolding_all rfl

theorem rearm_step4 : rearm_restarted.update_timers 4 {} = .ok rearm_rearmed := by
  with_unfolding_all rfl

theorem rearm_run_eq : rearm_run = .ok rearm_rearmed := by
  simp only [rearm_run, rearm_step1, rearm_step2, rearm_step3, rearm_step4, bind, Except.bind]

end io_uring_context
namespace io_uring_context

theorem rearm_reaches : reaches two_timers_context (rearm_rearmed, 1) := by
  have b1 : sq_within_bounds rearm_started := by
    unfold sq_within_bounds
    with_unfolding_all decide
  have b3 : sq_within_bounds rearm_restarted := by
    unfold sq_within_bounds
    with_unfolding_all decide
  have s1 : timeout_step (two_timers_context, 0) (rearm_started, 0) :=
    timeout_step.other _ _ 0 rfl rfl b1
  have s2 : timeout_step (rearm_started, 0) (rearm_armed, 0) := by
    have h := timeout_step.update_timers 4 {} rearm_started rearm_armed 0 rearm_step2
    have e : removals_submitted rearm_started rearm_armed = 0 := by with_unfolding_all rfl
    rw [e] at h
    exact h
  have s3 : timeout_step (rearm_armed, 0) (rearm_restarted, 0) :=
    timeout_step.other _ _ 0 rfl rfl b3
  have s4 : timeout_step (rearm_restarted, 0) (rearm_rearmed, 1) := by
    have h := timeout_step.update_timers 4 {} rearm_restarted rearm_rearmed 0 rearm_step4
    have e : removals_submitted rearm_restarted rearm_rearmed = 1 := by with_unfolding_all rfl
    rw [e] at h
    exact h
  exact (((Relation.ReflTransGen.refl.tail s1).tail s2).tail s3).tail s4

/-- C23, the claim as stated fails: from a context without timers the loop starts timer 1 (due at
10 s) and `update_timers()` arms its deadline; then it starts timer 2 (due at 3 s) and
`update_timers()` submits a `TIMEOUT_REMOVE` and a second `TIMEOUT`; the completion of the first
`TIMEOUT` has not been reaped, and `active_timer_count` is 2. -/
theorem rearm_leaves_two_timeouts_in_flight :
    rearm_run = .ok rearm_rearmed ∧ rearm_rearmed.active_timer_count = 2 ∧
    ¬ rearm_rearmed.active_timer_count ≤ 1 ∧
    reaches two_timers_context (rearm_rearmed, 1) ∧
    (rearm_rearmed.sq_entries 0).opcode = IORING_OP_TIMEOUT ∧
    (rearm_rearmed.sq_entries 1).opcode = IORING_OP_TIMEOUT_REMOVE ∧
    (rearm_rearmed.sq_entries 2).opcode = IORING_OP_TIMEOUT ∧ rearm_rearmed.sq_tail = 3 :=
  ⟨rearm_run_eq, rfl, by decide, rearm_reaches, rfl, rfl, rfl, rfl⟩

/-- C23, amended: in every state that the loop reaches from a context with no `TIMEOUT` in
flight and the submission ring within its bounds, `active_timer_count` is at most 1 plus the
number `n` of `TIMEOUT_REMOVE` submissions that no reaped timer completion has followed yet,
and at most `n` while no deadline is armed; so it is at most 1 whenever no removal is
outstanding. -/
theorem active_timer_count_le_one_plus_removals (c0 c : io_uring_context) (n : Nat)
    (h0 : c0.active_timer_count = 0) (hring : sq_within_bounds c0)
    (hreach : reaches c0 (c, n)) :
    c.active_timer_count ≤ 1 + n ∧ (c.current_duetime = none → c.active_timer_count ≤ n) ∧
    (n = 0 → c.active_timer_count ≤ 1) := by
  have hinv : timeout_invariant (c0, 0) := by
    refine ⟨hring, ?_, ?_⟩
    · show c0.active_timer_count ≤ 1 + 0
      rw [h0]
      exact Nat.zero_le _
    · intro _
      show c0.active_timer_count ≤ 0
      rw [h0]
  obtain ⟨-, hA, hB⟩ := timeout_invariant_of_reaches (c0, 0) (c, n) hreach hinv
  refine ⟨hA, hB, ?_⟩
  intro hn
  subst hn
  exact hA

/-- After the re-arm of `rearm_run` one removal is outstanding and two timeouts are in flight:
the bound `1 + n` is attained. -/
theorem active_timer_count_le_one_plus_removals_witness :
    two_timers_context.active_timer_count = 0 ∧ sq_within_bounds two_timers_context ∧
    reaches two_timers_context (rearm_rearmed, 1) ∧ rearm_rearmed.active_timer_count = 1 + 1 ∧
    (rearm_rearmed.active_timer_count ≤ 1 + 1 ∧
      (rearm_rearmed.current_duetime = none → rearm_rearmed.active_timer_count ≤ 1) ∧
      (1 = 0 → rearm_rearmed.active_timer_count ≤ 1)) :=
  ⟨rfl, by unfold sq_within_bounds; with_unfolding_all decide, rearm_reaches, rfl,
    active_timer_count_le_one_plus_removals two_timers_context rearm_rearmed 1 rfl
      (by unfold sq_within_bounds; with_unfolding_all decide) rearm_reaches⟩

end io_uring_context

namespace steady_timer

open io_uring_context

/-- The loop drains the remote queue of `twice_cancelled_context`, on which the timer is linked
to itself, into a local queue on which it still is. -/
theorem acquire_twice_cancelled (f : Nat) :
    twice_cancelled_context.acquire_remote_queued_items (f + 2) =
      .ok { twice_cancelled_context with
            remote_queue_ := { head := head_value.null },
            next := Function.update (Function.update twice_cancelled_context.next 1 none) 1
              (some 1),
            local_queue := { head := some 1, tail := some 1 } } := by
  have h : twice_cancelled_context.next 1 = some 1 := by with_unfolding_all rfl
  have hloop : intrusive_queue.make_reversed_loop (f + 2) twice_cancelled_context.next none
      (some 1) =
      .ok (Function.update (Function.update twice_cancelled_context.next 1 none) 1 (some 1),
        some 1) := by
    simp only [intrusive_queue.make_reversed_loop, h, Function.update_same]
  have hh : twice_cancelled_context.remote_queue_.head = head_value.item 1 := by
    with_unfolding_all rfl
  have hd : twice_cancelled_context.remote_queue_.dequeue_all (f + 2)
      twice_cancelled_context.next =
      .ok (Function.update (Function.update twice_cancelled_context.next 1 none) 1 (some 1),
        { head := head_value.null }, { head := some 1, tail := some 1 }) := by
    simp only [atomic_intrusive_queue.dequeue_all, hh, intrusive_queue.make_reversed, hloop,
      bind, Except.bind, pure, Except.pure]
  have ha : assert (!twice_cancelled_context.remote_queue_read_submitted) = .ok () := by
    with_unfolding_all rfl
  simp only [acquire_remote_queued_items, ha, hd, bind, Except.bind]
  with_unfolding_all rfl

theorem execute_twice_cancelled (f : Nat) :
    execute_pending_local (timer_impl.execute (f + 2)) (f + 2)
      { twice_cancelled_context with
        remote_queue_ := { head := head_value.null },
        next := Function.update (Function.update twice_cancelled_context.next 1 none) 1
          (some 1),
        local_queue := { head := some 1, tail := some 1 } } = .error Fault.assertion := by
  with_unfolding_all rfl

theorem cancel_twice_in_heap_faults (f : Nat) :
    cancel_twice_in_heap (f + 2) = .error Fault.assertion := by
  have ta : cancel false { sample_timer with p := some 1 } started_context =
      .ok (timer_impl.request_stop_remote started_context 1) := by with_unfolding_all rfl
  have tb : cancel false { sample_timer with p := some 1 }
      (timer_impl.request_stop_remote started_context 1) = .ok twice_cancelled_context := by
    with_unfolding_all rfl
  simp only [cancel_twice_in_heap, ta, tb, acquire_twice_cancelled f, bind, Except.bind]
  exact execute_twice_cancelled f


/-- C25 (the code departs from the claim): `request_stop_remote()` adds `CANCEL_PENDING` with a
`fetch_add`, which is an OR only while the bit is clear.  With the timer at address 1 in the
heap, a first `cancel()` off the loop thread leaves the state word at 2; a second one finds
`CANCEL_PENDING` set and leaves the word at 4, where `CANCEL_PENDING` is clear and bit 2 has
changed, and it pushes the timer onto the remote queue a second time, which links the timer to
itself.  The loop then drains the remote queue and runs the local queue, and never returns from
it: the second call of `remove_timer` fails the `assert(!timers.empty())`.  After a single
`cancel()` the loop delivers `ECANCELED` once. -/
theorem second_cancel_clears_cancel_pending :
    cancel false { sample_timer with p := some 1 } started_context =
      .ok (timer_impl.request_stop_remote started_context 1) ∧
    (timer_impl.request_stop_remote started_context 1).state 1 = 2 ∧
    cancel false { sample_timer with p := some 1 }
      (timer_impl.request_stop_remote started_context 1) = .ok twice_cancelled_context ∧
    twice_cancelled_context.state 1 = 4 ∧
    twice_cancelled_context.state 1 &&& cancel_pending_flag = 0 ∧
    (twice_cancelled_context.state 1).testBit 2 ≠
      ((timer_impl.request_stop_remote started_context 1).state 1).testBit 2 ∧
    twice_cancelled_context.next 1 = some 1 ∧
    twice_cancelled_context.remote_queue_.head = head_value.item 1 ∧
    (∀ f, cancel_twice_in_heap (f + 2) = .error Fault.assertion) ∧
    (∀ fuel c, cancel_twice_in_heap fuel ≠ .ok c) ∧
    ∃ c, cancel_in_heap false = .ok c ∧ c.received = [(1, ECANCELED)] := by
  have e1 : (timer_impl.request_stop_remote started_context 1).state 1 = 2 := by
    with_unfolding_all rfl
  have e2 : twice_cancelled_context.state 1 = 4 := by with_unfolding_all rfl
  refine ⟨by with_unfolding_all rfl, e1, by with_unfolding_all rfl, e2, ?_, ?_,
    by with_unfolding_all rfl, by with_unfolding_all rfl, cancel_twice_in_heap_faults, ?_,
    ⟨_, by with_unfolding_all rfl, by with_unfolding_all rfl⟩⟩
  · rw [e2]
    decide
  · rw [e1, e2]
    decide
  · intro fuel c h
    rcases fuel with _ | _ | f
    · have h0 : cancel_twice_in_heap 0 = .error Fault.fuel := by with_unfolding_all rfl
      rw [h0] at h
      exact absurd h (by simp)
    · have h1 : cancel_twice_in_heap 1 = .error Fault.fuel := by with_unfolding_all rfl
      rw [h1] at h
      exact absurd h (by simp)
    · rw [cancel_twice_in_heap_faults f] at h
      exact absurd h (by simp)

end steady_timer

end unp
